import Mathlib

/-!
# Hierarchical page tables: a verification development for `VirtualMemory.cpp`

The file embeds the translation layer of `src/VirtualMemory.cpp` in Lean and proves
properties of it.  Machine integers are natural numbers; `uint64_t` arithmetic is reduced
modulo `2 ^ 64` and the `int`-typed literal shifts `1 << k` are reduced to 32 bits, so that
every theorem says for which constants the C++ expression has the intended value.
-/

namespace VM

/-! ## Constants -/

/-- Build-time constants.  `MemoryConstants.h` is not part of the sources at hand, so the four
constants the specification names as configuration are the fields of a record that every
function takes as its first argument. -/
structure Config where
  /-- Number of bits of a virtual address. -/
  VIRTUAL_ADDRESS_WIDTH : Nat
  /-- Number of bits of the offset inside a page. -/
  OFFSET_WIDTH : Nat
  /-- Depth of the tree of tables. -/
  TABLES_DEPTH : Nat
  /-- Number of frames of the physical memory. -/
  NUM_FRAMES : Nat

/-- Modelled from the spec: `PAGE_SIZE` of the absent `MemoryConstants.h`; the specification
gives it as `S = 2^O`. -/
def PAGE_SIZE (c : Config) : Nat := 2 ^ c.OFFSET_WIDTH

/-- Modelled from the spec: `NUM_PAGES` of the absent `MemoryConstants.h`; the specification
gives it as `2^(V-O)`. -/
def NUM_PAGES (c : Config) : Nat := 2 ^ (c.VIRTUAL_ADDRESS_WIDTH - c.OFFSET_WIDTH)

/-- The macro `ADDRESS_PART_SIZE`, line 9 of the source:
`CEIL((VIRTUAL_ADDRESS_WIDTH - OFFSET_WIDTH) / double(TABLES_DEPTH))`.  The macro `CEIL` is
declared in the absent header; the specification reads it as the ceiling of the quotient,
which for a positive depth is this integer expression. -/
def ADDRESS_PART_SIZE (c : Config) : Nat :=
  (c.VIRTUAL_ADDRESS_WIDTH - c.OFFSET_WIDTH + c.TABLES_DEPTH - 1) / c.TABLES_DEPTH

/-- Reduction of a natural number to the range of `uint64_t`. -/
def u64 (n : Nat) : Nat := n % 2 ^ 64

/-- Subtraction of `uint64_t` values, which wraps around below zero. -/
def u64_sub (x y : Nat) : Nat := (x % 2 ^ 64 + (2 ^ 64 - y % 2 ^ 64)) % 2 ^ 64

/-- Conversion of a 32-bit two's complement pattern to `uint64_t` (sign extension). -/
def int_to_u64 (r : Nat) : Nat := if r < 2 ^ 31 then r else r + (2 ^ 64 - 2 ^ 32)

/-- The expression `1 << k` on the `int` literal `1`, converted to `uint64_t`.  The shift is
computed on 32 bits: it equals `2 ^ k` for `k < 31` only. -/
def int_shl_one (k : Nat) : Nat := int_to_u64 (2 ^ k % 2 ^ 32)

/-- The expression `(1 << k) - 1` on `int`, converted to `uint64_t`. -/
def int_mask (k : Nat) : Nat := int_to_u64 ((2 ^ k % 2 ^ 32 + (2 ^ 32 - 1)) % 2 ^ 32)

/-- The constants for which every expression of the source is evaluated without overflow:
a positive depth (the part size divides by it), an offset no wider than the address, an
address width that the `int` shifts `1 << k` can hold, shifts of `uint64_t` values by less
than 64 bits, and a physical memory whose size in words is a `uint64_t`. -/
structure Config.WF (c : Config) : Prop where
  /-- The tree has at least one level. -/
  depth_pos : 1 ≤ c.TABLES_DEPTH
  /-- The offset is part of the address. -/
  offset_le : c.OFFSET_WIDTH ≤ c.VIRTUAL_ADDRESS_WIDTH
  /-- The shift `1 << VIRTUAL_ADDRESS_WIDTH` fits an `int`. -/
  width_lt : c.VIRTUAL_ADDRESS_WIDTH < 31
  /-- The largest shift of `get_address_part` is a shift of a `uint64_t`. -/
  shift_lt : c.OFFSET_WIDTH + ADDRESS_PART_SIZE c * (c.TABLES_DEPTH - 1) < 64
  /-- Physical addresses fit a `uint64_t`. -/
  ram_fits : c.NUM_FRAMES * PAGE_SIZE c < 2 ^ 64

/-! ## The physical memory -/

/-- A call of one of the three state-changing primitives of the physical memory. -/
inductive PMcall where
  | write (addr value : Nat)
  | evict (frame page : Nat)
  | restore (frame page : Nat)
  deriving DecidableEq, Repr

/-- Modelled from the spec: the physical memory of the absent `PhysicalMemory.cpp`.  `ram` maps
a physical address to the word stored there (words are unsigned and no wider than
`uint64_t`, so converting a word to `uint64_t` keeps its value), `swap` is the backing store,
a map from page numbers to saved page contents, and `calls` records the calls of `PMwrite`,
`PMevict` and `PMrestore` in the order in which they were made. -/
structure PM where
  /-- The words of the physical memory. -/
  ram : Nat → Nat
  /-- The backing store. -/
  swap : Nat → Option (List Nat)
  /-- The state-changing calls made so far. -/
  calls : List PMcall

/-- Modelled from the spec: `PMread` returns the word stored at a physical address. -/
def PMread (ram : Nat → Nat) (addr : Nat) : Nat := ram addr

/-- Modelled from the spec: `PMwrite` stores a word at a physical address. -/
def PMwrite (pm : PM) (addr value : Nat) : PM :=
  ⟨fun a => if a = addr then value else pm.ram a, pm.swap, pm.calls ++ [PMcall.write addr value]⟩

/-- Modelled from the spec: `PMevict` saves the words of a frame under a page number. -/
def PMevict (c : Config) (pm : PM) (frame page : Nat) : PM :=
  ⟨pm.ram,
   fun q => if q = page then
       some ((List.range (PAGE_SIZE c)).map (fun i => pm.ram (frame * PAGE_SIZE c + i)))
     else pm.swap q,
   pm.calls ++ [PMcall.evict frame page]⟩

/-- Modelled from the spec: `PMrestore` copies the saved words of a page into a frame and leaves
the frame as it is when the page was never saved. -/
def PMrestore (c : Config) (pm : PM) (frame page : Nat) : PM :=
  match pm.swap page with
  | none => ⟨pm.ram, pm.swap, pm.calls ++ [PMcall.restore frame page]⟩
  | some ws =>
    ⟨fun a => if frame * PAGE_SIZE c ≤ a ∧ a < frame * PAGE_SIZE c + PAGE_SIZE c then
        ws.getD (a - frame * PAGE_SIZE c) 0 else pm.ram a,
     pm.swap, pm.calls ++ [PMcall.restore frame page]⟩

/-! ## The address codec -/

/-- The function `get_address_part`, lines 35-39. -/
def get_address_part (c : Config) (index : Nat) (virtual_address : Nat) : Nat :=
  let shifts := c.OFFSET_WIDTH + ADDRESS_PART_SIZE c * (c.TABLES_DEPTH - index - 1)
  let mask := int_mask (ADDRESS_PART_SIZE c)
  (virtual_address >>> shifts) &&& mask

/-- The function `get_offset`, lines 46-49. -/
def get_offset (c : Config) (virtual_address : Nat) : Nat :=
  let mask := int_mask c.OFFSET_WIDTH
  virtual_address &&& mask

/-- The function `validate_virtual_address`, lines 267-273. -/
def validate_virtual_address (c : Config) (virtual_address : Nat) : Nat :=
  let virtual_address_space_size := int_shl_one c.VIRTUAL_ADDRESS_WIDTH
  if virtual_address < virtual_address_space_size then 1 else 0

/-- The parts of a virtual address in the order in which the walker uses them, the most
significant first: `get_address_part 0`, ..., `get_address_part (TABLES_DEPTH - 1)`. -/
def address_parts (c : Config) (virtual_address : Nat) : List Nat :=
  (List.range c.TABLES_DEPTH).map (fun i => get_address_part c i virtual_address)

/-- The page number that `choose_frame_3` accumulates along a chain of entry indices, by
`new_p = (p << ADDRESS_PART_SIZE) + i` (line 196), starting from `p`. -/
def page_from (c : Config) (p : Nat) (parts : List Nat) : Nat :=
  parts.foldl (fun q i => u64 ((q <<< ADDRESS_PART_SIZE c) + i)) p

/-! ## The frame allocator -/

/-- The loop of `verify`, lines 62-73, over the levels still to visit. -/
def verify_loop (c : Config) (ram : Nat → Nat) (virtual_address frame : Nat) :
    List Nat → Nat → Nat
  | [], _ => 1
  | i :: rest, last_address =>
    let current_address_part := get_address_part c i virtual_address
    let addr := PMread ram (u64 (last_address * PAGE_SIZE c + current_address_part))
    if addr = frame then 0
    else if addr = 0 then 1
    else verify_loop c ram virtual_address frame rest addr

/-- The function `verify`, lines 57-75. -/
def verify (c : Config) (ram : Nat → Nat) (virtual_address frame : Nat) : Nat :=
  if frame = 0 then 0
  else verify_loop c ram virtual_address frame (List.range c.TABLES_DEPTH) 0

/-- The function `fill_zeroes`, lines 82-87. -/
def fill_zeroes (c : Config) (pm : PM) (address : Nat) : PM :=
  let physical_address := u64 (address * PAGE_SIZE c)
  (List.range (PAGE_SIZE c)).foldl (fun m i => PMwrite m (u64 (physical_address + i)) 0) pm

/-- The function `distance_to_page_swapped_in`, lines 96-102. -/
def distance_to_page_swapped_in (c : Config) (original_virtual_address p : Nat) : Nat :=
  let page_swapped_in := original_virtual_address >>> c.OFFSET_WIDTH
  let abs_val := if page_swapped_in > p then page_swapped_in - p else p - page_swapped_in
  let a := u64_sub (NUM_PAGES c) abs_val
  let b := abs_val
  if a > b then b else a

/-- The result type `ZerosFrame`, lines 14-17. -/
structure ZerosFrame where
  /-- Non-zero when an empty table was found. -/
  is_found : Nat
  /-- Physical address of the entry that refers to the table found. -/
  parent : Nat
  deriving DecidableEq, Repr

/-- The result type `MaxDistanceFrame`, lines 22-27. -/
structure MaxDistanceFrame where
  /-- Page number of the leaf. -/
  page_num : Nat
  /-- Frame of the leaf. -/
  frame : Nat
  /-- Physical address of the entry that refers to the leaf. -/
  parent : Nat
  /-- Cyclic distance of the page to the page swapped in. -/
  distance : Nat
  deriving DecidableEq, Repr

/-- The loop of `choose_frame_1`, lines 114-129.  `recurse` stands for the recursive call at
the next level; the result is the frame returned from inside the loop, if any, and the final
value of `zeroes_frame`. -/
def choose_frame_1_loop (c : Config) (ram : Nat → Nat) (recurse : Nat → Nat → ZerosFrame)
    (current_vertex current_level : Nat) : List Nat → Nat → Option ZerosFrame × Nat
  | [], zeroes_frame => (none, zeroes_frame)
  | i :: rest, zeroes_frame =>
    let current_address := u64 (current_vertex * PAGE_SIZE c + i)
    let next_address := PMread ram current_address
    if next_address ≠ 0 then
      if current_level + 1 < c.TABLES_DEPTH then
        let returned_frame := recurse next_address current_address
        if returned_frame.is_found ≠ 0 then (some returned_frame, 0)
        else choose_frame_1_loop c ram recurse current_vertex current_level rest 0
      else choose_frame_1_loop c ram recurse current_vertex current_level rest 0
    else choose_frame_1_loop c ram recurse current_vertex current_level rest zeroes_frame

/-- The body of `choose_frame_1`, lines 112-143, with the recursive call as a parameter. -/
def choose_frame_1_body (c : Config) (ram : Nat → Nat) (virtual_address : Nat)
    (recurse : Nat → Nat → ZerosFrame) (current_vertex parent current_level : Nat) :
    ZerosFrame :=
  match choose_frame_1_loop c ram recurse current_vertex current_level
      (List.range (PAGE_SIZE c)) 1 with
  | (some returned_frame, _) => returned_frame
  | (none, zeroes_frame) =>
    if zeroes_frame ≠ 0 ∧ verify c ram virtual_address current_vertex ≠ 0 then ⟨1, parent⟩
    else ⟨0, 0⟩

/-- The recursion of `choose_frame_1` unrolled `fuel + 1` times. -/
def choose_frame_1_fuel (c : Config) (ram : Nat → Nat) (virtual_address : Nat) :
    Nat → Nat → Nat → Nat → ZerosFrame
  | 0, current_vertex, parent, current_level =>
    choose_frame_1_body c ram virtual_address (fun _ _ => ⟨0, 0⟩)
      current_vertex parent current_level
  | fuel + 1, current_vertex, parent, current_level =>
    choose_frame_1_body c ram virtual_address
      (fun next_address current_address =>
        choose_frame_1_fuel c ram virtual_address fuel next_address current_address
          (current_level + 1))
      current_vertex parent current_level

/-- The function `choose_frame_1`, lines 112-143.  A call at level `current_level` recurses
only while `current_level < TABLES_DEPTH - 1`, so `TABLES_DEPTH` unrollings cover it. -/
def choose_frame_1 (c : Config) (ram : Nat → Nat) (virtual_address current_vertex parent
    current_level : Nat) : ZerosFrame :=
  choose_frame_1_fuel c ram virtual_address c.TABLES_DEPTH current_vertex parent current_level

/-- The loop of `choose_frame_2`, lines 155-165, with the recursive call as a parameter. -/
def choose_frame_2_loop (c : Config) (ram : Nat → Nat) (recurse : Nat → Nat)
    (current_vertex current_level : Nat) : List Nat → Nat → Nat
  | [], max_frame => max_frame
  | i :: rest, max_frame =>
    let current_address := u64 (current_vertex * PAGE_SIZE c + i)
    let next_address := PMread ram current_address
    if next_address ≠ 0 ∧ current_level < c.TABLES_DEPTH then
      let returned_frame := recurse next_address
      if returned_frame > max_frame then
        choose_frame_2_loop c ram recurse current_vertex current_level rest returned_frame
      else choose_frame_2_loop c ram recurse current_vertex current_level rest max_frame
    else choose_frame_2_loop c ram recurse current_vertex current_level rest max_frame

/-- The recursion of `choose_frame_2` unrolled `fuel + 1` times. -/
def choose_frame_2_fuel (c : Config) (ram : Nat → Nat) : Nat → Nat → Nat → Nat
  | 0, current_vertex, current_level =>
    choose_frame_2_loop c ram (fun _ => 0) current_vertex current_level
      (List.range (PAGE_SIZE c)) current_vertex
  | fuel + 1, current_vertex, current_level =>
    choose_frame_2_loop c ram
      (fun next_address => choose_frame_2_fuel c ram fuel next_address (current_level + 1))
      current_vertex current_level (List.range (PAGE_SIZE c)) current_vertex

/-- The function `choose_frame_2`, lines 153-167.  A call recurses only while
`current_level < TABLES_DEPTH`, so `TABLES_DEPTH + 1` unrollings cover it. -/
def choose_frame_2 (c : Config) (ram : Nat → Nat) (current_vertex current_level : Nat) : Nat :=
  choose_frame_2_fuel c ram c.TABLES_DEPTH current_vertex current_level

/-- The loop of `choose_frame_3`, lines 191-204, with the recursive call as a parameter. -/
def choose_frame_3_loop (c : Config) (ram : Nat → Nat)
    (recurse : Nat → Nat → Nat → MaxDistanceFrame) (current_vertex p current_level : Nat) :
    List Nat → Nat → MaxDistanceFrame → MaxDistanceFrame
  | [], _, max_frame => max_frame
  | i :: rest, max_distance, max_frame =>
    let current_address := u64 (current_vertex * PAGE_SIZE c + i)
    let next_address := PMread ram current_address
    if next_address ≠ 0 ∧ current_level < c.TABLES_DEPTH then
      let new_p := u64 ((p <<< ADDRESS_PART_SIZE c) + i)
      let returned_frame := recurse next_address current_address new_p
      if returned_frame.distance > max_distance then
        choose_frame_3_loop c ram recurse current_vertex p current_level rest
          returned_frame.distance returned_frame
      else choose_frame_3_loop c ram recurse current_vertex p current_level rest
          max_distance max_frame
    else choose_frame_3_loop c ram recurse current_vertex p current_level rest
        max_distance max_frame

/-- The body of `choose_frame_3`, lines 179-206, with the recursive call as a parameter. -/
def choose_frame_3_body (c : Config) (ram : Nat → Nat) (virtual_address : Nat)
    (recurse : Nat → Nat → Nat → MaxDistanceFrame) (current_vertex parent p current_level : Nat) :
    MaxDistanceFrame :=
  if current_level = c.TABLES_DEPTH then
    let distance := distance_to_page_swapped_in c virtual_address p
    ⟨p, current_vertex, parent, distance⟩
  else
    choose_frame_3_loop c ram recurse current_vertex p current_level
      (List.range (PAGE_SIZE c)) 0 ⟨0, 0, 0, 0⟩

/-- The recursion of `choose_frame_3` unrolled `fuel + 1` times. -/
def choose_frame_3_fuel (c : Config) (ram : Nat → Nat) (virtual_address : Nat) :
    Nat → Nat → Nat → Nat → Nat → MaxDistanceFrame
  | 0, current_vertex, parent, p, current_level =>
    choose_frame_3_body c ram virtual_address (fun _ _ _ => ⟨0, 0, 0, 0⟩)
      current_vertex parent p current_level
  | fuel + 1, current_vertex, parent, p, current_level =>
    choose_frame_3_body c ram virtual_address
      (fun next_address current_address new_p =>
        choose_frame_3_fuel c ram virtual_address fuel next_address current_address new_p
          (current_level + 1))
      current_vertex parent p current_level

/-- The function `choose_frame_3`, lines 179-206.  A call recurses only while
`current_level < TABLES_DEPTH`, so `TABLES_DEPTH + 1` unrollings cover it. -/
def choose_frame_3 (c : Config) (ram : Nat → Nat) (virtual_address current_vertex parent p
    current_level : Nat) : MaxDistanceFrame :=
  choose_frame_3_fuel c ram virtual_address c.TABLES_DEPTH current_vertex parent p current_level

/-- The function `find_frame`, lines 212-230: the frame chosen and the memory afterwards. -/
def find_frame (c : Config) (pm : PM) (virtual_address : Nat) : Nat × PM :=
  let returned_zeros_frame := choose_frame_1 c pm.ram virtual_address 0 0 0
  if returned_zeros_frame.is_found ≠ 0 then
    let result := PMread pm.ram returned_zeros_frame.parent
    (result, PMwrite pm returned_zeros_frame.parent 0)
  else
    let max_frame := choose_frame_2 c pm.ram 0 0
    if c.NUM_FRAMES > u64 (max_frame + 1) then (u64 (max_frame + 1), pm)
    else
      let returned_max_distance := choose_frame_3 c pm.ram virtual_address 0 0 0 0
      let pm1 := PMwrite pm returned_max_distance.parent 0
      let pm2 := PMevict c pm1 returned_max_distance.frame returned_max_distance.page_num
      (returned_max_distance.frame, pm2)

/-! ## The page table walker and the facade -/

/-- One iteration of the loop of `get_physical_address`, lines 239-255, on the pair of
`last_address` and the memory. -/
def walk_step (c : Config) (virtual_address : Nat) (st : Nat × PM) (i : Nat) : Nat × PM :=
  let last_address := st.1
  let pm := st.2
  let current_address_part := get_address_part c i virtual_address
  let addr := PMread pm.ram (u64 (last_address * PAGE_SIZE c + current_address_part))
  if addr = 0 then
    let found := find_frame c pm virtual_address
    let next_address := found.1
    let pm1 := PMwrite found.2 (u64 (last_address * PAGE_SIZE c + current_address_part))
      next_address
    if i + 1 = c.TABLES_DEPTH then
      (next_address, PMrestore c pm1 next_address (virtual_address >>> c.OFFSET_WIDTH))
    else
      (next_address, fill_zeroes c pm1 next_address)
  else (addr, pm)

/-- The first `n` iterations of the loop of `get_physical_address`. -/
def walk_steps (c : Config) (pm : PM) (virtual_address n : Nat) : Nat × PM :=
  (List.range n).foldl (walk_step c virtual_address) (0, pm)

/-- The function `get_physical_address`, lines 236-261: the address and the memory afterwards. -/
def get_physical_address (c : Config) (pm : PM) (virtual_address : Nat) : Nat × PM :=
  let st := walk_steps c pm virtual_address c.TABLES_DEPTH
  let offset := get_offset c virtual_address
  (u64 (st.1 * PAGE_SIZE c + offset), st.2)

/-- The memory at the start of iteration `k` of the loop of `get_physical_address`: the memory
with which the walker calls `find_frame` when the entry it reads in that iteration is 0. -/
def call_memory (c : Config) (pm : PM) (virtual_address k : Nat) : PM :=
  (walk_steps c pm virtual_address k).2

/-- The condition under which `get_physical_address`, started in the memory `pm`, calls
`find_frame` in iteration `k` of its loop: the iteration exists and the entry read in it
(line 241) is 0 (line 242). -/
def calls_find_frame (c : Config) (pm : PM) (virtual_address k : Nat) : Prop :=
  k < c.TABLES_DEPTH ∧
    PMread (walk_steps c pm virtual_address k).2.ram
      (u64 ((walk_steps c pm virtual_address k).1 * PAGE_SIZE c
        + get_address_part c k virtual_address)) = 0

instance (c : Config) (pm : PM) (virtual_address k : Nat) :
    Decidable (calls_find_frame c pm virtual_address k) := by
  unfold calls_find_frame
  infer_instance

/-- The calls of `PMwrite`, `PMevict` and `PMrestore` that `find_frame` makes when it is called
with the memory `pm`: the calls recorded afterwards that were not recorded before. -/
def find_frame_calls (c : Config) (pm : PM) (virtual_address : Nat) : List PMcall :=
  (find_frame c pm virtual_address).2.calls.drop pm.calls.length

/-- The function `VMinitialize`, lines 278-280. -/
def VMinitialize (c : Config) (pm : PM) : PM := fill_zeroes c pm 0

/-- The function `VMread`, lines 291-298: the returned status, the word behind `value`
afterwards, and the memory afterwards. -/
def VMread (c : Config) (pm : PM) (virtualAddress value : Nat) : Nat × Nat × PM :=
  if validate_virtual_address c virtualAddress = 0 then (0, value, pm)
  else
    let r := get_physical_address c pm virtualAddress
    (1, PMread r.2.ram r.1, r.2)

/-- The function `VMwrite`, lines 308-315: the returned status and the memory afterwards. -/
def VMwrite (c : Config) (pm : PM) (virtualAddress value : Nat) : Nat × PM :=
  if validate_virtual_address c virtualAddress = 0 then (0, pm)
  else
    let r := get_physical_address c pm virtualAddress
    (1, PMwrite r.2 r.1 value)

/-- The memories reachable from ` VMinitialize` by calls of `VMread` and `VMwrite`. -/
inductive Reachable (c : Config) : PM → Prop
  | init (pm : PM) : Reachable c ( VMinitialize c pm)
  | read (pm : PM) (virtualAddress value : Nat) :
      Reachable c pm → Reachable c (VMread c pm virtualAddress value).2.2
  | write (pm : PM) (virtualAddress value : Nat) :
      Reachable c pm → Reachable c (VMwrite c pm virtualAddress value).2

/-! ## The tree of tables

The definitions below describe the tree that the words of the memory encode; the theorems
relate the functions of the source to them. -/

/-- The word stored in entry `i` of the table in frame `f`. -/
def entry (c : Config) (ram : Nat → Nat) (f i : Nat) : Nat :=
  PMread ram (u64 (f * PAGE_SIZE c + i))

/-- The frame reached from frame `f` by following the entries with the indices `path`, one
level per index; there is none when an entry on the way is 0. -/
def walk (c : Config) (ram : Nat → Nat) : List Nat → Nat → Option Nat
  | [], f => some f
  | i :: rest, f => if entry c ram f i = 0 then none else walk c ram rest (entry c ram f i)

/-- The frame reached from the root by the parts of a virtual address. -/
def walk_address (c : Config) (ram : Nat → Nat) (virtual_address : Nat) : Option Nat :=
  walk c ram (address_parts c virtual_address) 0

/-- The node reached from a node by following the entries with the indices `path`.  A node is
a frame, the physical address of the entry that refers to it, and the page number accumulated
on the way to it, as `choose_frame_3` passes them down. -/
def descend (c : Config) (ram : Nat → Nat) : List Nat → Nat × Nat × Nat → Option (Nat × Nat × Nat)
  | [], t => some t
  | i :: rest, t =>
    if entry c ram t.1 i = 0 then none
    else descend c ram rest
      (entry c ram t.1 i, u64 (t.1 * PAGE_SIZE c + i), u64 ((t.2.2 <<< ADDRESS_PART_SIZE c) + i))

/-- The chains of `n` entry indices below `s`, in lexicographic order: the order in which a
depth-first traversal that scans every table by ascending index meets them. -/
def all_paths (s : Nat) : Nat → List (List Nat)
  | 0 => [[]]
  | n + 1 => (List.range s).flatMap (fun i => (all_paths s n).map (fun q => i :: q))

/-- The record that `choose_frame_3` builds for a leaf. -/
def leaf_record (c : Config) (virtual_address : Nat) (t : Nat × Nat × Nat) : MaxDistanceFrame :=
  ⟨t.2.2, t.1, t.2.1, distance_to_page_swapped_in c virtual_address t.2.2⟩

/-- The leaves `n` levels below a node, in depth-first order by ascending entry index. -/
def leaves_from (c : Config) (ram : Nat → Nat) (virtual_address n : Nat) (t : Nat × Nat × Nat) :
    List MaxDistanceFrame :=
  (all_paths (PAGE_SIZE c) n).filterMap
    (fun path => (descend c ram path t).map (leaf_record c virtual_address))

/-- The leaves of the tree rooted at frame 0: the chains of `TABLES_DEPTH` non-zero entries,
each with its page number, its frame, the address of the entry that refers to it and its
distance to the page of `virtual_address`, in depth-first order by ascending entry index. -/
def leaves (c : Config) (ram : Nat → Nat) (virtual_address : Nat) : List MaxDistanceFrame :=
  leaves_from c ram virtual_address c.TABLES_DEPTH (0, 0, 0)

/-- The chains of entry indices that stay inside the tree: at most `TABLES_DEPTH` indices, each
below `PAGE_SIZE`. -/
def ValidPath (c : Config) (path : List Nat) : Prop :=
  path.length ≤ c.TABLES_DEPTH ∧ ∀ i ∈ path, i < PAGE_SIZE c

/-- The frames of the tree: those that a valid chain of non-zero entries reaches from frame 0. -/
def InTree (c : Config) (ram : Nat → Nat) (f : Nat) : Prop :=
  ∃ path, ValidPath c path ∧ walk c ram path 0 = some f

/-- The shape of the tree of tables: every frame of the tree is a frame of the physical memory,
no frame is reached by two chains (so nothing refers to the root, no frame has two parents
and no frame lies at two levels), and every chain consists of parts of an address in range. -/
structure TreeShape (c : Config) (ram : Nat → Nat) : Prop where
  /-- Frames of the tree are below `NUM_FRAMES`. -/
  bound : ∀ path f, ValidPath c path → walk c ram path 0 = some f → f < c.NUM_FRAMES
  /-- A frame is reached by one chain only. -/
  inj : ∀ p1 p2 f, ValidPath c p1 → ValidPath c p2 →
    walk c ram p1 0 = some f → walk c ram p2 0 = some f → p1 = p2
  /-- A chain that reaches a frame consists of the leading parts of an address in range. -/
  parts : ∀ path f, ValidPath c path → walk c ram path 0 = some f →
    ∃ va, va < 2 ^ c.VIRTUAL_ADDRESS_WIDTH ∧ path = (address_parts c va).take path.length

/-- The invariant of the memory between two calls of the facade: the tree has its shape and its
frames are the frames `0, ..., m` for some `m`. -/
structure TreeInv (c : Config) (ram : Nat → Nat) : Prop where
  /-- The shape of the tree. -/
  shape : TreeShape c ram
  /-- Below a frame of the tree every frame is in the tree. -/
  closed : ∀ f g, InTree c ram f → g < f → InTree c ram g

/-- The state of the memory between the return of `find_frame` with frame `g` and the write of
`g` into its new parent entry: the tree has its shape, `g` is a frame other than the root that
is not in the tree, and the frames of the tree together with `g` are the frames `0, ..., m`. -/
structure PreLink (c : Config) (ram : Nat → Nat) (g : Nat) : Prop where
  /-- The shape of the tree. -/
  shape : TreeShape c ram
  /-- The frame is not the root. -/
  pos : g ≠ 0
  /-- The frame is a frame of the physical memory. -/
  lt : g < c.NUM_FRAMES
  /-- The frame is not in the tree. -/
  fresh : ¬ InTree c ram g
  /-- Below a frame of the tree, or below `g`, every frame is in the tree or is `g`. -/
  closed : ∀ f h, (InTree c ram f ∨ f = g) → h < f → (InTree c ram h ∨ h = g)

/-- The situation in which `get_physical_address` calls `find_frame` at level `k` of its walk
along `virtual_address`: the invariant holds, the walk has followed the first `k` parts of the
address to the frame `last_address`, and the entry for part `k` in that frame is 0. -/
structure WalkState (c : Config) (ram : Nat → Nat) (virtual_address k last_address : Nat) :
    Prop where
  /-- The invariant of the tree. -/
  inv : TreeInv c ram
  /-- The address is in range. -/
  addr_lt : virtual_address < 2 ^ c.VIRTUAL_ADDRESS_WIDTH
  /-- The level is a level of the tree. -/
  level_lt : k < c.TABLES_DEPTH
  /-- The walk so far. -/
  walk_pre : walk c ram ((address_parts c virtual_address).take k) 0 = some last_address
  /-- The entry to fill. -/
  zero : entry c ram last_address (get_address_part c k virtual_address) = 0

/-- The first record of a list whose distance exceeds that of `best` and of all records
before it and is not exceeded later; `best` when there is none. -/
def first_max (best : MaxDistanceFrame) (l : List MaxDistanceFrame) : MaxDistanceFrame :=
  l.foldl (fun b x => if x.distance > b.distance then x else b) best

end VM

namespace VM

/-! ## Descriptions of what one call does -/

/-- The node that `find_frame` takes out of the tree when it reuses a frame: the chain
`q ++ [i]` reaches the frame `g` through entry `i` of the frame `m`, nothing lies below the
node, and the node is not on the part of the walk along `virtual_address` done so far. -/
structure Removed (c : Config) (ram : Nat → Nat) (virtual_address k : Nat) (q : List Nat)
    (i m g : Nat) : Prop where
  /-- The chain stays inside the tree. -/
  valid : ValidPath c (q ++ [i])
  /-- The chain to the parent. -/
  parent : walk c ram q 0 = some m
  /-- The chain to the node. -/
  node : walk c ram (q ++ [i]) 0 = some g
  /-- Nothing lies below the node. -/
  childless : ∀ path f, ValidPath c path → (q ++ [i]) <+: path → walk c ram path 0 = some f →
    path = q ++ [i]
  /-- The node is not on the walk. -/
  off_path : ¬ (q ++ [i]) <+: (address_parts c virtual_address).take k

/-- The tree property of the non-zero entries within reach of frame 0: no chain of entries
leads back to the root, a frame is referred to by one entry of the tree only, a frame lies at
one level only, two pages that are resident are in different frames, and no frame is a table
and a leaf at once. -/
structure IsTree (c : Config) (ram : Nat → Nat) : Prop where
  /-- No entry of the tree refers to the root. -/
  no_root_reference : ∀ path f, ValidPath c path → path ≠ [] → walk c ram path 0 = some f → f ≠ 0
  /-- Two entries of the tree that hold the same frame are the same entry. -/
  one_parent : ∀ q1 i1 m1 q2 i2 m2 f, ValidPath c (q1 ++ [i1]) → ValidPath c (q2 ++ [i2]) →
    walk c ram q1 0 = some m1 → walk c ram q2 0 = some m2 →
    entry c ram m1 i1 = f → entry c ram m2 i2 = f → f ≠ 0 → m1 = m2 ∧ i1 = i2 ∧ q1 = q2
  /-- A frame lies at one level. -/
  one_level : ∀ p1 p2 f, ValidPath c p1 → ValidPath c p2 →
    walk c ram p1 0 = some f → walk c ram p2 0 = some f → p1.length = p2.length
  /-- Two resident pages are in different frames. -/
  leaves_distinct : ∀ a b la lb, a < 2 ^ c.VIRTUAL_ADDRESS_WIDTH → b < 2 ^ c.VIRTUAL_ADDRESS_WIDTH →
    walk_address c ram a = some la → walk_address c ram b = some lb →
    a >>> c.OFFSET_WIDTH ≠ b >>> c.OFFSET_WIDTH → la ≠ lb
  /-- A table is not a leaf. -/
  table_not_leaf : ∀ p1 p2 f, ValidPath c p1 → ValidPath c p2 → p1.length < c.TABLES_DEPTH →
    p2.length = c.TABLES_DEPTH → walk c ram p1 0 = some f → walk c ram p2 0 ≠ some f

/-- The frames that `find_frame` returned in the first `n` iterations of the loop of
`get_physical_address` started in the memory `pm`, in the order of the calls. -/
def returned_frames (c : Config) (pm : PM) (virtual_address n : Nat) : List Nat :=
  (List.range n).flatMap (fun k =>
    if calls_find_frame c pm virtual_address k then
      [(find_frame c (call_memory c pm virtual_address k) virtual_address).1]
    else [])

/-- The frames that `find_frame` returned during one call of `VMread` or `VMwrite`. -/
def access_returned (c : Config) (pm : PM) (virtual_address : Nat) : List Nat :=
  if validate_virtual_address c virtual_address = 0 then []
  else returned_frames c pm virtual_address c.TABLES_DEPTH

/-- A reachable memory together with the frames that all calls of `find_frame` since
` VMinitialize` returned. -/
inductive History (c : Config) : PM → List Nat → Prop
  | init (pm : PM) : History c ( VMinitialize c pm) []
  | read (pm : PM) (returned : List Nat) (virtualAddress value : Nat) :
      History c pm returned →
      History c (VMread c pm virtualAddress value).2.2
        (returned ++ access_returned c pm virtualAddress)
  | write (pm : PM) (returned : List Nat) (virtualAddress value : Nat) :
      History c pm returned →
      History c (VMwrite c pm virtualAddress value).2
        (returned ++ access_returned c pm virtualAddress)

/-- The memory in which `find_frame` calls `PMevict` when it takes the third priority: lines
225-226 have run, line 227 is next. -/
def memory_at_evict (c : Config) (pm : PM) (virtual_address : Nat) : PM :=
  PMwrite pm (choose_frame_3 c pm.ram virtual_address 0 0 0 0).parent 0

/-- A depth-first traversal that scans every table by ascending index visits the chain `p1`
before the chain `p2`: the two chains leave a common chain `r` by two entries of one table, `p1`
by the one with the lower index. -/
def dfs_before (p1 p2 : List Nat) : Prop :=
  ∃ r a b, a < b ∧ (r ++ [a]) <+: p1 ∧ (r ++ [b]) <+: p2

/-- Every frame is referred to by at most one of the entries of the tables within reach of
frame 0: two such entries that hold the same frame number are the same word of the memory. -/
def SingleReference (c : Config) (ram : Nat → Nat) : Prop :=
  ∀ q1 i1 m1 q2 i2 m2, ValidPath c (q1 ++ [i1]) → ValidPath c (q2 ++ [i2]) →
    walk c ram q1 0 = some m1 → walk c ram q2 0 = some m2 → entry c ram m1 i1 ≠ 0 →
    entry c ram m1 i1 = entry c ram m2 i2 → m1 = m2 ∧ i1 = i2

/-- The calls of `PMrestore` in a list of calls. -/
def restore_calls (l : List PMcall) : List PMcall :=
  l.filter (fun x => match x with
    | PMcall.restore _ _ => true
    | _ => false)

/-- The calls of `PMevict` in a list of calls. -/
def evict_calls (l : List PMcall) : List PMcall :=
  l.filter (fun x => match x with
    | PMcall.evict _ _ => true
    | _ => false)

/-- The calls of `PMwrite`, `PMevict` and `PMrestore` that `get_physical_address` makes when it
is called with the memory `pm`: the calls recorded afterwards that were not recorded before. -/
def get_physical_address_calls (c : Config) (pm : PM) (virtual_address : Nat) : List PMcall :=
  (get_physical_address c pm virtual_address).2.calls.drop pm.calls.length

/-! ## The addresses read

`PMread` changes nothing, so the memory keeps no record of it.  The functions below give, for
each function of the source, the addresses that it passes to `PMread`, in the order of the
calls. -/

/-- The addresses read by the loop of `verify`, lines 62-73. -/
def verify_reads_loop (c : Config) (ram : Nat → Nat) (virtual_address frame : Nat) :
    List Nat → Nat → List Nat
  | [], _ => []
  | i :: rest, last_address =>
    let current_address_part := get_address_part c i virtual_address
    let addr := PMread ram (u64 (last_address * PAGE_SIZE c + current_address_part))
    u64 (last_address * PAGE_SIZE c + current_address_part) ::
      (if addr = frame then []
      else if addr = 0 then []
      else verify_reads_loop c ram virtual_address frame rest addr)

/-- The addresses read by `verify`, lines 57-75. -/
def verify_reads (c : Config) (ram : Nat → Nat) (virtual_address frame : Nat) : List Nat :=
  if frame = 0 then []
  else verify_reads_loop c ram virtual_address frame (List.range c.TABLES_DEPTH) 0

/-- The addresses read by the loop of `choose_frame_1`, lines 114-129, given the result and the
addresses read of the recursive call. -/
def choose_frame_1_reads_loop (c : Config) (ram : Nat → Nat)
    (recurse : Nat → Nat → ZerosFrame) (recurse_reads : Nat → Nat → List Nat)
    (current_vertex current_level : Nat) : List Nat → List Nat
  | [] => []
  | i :: rest =>
    let current_address := u64 (current_vertex * PAGE_SIZE c + i)
    let next_address := PMread ram current_address
    current_address ::
      (if next_address ≠ 0 then
        if current_level + 1 < c.TABLES_DEPTH then
          recurse_reads next_address current_address ++
            (if (recurse next_address current_address).is_found ≠ 0 then []
            else choose_frame_1_reads_loop c ram recurse recurse_reads current_vertex
              current_level rest)
        else choose_frame_1_reads_loop c ram recurse recurse_reads current_vertex
          current_level rest
      else choose_frame_1_reads_loop c ram recurse recurse_reads current_vertex
        current_level rest)

/-- The addresses read by the body of `choose_frame_1`, lines 112-143: those of the loop, and
those of `verify` when the loop ends with `zeroes_frame` set. -/
def choose_frame_1_reads_body (c : Config) (ram : Nat → Nat) (virtual_address : Nat)
    (recurse : Nat → Nat → ZerosFrame) (recurse_reads : Nat → Nat → List Nat)
    (current_vertex current_level : Nat) : List Nat :=
  choose_frame_1_reads_loop c ram recurse recurse_reads current_vertex current_level
      (List.range (PAGE_SIZE c)) ++
    (match choose_frame_1_loop c ram recurse current_vertex current_level
        (List.range (PAGE_SIZE c)) 1 with
    | (some _, _) => []
    | (none, zeroes_frame) =>
      if zeroes_frame ≠ 0 then verify_reads c ram virtual_address current_vertex else [])

/-- The addresses read by `choose_frame_1`, with the recursion unrolled `fuel + 1` times. -/
def choose_frame_1_reads_fuel (c : Config) (ram : Nat → Nat) (virtual_address : Nat) :
    Nat → Nat → Nat → List Nat
  | 0, current_vertex, current_level =>
    choose_frame_1_reads_body c ram virtual_address (fun _ _ => ⟨0, 0⟩) (fun _ _ => [])
      current_vertex current_level
  | fuel + 1, current_vertex, current_level =>
    choose_frame_1_reads_body c ram virtual_address
      (fun next_address current_address =>
        choose_frame_1_fuel c ram virtual_address fuel next_address current_address
          (current_level + 1))
      (fun next_address _ =>
        choose_frame_1_reads_fuel c ram virtual_address fuel next_address (current_level + 1))
      current_vertex current_level

/-- The addresses read by `choose_frame_1(virtual_address, current_vertex, _, current_level)`. -/
def choose_frame_1_reads (c : Config) (ram : Nat → Nat) (virtual_address current_vertex
    current_level : Nat) : List Nat :=
  choose_frame_1_reads_fuel c ram virtual_address c.TABLES_DEPTH current_vertex current_level

/-- The addresses read by the loop of `choose_frame_2`, lines 155-165, and of `choose_frame_3`,
lines 191-204, which read and recurse alike. -/
def search_reads_loop (c : Config) (ram : Nat → Nat) (recurse_reads : Nat → List Nat)
    (current_vertex current_level : Nat) : List Nat → List Nat
  | [] => []
  | i :: rest =>
    let current_address := u64 (current_vertex * PAGE_SIZE c + i)
    let next_address := PMread ram current_address
    current_address ::
      ((if next_address ≠ 0 ∧ current_level < c.TABLES_DEPTH then recurse_reads next_address
        else []) ++
        search_reads_loop c ram recurse_reads current_vertex current_level rest)

/-- The addresses read by `choose_frame_2`, with the recursion unrolled `fuel + 1` times. -/
def choose_frame_2_reads_fuel (c : Config) (ram : Nat → Nat) : Nat → Nat → Nat → List Nat
  | 0, current_vertex, current_level =>
    search_reads_loop c ram (fun _ => []) current_vertex current_level
      (List.range (PAGE_SIZE c))
  | fuel + 1, current_vertex, current_level =>
    search_reads_loop c ram
      (fun next_address => choose_frame_2_reads_fuel c ram fuel next_address (current_level + 1))
      current_vertex current_level (List.range (PAGE_SIZE c))

/-- The addresses read by `choose_frame_2(current_vertex, current_level)`. -/
def choose_frame_2_reads (c : Config) (ram : Nat → Nat) (current_vertex current_level : Nat) :
    List Nat :=
  choose_frame_2_reads_fuel c ram c.TABLES_DEPTH current_vertex current_level

/-- The addresses read by `choose_frame_3`, with the recursion unrolled `fuel + 1` times; a
call at level `TABLES_DEPTH` returns before it reads. -/
def choose_frame_3_reads_fuel (c : Config) (ram : Nat → Nat) : Nat → Nat → Nat → List Nat
  | 0, current_vertex, current_level =>
    if current_level = c.TABLES_DEPTH then []
    else search_reads_loop c ram (fun _ => []) current_vertex current_level
      (List.range (PAGE_SIZE c))
  | fuel + 1, current_vertex, current_level =>
    if current_level = c.TABLES_DEPTH then []
    else search_reads_loop c ram
      (fun next_address => choose_frame_3_reads_fuel c ram fuel next_address (current_level + 1))
      current_vertex current_level (List.range (PAGE_SIZE c))

/-- The addresses read by `choose_frame_3(_, current_vertex, _, _, current_level)`. -/
def choose_frame_3_reads (c : Config) (ram : Nat → Nat) (current_vertex current_level : Nat) :
    List Nat :=
  choose_frame_3_reads_fuel c ram c.TABLES_DEPTH current_vertex current_level

/-- The addresses read by `find_frame`, lines 212-230: those of the searches it runs, and the
parent entry it reads on lines 216 and 225. -/
def find_frame_reads (c : Config) (pm : PM) (virtual_address : Nat) : List Nat :=
  choose_frame_1_reads c pm.ram virtual_address 0 0 ++
    (if (choose_frame_1 c pm.ram virtual_address 0 0 0).is_found ≠ 0 then
      [(choose_frame_1 c pm.ram virtual_address 0 0 0).parent]
    else
      choose_frame_2_reads c pm.ram 0 0 ++
        (if c.NUM_FRAMES > u64 (choose_frame_2 c pm.ram 0 0 + 1) then []
        else choose_frame_3_reads c pm.ram 0 0 ++
          [(choose_frame_3 c pm.ram virtual_address 0 0 0 0).parent]))

/-- The addresses read in one iteration of the loop of `get_physical_address`, lines 239-255. -/
def walk_step_reads (c : Config) (virtual_address : Nat) (st : Nat × PM) (i : Nat) : List Nat :=
  let current_address_part := get_address_part c i virtual_address
  let addr := PMread st.2.ram (u64 (st.1 * PAGE_SIZE c + current_address_part))
  u64 (st.1 * PAGE_SIZE c + current_address_part) ::
    (if addr = 0 then find_frame_reads c st.2 virtual_address else [])

/-- The addresses read by `get_physical_address`. -/
def get_physical_address_reads (c : Config) (pm : PM) (virtual_address : Nat) : List Nat :=
  (List.range c.TABLES_DEPTH).flatMap (fun k =>
    walk_step_reads c virtual_address (walk_steps c pm virtual_address k) k)

/-- The addresses read by `VMread`, lines 291-298. -/
def VMread_reads (c : Config) (pm : PM) (virtualAddress : Nat) : List Nat :=
  if validate_virtual_address c virtualAddress = 0 then []
  else get_physical_address_reads c pm virtualAddress ++
    [(get_physical_address c pm virtualAddress).1]

/-- The addresses read by `VMwrite`, lines 308-315. -/
def VMwrite_reads (c : Config) (pm : PM) (virtualAddress : Nat) : List Nat :=
  if validate_virtual_address c virtualAddress = 0 then []
  else get_physical_address_reads c pm virtualAddress

/-- A call of a primitive stays inside the physical memory: the address of a write is below
`NUM_FRAMES * PAGE_SIZE`, the frame of an eviction or a restore is below `NUM_FRAMES`. -/
def call_in_bounds (c : Config) : PMcall → Prop
  | PMcall.write addr _ => addr < c.NUM_FRAMES * PAGE_SIZE c
  | PMcall.evict frame _ => frame < c.NUM_FRAMES
  | PMcall.restore frame _ => frame < c.NUM_FRAMES

/-- The calls of `PMwrite`, `PMevict` and `PMrestore` made by `VMread`. -/
def VMread_calls (c : Config) (pm : PM) (virtualAddress value : Nat) : List PMcall :=
  (VMread c pm virtualAddress value).2.2.calls.drop pm.calls.length

/-- The calls of `PMwrite`, `PMevict` and `PMrestore` made by `VMwrite`. -/
def VMwrite_calls (c : Config) (pm : PM) (virtualAddress value : Nat) : List PMcall :=
  (VMwrite c pm virtualAddress value).2.calls.drop pm.calls.length

/-! ## Sequences of calls of the facade -/

/-- A call of `VMread` (with the word that `*value` holds before the call) or of `VMwrite`. -/
inductive Op where
  | read (virtualAddress value : Nat)
  | write (virtualAddress value : Nat)

/-- The memory after one call of the facade. -/
def apply_op (c : Config) (pm : PM) : Op → PM
  | Op.read virtualAddress value => (VMread c pm virtualAddress value).2.2
  | Op.write virtualAddress value => (VMwrite c pm virtualAddress value).2

/-- The memory after a sequence of calls of the facade, made from left to right. -/
def run (c : Config) (pm : PM) (ops : List Op) : PM := ops.foldl (apply_op c) pm

/-- The word that the last `VMwrite` to the address `a` in a sequence of calls wrote, after a
history in which the last such word was `acc`. -/
def last_write_from (a : Nat) (acc : Option Nat) (ops : List Op) : Option Nat :=
  ops.foldl (fun r op => match op with
    | Op.write b v => if b = a then some v else r
    | Op.read _ _ => r) acc

/-- The word that the last `VMwrite` to the address `a` in a sequence of calls wrote. -/
def last_write (a : Nat) (ops : List Op) : Option Nat := last_write_from a none ops

/-- The word that the memory holds for a virtual address: the word of its frame at the offset
when the page is resident, and else the word at the offset of what the backing store holds for
the page, if it holds anything. -/
def stored_word (c : Config) (pm : PM) (a : Nat) : Option Nat :=
  match walk_address c pm.ram a with
  | some leaf => some (PMread pm.ram (u64 (leaf * PAGE_SIZE c + get_offset c a)))
  | none => (pm.swap (a >>> c.OFFSET_WIDTH)).map (fun ws => ws.getD (get_offset c a) 0)

/-! ## The searches with a bound on the depth of the recursion

The same functions once more, evaluated with a bound on the number of nested activations: an
activation that would exceed the bound gives `none`, and `none` is passed up unchanged, so a
result `some r` says that the source returns `r` without ever nesting deeper than the bound. -/

/-- The loop of `choose_frame_1`, lines 114-129, with a recursive call that can fail. -/
def choose_frame_1_bounded_loop (c : Config) (ram : Nat → Nat)
    (recurse : Nat → Nat → Option ZerosFrame) (current_vertex current_level : Nat) :
    List Nat → Nat → Option (Option ZerosFrame × Nat)
  | [], zeroes_frame => some (none, zeroes_frame)
  | i :: rest, zeroes_frame =>
    let current_address := u64 (current_vertex * PAGE_SIZE c + i)
    let next_address := PMread ram current_address
    if next_address ≠ 0 then
      if current_level + 1 < c.TABLES_DEPTH then
        match recurse next_address current_address with
        | none => none
        | some returned_frame =>
          if returned_frame.is_found ≠ 0 then some (some returned_frame, 0)
          else choose_frame_1_bounded_loop c ram recurse current_vertex current_level rest 0
      else choose_frame_1_bounded_loop c ram recurse current_vertex current_level rest 0
    else choose_frame_1_bounded_loop c ram recurse current_vertex current_level rest zeroes_frame

/-- The function `choose_frame_1`, lines 112-143, with at most `depth` nested activations. -/
def choose_frame_1_bounded (c : Config) (ram : Nat → Nat) (virtual_address : Nat) :
    Nat → Nat → Nat → Nat → Option ZerosFrame
  | 0, _, _, _ => none
  | depth + 1, current_vertex, parent, current_level =>
    match choose_frame_1_bounded_loop c ram
        (fun next_address current_address =>
          choose_frame_1_bounded c ram virtual_address depth next_address current_address
            (current_level + 1))
        current_vertex current_level (List.range (PAGE_SIZE c)) 1 with
    | none => none
    | some (some returned_frame, _) => some returned_frame
    | some (none, zeroes_frame) =>
      some (if zeroes_frame ≠ 0 ∧ verify c ram virtual_address current_vertex ≠ 0
        then ⟨1, parent⟩ else ⟨0, 0⟩)

/-- The loop of `choose_frame_2`, lines 155-165, with a recursive call that can fail. -/
def choose_frame_2_bounded_loop (c : Config) (ram : Nat → Nat) (recurse : Nat → Option Nat)
    (current_vertex current_level : Nat) : List Nat → Nat → Option Nat
  | [], max_frame => some max_frame
  | i :: rest, max_frame =>
    let current_address := u64 (current_vertex * PAGE_SIZE c + i)
    let next_address := PMread ram current_address
    if next_address ≠ 0 ∧ current_level < c.TABLES_DEPTH then
      match recurse next_address with
      | none => none
      | some returned_frame =>
        if returned_frame > max_frame then
          choose_frame_2_bounded_loop c ram recurse current_vertex current_level rest
            returned_frame
        else choose_frame_2_bounded_loop c ram recurse current_vertex current_level rest
            max_frame
    else choose_frame_2_bounded_loop c ram recurse current_vertex current_level rest max_frame

/-- The function `choose_frame_2`, lines 153-167, with at most `depth` nested activations. -/
def choose_frame_2_bounded (c : Config) (ram : Nat → Nat) : Nat → Nat → Nat → Option Nat
  | 0, _, _ => none
  | depth + 1, current_vertex, current_level =>
    choose_frame_2_bounded_loop c ram
      (fun next_address => choose_frame_2_bounded c ram depth next_address (current_level + 1))
      current_vertex current_level (List.range (PAGE_SIZE c)) current_vertex

/-- The loop of `choose_frame_3`, lines 191-204, with a recursive call that can fail. -/
def choose_frame_3_bounded_loop (c : Config) (ram : Nat → Nat)
    (recurse : Nat → Nat → Nat → Option MaxDistanceFrame) (current_vertex p current_level : Nat) :
    List Nat → Nat → MaxDistanceFrame → Option MaxDistanceFrame
  | [], _, max_frame => some max_frame
  | i :: rest, max_distance, max_frame =>
    let current_address := u64 (current_vertex * PAGE_SIZE c + i)
    let next_address := PMread ram current_address
    if next_address ≠ 0 ∧ current_level < c.TABLES_DEPTH then
      let new_p := u64 ((p <<< ADDRESS_PART_SIZE c) + i)
      match recurse next_address current_address new_p with
      | none => none
      | some returned_frame =>
        if returned_frame.distance > max_distance then
          choose_frame_3_bounded_loop c ram recurse current_vertex p current_level rest
            returned_frame.distance returned_frame
        else choose_frame_3_bounded_loop c ram recurse current_vertex p current_level rest
            max_distance max_frame
    else choose_frame_3_bounded_loop c ram recurse current_vertex p current_level rest
        max_distance max_frame

/-- The function `choose_frame_3`, lines 179-206, with at most `depth` nested activations. -/
def choose_frame_3_bounded (c : Config) (ram : Nat → Nat) (virtual_address : Nat) :
    Nat → Nat → Nat → Nat → Nat → Option MaxDistanceFrame
  | 0, _, _, _, _ => none
  | depth + 1, current_vertex, parent, p, current_level =>
    if current_level = c.TABLES_DEPTH then
      let distance := distance_to_page_swapped_in c virtual_address p
      some ⟨p, current_vertex, parent, distance⟩
    else
      choose_frame_3_bounded_loop c ram
        (fun next_address current_address new_p =>
          choose_frame_3_bounded c ram virtual_address depth next_address current_address new_p
            (current_level + 1))
        current_vertex p current_level (List.range (PAGE_SIZE c)) 0 ⟨0, 0, 0, 0⟩

/-- The function `find_frame`, lines 212-230, with the bounds `d1`, `d2`, `d3` on the depth of
the recursion of the three searches. -/
def find_frame_bounded (c : Config) (pm : PM) (virtual_address d1 d2 d3 : Nat) :
    Option (Nat × PM) :=
  match choose_frame_1_bounded c pm.ram virtual_address d1 0 0 0 with
  | none => none
  | some returned_zeros_frame =>
    if returned_zeros_frame.is_found ≠ 0 then
      let result := PMread pm.ram returned_zeros_frame.parent
      some (result, PMwrite pm returned_zeros_frame.parent 0)
    else
      match choose_frame_2_bounded c pm.ram d2 0 0 with
      | none => none
      | some max_frame =>
        if c.NUM_FRAMES > u64 (max_frame + 1) then some (u64 (max_frame + 1), pm)
        else
          match choose_frame_3_bounded c pm.ram virtual_address d3 0 0 0 0 with
          | none => none
          | some returned_max_distance =>
            let pm1 := PMwrite pm returned_max_distance.parent 0
            let pm2 := PMevict c pm1 returned_max_distance.frame returned_max_distance.page_num
            some (returned_max_distance.frame, pm2)

/-- One iteration of the loop of `get_physical_address`, lines 239-255, with the searches
bounded and with a count of the calls of `find_frame` as third component of the state. -/
def walk_step_counted (c : Config) (virtual_address d1 d2 d3 : Nat)
    (st : Option (Nat × PM × Nat)) (i : Nat) : Option (Nat × PM × Nat) :=
  match st with
  | none => none
  | some (last_address, pm, count) =>
    let current_address_part := get_address_part c i virtual_address
    let addr := PMread pm.ram (u64 (last_address * PAGE_SIZE c + current_address_part))
    if addr = 0 then
      match find_frame_bounded c pm virtual_address d1 d2 d3 with
      | none => none
      | some found =>
        let next_address := found.1
        let pm1 := PMwrite found.2 (u64 (last_address * PAGE_SIZE c + current_address_part))
          next_address
        if i + 1 = c.TABLES_DEPTH then
          some (next_address, PMrestore c pm1 next_address (virtual_address >>> c.OFFSET_WIDTH),
            count + 1)
        else
          some (next_address, fill_zeroes c pm1 next_address, count + 1)
    else some (addr, pm, count)

/-- The function `get_physical_address`, lines 236-261, with the searches bounded: the result
of the function and the number of calls of `find_frame` it made. -/
def get_physical_address_counted (c : Config) (pm : PM) (virtual_address d1 d2 d3 : Nat) :
    Option ((Nat × PM) × Nat) :=
  match (List.range c.TABLES_DEPTH).foldl (walk_step_counted c virtual_address d1 d2 d3)
      (some (0, pm, 0)) with
  | none => none
  | some (last_address, pm1, count) =>
    some ((u64 (last_address * PAGE_SIZE c + get_offset c virtual_address), pm1), count)

end VM

namespace VM

/-! ## Machine arithmetic -/

theorem int_shl_one_eq (k : Nat) (h : k < 31) : int_shl_one k = 2 ^ k := by
  have h1 : 2 ^ k < 2 ^ 31 := Nat.pow_lt_pow_right (by norm_num) h
  have h2 : (2 : Nat) ^ k % 2 ^ 32 = 2 ^ k := Nat.mod_eq_of_lt (by omega)
  unfold int_shl_one int_to_u64
  rw [h2, if_pos h1]

theorem int_mask_eq (k : Nat) (h : k < 31) : int_mask k = 2 ^ k - 1 := by
  have h1 : 2 ^ k < 2 ^ 31 := Nat.pow_lt_pow_right (by norm_num) h
  have h0 : 0 < 2 ^ k := Nat.pow_pos (by norm_num)
  have h2 : ((2 : Nat) ^ k % 2 ^ 32 + (2 ^ 32 - 1)) % 2 ^ 32 = 2 ^ k - 1 := by omega
  unfold int_mask int_to_u64
  rw [h2, if_pos (by omega)]

theorem u64_of_lt {n : Nat} (h : n < 2 ^ 64) : u64 n = n := Nat.mod_eq_of_lt h

theorem u64_sub_of_le {x y : Nat} (hx : x < 2 ^ 64) (hy : y ≤ x) (hpos : 0 < y) :
    u64_sub x y = x - y := by
  unfold u64_sub
  omega

theorem u64_sub_zero {x : Nat} (hx : x < 2 ^ 64) : u64_sub x 0 = x := by
  unfold u64_sub
  omega

end VM

namespace VM

/-! ## The address codec -/

theorem part_size_le (c : Config) (hD : 1 ≤ c.TABLES_DEPTH) :
    ADDRESS_PART_SIZE c ≤ c.VIRTUAL_ADDRESS_WIDTH - c.OFFSET_WIDTH := by
  unfold ADDRESS_PART_SIZE
  generalize c.VIRTUAL_ADDRESS_WIDTH - c.OFFSET_WIDTH = n
  generalize c.TABLES_DEPTH = d at hD
  rw [Nat.div_le_iff_le_mul_add_pred (by omega)]
  have : n ≤ d * n := Nat.le_mul_of_pos_left n (by omega)
  omega

theorem part_size_mul_ge (c : Config) (hD : 1 ≤ c.TABLES_DEPTH) :
    c.VIRTUAL_ADDRESS_WIDTH - c.OFFSET_WIDTH ≤ ADDRESS_PART_SIZE c * c.TABLES_DEPTH := by
  unfold ADDRESS_PART_SIZE
  generalize c.VIRTUAL_ADDRESS_WIDTH - c.OFFSET_WIDTH = n
  generalize c.TABLES_DEPTH = d at hD
  have h1 := Nat.div_add_mod (n + d - 1) d
  have h2 := Nat.mod_lt (n + d - 1) (show d > 0 by omega)
  have h3 : (n + d - 1) / d * d = d * ((n + d - 1) / d) := Nat.mul_comm _ _
  omega

theorem part_size_lt (c : Config) (h : c.WF) : ADDRESS_PART_SIZE c < 31 := by
  have := part_size_le c h.depth_pos
  have := h.width_lt
  omega

theorem get_address_part_eq (c : Config) (h : c.WF) (i v : Nat) :
    get_address_part c i v =
      v / 2 ^ (c.OFFSET_WIDTH + ADDRESS_PART_SIZE c * (c.TABLES_DEPTH - i - 1))
        % 2 ^ ADDRESS_PART_SIZE c := by
  unfold get_address_part
  simp only [int_mask_eq _ (part_size_lt c h), Nat.shiftRight_eq_div_pow,
    Nat.and_pow_two_sub_one_eq_mod]

theorem get_offset_eq (c : Config) (h : c.WF) (v : Nat) :
    get_offset c v = v % 2 ^ c.OFFSET_WIDTH := by
  unfold get_offset
  have := h.width_lt
  have := h.offset_le
  simp only [int_mask_eq _ (show c.OFFSET_WIDTH < 31 by omega), Nat.and_pow_two_sub_one_eq_mod]

theorem get_address_part_lt (c : Config) (h : c.WF) (i v : Nat) :
    get_address_part c i v < 2 ^ ADDRESS_PART_SIZE c := by
  rw [get_address_part_eq c h]
  exact Nat.mod_lt _ (Nat.pow_pos (by norm_num))

theorem get_offset_lt (c : Config) (h : c.WF) (v : Nat) : get_offset c v < PAGE_SIZE c := by
  rw [get_offset_eq c h]
  exact Nat.mod_lt _ (Nat.pow_pos (by norm_num))

/-- A part of an address depends on the page number only. -/
theorem get_address_part_page (c : Config) (h : c.WF) (i v : Nat) :
    get_address_part c i v =
      (v >>> c.OFFSET_WIDTH) / 2 ^ (ADDRESS_PART_SIZE c * (c.TABLES_DEPTH - i - 1))
        % 2 ^ ADDRESS_PART_SIZE c := by
  rw [get_address_part_eq c h, Nat.shiftRight_eq_div_pow, Nat.div_div_eq_div_mul, Nat.pow_add]

theorem address_parts_length (c : Config) (v : Nat) :
    (address_parts c v).length = c.TABLES_DEPTH := by
  simp [address_parts]

theorem address_parts_take (c : Config) (v k : Nat) (hk : k ≤ c.TABLES_DEPTH) :
    (address_parts c v).take k = (List.range k).map (fun i => get_address_part c i v) := by
  unfold address_parts
  rw [← List.map_take, List.take_range, Nat.min_eq_left hk]

theorem address_parts_take_succ (c : Config) (v k : Nat) (hk : k < c.TABLES_DEPTH) :
    (address_parts c v).take (k + 1) = (address_parts c v).take k ++ [get_address_part c k v] := by
  rw [address_parts_take c v (k + 1) hk, address_parts_take c v k (by omega), List.range_succ,
    List.map_append]
  rfl

theorem address_parts_mem_lt (c : Config) (h : c.WF) (v i : Nat) (hi : i ∈ address_parts c v) :
    i < 2 ^ ADDRESS_PART_SIZE c := by
  unfold address_parts at hi
  rw [List.mem_map] at hi
  obtain ⟨j, -, rfl⟩ := hi
  exact get_address_part_lt c h j v

theorem address_parts_page (c : Config) (h : c.WF) (a b : Nat)
    (hab : a >>> c.OFFSET_WIDTH = b >>> c.OFFSET_WIDTH) : address_parts c a = address_parts c b := by
  unfold address_parts
  apply List.map_congr_left
  intro i _
  rw [get_address_part_page c h, get_address_part_page c h, hab]

theorem page_from_append (c : Config) (p : Nat) (xs ys : List Nat) :
    page_from c p (xs ++ ys) = page_from c (page_from c p xs) ys := by
  unfold page_from
  rw [List.foldl_append]

/-- Folding the first `k` parts of an address gives the page number without its last
`TABLES_DEPTH - k` parts. -/
theorem page_from_take (c : Config) (h : c.WF) (v : Nat) (hv : v < 2 ^ c.VIRTUAL_ADDRESS_WIDTH)
    (k : Nat) (hk : k ≤ c.TABLES_DEPTH) :
    page_from c 0 ((address_parts c v).take k) =
      (v >>> c.OFFSET_WIDTH) / 2 ^ (ADDRESS_PART_SIZE c * (c.TABLES_DEPTH - k)) := by
  have hn : v >>> c.OFFSET_WIDTH < 2 ^ (c.VIRTUAL_ADDRESS_WIDTH - c.OFFSET_WIDTH) := by
    rw [Nat.shiftRight_eq_div_pow, Nat.div_lt_iff_lt_mul (Nat.pow_pos (by norm_num)),
      ← Nat.pow_add, Nat.sub_add_cancel h.offset_le]
    exact hv
  induction k with
  | zero =>
    have h1 : v >>> c.OFFSET_WIDTH < 2 ^ (ADDRESS_PART_SIZE c * (c.TABLES_DEPTH - 0)) :=
      lt_of_lt_of_le hn (Nat.pow_le_pow_right (by norm_num) (part_size_mul_ge c h.depth_pos))
    simp only [List.take_zero, page_from, List.foldl_nil]
    exact (Nat.div_eq_of_lt h1).symm
  | succ k ih =>
    have hk1 : k < c.TABLES_DEPTH := hk
    rw [address_parts_take_succ c v k hk1, page_from_append, ih (by omega)]
    simp only [page_from, List.foldl_cons, List.foldl_nil]
    rw [get_address_part_page c h, Nat.shiftLeft_eq]
    have e1 : c.TABLES_DEPTH - k = (c.TABLES_DEPTH - (k + 1)) + 1 := by omega
    have e2 : c.TABLES_DEPTH - k - 1 = c.TABLES_DEPTH - (k + 1) := by omega
    rw [e2, e1, Nat.mul_succ, Nat.pow_add, ← Nat.div_div_eq_div_mul]
    have hle : (v >>> c.OFFSET_WIDTH) / 2 ^ (ADDRESS_PART_SIZE c * (c.TABLES_DEPTH - (k + 1)))
        ≤ v >>> c.OFFSET_WIDTH := Nat.div_le_self _ _
    generalize (v >>> c.OFFSET_WIDTH) / 2 ^ (ADDRESS_PART_SIZE c * (c.TABLES_DEPTH - (k + 1))) = m
      at *
    have hm : m / 2 ^ ADDRESS_PART_SIZE c * 2 ^ ADDRESS_PART_SIZE c + m % 2 ^ ADDRESS_PART_SIZE c
        = m := Nat.div_add_mod' m _
    rw [hm]
    apply u64_of_lt
    have h31 : (2 : Nat) ^ (c.VIRTUAL_ADDRESS_WIDTH - c.OFFSET_WIDTH) < 2 ^ 64 :=
      Nat.pow_lt_pow_right (by norm_num) (by have := h.width_lt; omega)
    omega

theorem page_lt (c : Config) (h : c.WF) (v : Nat) (hv : v < 2 ^ c.VIRTUAL_ADDRESS_WIDTH) :
    v >>> c.OFFSET_WIDTH < NUM_PAGES c := by
  unfold NUM_PAGES
  rw [Nat.shiftRight_eq_div_pow, Nat.div_lt_iff_lt_mul (Nat.pow_pos (by norm_num)),
    ← Nat.pow_add, Nat.sub_add_cancel h.offset_le]
  exact hv

/-- Folding all the parts of an in-range address gives its page number. -/
theorem page_from_address_parts (c : Config) (h : c.WF) (v : Nat)
    (hv : v < 2 ^ c.VIRTUAL_ADDRESS_WIDTH) :
    page_from c 0 (address_parts c v) = v >>> c.OFFSET_WIDTH := by
  have := page_from_take c h v hv c.TABLES_DEPTH (le_refl _)
  rw [List.take_of_length_le (by rw [address_parts_length])] at this
  simpa using this

theorem num_pages_lt (c : Config) (h : c.WF) : NUM_PAGES c < 2 ^ 31 := by
  unfold NUM_PAGES
  exact Nat.pow_lt_pow_right (by norm_num) (by have := h.width_lt; omega)

theorem page_shift_lt (c : Config) (h : c.WF) (q : Nat) (hq : q < NUM_PAGES c) :
    q <<< c.OFFSET_WIDTH < 2 ^ c.VIRTUAL_ADDRESS_WIDTH := by
  unfold NUM_PAGES at hq
  rw [Nat.shiftLeft_eq]
  calc q * 2 ^ c.OFFSET_WIDTH
      < 2 ^ (c.VIRTUAL_ADDRESS_WIDTH - c.OFFSET_WIDTH) * 2 ^ c.OFFSET_WIDTH :=
        Nat.mul_lt_mul_of_pos_right hq (Nat.pow_pos (by norm_num))
    _ = 2 ^ c.VIRTUAL_ADDRESS_WIDTH := by
        rw [← Nat.pow_add, Nat.sub_add_cancel h.offset_le]

theorem shift_add_shift (o q off : Nat) (hoff : off < 2 ^ o) : (q <<< o + off) >>> o = q := by
  rw [Nat.shiftLeft_eq, Nat.shiftRight_eq_div_pow, Nat.mul_comm,
    Nat.mul_add_div (Nat.pow_pos (by norm_num)), Nat.div_eq_of_lt hoff, Nat.add_zero]

theorem shift_shift (o q : Nat) : (q <<< o) >>> o = q := by
  exact shift_add_shift o q 0 (Nat.pow_pos (by norm_num))

/-! ## Validation and distance -/

theorem validate_eq_zero_iff (c : Config) (hV : c.VIRTUAL_ADDRESS_WIDTH < 31) (v : Nat) :
    validate_virtual_address c v = 0 ↔ 2 ^ c.VIRTUAL_ADDRESS_WIDTH ≤ v := by
  unfold validate_virtual_address
  simp only [int_shl_one_eq _ hV]
  split_ifs with h1
  · simp only [one_ne_zero, false_iff, not_le]; exact h1
  · simp only [true_iff]; omega

theorem distance_eq (c : Config) (h64 : c.VIRTUAL_ADDRESS_WIDTH - c.OFFSET_WIDTH < 64)
    (v p : Nat) (hq : v >>> c.OFFSET_WIDTH < NUM_PAGES c) (hp : p < NUM_PAGES c) :
    distance_to_page_swapped_in c v p =
      min (Nat.dist (v >>> c.OFFSET_WIDTH) p) (NUM_PAGES c - Nat.dist (v >>> c.OFFSET_WIDTH) p) := by
  have hN : NUM_PAGES c < 2 ^ 64 := Nat.pow_lt_pow_right (by norm_num) h64
  unfold distance_to_page_swapped_in Nat.dist
  generalize v >>> c.OFFSET_WIDTH = q at *
  generalize NUM_PAGES c = n at *
  simp only
  by_cases hqp : q > p
  · rw [if_pos hqp, u64_sub_of_le hN (by omega) (by omega)]
    split_ifs <;> omega
  · rw [if_neg hqp]
    by_cases hpq : p = q
    · subst hpq
      rw [Nat.sub_self, u64_sub_zero hN]
      split_ifs <;> omega
    · rw [u64_sub_of_le hN (by omega) (by omega)]
      split_ifs <;> omega

end VM

namespace VM

/-! ## The eviction search `choose_frame_3` -/

theorem first_max_nil (b : MaxDistanceFrame) : first_max b [] = b := rfl

theorem first_max_cons (b x : MaxDistanceFrame) (l : List MaxDistanceFrame) :
    first_max b (x :: l) = first_max (if x.distance > b.distance then x else b) l := rfl

theorem first_max_append (b : MaxDistanceFrame) (l1 l2 : List MaxDistanceFrame) :
    first_max b (l1 ++ l2) = first_max (first_max b l1) l2 := by
  unfold first_max
  rw [List.foldl_append]

theorem first_max_singleton (b x : MaxDistanceFrame) :
    first_max b [x] = if x.distance > b.distance then x else b := rfl

theorem first_max_step_assoc (b m x : MaxDistanceFrame) :
    first_max (first_max b [m]) [x] = first_max b [first_max m [x]] := by
  simp only [first_max_singleton]
  split_ifs <;> first | rfl | omega

/-- Searching a list from `best` is the same as comparing `best` with the result of searching
the list from any record `z` of distance 0. -/
theorem first_max_absorb (z : MaxDistanceFrame) (hz : z.distance = 0) (l : List MaxDistanceFrame)
    (b : MaxDistanceFrame) : first_max b l = first_max b [first_max z l] := by
  induction l using List.reverseRecOn with
  | nil =>
    simp only [first_max_nil, first_max_singleton, hz]
    rw [if_neg (by omega)]
  | append_singleton l x ih =>
    rw [first_max_append, first_max_append, ih, first_max_step_assoc]

theorem first_max_distance_ge (l : List MaxDistanceFrame) (b : MaxDistanceFrame) :
    b.distance ≤ (first_max b l).distance := by
  induction l generalizing b with
  | nil => exact le_refl _
  | cons x l ih =>
    rw [first_max_cons]
    refine le_trans ?_ (ih _)
    split_ifs <;> omega

/-- What `first_max` returns: either `best`, which no record of the list exceeds, or the record
at some position `k` that exceeds `best`, is exceeded by no record and is reached by none
before position `k`. -/
theorem first_max_spec (l : List MaxDistanceFrame) (b : MaxDistanceFrame) :
    (first_max b l = b ∧ ∀ x ∈ l, x.distance ≤ b.distance) ∨
    (∃ k, ∃ hk : k < l.length, l.get ⟨k, hk⟩ = first_max b l ∧
      b.distance < (first_max b l).distance ∧
      (∀ x ∈ l, x.distance ≤ (first_max b l).distance) ∧
      ∀ j, ∀ hj : j < l.length, j < k → (l.get ⟨j, hj⟩).distance < (first_max b l).distance) := by
  induction l generalizing b with
  | nil => left; exact ⟨rfl, fun x hx => absurd hx (List.not_mem_nil x)⟩
  | cons x l ih =>
    rw [first_max_cons]
    by_cases hx : x.distance > b.distance
    · rw [if_pos hx]
      right
      rcases ih x with ⟨h1, h2⟩ | ⟨k, hk, h1, h2, h3, h4⟩
      · refine ⟨0, Nat.succ_pos _, ?_, ?_, ?_, ?_⟩
        · rw [h1]; rfl
        · rw [h1]; exact hx
        · intro y hy
          rw [h1]
          rcases List.mem_cons.mp hy with rfl | hy
          · exact le_refl _
          · exact h2 y hy
        · intro j hj hj0; omega
      · refine ⟨k + 1, Nat.succ_lt_succ hk, ?_, ?_, ?_, ?_⟩
        · exact h1
        · omega
        · intro y hy
          rcases List.mem_cons.mp hy with rfl | hy
          · omega
          · exact h3 y hy
        · intro j hj hjk
          cases j with
          | zero => exact h2
          | succ j => exact h4 j (Nat.lt_of_succ_lt_succ hj) (by omega)
    · rw [if_neg hx]
      rcases ih b with ⟨h1, h2⟩ | ⟨k, hk, h1, h2, h3, h4⟩
      · left
        refine ⟨h1, ?_⟩
        intro y hy
        rcases List.mem_cons.mp hy with rfl | hy
        · omega
        · exact h2 y hy
      · right
        refine ⟨k + 1, Nat.succ_lt_succ hk, h1, h2, ?_, ?_⟩
        · intro y hy
          rcases List.mem_cons.mp hy with rfl | hy
          · omega
          · exact h3 y hy
        · intro j hj hjk
          cases j with
          | zero => show x.distance < _; omega
          | succ j => exact h4 j (Nat.lt_of_succ_lt_succ hj) (by omega)

theorem leaves_from_zero (c : Config) (ram : Nat → Nat) (va : Nat) (t : Nat × Nat × Nat) :
    leaves_from c ram va 0 t = [leaf_record c va t] := rfl

theorem leaves_from_succ (c : Config) (ram : Nat → Nat) (va n : Nat) (t : Nat × Nat × Nat) :
    leaves_from c ram va (n + 1) t =
      (List.range (PAGE_SIZE c)).flatMap (fun i =>
        if entry c ram t.1 i = 0 then []
        else leaves_from c ram va n
          (entry c ram t.1 i, u64 (t.1 * PAGE_SIZE c + i),
            u64 ((t.2.2 <<< ADDRESS_PART_SIZE c) + i))) := by
  unfold leaves_from
  rw [all_paths, List.filterMap_flatMap]
  congr 1
  funext i
  rw [List.filterMap_map]
  by_cases h : entry c ram t.1 i = 0
  · rw [if_pos h]
    apply List.filterMap_eq_nil_iff.mpr
    intro q _
    simp only [Function.comp, descend, if_pos h, Option.map_none']
  · rw [if_neg h]
    apply List.filterMap_congr
    intro q _
    simp only [Function.comp, descend, if_neg h]

theorem choose_frame_3_loop_eq (c : Config) (ram : Nat → Nat)
    (recurse : Nat → Nat → Nat → MaxDistanceFrame) (v p l : Nat) (hl : l < c.TABLES_DEPTH)
    (sub : Nat → List MaxDistanceFrame) (is : List Nat)
    (hrec : ∀ i ∈ is, entry c ram v i ≠ 0 → ∀ b,
      first_max b [recurse (entry c ram v i) (u64 (v * PAGE_SIZE c + i))
        (u64 ((p <<< ADDRESS_PART_SIZE c) + i))] = first_max b (sub i))
    (mf : MaxDistanceFrame) :
    choose_frame_3_loop c ram recurse v p l is mf.distance mf =
      first_max mf (is.flatMap (fun i => if entry c ram v i = 0 then [] else sub i)) := by
  induction is generalizing mf with
  | nil => rfl
  | cons i rest ih =>
    have ih1 := ih (fun j hj => hrec j (List.mem_cons_of_mem _ hj))
    rw [List.flatMap_cons, first_max_append]
    unfold choose_frame_3_loop
    simp only [PMread]
    by_cases h : entry c ram v i = 0
    · have h0 : ram (u64 (v * PAGE_SIZE c + i)) = 0 := h
      rw [if_pos h, first_max_nil, if_neg (by rw [h0]; simp)]
      exact ih1 mf
    · have h0 : ram (u64 (v * PAGE_SIZE c + i)) ≠ 0 := h
      rw [if_neg h, if_pos ⟨h0, hl⟩, ← hrec i (List.mem_cons_self _ _) h mf, first_max_singleton]
      have e : ram (u64 (v * PAGE_SIZE c + i)) = entry c ram v i := rfl
      rw [e]
      split_ifs with h2
      · exact ih1 _
      · exact ih1 mf

/-- The recursion of `choose_frame_3`: from a node at level `l` with `n` levels to go, comparing
the result with any record is searching the leaves below the node. -/
theorem choose_frame_3_fuel_eq (c : Config) (ram : Nat → Nat) (va : Nat) (n : Nat) :
    ∀ fuel v par p l, l + n = c.TABLES_DEPTH → n ≤ fuel → ∀ b,
      first_max b [choose_frame_3_fuel c ram va fuel v par p l] =
        first_max b (leaves_from c ram va n (v, par, p)) := by
  induction n with
  | zero =>
    intro fuel v par p l hl _ b
    have hl0 : l = c.TABLES_DEPTH := by omega
    rw [leaves_from_zero]
    cases fuel <;> simp only [choose_frame_3_fuel, choose_frame_3_body, if_pos hl0] <;> rfl
  | succ n ih =>
    intro fuel v par p l hl hfuel b
    have hl0 : l ≠ c.TABLES_DEPTH := by omega
    obtain ⟨fuel, rfl⟩ : ∃ f, fuel = f + 1 := ⟨fuel - 1, by omega⟩
    rw [leaves_from_succ]
    simp only [choose_frame_3_fuel, choose_frame_3_body, if_neg hl0]
    have hloop := choose_frame_3_loop_eq c ram
      (fun next_address current_address new_p =>
        choose_frame_3_fuel c ram va fuel next_address current_address new_p (l + 1))
      v p l (by omega)
      (fun i => leaves_from c ram va n
        (entry c ram v i, u64 (v * PAGE_SIZE c + i), u64 ((p <<< ADDRESS_PART_SIZE c) + i)))
      (List.range (PAGE_SIZE c))
      (fun i _ _ b => ih fuel _ _ _ (l + 1) (by omega) (by omega) b)
      ⟨0, 0, 0, 0⟩
    rw [hloop]
    exact (first_max_absorb ⟨0, 0, 0, 0⟩ rfl _ b).symm

theorem choose_frame_3_eq (c : Config) (ram : Nat → Nat) (va : Nat) (b : MaxDistanceFrame) :
    first_max b [choose_frame_3 c ram va 0 0 0 0] = first_max b (leaves c ram va) :=
  choose_frame_3_fuel_eq c ram va c.TABLES_DEPTH c.TABLES_DEPTH 0 0 0 0 (by omega) (le_refl _) b

/-- When some leaf has a positive distance, `choose_frame_3` returns the result of searching
the leaves from the zero record. -/
theorem choose_frame_3_eq_first_max (c : Config) (ram : Nat → Nat) (va : Nat)
    (hpos : ∃ x ∈ leaves c ram va, 0 < x.distance) :
    choose_frame_3 c ram va 0 0 0 0 = first_max ⟨0, 0, 0, 0⟩ (leaves c ram va) := by
  have h := choose_frame_3_eq c ram va ⟨0, 0, 0, 0⟩
  rw [first_max_singleton] at h
  obtain ⟨x, hx, hxpos⟩ := hpos
  rcases first_max_spec (leaves c ram va) ⟨0, 0, 0, 0⟩ with ⟨_, h2⟩ | ⟨k, hk, h1, h2, h3, h4⟩
  · have := h2 x hx
    simp only at this
    omega
  · split_ifs at h with h5
    · exact h
    · rw [← h] at h2
      simp only at h2
      omega

end VM

namespace VM

/-! ## Paths -/

theorem mem_all_paths (s n : Nat) (path : List Nat) :
    path ∈ all_paths s n ↔ path.length = n ∧ ∀ i ∈ path, i < s := by
  induction n generalizing path with
  | zero =>
    simp only [all_paths, List.mem_singleton]
    constructor
    · rintro rfl
      exact ⟨rfl, fun i hi => absurd hi (List.not_mem_nil i)⟩
    · rintro ⟨h, -⟩
      exact List.length_eq_zero.mp h
  | succ n ih =>
    simp only [all_paths, List.mem_flatMap, List.mem_range, List.mem_map]
    constructor
    · rintro ⟨i, hi, q, hq, rfl⟩
      obtain ⟨h1, h2⟩ := (ih q).mp hq
      refine ⟨by simp [h1], ?_⟩
      intro j hj
      rcases List.mem_cons.mp hj with rfl | hj
      · exact hi
      · exact h2 j hj
    · rintro ⟨h1, h2⟩
      cases path with
      | nil => simp at h1
      | cons i q =>
        refine ⟨i, h2 i (List.mem_cons_self _ _), q, (ih q).mpr ⟨?_, ?_⟩, rfl⟩
        · simpa using h1
        · exact fun j hj => h2 j (List.mem_cons_of_mem _ hj)

theorem walk_nil (c : Config) (ram : Nat → Nat) (f : Nat) : walk c ram [] f = some f := rfl

theorem walk_cons (c : Config) (ram : Nat → Nat) (i : Nat) (rest : List Nat) (f : Nat) :
    walk c ram (i :: rest) f =
      if entry c ram f i = 0 then none else walk c ram rest (entry c ram f i) := rfl

theorem walk_append (c : Config) (ram : Nat → Nat) (p q : List Nat) (f : Nat) :
    walk c ram (p ++ q) f = (walk c ram p f).bind (walk c ram q) := by
  induction p generalizing f with
  | nil => rfl
  | cons i rest ih =>
    rw [List.cons_append, walk_cons, walk_cons]
    split_ifs
    · rfl
    · exact ih _

theorem walk_snoc (c : Config) (ram : Nat → Nat) (p : List Nat) (i f : Nat) :
    walk c ram (p ++ [i]) f =
      (walk c ram p f).bind (fun g => if entry c ram g i = 0 then none else some (entry c ram g i)) := by
  rw [walk_append]
  rfl

/-- A chain ending in a frame splits at every point into a chain to an intermediate frame and a
chain from there. -/
theorem walk_append_some (c : Config) (ram : Nat → Nat) (p q : List Nat) (f g : Nat)
    (h : walk c ram (p ++ q) f = some g) :
    ∃ m, walk c ram p f = some m ∧ walk c ram q m = some g := by
  rw [walk_append] at h
  cases hp : walk c ram p f with
  | none => rw [hp] at h; exact absurd h (by simp)
  | some m => rw [hp] at h; exact ⟨m, rfl, h⟩

theorem walk_snoc_some (c : Config) (ram : Nat → Nat) (p : List Nat) (i f g : Nat)
    (h : walk c ram (p ++ [i]) f = some g) :
    ∃ m, walk c ram p f = some m ∧ entry c ram m i = g ∧ g ≠ 0 := by
  obtain ⟨m, h1, h2⟩ := walk_append_some c ram p [i] f g h
  rw [walk_cons] at h2
  split_ifs at h2 with h3
  rw [walk_nil] at h2
  have h4 : entry c ram m i = g := Option.some.inj h2
  exact ⟨m, h1, h4, h4 ▸ h3⟩

theorem walk_snoc_of (c : Config) (ram : Nat → Nat) (p : List Nat) (i f m : Nat)
    (h1 : walk c ram p f = some m) (h2 : entry c ram m i ≠ 0) :
    walk c ram (p ++ [i]) f = some (entry c ram m i) := by
  rw [walk_snoc, h1]
  simp only [Option.some_bind, if_neg h2]

theorem walk_take_some (c : Config) (ram : Nat → Nat) (p : List Nat) (f g : Nat) (k : Nat)
    (h : walk c ram p f = some g) : ∃ m, walk c ram (p.take k) f = some m := by
  rw [← List.take_append_drop k p] at h
  obtain ⟨m, h1, -⟩ := walk_append_some c ram _ _ f g h
  exact ⟨m, h1⟩

/-- The frame, the page number and the parent address of the node that `descend` reaches. -/
theorem descend_some (c : Config) (ram : Nat → Nat) (path : List Nat) :
    ∀ t t2 : Nat × Nat × Nat, descend c ram path t = some t2 →
      walk c ram path t.1 = some t2.1 ∧ t2.2.2 = page_from c t.2.2 path ∧
      (path = [] → t2 = t) ∧
      (∀ q i, path = q ++ [i] → ∃ g, walk c ram q t.1 = some g ∧
        t2.2.1 = u64 (g * PAGE_SIZE c + i) ∧ entry c ram g i = t2.1) := by
  induction path with
  | nil =>
    intro t t2 h
    simp only [descend, Option.some.injEq] at h
    subst h
    refine ⟨rfl, rfl, fun _ => rfl, ?_⟩
    intro q i hq
    exact absurd hq (by simp)
  | cons j rest ih =>
    intro t t2 h
    rw [descend] at h
    split_ifs at h with h0
    obtain ⟨h1, h2, h3, h4⟩ := ih _ t2 h
    refine ⟨?_, ?_, ?_, ?_⟩
    · rw [walk_cons, if_neg h0]; exact h1
    · rw [h2]; rfl
    · intro hnil; exact absurd hnil (by simp)
    · intro q i hq
      cases q with
      | nil =>
        simp only [List.nil_append, List.cons.injEq] at hq
        obtain ⟨rfl, rfl⟩ := hq
        have := h3 rfl
        refine ⟨t.1, rfl, ?_, ?_⟩
        · rw [this]
        · rw [this]
      | cons j2 q2 =>
        simp only [List.cons_append, List.cons.injEq] at hq
        obtain ⟨rfl, rfl⟩ := hq
        obtain ⟨g, hg1, hg2, hg3⟩ := h4 q2 i rfl
        refine ⟨g, ?_, hg2, hg3⟩
        rw [walk_cons, if_neg h0]
        exact hg1

theorem descend_of_walk (c : Config) (ram : Nat → Nat) (path : List Nat) :
    ∀ (t : Nat × Nat × Nat) (f : Nat), walk c ram path t.1 = some f →
      ∃ t2, descend c ram path t = some t2 := by
  induction path with
  | nil => intro t f _; exact ⟨t, rfl⟩
  | cons j rest ih =>
    intro t f h
    rw [walk_cons] at h
    split_ifs at h with h0
    rw [descend, if_neg h0]
    exact ih _ f h

theorem mem_leaves_from (c : Config) (ram : Nat → Nat) (va n : Nat) (t : Nat × Nat × Nat)
    (x : MaxDistanceFrame) :
    x ∈ leaves_from c ram va n t ↔
      ∃ path, path.length = n ∧ (∀ i ∈ path, i < PAGE_SIZE c) ∧
        ∃ t2, descend c ram path t = some t2 ∧ x = leaf_record c va t2 := by
  unfold leaves_from
  rw [List.mem_filterMap]
  constructor
  · rintro ⟨path, hp, hx⟩
    obtain ⟨h1, h2⟩ := (mem_all_paths _ _ _).mp hp
    cases hd : descend c ram path t with
    | none => rw [hd] at hx; simp at hx
    | some t2 =>
      rw [hd] at hx
      simp only [Option.map_some', Option.some.injEq] at hx
      exact ⟨path, h1, h2, t2, hd, hx.symm⟩
  · rintro ⟨path, h1, h2, t2, hd, rfl⟩
    exact ⟨path, (mem_all_paths _ _ _).mpr ⟨h1, h2⟩, by rw [hd]; rfl⟩

end VM

namespace VM

/-! ## The search for the largest frame number, `choose_frame_2` -/

theorem choose_frame_2_loop_spec (c : Config) (ram : Nat → Nat) (recurse : Nat → Nat)
    (v l : Nat) (is : List Nat) (m : Nat) :
    m ≤ choose_frame_2_loop c ram recurse v l is m ∧
    (∀ i ∈ is, entry c ram v i ≠ 0 → l < c.TABLES_DEPTH →
      recurse (entry c ram v i) ≤ choose_frame_2_loop c ram recurse v l is m) ∧
    (choose_frame_2_loop c ram recurse v l is m = m ∨
      ∃ i ∈ is, entry c ram v i ≠ 0 ∧ l < c.TABLES_DEPTH ∧
        choose_frame_2_loop c ram recurse v l is m = recurse (entry c ram v i)) := by
  induction is generalizing m with
  | nil =>
    refine ⟨le_refl _, ?_, Or.inl rfl⟩
    intro i hi
    exact absurd hi (List.not_mem_nil i)
  | cons i rest ih =>
    unfold choose_frame_2_loop
    have e : PMread ram (u64 (v * PAGE_SIZE c + i)) = entry c ram v i := rfl
    simp only [e]
    by_cases h : entry c ram v i ≠ 0 ∧ l < c.TABLES_DEPTH
    · rw [if_pos h]
      by_cases h2 : recurse (entry c ram v i) > m
      · rw [if_pos h2]
        obtain ⟨a1, a2, a3⟩ := ih (recurse (entry c ram v i))
        refine ⟨by omega, ?_, ?_⟩
        · intro j hj hj1 hj2
          rcases List.mem_cons.mp hj with rfl | hj
          · exact a1
          · exact a2 j hj hj1 hj2
        · right
          rcases a3 with a3 | ⟨j, hj, hj1, hj2, hj3⟩
          · exact ⟨i, List.mem_cons_self _ _, h.1, h.2, a3⟩
          · exact ⟨j, List.mem_cons_of_mem _ hj, hj1, hj2, hj3⟩
      · rw [if_neg h2]
        obtain ⟨a1, a2, a3⟩ := ih m
        refine ⟨a1, ?_, ?_⟩
        · intro j hj hj1 hj2
          rcases List.mem_cons.mp hj with rfl | hj
          · omega
          · exact a2 j hj hj1 hj2
        · rcases a3 with a3 | ⟨j, hj, hj1, hj2, hj3⟩
          · exact Or.inl a3
          · exact Or.inr ⟨j, List.mem_cons_of_mem _ hj, hj1, hj2, hj3⟩
    · rw [if_neg h]
      obtain ⟨a1, a2, a3⟩ := ih m
      refine ⟨a1, ?_, ?_⟩
      · intro j hj hj1 hj2
        rcases List.mem_cons.mp hj with rfl | hj
        · exact absurd ⟨hj1, hj2⟩ h
        · exact a2 j hj hj1 hj2
      · rcases a3 with a3 | ⟨j, hj, hj1, hj2, hj3⟩
        · exact Or.inl a3
        · exact Or.inr ⟨j, List.mem_cons_of_mem _ hj, hj1, hj2, hj3⟩

theorem choose_frame_2_fuel_unfold (c : Config) (ram : Nat → Nat) (fuel v l : Nat)
    (h : c.TABLES_DEPTH ≤ fuel + l) :
    ∃ recurse : Nat → Nat,
      choose_frame_2_fuel c ram fuel v l =
        choose_frame_2_loop c ram recurse v l (List.range (PAGE_SIZE c)) v ∧
      (l < c.TABLES_DEPTH → ∃ f2, c.TABLES_DEPTH ≤ f2 + (l + 1) ∧
        recurse = fun nv => choose_frame_2_fuel c ram f2 nv (l + 1)) := by
  cases fuel with
  | zero => exact ⟨fun _ => 0, rfl, fun hl => by omega⟩
  | succ f => exact ⟨_, rfl, fun _ => ⟨f, by omega, rfl⟩⟩

/-- Every frame within reach of the traversal is at most the result of `choose_frame_2`. -/
theorem choose_frame_2_fuel_ge (c : Config) (ram : Nat → Nat) (path : List Nat) :
    ∀ fuel v l f, c.TABLES_DEPTH ≤ fuel + l → path.length + l ≤ c.TABLES_DEPTH →
      (∀ i ∈ path, i < PAGE_SIZE c) → walk c ram path v = some f →
      f ≤ choose_frame_2_fuel c ram fuel v l := by
  induction path with
  | nil =>
    intro fuel v l f hf _ _ hw
    obtain ⟨recurse, e, -⟩ := choose_frame_2_fuel_unfold c ram fuel v l hf
    rw [e]
    rw [walk_nil] at hw
    have := (choose_frame_2_loop_spec c ram recurse v l (List.range (PAGE_SIZE c)) v).1
    have e2 : v = f := Option.some.inj hw
    omega
  | cons i rest ih =>
    intro fuel v l f hf hlen hidx hw
    obtain ⟨recurse, e, hr⟩ := choose_frame_2_fuel_unfold c ram fuel v l hf
    have hl : l < c.TABLES_DEPTH := by simp only [List.length_cons] at hlen; omega
    obtain ⟨f2, hf2, rfl⟩ := hr hl
    rw [walk_cons] at hw
    split_ifs at hw with h0
    have h1 := ih f2 (entry c ram v i) (l + 1) f hf2
      (by simp only [List.length_cons] at hlen; omega)
      (fun j hj => hidx j (List.mem_cons_of_mem _ hj)) hw
    have h2 := (choose_frame_2_loop_spec c ram
      (fun nv => choose_frame_2_fuel c ram f2 nv (l + 1)) v l (List.range (PAGE_SIZE c)) v).2.1 i
      (List.mem_range.mpr (hidx i (List.mem_cons_self _ _))) h0 hl
    rw [e]
    exact le_trans h1 h2

/-- The result of `choose_frame_2` is a frame within reach of the traversal. -/
theorem choose_frame_2_fuel_mem (c : Config) (ram : Nat → Nat) (n : Nat) :
    ∀ fuel v l, c.TABLES_DEPTH ≤ fuel + l → l + n = c.TABLES_DEPTH →
      ∃ path, path.length + l ≤ c.TABLES_DEPTH ∧ (∀ i ∈ path, i < PAGE_SIZE c) ∧
        walk c ram path v = some (choose_frame_2_fuel c ram fuel v l) := by
  induction n with
  | zero =>
    intro fuel v l hf hl
    obtain ⟨recurse, e, -⟩ := choose_frame_2_fuel_unfold c ram fuel v l hf
    rcases (choose_frame_2_loop_spec c ram recurse v l (List.range (PAGE_SIZE c)) v).2.2 with
      h | ⟨i, -, -, h2, -⟩
    · refine ⟨[], by simp only [List.length_nil]; omega,
        fun i hi => absurd hi (List.not_mem_nil i), ?_⟩
      rw [e, h, walk_nil]
    · omega
  | succ n ih =>
    intro fuel v l hf hl
    obtain ⟨recurse, e, hr⟩ := choose_frame_2_fuel_unfold c ram fuel v l hf
    obtain ⟨f2, hf2, rfl⟩ := hr (by omega)
    rcases (choose_frame_2_loop_spec c ram _ v l (List.range (PAGE_SIZE c)) v).2.2 with
      h | ⟨i, hi, h1, h2, h3⟩
    · refine ⟨[], by simp only [List.length_nil]; omega,
        fun i hi => absurd hi (List.not_mem_nil i), ?_⟩
      rw [e, h, walk_nil]
    · obtain ⟨path, hp1, hp2, hp3⟩ := ih f2 (entry c ram v i) (l + 1) hf2 (by omega)
      refine ⟨i :: path, by simp only [List.length_cons]; omega, ?_, ?_⟩
      · intro j hj
        rcases List.mem_cons.mp hj with rfl | hj
        · exact List.mem_range.mp hi
        · exact hp2 j hj
      · rw [walk_cons, if_neg h1, e, h3]
        exact hp3

theorem choose_frame_2_ge (c : Config) (ram : Nat → Nat) (path : List Nat) (f : Nat)
    (hlen : path.length ≤ c.TABLES_DEPTH) (hidx : ∀ i ∈ path, i < PAGE_SIZE c)
    (hw : walk c ram path 0 = some f) : f ≤ choose_frame_2 c ram 0 0 :=
  choose_frame_2_fuel_ge c ram path c.TABLES_DEPTH 0 0 f (by omega) (by omega) hidx hw

theorem choose_frame_2_mem (c : Config) (ram : Nat → Nat) :
    ∃ path, path.length ≤ c.TABLES_DEPTH ∧ (∀ i ∈ path, i < PAGE_SIZE c) ∧
      walk c ram path 0 = some (choose_frame_2 c ram 0 0) := by
  obtain ⟨path, h1, h2, h3⟩ :=
    choose_frame_2_fuel_mem c ram c.TABLES_DEPTH c.TABLES_DEPTH 0 0 (by omega) (by omega)
  exact ⟨path, by omega, h2, h3⟩

end VM

namespace VM

/-! ## The guard `verify` -/

theorem verify_loop_ne_zero_iff (c : Config) (ram : Nat → Nat) (va g : Nat) (hg : g ≠ 0)
    (js : List Nat) : ∀ last, verify_loop c ram va g js last ≠ 0 ↔
      ∀ m, m < js.length →
        walk c ram ((js.take (m + 1)).map (fun i => get_address_part c i va)) last ≠ some g := by
  induction js with
  | nil =>
    intro last
    simp only [verify_loop, List.length_nil]
    constructor
    · intro _ m hm; omega
    · intro _; exact one_ne_zero
  | cons i rest ih =>
    intro last
    unfold verify_loop
    have e : PMread ram (u64 (last * PAGE_SIZE c + get_address_part c i va))
        = entry c ram last (get_address_part c i va) := rfl
    simp only [e]
    by_cases h1 : entry c ram last (get_address_part c i va) = g
    · rw [if_pos h1]
      constructor
      · intro h; exact absurd rfl h
      · intro h
        exfalso
        apply h 0 (by simp)
        simp only [List.take_succ_cons, List.take_zero, List.map_cons, List.map_nil, walk_cons,
          walk_nil, h1, if_neg hg]
    · rw [if_neg h1]
      by_cases h2 : entry c ram last (get_address_part c i va) = 0
      · rw [if_pos h2]
        constructor
        · intro _ m _
          simp only [List.take_succ_cons, List.map_cons, walk_cons, if_pos h2]
          exact fun h => absurd h (by simp)
        · intro _; exact one_ne_zero
      · rw [if_neg h2, ih]
        constructor
        · intro h m hm
          cases m with
          | zero =>
            simp only [List.take_succ_cons, List.take_zero, List.map_cons, List.map_nil, walk_cons,
              walk_nil, if_neg h2]
            exact fun h3 => h1 (Option.some.inj h3)
          | succ m =>
            have := h m (by simp only [List.length_cons] at hm; omega)
            simp only [List.take_succ_cons, List.map_cons, walk_cons, if_neg h2]
            exact this
        · intro h m hm
          have := h (m + 1) (by simp only [List.length_cons]; omega)
          simp only [List.take_succ_cons, List.map_cons, walk_cons, if_neg h2] at this
          exact this

/-- The guard accepts a frame exactly when it is not frame 0 and is not one of the frames that
the walk along the address reaches below the root. -/
theorem verify_ne_zero_iff (c : Config) (ram : Nat → Nat) (va g : Nat) :
    verify c ram va g ≠ 0 ↔
      g ≠ 0 ∧ ∀ m, m < c.TABLES_DEPTH →
        walk c ram ((address_parts c va).take (m + 1)) 0 ≠ some g := by
  unfold verify
  by_cases hg : g = 0
  · rw [if_pos hg]
    constructor
    · intro h; exact absurd rfl h
    · intro h; exact absurd hg h.1
  · rw [if_neg hg, verify_loop_ne_zero_iff c ram va g hg]
    simp only [List.length_range]
    constructor
    · intro h
      refine ⟨hg, fun m hm => ?_⟩
      have := h m hm
      rw [address_parts_take c va (m + 1) hm]
      rw [List.take_range, Nat.min_eq_left (by omega)] at this
      exact this
    · rintro ⟨-, h⟩ m hm
      have := h m hm
      rw [address_parts_take c va (m + 1) hm] at this
      rw [List.take_range, Nat.min_eq_left (by omega)]
      exact this

/-! ## The search for an empty table, `choose_frame_1` -/

theorem choose_frame_1_loop_some (c : Config) (ram : Nat → Nat)
    (recurse : Nat → Nat → ZerosFrame) (v l : Nat) (is : List Nat) :
    ∀ z r z2, choose_frame_1_loop c ram recurse v l is z = (some r, z2) →
      r.is_found ≠ 0 ∧ ∃ i ∈ is, entry c ram v i ≠ 0 ∧ l + 1 < c.TABLES_DEPTH ∧
        r = recurse (entry c ram v i) (u64 (v * PAGE_SIZE c + i)) := by
  induction is with
  | nil => intro z r z2 h; simp [choose_frame_1_loop] at h
  | cons i rest ih =>
    intro z r z2 h
    unfold choose_frame_1_loop at h
    have e : PMread ram (u64 (v * PAGE_SIZE c + i)) = entry c ram v i := rfl
    simp only [e] at h
    have lift : ∀ z3, choose_frame_1_loop c ram recurse v l rest z3 = (some r, z2) →
        r.is_found ≠ 0 ∧ ∃ i2 ∈ i :: rest, entry c ram v i2 ≠ 0 ∧ l + 1 < c.TABLES_DEPTH ∧
          r = recurse (entry c ram v i2) (u64 (v * PAGE_SIZE c + i2)) := by
      intro z3 h3
      obtain ⟨a1, j, hj, a2⟩ := ih z3 r z2 h3
      exact ⟨a1, j, List.mem_cons_of_mem _ hj, a2⟩
    split_ifs at h with h1 h2 h3
    · simp only [Prod.mk.injEq, Option.some.injEq] at h
      obtain ⟨rfl, -⟩ := h
      exact ⟨h3, i, List.mem_cons_self _ _, h1, h2, rfl⟩
    · exact lift _ h
    · exact lift _ h
    · exact lift _ h

theorem choose_frame_1_loop_none (c : Config) (ram : Nat → Nat)
    (recurse : Nat → Nat → ZerosFrame) (v l : Nat) (is : List Nat) :
    ∀ z z2, choose_frame_1_loop c ram recurse v l is z = (none, z2) →
      (∀ i ∈ is, entry c ram v i ≠ 0 → l + 1 < c.TABLES_DEPTH →
        (recurse (entry c ram v i) (u64 (v * PAGE_SIZE c + i))).is_found = 0) ∧
      (z2 ≠ 0 ↔ (z ≠ 0 ∧ ∀ i ∈ is, entry c ram v i = 0)) := by
  induction is with
  | nil =>
    intro z z2 h
    simp only [choose_frame_1_loop, Prod.mk.injEq, true_and] at h
    subst h
    refine ⟨fun i hi => absurd hi (List.not_mem_nil i), ?_⟩
    constructor
    · intro hz; exact ⟨hz, fun i hi => absurd hi (List.not_mem_nil i)⟩
    · intro hz; exact hz.1
  | cons i rest ih =>
    intro z z2 h
    unfold choose_frame_1_loop at h
    have e : PMread ram (u64 (v * PAGE_SIZE c + i)) = entry c ram v i := rfl
    simp only [e] at h
    split_ifs at h with h1 h2 h3
    · simp at h
    · obtain ⟨a1, a2⟩ := ih _ _ h
      refine ⟨?_, ?_⟩
      · intro j hj hj1 hj2
        rcases List.mem_cons.mp hj with rfl | hj
        · exact not_not.mp h3
        · exact a1 j hj hj1 hj2
      · constructor
        · intro hz; exact absurd rfl (a2.mp hz).1
        · intro hz; exact absurd (hz.2 i (List.mem_cons_self _ _)) h1
    · obtain ⟨a1, a2⟩ := ih _ _ h
      refine ⟨?_, ?_⟩
      · intro j hj hj1 hj2
        rcases List.mem_cons.mp hj with rfl | hj
        · exact absurd hj2 h2
        · exact a1 j hj hj1 hj2
      · constructor
        · intro hz; exact absurd rfl (a2.mp hz).1
        · intro hz; exact absurd (hz.2 i (List.mem_cons_self _ _)) h1
    · obtain ⟨a1, a2⟩ := ih _ _ h
      have h0 : entry c ram v i = 0 := not_not.mp h1
      refine ⟨?_, ?_⟩
      · intro j hj hj1 hj2
        rcases List.mem_cons.mp hj with rfl | hj
        · exact absurd h0 hj1
        · exact a1 j hj hj1 hj2
      · constructor
        · intro hz
          obtain ⟨b1, b2⟩ := a2.mp hz
          refine ⟨b1, ?_⟩
          intro j hj
          rcases List.mem_cons.mp hj with rfl | hj
          · exact h0
          · exact b2 j hj
        · intro hz
          exact a2.mpr ⟨hz.1, fun j hj => hz.2 j (List.mem_cons_of_mem _ hj)⟩

theorem choose_frame_1_fuel_unfold (c : Config) (ram : Nat → Nat) (va fuel v par l : Nat)
    (h : c.TABLES_DEPTH ≤ fuel + l + 1) :
    ∃ recurse : Nat → Nat → ZerosFrame,
      choose_frame_1_fuel c ram va fuel v par l = choose_frame_1_body c ram va recurse v par l ∧
      (l + 1 < c.TABLES_DEPTH → ∃ f2, c.TABLES_DEPTH ≤ f2 + (l + 1) + 1 ∧
        recurse = fun nv np => choose_frame_1_fuel c ram va f2 nv np (l + 1)) := by
  cases fuel with
  | zero => exact ⟨fun _ _ => ⟨0, 0⟩, rfl, fun hl => by omega⟩
  | succ f => exact ⟨_, rfl, fun _ => ⟨f, by omega, rfl⟩⟩

/-- The two ways in which the body of `choose_frame_1` returns. -/
theorem choose_frame_1_body_cases (c : Config) (ram : Nat → Nat) (va : Nat)
    (recurse : Nat → Nat → ZerosFrame) (v par l : Nat) :
    (∃ i, i < PAGE_SIZE c ∧ entry c ram v i ≠ 0 ∧ l + 1 < c.TABLES_DEPTH ∧
      (recurse (entry c ram v i) (u64 (v * PAGE_SIZE c + i))).is_found ≠ 0 ∧
      choose_frame_1_body c ram va recurse v par l
        = recurse (entry c ram v i) (u64 (v * PAGE_SIZE c + i))) ∨
    ((∀ i, i < PAGE_SIZE c → entry c ram v i ≠ 0 → l + 1 < c.TABLES_DEPTH →
        (recurse (entry c ram v i) (u64 (v * PAGE_SIZE c + i))).is_found = 0) ∧
      choose_frame_1_body c ram va recurse v par l
        = if (∀ i, i < PAGE_SIZE c → entry c ram v i = 0) ∧ verify c ram va v ≠ 0
          then ⟨1, par⟩ else ⟨0, 0⟩) := by
  unfold choose_frame_1_body
  cases hloop : choose_frame_1_loop c ram recurse v l (List.range (PAGE_SIZE c)) 1 with
  | mk res z2 =>
    cases res with
    | some r =>
      left
      obtain ⟨a1, i, hi, a2, a3, a4⟩ := choose_frame_1_loop_some c ram recurse v l _ _ _ _ hloop
      exact ⟨i, List.mem_range.mp hi, a2, a3, a4 ▸ a1, a4⟩
    | none =>
      right
      obtain ⟨a1, a2⟩ := choose_frame_1_loop_none c ram recurse v l _ _ _ hloop
      refine ⟨fun i hi => a1 i (List.mem_range.mpr hi), ?_⟩
      simp only
      have e : (z2 ≠ 0) ↔ (∀ i, i < PAGE_SIZE c → entry c ram v i = 0) := by
        rw [a2]
        constructor
        · rintro ⟨-, h⟩ i hi; exact h i (List.mem_range.mpr hi)
        · intro h; exact ⟨one_ne_zero, fun i hi => h i (List.mem_range.mp hi)⟩
      by_cases hz : z2 ≠ 0 ∧ verify c ram va v ≠ 0
      · rw [if_pos hz, if_pos ⟨e.mp hz.1, hz.2⟩]
      · rw [if_neg hz, if_neg (fun h => hz ⟨e.mpr h.1, h.2⟩)]

/-- Soundness of `choose_frame_1`: a reported table is a node within reach of the traversal,
all its entries are 0, the guard accepts it, and the reported parent is the address of the
entry that refers to it. -/
theorem choose_frame_1_fuel_sound (c : Config) (ram : Nat → Nat) (va : Nat) (n : Nat) :
    ∀ fuel v par p l, c.TABLES_DEPTH ≤ fuel + l + 1 → c.TABLES_DEPTH ≤ l + n →
      (choose_frame_1_fuel c ram va fuel v par l).is_found ≠ 0 →
      ∃ path t2, (path = [] ∨ path.length + l < c.TABLES_DEPTH) ∧
        (∀ i ∈ path, i < PAGE_SIZE c) ∧ descend c ram path (v, par, p) = some t2 ∧
        t2.2.1 = (choose_frame_1_fuel c ram va fuel v par l).parent ∧
        (∀ i, i < PAGE_SIZE c → entry c ram t2.1 i = 0) ∧ verify c ram va t2.1 ≠ 0 := by
  induction n with
  | zero =>
    intro fuel v par p l hf hn hfound
    obtain ⟨recurse, e, -⟩ := choose_frame_1_fuel_unfold c ram va fuel v par l hf
    rw [e] at hfound ⊢
    rcases choose_frame_1_body_cases c ram va recurse v par l with
      ⟨i, -, -, h3, -, -⟩ | ⟨-, h2⟩
    · omega
    · rw [h2] at hfound ⊢
      split_ifs at hfound ⊢ with h3
      · exact ⟨[], (v, par, p), Or.inl rfl, fun i hi => absurd hi (List.not_mem_nil i), rfl, rfl,
          h3.1, h3.2⟩
      · exact absurd rfl hfound
  | succ n ih =>
    intro fuel v par p l hf hn hfound
    obtain ⟨recurse, e, hr⟩ := choose_frame_1_fuel_unfold c ram va fuel v par l hf
    rw [e] at hfound ⊢
    rcases choose_frame_1_body_cases c ram va recurse v par l with
      ⟨i, h1, h2, h3, h4, h5⟩ | ⟨-, h2⟩
    · obtain ⟨f2, hf2, hrec⟩ := hr h3
      rw [h5, hrec]
      rw [hrec] at h4
      obtain ⟨path, t2, a1, a2, a3, a4, a5, a6⟩ := ih f2 (entry c ram v i)
        (u64 (v * PAGE_SIZE c + i)) (u64 ((p <<< ADDRESS_PART_SIZE c) + i)) (l + 1) hf2
        (by omega) h4
      refine ⟨i :: path, t2, Or.inr ?_, ?_, ?_, a4, a5, a6⟩
      · rcases a1 with rfl | a1
        · simp only [List.length_singleton]; omega
        · simp only [List.length_cons]; omega
      · intro j hj
        rcases List.mem_cons.mp hj with rfl | hj
        · exact h1
        · exact a2 j hj
      · rw [descend, if_neg h2]
        exact a3
    · rw [h2] at hfound ⊢
      split_ifs at hfound ⊢ with h3
      · exact ⟨[], (v, par, p), Or.inl rfl, fun i hi => absurd hi (List.not_mem_nil i), rfl, rfl,
          h3.1, h3.2⟩
      · exact absurd rfl hfound

/-- Completeness of `choose_frame_1`: when nothing is reported, the guard rejects every node
within reach of the traversal all of whose entries are 0. -/
theorem choose_frame_1_fuel_complete (c : Config) (ram : Nat → Nat) (va : Nat) (path : List Nat) :
    ∀ fuel v par l g, c.TABLES_DEPTH ≤ fuel + l + 1 →
      (choose_frame_1_fuel c ram va fuel v par l).is_found = 0 →
      (path = [] ∨ path.length + l < c.TABLES_DEPTH) → (∀ i ∈ path, i < PAGE_SIZE c) →
      walk c ram path v = some g → (∀ i, i < PAGE_SIZE c → entry c ram g i = 0) →
      verify c ram va g = 0 := by
  induction path with
  | nil =>
    intro fuel v par l g hf hnot _ _ hw hzero
    obtain ⟨recurse, e, -⟩ := choose_frame_1_fuel_unfold c ram va fuel v par l hf
    rw [e] at hnot
    rw [walk_nil] at hw
    have hv : v = g := Option.some.inj hw
    subst hv
    rcases choose_frame_1_body_cases c ram va recurse v par l with
      ⟨i, -, -, -, h4, h5⟩ | ⟨-, h2⟩
    · rw [h5] at hnot; exact absurd hnot h4
    · rw [h2] at hnot
      by_contra hver
      rw [if_pos ⟨hzero, hver⟩] at hnot
      exact absurd hnot (by simp)
  | cons i rest ih =>
    intro fuel v par l g hf hnot hlen hidx hw hzero
    obtain ⟨recurse, e, hr⟩ := choose_frame_1_fuel_unfold c ram va fuel v par l hf
    rw [e] at hnot
    have hl : l + 1 < c.TABLES_DEPTH := by
      rcases hlen with h | h
      · exact absurd h (by simp)
      · simp only [List.length_cons] at h; omega
    obtain ⟨f2, hf2, rfl⟩ := hr hl
    rw [walk_cons] at hw
    split_ifs at hw with h0
    rcases choose_frame_1_body_cases c ram va
        (fun nv np => choose_frame_1_fuel c ram va f2 nv np (l + 1)) v par l with
      ⟨j, -, -, -, h4, h5⟩ | ⟨h1, -⟩
    · rw [h5] at hnot; exact absurd hnot h4
    · have h3 := h1 i (hidx i (List.mem_cons_self _ _)) h0 hl
      refine ih f2 (entry c ram v i) (u64 (v * PAGE_SIZE c + i)) (l + 1) g hf2 h3 ?_
        (fun j hj => hidx j (List.mem_cons_of_mem _ hj)) hw hzero
      rcases hlen with h | h
      · exact absurd h (by simp)
      · by_cases hrest : rest = []
        · exact Or.inl hrest
        · right; simp only [List.length_cons] at h; omega

end VM

namespace VM

/-! ## Physical addresses of entries -/

theorem page_size_pos (c : Config) : 0 < PAGE_SIZE c := Nat.pow_pos (by norm_num)

theorem entry_addr_eq (c : Config) (h : c.WF) (f i : Nat) (hf : f < c.NUM_FRAMES)
    (hi : i < PAGE_SIZE c) : u64 (f * PAGE_SIZE c + i) = f * PAGE_SIZE c + i := by
  apply u64_of_lt
  have h1 : (f + 1) * PAGE_SIZE c ≤ c.NUM_FRAMES * PAGE_SIZE c :=
    Nat.mul_le_mul_right _ hf
  have h2 := h.ram_fits
  rw [Nat.add_mul, Nat.one_mul] at h1
  omega

theorem entry_addr_inj (c : Config) (h : c.WF) (f1 i1 f2 i2 : Nat) (hf1 : f1 < c.NUM_FRAMES)
    (hi1 : i1 < PAGE_SIZE c) (hf2 : f2 < c.NUM_FRAMES) (hi2 : i2 < PAGE_SIZE c)
    (e : u64 (f1 * PAGE_SIZE c + i1) = u64 (f2 * PAGE_SIZE c + i2)) : f1 = f2 ∧ i1 = i2 := by
  rw [entry_addr_eq c h f1 i1 hf1 hi1, entry_addr_eq c h f2 i2 hf2 hi2] at e
  have hpos := page_size_pos c
  have a1 : (f1 * PAGE_SIZE c + i1) / PAGE_SIZE c = f1 := by
    rw [Nat.mul_comm, Nat.mul_add_div hpos, Nat.div_eq_of_lt hi1, Nat.add_zero]
  have a2 : (f2 * PAGE_SIZE c + i2) / PAGE_SIZE c = f2 := by
    rw [Nat.mul_comm, Nat.mul_add_div hpos, Nat.div_eq_of_lt hi2, Nat.add_zero]
  have hf : f1 = f2 := by rw [← a1, ← a2, e]
  subst hf
  exact ⟨rfl, by omega⟩

/-! ## Valid paths -/

theorem validPath_nil (c : Config) : ValidPath c [] :=
  ⟨Nat.zero_le _, fun i hi => absurd hi (List.not_mem_nil i)⟩

theorem validPath_of_append (c : Config) (p q : List Nat) (h : ValidPath c (p ++ q)) :
    ValidPath c p := by
  refine ⟨?_, fun i hi => h.2 i (List.mem_append_left _ hi)⟩
  have := h.1
  rw [List.length_append] at this
  omega

theorem validPath_snoc (c : Config) (p : List Nat) (i : Nat) (h : ValidPath c p)
    (hlen : p.length < c.TABLES_DEPTH) (hi : i < PAGE_SIZE c) : ValidPath c (p ++ [i]) := by
  refine ⟨by rw [List.length_append, List.length_singleton]; omega, ?_⟩
  intro j hj
  rcases List.mem_append.mp hj with hj | hj
  · exact h.2 j hj
  · rw [List.mem_singleton.mp hj]; exact hi

theorem validPath_snoc_index (c : Config) (p : List Nat) (i : Nat) (h : ValidPath c (p ++ [i])) :
    i < PAGE_SIZE c := h.2 i (List.mem_append_right _ (List.mem_singleton.mpr rfl))

theorem validPath_snoc_length (c : Config) (p : List Nat) (i : Nat)
    (h : ValidPath c (p ++ [i])) : p.length < c.TABLES_DEPTH := by
  have := h.1
  rw [List.length_append, List.length_singleton] at this
  omega

theorem validPath_take_parts (c : Config) (h : c.WF)
    (hP : ADDRESS_PART_SIZE c ≤ c.OFFSET_WIDTH) (va k : Nat) :
    ValidPath c ((address_parts c va).take k) := by
  refine ⟨?_, ?_⟩
  · rw [List.length_take, address_parts_length]; omega
  · intro i hi
    have h1 := address_parts_mem_lt c h va i (List.mem_of_mem_take hi)
    have h2 : (2 : Nat) ^ ADDRESS_PART_SIZE c ≤ 2 ^ c.OFFSET_WIDTH :=
      Nat.pow_le_pow_right (by norm_num) hP
    unfold PAGE_SIZE
    omega

theorem length_take_parts (c : Config) (va k : Nat) (hk : k ≤ c.TABLES_DEPTH) :
    ((address_parts c va).take k).length = k := by
  rw [List.length_take, address_parts_length]; omega

/-! ## Walks in two memories -/

/-- A walk reads the same frames in two memories that agree on the entries it reads. -/
theorem walk_congr (c : Config) (ram1 ram2 : Nat → Nat) (path : List Nat) :
    ∀ f, (∀ q i rest g, path = q ++ i :: rest → walk c ram1 q f = some g →
        entry c ram2 g i = entry c ram1 g i) →
      walk c ram2 path f = walk c ram1 path f := by
  induction path with
  | nil => intro f _; rfl
  | cons j rest ih =>
    intro f h
    have h0 : entry c ram2 f j = entry c ram1 f j := h [] j rest f rfl rfl
    rw [walk_cons, walk_cons, h0]
    split_ifs with h1
    · rfl
    · apply ih
      intro q i rest2 g hq hw
      apply h (j :: q) i rest2 g (by rw [hq]; rfl)
      rw [walk_cons, if_neg h1]
      exact hw

theorem inTree_root (c : Config) (ram : Nat → Nat) : InTree c ram 0 :=
  ⟨[], validPath_nil c, rfl⟩

/-- In a tree of the right shape only the empty chain reaches frame 0. -/
theorem TreeShape.ne_zero {c : Config} {ram : Nat → Nat} (hs : TreeShape c ram)
    (path : List Nat) (f : Nat) (hv : ValidPath c path) (hne : path ≠ [])
    (hw : walk c ram path 0 = some f) : f ≠ 0 := by
  intro hf
  subst hf
  exact hne (hs.inj path [] 0 hv (validPath_nil c) hw rfl)

/-! ## Removing a reference -/

/-- Setting one entry to 0 removes chains from the tree and adds none. -/
theorem walk_of_walk_unlink (c : Config) (ram : Nat → Nat) (a : Nat) (path : List Nat) :
    ∀ f g, walk c (fun x => if x = a then 0 else ram x) path f = some g →
      walk c ram path f = some g := by
  induction path with
  | nil => intro f g h; exact h
  | cons i rest ih =>
    intro f g h
    rw [walk_cons] at h
    split_ifs at h with h0
    have e : entry c (fun x => if x = a then 0 else ram x) f i = entry c ram f i := by
      unfold entry PMread at h0 ⊢
      simp only at h0 ⊢
      split_ifs at h0 ⊢ with h1
      · exact absurd rfl h0
      · rfl
    rw [e] at h h0
    rw [walk_cons, if_neg h0]
    exact ih _ _ h

/-- The chains of the tree after the entry that refers to a node was set to 0: the chains of the
tree before that do not pass through the node. -/
theorem walk_unlink_iff (c : Config) (h : c.WF) (ram : Nat → Nat) (hs : TreeShape c ram)
    (q : List Nat) (i m : Nat) (hq : ValidPath c (q ++ [i])) (hm : walk c ram q 0 = some m)
    (path : List Nat) (hp : ValidPath c path) (f : Nat) :
    walk c (fun x => if x = u64 (m * PAGE_SIZE c + i) then 0 else ram x) path 0 = some f ↔
      walk c ram path 0 = some f ∧ ¬ (q ++ [i]) <+: path := by
  constructor
  · intro hw
    refine ⟨walk_of_walk_unlink c ram _ path 0 f hw, ?_⟩
    rintro ⟨rest, rfl⟩
    obtain ⟨x, hx, -⟩ := walk_append_some c _ _ _ _ _ hw
    obtain ⟨m2, hm2, hx2, hx0⟩ := walk_snoc_some c _ _ _ _ _ hx
    have := walk_of_walk_unlink c ram _ q 0 m2 hm2
    rw [hm] at this
    have e : m = m2 := Option.some.inj this
    subst e
    apply hx0
    rw [← hx2]
    unfold entry PMread
    simp only [if_pos]
  · rintro ⟨hw, hnp⟩
    induction path using List.reverseRecOn generalizing f with
    | nil => exact hw
    | append_singleton r j ih =>
      obtain ⟨m2, hm2, hj, hf0⟩ := walk_snoc_some c ram r j 0 f hw
      have hr : ValidPath c r := validPath_of_append c r [j] hp
      have ih1 := ih hr m2 hm2 (fun hpre => hnp (hpre.trans (List.prefix_append r [j])))
      have e : entry c (fun x => if x = u64 (m * PAGE_SIZE c + i) then 0 else ram x) m2 j
          = entry c ram m2 j := by
        unfold entry PMread
        simp only
        split_ifs with h1
        · exfalso
          have hb1 := hs.bound r m2 hr hm2
          have hb2 := hs.bound q m (validPath_of_append c q [i] hq) hm
          obtain ⟨e1, e2⟩ := entry_addr_inj c h m2 j m i hb1 (validPath_snoc_index c r j hp) hb2
            (validPath_snoc_index c q i hq) h1
          subst e1 e2
          have := hs.inj r q m2 hr (validPath_of_append c q [j] hq) hm2 hm
          subst this
          exact hnp (List.prefix_refl _)
        · rfl
      rw [walk_snoc, ih1]
      simp only [Option.some_bind, e, hj, if_neg hf0]

end VM

namespace VM

/-! ## The tree after a reference was removed -/

theorem treeShape_unlink (c : Config) (ram : Nat → Nat) (hs : TreeShape c ram) (a : Nat) :
    TreeShape c (fun x => if x = a then 0 else ram x) where
  bound := fun path f hv hw => hs.bound path f hv (walk_of_walk_unlink c ram a path 0 f hw)
  inj := fun p1 p2 f h1 h2 w1 w2 => hs.inj p1 p2 f h1 h2
    (walk_of_walk_unlink c ram a p1 0 f w1) (walk_of_walk_unlink c ram a p2 0 f w2)
  parts := fun path f hv hw => hs.parts path f hv (walk_of_walk_unlink c ram a path 0 f hw)

/-- Removing the reference to a node without descendants takes exactly the frame of that node
out of the tree. -/
theorem inTree_unlink_iff (c : Config) (h : c.WF) (ram : Nat → Nat) (hs : TreeShape c ram)
    (q : List Nat) (i m g : Nat) (hq : ValidPath c (q ++ [i])) (hm : walk c ram q 0 = some m)
    (hg : walk c ram (q ++ [i]) 0 = some g)
    (hleaf : ∀ path f, ValidPath c path → (q ++ [i]) <+: path → walk c ram path 0 = some f →
      path = q ++ [i]) (f : Nat) :
    InTree c (fun x => if x = u64 (m * PAGE_SIZE c + i) then 0 else ram x) f ↔
      InTree c ram f ∧ f ≠ g := by
  constructor
  · rintro ⟨path, hv, hw⟩
    obtain ⟨hw1, hnp⟩ := (walk_unlink_iff c h ram hs q i m hq hm path hv f).mp hw
    refine ⟨⟨path, hv, hw1⟩, ?_⟩
    rintro rfl
    have := hs.inj path (q ++ [i]) f hv hq hw1 hg
    subst this
    exact hnp (List.prefix_refl _)
  · rintro ⟨⟨path, hv, hw⟩, hne⟩
    refine ⟨path, hv, (walk_unlink_iff c h ram hs q i m hq hm path hv f).mpr ⟨hw, ?_⟩⟩
    intro hpre
    have := hleaf path f hv hpre hw
    subst this
    rw [hg] at hw
    exact hne (Option.some.inj hw).symm

/-- The state after the reference to a node without descendants was removed. -/
theorem preLink_unlink (c : Config) (h : c.WF) (ram : Nat → Nat) (hinv : TreeInv c ram)
    (q : List Nat) (i m g : Nat) (hq : ValidPath c (q ++ [i])) (hm : walk c ram q 0 = some m)
    (hg : walk c ram (q ++ [i]) 0 = some g)
    (hleaf : ∀ path f, ValidPath c path → (q ++ [i]) <+: path → walk c ram path 0 = some f →
      path = q ++ [i]) :
    PreLink c (fun x => if x = u64 (m * PAGE_SIZE c + i) then 0 else ram x) g where
  shape := treeShape_unlink c ram hinv.shape _
  pos := hinv.shape.ne_zero (q ++ [i]) g hq (by simp) hg
  lt := hinv.shape.bound _ _ hq hg
  fresh := fun hin =>
    ((inTree_unlink_iff c h ram hinv.shape q i m g hq hm hg hleaf g).mp hin).2 rfl
  closed := by
    intro f x hf hx
    have hin : InTree c ram f := by
      rcases hf with hf | rfl
      · exact ((inTree_unlink_iff c h ram hinv.shape q i m g hq hm hg hleaf f).mp hf).1
      · exact ⟨q ++ [i], hq, hg⟩
    have hx2 := hinv.closed f x hin hx
    by_cases hxg : x = g
    · exact Or.inr hxg
    · exact Or.inl
        ((inTree_unlink_iff c h ram hinv.shape q i m g hq hm hg hleaf x).mpr ⟨hx2, hxg⟩)

/-! ## The tree after a frame was linked and initialised -/

/-- The chains of the tree after the frame `g` was written into the entry `j` of the frame at
the end of the chain `pre` and the words of `g` were set: the chains of the tree before, and
the chain `pre ++ [j]`, which reaches `g`. -/
theorem walk_link_iff (c : Config) (h : c.WF) (ram ram2 : Nat → Nat) (g : Nat)
    (hpl : PreLink c ram g) (pre : List Nat) (j fk : Nat) (hpre : ValidPath c (pre ++ [j]))
    (hw : walk c ram pre 0 = some fk) (hz : entry c ram fk j = 0)
    (h1 : ram2 (u64 (fk * PAGE_SIZE c + j)) = g)
    (h2 : ∀ a, a ≠ u64 (fk * PAGE_SIZE c + j) → (∀ i, i < PAGE_SIZE c → a ≠ u64 (g * PAGE_SIZE c + i)) →
      ram2 a = ram a)
    (h3 : pre.length + 1 < c.TABLES_DEPTH → ∀ i, i < PAGE_SIZE c → entry c ram2 g i = 0)
    (path : List Nat) (hp : ValidPath c path) (f : Nat) :
    walk c ram2 path 0 = some f ↔
      walk c ram path 0 = some f ∨ (path = pre ++ [j] ∧ f = g) := by
  have hvpre : ValidPath c pre := validPath_of_append c pre [j] hpre
  have hfk : fk < c.NUM_FRAMES := hpl.shape.bound pre fk hvpre hw
  have hj : j < PAGE_SIZE c := validPath_snoc_index c pre j hpre
  -- entries of frames of the old tree are unchanged, except the entry that was written
  have hsame : ∀ r x m2, ValidPath c (r ++ [x]) → walk c ram r 0 = some m2 →
      (r = pre ∧ x = j) ∨ entry c ram2 m2 x = entry c ram m2 x := by
    intro r x m2 hrx hm2
    have hr : ValidPath c r := validPath_of_append c r [x] hrx
    have hx : x < PAGE_SIZE c := validPath_snoc_index c r x hrx
    have hb : m2 < c.NUM_FRAMES := hpl.shape.bound r m2 hr hm2
    by_cases ha : u64 (m2 * PAGE_SIZE c + x) = u64 (fk * PAGE_SIZE c + j)
    · left
      obtain ⟨e1, e2⟩ := entry_addr_inj c h m2 x fk j hb hx hfk hj ha
      subst e1 e2
      exact ⟨hpl.shape.inj r pre m2 hr hvpre hm2 hw, rfl⟩
    · right
      unfold entry PMread
      apply h2 _ ha
      intro i hi hai
      obtain ⟨e1, -⟩ := entry_addr_inj c h m2 x g i hb hx hpl.lt hi hai
      subst e1
      exact hpl.fresh ⟨r, hr, hm2⟩
  have hold : ∀ path f, ValidPath c path → walk c ram path 0 = some f →
      walk c ram2 path 0 = some f := by
    intro path f hp hwp
    rw [← hwp]
    apply walk_congr
    intro q i rest m2 hq hm2
    have hqi : ValidPath c (q ++ [i]) := by
      apply validPath_of_append c (q ++ [i]) rest
      rw [List.append_assoc]
      exact hq ▸ hp
    rcases hsame q i m2 hqi hm2 with ⟨rfl, rfl⟩ | e
    · exfalso
      rw [hq] at hwp
      have : q ++ i :: rest = (q ++ [i]) ++ rest := by rw [List.append_assoc]; rfl
      rw [this] at hwp
      obtain ⟨x, hx, -⟩ := walk_append_some c ram _ _ _ _ hwp
      obtain ⟨m3, hm3, hx2, hx0⟩ := walk_snoc_some c ram _ _ _ _ hx
      rw [hw] at hm3
      have e3 : fk = m3 := Option.some.inj hm3
      subst e3
      exact hx0 (hx2 ▸ hz)
    · exact e
  have hnew : walk c ram2 (pre ++ [j]) 0 = some g := by
    have e : entry c ram2 fk j = g := h1
    have := walk_snoc_of c ram2 pre j 0 fk (hold pre fk hvpre hw) (by rw [e]; exact hpl.pos)
    rw [e] at this
    exact this
  constructor
  · intro hw2
    induction path using List.reverseRecOn generalizing f with
    | nil => left; exact hw2
    | append_singleton r x ih =>
      obtain ⟨m2, hm2, hx, hf0⟩ := walk_snoc_some c ram2 r x 0 f hw2
      have hr : ValidPath c r := validPath_of_append c r [x] hp
      rcases ih hr m2 hm2 with hm2o | ⟨rfl, rfl⟩
      · rcases hsame r x m2 hp hm2o with ⟨rfl, rfl⟩ | e
        · right
          rw [hnew] at hw2
          exact ⟨rfl, (Option.some.inj hw2).symm⟩
        · left
          rw [e] at hx
          have := walk_snoc_of c ram r x 0 m2 hm2o (by rw [hx]; exact hf0)
          rw [hx] at this
          exact this
      · exfalso
        have hlen := validPath_snoc_length c _ x hp
        rw [List.length_append, List.length_singleton] at hlen
        have := h3 hlen x (validPath_snoc_index c _ x hp)
        exact hf0 (hx ▸ this)
  · rintro (hwo | ⟨rfl, rfl⟩)
    · exact hold path f hp hwo
    · exact hnew

/-- Linking the frame that `find_frame` returned restores the invariant. -/
theorem treeInv_link (c : Config) (h : c.WF) (ram ram2 : Nat → Nat) (g : Nat)
    (hpl : PreLink c ram g) (pre : List Nat) (j fk : Nat) (hpre : ValidPath c (pre ++ [j]))
    (hparts : ∃ va, va < 2 ^ c.VIRTUAL_ADDRESS_WIDTH ∧
      pre ++ [j] = (address_parts c va).take (pre ++ [j]).length)
    (hw : walk c ram pre 0 = some fk) (hz : entry c ram fk j = 0)
    (h1 : ram2 (u64 (fk * PAGE_SIZE c + j)) = g)
    (h2 : ∀ a, a ≠ u64 (fk * PAGE_SIZE c + j) → (∀ i, i < PAGE_SIZE c → a ≠ u64 (g * PAGE_SIZE c + i)) →
      ram2 a = ram a)
    (h3 : pre.length + 1 < c.TABLES_DEPTH → ∀ i, i < PAGE_SIZE c → entry c ram2 g i = 0) :
    TreeInv c ram2 ∧ walk c ram2 (pre ++ [j]) 0 = some g := by
  have hiff := walk_link_iff c h ram ram2 g hpl pre j fk hpre hw hz h1 h2 h3
  have hin : ∀ f, InTree c ram2 f ↔ InTree c ram f ∨ f = g := by
    intro f
    constructor
    · rintro ⟨path, hv, hwp⟩
      rcases (hiff path hv f).mp hwp with hwo | ⟨-, rfl⟩
      · exact Or.inl ⟨path, hv, hwo⟩
      · exact Or.inr rfl
    · rintro (⟨path, hv, hwp⟩ | rfl)
      · exact ⟨path, hv, (hiff path hv f).mpr (Or.inl hwp)⟩
      · exact ⟨pre ++ [j], hpre, (hiff _ hpre f).mpr (Or.inr ⟨rfl, rfl⟩)⟩
  refine ⟨⟨⟨?_, ?_, ?_⟩, ?_⟩, (hiff _ hpre g).mpr (Or.inr ⟨rfl, rfl⟩)⟩
  · intro path f hv hwp
    rcases (hiff path hv f).mp hwp with hwo | ⟨-, rfl⟩
    · exact hpl.shape.bound path f hv hwo
    · exact hpl.lt
  · intro p1 p2 f hv1 hv2 w1 w2
    rcases (hiff p1 hv1 f).mp w1 with a1 | ⟨a1, a2⟩
    · rcases (hiff p2 hv2 f).mp w2 with b1 | ⟨b1, b2⟩
      · exact hpl.shape.inj p1 p2 f hv1 hv2 a1 b1
      · exact absurd ⟨p1, hv1, b2 ▸ a1⟩ hpl.fresh
    · rcases (hiff p2 hv2 f).mp w2 with b1 | ⟨b1, b2⟩
      · exact absurd ⟨p2, hv2, a2 ▸ b1⟩ hpl.fresh
      · rw [a1, b1]
  · intro path f hv hwp
    rcases (hiff path hv f).mp hwp with hwo | ⟨rfl, -⟩
    · exact hpl.shape.parts path f hv hwo
    · exact hparts
  · intro f x hf hx
    exact (hin x).mpr (hpl.closed f x ((hin f).mp hf) hx)

end VM

namespace VM

/-! ## The walk along an address at the moment `find_frame` is called -/

theorem take_take_parts (c : Config) (va j k : Nat) (hjk : j ≤ k) :
    ((address_parts c va).take k).take j = (address_parts c va).take j := by
  rw [List.take_take, Nat.min_eq_left hjk]

/-- The frames on the part of the walk already done. -/
theorem WalkState.walk_le {c : Config} {ram : Nat → Nat} {va k fk : Nat}
    (hs : WalkState c ram va k fk) (j : Nat) (hj : j ≤ k) :
    ∃ m, walk c ram ((address_parts c va).take j) 0 = some m := by
  have := walk_take_some c ram _ 0 fk j hs.walk_pre
  rw [take_take_parts c va j k hj] at this
  exact this

/-- The walk does not go beyond the entry that is 0. -/
theorem WalkState.walk_gt {c : Config} {ram : Nat → Nat} {va k fk : Nat}
    (hs : WalkState c ram va k fk) (j : Nat) (hj : k < j) (m : Nat) :
    walk c ram ((address_parts c va).take j) 0 ≠ some m := by
  intro hw
  obtain ⟨x, hx⟩ := walk_take_some c ram _ 0 m (k + 1) hw
  rw [take_take_parts c va (k + 1) j hj, address_parts_take_succ c va k hs.level_lt] at hx
  obtain ⟨m2, hm2, hx2, hx0⟩ := walk_snoc_some c ram _ _ _ _ hx
  rw [hs.walk_pre] at hm2
  have e : fk = m2 := Option.some.inj hm2
  subst e
  exact hx0 (hx2 ▸ hs.zero)

theorem WalkState.walk_parts_none {c : Config} {ram : Nat → Nat} {va k fk : Nat}
    (hs : WalkState c ram va k fk) (m : Nat) :
    walk c ram (address_parts c va) 0 ≠ some m := by
  have := hs.walk_gt c.TABLES_DEPTH hs.level_lt m
  rw [List.take_of_length_le (by rw [address_parts_length])] at this
  exact this

/-- The guard rejects exactly frame 0 and the frames on the part of the walk already done. -/
theorem WalkState.verify_iff {c : Config} {ram : Nat → Nat} {va k fk : Nat}
    (hs : WalkState c ram va k fk) (g : Nat) :
    verify c ram va g ≠ 0 ↔
      g ≠ 0 ∧ ∀ j, j ≤ k → walk c ram ((address_parts c va).take j) 0 ≠ some g := by
  rw [verify_ne_zero_iff]
  constructor
  · rintro ⟨h0, h1⟩
    refine ⟨h0, fun j hj => ?_⟩
    cases j with
    | zero =>
      intro hw
      exact h0 (Option.some.inj hw).symm
    | succ j => exact h1 j (by have := hs.level_lt; omega)
  · rintro ⟨h0, h1⟩
    refine ⟨h0, fun m _ => ?_⟩
    by_cases hmk : m + 1 ≤ k
    · exact h1 (m + 1) hmk
    · exact hs.walk_gt (m + 1) (by omega) g

theorem exists_snoc (l : List Nat) (h : l ≠ []) : ∃ q i, l = q ++ [i] := by
  rcases List.eq_nil_or_concat l with hnil | ⟨q, i, e⟩
  · exact absurd hnil h
  · exact ⟨q, i, by rw [e, List.concat_eq_append]⟩

/-! ## `find_frame`: the first priority -/

/-- A table that `choose_frame_1` reports can be taken out of the tree. -/
theorem find_frame_first (c : Config) (h : c.WF) (hP : ADDRESS_PART_SIZE c ≤ c.OFFSET_WIDTH)
    (ram : Nat → Nat) (va k fk : Nat) (hs : WalkState c ram va k fk)
    (hfound : (choose_frame_1 c ram va 0 0 0).is_found ≠ 0) :
    PreLink c (fun x => if x = (choose_frame_1 c ram va 0 0 0).parent then 0 else ram x)
        (PMread ram (choose_frame_1 c ram va 0 0 0).parent) ∧
      walk c (fun x => if x = (choose_frame_1 c ram va 0 0 0).parent then 0 else ram x)
        ((address_parts c va).take k) 0 = some fk := by
  obtain ⟨path, t2, a1, a2, a3, a4, a5, a6⟩ := choose_frame_1_fuel_sound c ram va c.TABLES_DEPTH
    c.TABLES_DEPTH 0 0 0 0 (by omega) (by omega) hfound
  obtain ⟨b1, -, b3, b4⟩ := descend_some c ram path _ _ a3
  have hne : path ≠ [] := by
    intro hnil
    have := b3 hnil
    rw [this] at a6
    exact a6 rfl
  obtain ⟨q, i, rfl⟩ := exists_snoc path hne
  have hlen : (q ++ [i]).length < c.TABLES_DEPTH := by
    rcases a1 with a1 | a1
    · exact absurd a1 hne
    · omega
  have hq : ValidPath c (q ++ [i]) := ⟨by omega, a2⟩
  obtain ⟨m, hm, hpar, hent⟩ := b4 q i rfl
  have hpar2 : (choose_frame_1 c ram va 0 0 0).parent = u64 (m * PAGE_SIZE c + i) := by
    rw [← hpar]; exact a4.symm
  have hres : PMread ram (choose_frame_1 c ram va 0 0 0).parent = t2.1 := by
    rw [hpar2]; exact hent
  rw [hres, hpar2]
  simp only at b1
  have hleaf : ∀ path f, ValidPath c path → (q ++ [i]) <+: path → walk c ram path 0 = some f →
      path = q ++ [i] := by
    rintro path f hv ⟨rest, rfl⟩ hw
    cases rest with
    | nil => rw [List.append_nil]
    | cons x rest =>
      exfalso
      obtain ⟨g2, hg2, hw2⟩ := walk_append_some c ram _ _ _ _ hw
      rw [b1] at hg2
      have e : t2.1 = g2 := Option.some.inj hg2
      subst e
      rw [walk_cons] at hw2
      have hx : x < PAGE_SIZE c :=
        hv.2 x (List.mem_append_right _ (List.mem_cons_self _ _))
      rw [if_pos (a5 x hx)] at hw2
      exact absurd hw2 (by simp)
  refine ⟨preLink_unlink c h ram hs.inv q i m t2.1 hq hm b1 hleaf, ?_⟩
  apply (walk_unlink_iff c h ram hs.inv.shape q i m hq hm _
    (validPath_take_parts c h hP va k) fk).mpr
  refine ⟨hs.walk_pre, ?_⟩
  intro hpre
  have hpre2 : (q ++ [i]) <+: address_parts c va := hpre.trans (List.take_prefix _ _)
  have e := List.prefix_iff_eq_take.mp hpre2
  have hk : (q ++ [i]).length ≤ k := by
    have := hpre.length_le
    rw [length_take_parts c va k (le_of_lt hs.level_lt)] at this
    exact this
  have := ((hs.verify_iff t2.1).mp a6).2 (q ++ [i]).length hk
  rw [← e] at this
  exact this b1

/-! ## `find_frame`: the second priority -/

/-- A frame number above all frame numbers of the tree can be added to the tree. -/
theorem find_frame_second (c : Config) (h : c.WF) (ram : Nat → Nat) (hinv : TreeInv c ram)
    (hlt : c.NUM_FRAMES > u64 (choose_frame_2 c ram 0 0 + 1)) :
    PreLink c ram (u64 (choose_frame_2 c ram 0 0 + 1)) := by
  obtain ⟨path, hp1, hp2, hp3⟩ := choose_frame_2_mem c ram
  have hmax : choose_frame_2 c ram 0 0 < c.NUM_FRAMES := hinv.shape.bound path _ ⟨hp1, hp2⟩ hp3
  have hfit := h.ram_fits
  have hpos := page_size_pos c
  have hF : c.NUM_FRAMES < 2 ^ 64 :=
    lt_of_le_of_lt (Nat.le_mul_of_pos_right _ hpos) hfit
  have e : u64 (choose_frame_2 c ram 0 0 + 1) = choose_frame_2 c ram 0 0 + 1 :=
    u64_of_lt (by omega)
  rw [e] at hlt ⊢
  refine ⟨hinv.shape, by omega, hlt, ?_, ?_⟩
  · rintro ⟨p, hv, hw⟩
    have := choose_frame_2_ge c ram p _ hv.1 hv.2 hw
    omega
  · intro f x hf hx
    left
    rcases hf with hf | rfl
    · exact hinv.closed f x hf hx
    · by_cases hxm : x = choose_frame_2 c ram 0 0
      · exact hxm ▸ ⟨path, ⟨hp1, hp2⟩, hp3⟩
      · exact hinv.closed _ x ⟨path, ⟨hp1, hp2⟩, hp3⟩ (by omega)

end VM

namespace VM

/-! ## `find_frame`: the third priority -/

/-- Among more than `k + 1` frames there is one that is not among `k + 1` given ones. -/
theorem exists_off_path (fr : Nat → Nat) (k n : Nat) (hk : k + 1 < n) :
    ∃ x, x < n ∧ ∀ j, j ≤ k → fr j ≠ x := by
  by_contra hcon
  push_neg at hcon
  have hsub : Finset.range n ⊆ (Finset.range (k + 1)).image fr := by
    intro x hx
    obtain ⟨j, hj, e⟩ := hcon x (Finset.mem_range.mp hx)
    exact Finset.mem_image.mpr ⟨j, Finset.mem_range.mpr (by omega), e⟩
  have h1 := Finset.card_le_card hsub
  have h2 := Finset.card_image_le (s := Finset.range (k + 1)) (f := fr)
  rw [Finset.card_range] at h1 h2
  omega

/-- When `choose_frame_1` reports nothing, below every node that is not on the walk there is a
leaf: a table off the walk has a non-zero entry, and what it refers to is off the walk too. -/
theorem exists_leaf_below (c : Config) (h : c.WF) (hP : ADDRESS_PART_SIZE c ≤ c.OFFSET_WIDTH)
    (ram : Nat → Nat) (va k fk : Nat) (hs : WalkState c ram va k fk)
    (hnot : (choose_frame_1 c ram va 0 0 0).is_found = 0) (n : Nat) :
    ∀ ph x, ValidPath c ph → ph.length + n = c.TABLES_DEPTH → walk c ram ph 0 = some x →
      (∀ j, j ≤ k → walk c ram ((address_parts c va).take j) 0 ≠ some x) →
      ∃ lp lf, lp.length = c.TABLES_DEPTH ∧ (∀ i ∈ lp, i < PAGE_SIZE c) ∧
        walk c ram lp 0 = some lf := by
  induction n with
  | zero =>
    intro ph x hv hlen hw _
    exact ⟨ph, x, by omega, hv.2, hw⟩
  | succ n ih =>
    intro ph x hv hlen hw hoff
    have hx0 : x ≠ 0 := by
      intro hx
      apply hoff 0 (Nat.zero_le _)
      rw [List.take_zero, walk_nil, hx]
    have hex : ∃ i, i < PAGE_SIZE c ∧ entry c ram x i ≠ 0 := by
      by_contra hcon
      push_neg at hcon
      have hver := choose_frame_1_fuel_complete c ram va ph c.TABLES_DEPTH 0 0 0 x (by omega)
        hnot (Or.inr (by omega)) hv.2 hw hcon
      exact ((hs.verify_iff x).mpr ⟨hx0, hoff⟩) hver
    obtain ⟨i, hi, hent⟩ := hex
    have hv2 : ValidPath c (ph ++ [i]) := validPath_snoc c ph i hv (by omega) hi
    have hw2 := walk_snoc_of c ram ph i 0 x hw hent
    apply ih (ph ++ [i]) (entry c ram x i) hv2
      (by rw [List.length_append, List.length_singleton]; omega) hw2
    intro j hj hwj
    have hkD := hs.level_lt
    have e := hs.inv.shape.inj _ _ _ (validPath_take_parts c h hP va j) hv2 hwj hw2
    have hlenj : j = ph.length + 1 := by
      have := congrArg List.length e
      rw [length_take_parts c va j (by omega), List.length_append, List.length_singleton] at this
      exact this
    have e2 : (address_parts c va).take (j - 1) = ph := by
      rw [← take_take_parts c va (j - 1) j (by omega), e, hlenj, Nat.add_sub_cancel,
        List.take_left']
      rfl
    apply hoff (j - 1) (by omega)
    rw [e2]
    exact hw

/-- A leaf of the tree holds a page other than the one being swapped in, at a positive
distance. -/
theorem leaf_distance_pos (c : Config) (h : c.WF) (ram : Nat → Nat) (va k fk : Nat)
    (hs : WalkState c ram va k fk) (lp : List Nat) (lf : Nat)
    (hlen : lp.length = c.TABLES_DEPTH) (hidx : ∀ i ∈ lp, i < PAGE_SIZE c)
    (hw : walk c ram lp 0 = some lf) :
    ∃ va2, va2 < 2 ^ c.VIRTUAL_ADDRESS_WIDTH ∧ lp = address_parts c va2 ∧
      page_from c 0 lp = va2 >>> c.OFFSET_WIDTH ∧
      0 < distance_to_page_swapped_in c va (page_from c 0 lp) := by
  obtain ⟨va2, hva2, e⟩ := hs.inv.shape.parts lp lf ⟨by omega, hidx⟩ hw
  rw [List.take_of_length_le (by rw [address_parts_length, hlen])] at e
  have hpage : page_from c 0 lp = va2 >>> c.OFFSET_WIDTH := by
    rw [e]; exact page_from_address_parts c h va2 hva2
  refine ⟨va2, hva2, e, hpage, ?_⟩
  have hne : va >>> c.OFFSET_WIDTH ≠ va2 >>> c.OFFSET_WIDTH := by
    intro heq
    have := address_parts_page c h va va2 heq
    apply hs.walk_parts_none lf
    rw [this, ← e]
    exact hw
  have h64 : c.VIRTUAL_ADDRESS_WIDTH - c.OFFSET_WIDTH < 64 := by
    have := h.width_lt; omega
  have hq := page_lt c h va hs.addr_lt
  have hp := page_lt c h va2 hva2
  rw [hpage, distance_eq c h64 va _ hq hp]
  generalize va >>> c.OFFSET_WIDTH = a at hne hq
  generalize va2 >>> c.OFFSET_WIDTH = b at hne hp
  generalize NUM_PAGES c = n at hq hp
  unfold Nat.dist
  omega

/-- When some leaf has a positive distance, `choose_frame_3` returns the record of a leaf. -/
theorem choose_frame_3_is_leaf (c : Config) (ram : Nat → Nat) (va : Nat)
    (hex : ∃ x ∈ leaves c ram va, 0 < x.distance) :
    ∃ path t2, path.length = c.TABLES_DEPTH ∧ (∀ i ∈ path, i < PAGE_SIZE c) ∧
      descend c ram path (0, 0, 0) = some t2 ∧
      choose_frame_3 c ram va 0 0 0 0 = leaf_record c va t2 := by
  rw [choose_frame_3_eq_first_max c ram va hex]
  rcases first_max_spec (leaves c ram va) ⟨0, 0, 0, 0⟩ with ⟨_, h2⟩ | ⟨k, hk, h1, -, -, -⟩
  · obtain ⟨x, hx, hxd⟩ := hex
    have := h2 x hx
    simp only at this
    omega
  · have hin : first_max ⟨0, 0, 0, 0⟩ (leaves c ram va) ∈ leaves c ram va := by
      rw [← h1]
      exact List.get_mem _ _ _
    obtain ⟨path, hp1, hp2, t2, hd, hrec⟩ := (mem_leaves_from c ram va _ _ _).mp hin
    exact ⟨path, t2, hp1, hp2, hd, hrec⟩

/-- What `choose_frame_3` returns when the first two priorities fail: a leaf of the tree, with
the address of the entry that refers to it and the number of the page it holds. -/
theorem find_frame_third_leaf (c : Config) (h : c.WF) (hF : c.TABLES_DEPTH < c.NUM_FRAMES)
    (hP : ADDRESS_PART_SIZE c ≤ c.OFFSET_WIDTH) (ram : Nat → Nat) (va k fk : Nat)
    (hs : WalkState c ram va k fk)
    (hnot : (choose_frame_1 c ram va 0 0 0).is_found = 0)
    (hfull : ¬ c.NUM_FRAMES > u64 (choose_frame_2 c ram 0 0 + 1)) :
    ∃ q i m va2, ValidPath c (q ++ [i]) ∧ (q ++ [i]).length = c.TABLES_DEPTH ∧
      walk c ram q 0 = some m ∧
      walk c ram (q ++ [i]) 0 = some (choose_frame_3 c ram va 0 0 0 0).frame ∧
      (choose_frame_3 c ram va 0 0 0 0).parent = u64 (m * PAGE_SIZE c + i) ∧
      va2 < 2 ^ c.VIRTUAL_ADDRESS_WIDTH ∧ q ++ [i] = address_parts c va2 ∧
      (choose_frame_3 c ram va 0 0 0 0).page_num = va2 >>> c.OFFSET_WIDTH := by
  -- every frame of the memory is in the tree
  obtain ⟨pmax, hp1, hp2, hp3⟩ := choose_frame_2_mem c ram
  have hmax : choose_frame_2 c ram 0 0 < c.NUM_FRAMES := hs.inv.shape.bound pmax _ ⟨hp1, hp2⟩ hp3
  have hfit := h.ram_fits
  have hpos := page_size_pos c
  have hF64 : c.NUM_FRAMES < 2 ^ 64 :=
    lt_of_le_of_lt (Nat.le_mul_of_pos_right _ hpos) hfit
  have e : u64 (choose_frame_2 c ram 0 0 + 1) = choose_frame_2 c ram 0 0 + 1 :=
    u64_of_lt (by omega)
  rw [e] at hfull
  have hall : ∀ x, x < c.NUM_FRAMES → InTree c ram x := by
    intro x hx
    by_cases hxm : x = choose_frame_2 c ram 0 0
    · exact hxm ▸ ⟨pmax, ⟨hp1, hp2⟩, hp3⟩
    · exact hs.inv.closed _ x ⟨pmax, ⟨hp1, hp2⟩, hp3⟩ (by omega)
  -- one of them is not on the walk
  have hkD := hs.level_lt
  obtain ⟨x, hx, hoff⟩ := exists_off_path
    (fun j => (walk c ram ((address_parts c va).take j) 0).getD 0) k c.NUM_FRAMES (by omega)
  obtain ⟨ph, hv, hw⟩ := hall x hx
  have hoff2 : ∀ j, j ≤ k → walk c ram ((address_parts c va).take j) 0 ≠ some x := by
    intro j hj hwj
    apply hoff j hj
    simp only [hwj, Option.getD_some]
  -- below it there is a leaf, at a positive distance
  obtain ⟨lp, lf, hl1, hl2, hl3⟩ := exists_leaf_below c h hP ram va k fk hs hnot
    (c.TABLES_DEPTH - ph.length) ph x hv (by have := hv.1; omega) hw hoff2
  obtain ⟨-, -, -, -, hdist⟩ := leaf_distance_pos c h ram va k fk hs lp lf hl1 hl2 hl3
  obtain ⟨t0, ht0⟩ := descend_of_walk c ram lp (0, 0, 0) lf hl3
  have hex : ∃ y ∈ leaves c ram va, 0 < y.distance := by
    refine ⟨leaf_record c va t0,
      (mem_leaves_from c ram va _ _ _).mpr ⟨lp, hl1, hl2, t0, ht0, rfl⟩, ?_⟩
    obtain ⟨-, hp, -, -⟩ := descend_some c ram lp _ _ ht0
    simp only [leaf_record, hp]
    exact hdist
  -- so the search returns a leaf
  obtain ⟨path, t2, a1, a2, a3, a4⟩ := choose_frame_3_is_leaf c ram va hex
  obtain ⟨b1, b2, -, b4⟩ := descend_some c ram path _ _ a3
  have hne : path ≠ [] := by
    intro hnil
    rw [hnil] at a1
    have := h.depth_pos
    simp only [List.length_nil] at a1
    omega
  obtain ⟨q, i, rfl⟩ := exists_snoc path hne
  obtain ⟨m, hm, hpar, -⟩ := b4 q i rfl
  obtain ⟨va2, hva2, e2, hpage, -⟩ := leaf_distance_pos c h ram va k fk hs (q ++ [i]) t2.1 a1 a2 b1
  rw [a4]
  refine ⟨q, i, m, va2, ⟨by omega, a2⟩, a1, hm, b1, hpar, hva2, e2, ?_⟩
  show t2.2.2 = _
  rw [b2, hpage]

/-- A leaf that `choose_frame_3` returns can be taken out of the tree. -/
theorem find_frame_third (c : Config) (h : c.WF) (hF : c.TABLES_DEPTH < c.NUM_FRAMES)
    (hP : ADDRESS_PART_SIZE c ≤ c.OFFSET_WIDTH) (ram : Nat → Nat) (va k fk : Nat)
    (hs : WalkState c ram va k fk)
    (hnot : (choose_frame_1 c ram va 0 0 0).is_found = 0)
    (hfull : ¬ c.NUM_FRAMES > u64 (choose_frame_2 c ram 0 0 + 1)) :
    PreLink c (fun x => if x = (choose_frame_3 c ram va 0 0 0 0).parent then 0 else ram x)
        (choose_frame_3 c ram va 0 0 0 0).frame ∧
      walk c (fun x => if x = (choose_frame_3 c ram va 0 0 0 0).parent then 0 else ram x)
        ((address_parts c va).take k) 0 = some fk := by
  obtain ⟨q, i, m, va2, hq, hlen, hm, hw, hpar, -, -, -⟩ :=
    find_frame_third_leaf c h hF hP ram va k fk hs hnot hfull
  rw [hpar]
  have hleaf : ∀ path f, ValidPath c path → (q ++ [i]) <+: path → walk c ram path 0 = some f →
      path = q ++ [i] := by
    rintro path f hv ⟨rest, rfl⟩ _
    have := hv.1
    rw [List.length_append, hlen] at this
    have hr : rest = [] := List.length_eq_zero.mp (by omega)
    rw [hr, List.append_nil]
  refine ⟨preLink_unlink c h ram hs.inv q i m _ hq hm hw hleaf, ?_⟩
  apply (walk_unlink_iff c h ram hs.inv.shape q i m hq hm _
    (validPath_take_parts c h hP va k) fk).mpr
  refine ⟨hs.walk_pre, ?_⟩
  intro hpre
  have := hpre.length_le
  rw [length_take_parts c va k (le_of_lt hs.level_lt), hlen] at this
  have := hs.level_lt
  omega

end VM

namespace VM

/-! ## `find_frame` -/

theorem PMwrite_ram (pm : PM) (a v : Nat) :
    (PMwrite pm a v).ram = fun x => if x = a then v else pm.ram x := rfl

theorem PMevict_ram (c : Config) (pm : PM) (f p : Nat) : (PMevict c pm f p).ram = pm.ram := rfl

theorem find_frame_first_eq (c : Config) (pm : PM) (va : Nat)
    (hfound : (choose_frame_1 c pm.ram va 0 0 0).is_found ≠ 0) :
    find_frame c pm va = (PMread pm.ram (choose_frame_1 c pm.ram va 0 0 0).parent,
      PMwrite pm (choose_frame_1 c pm.ram va 0 0 0).parent 0) := by
  unfold find_frame
  simp only [if_pos hfound]

theorem find_frame_second_eq (c : Config) (pm : PM) (va : Nat)
    (hnot : (choose_frame_1 c pm.ram va 0 0 0).is_found = 0)
    (hlt : c.NUM_FRAMES > u64 (choose_frame_2 c pm.ram 0 0 + 1)) :
    find_frame c pm va = (u64 (choose_frame_2 c pm.ram 0 0 + 1), pm) := by
  unfold find_frame
  simp only [hnot, ne_eq, not_true_eq_false, if_false, if_pos hlt]

theorem find_frame_third_eq (c : Config) (pm : PM) (va : Nat)
    (hnot : (choose_frame_1 c pm.ram va 0 0 0).is_found = 0)
    (hfull : ¬ c.NUM_FRAMES > u64 (choose_frame_2 c pm.ram 0 0 + 1)) :
    find_frame c pm va = ((choose_frame_3 c pm.ram va 0 0 0 0).frame,
      PMevict c (PMwrite pm (choose_frame_3 c pm.ram va 0 0 0 0).parent 0)
        (choose_frame_3 c pm.ram va 0 0 0 0).frame (choose_frame_3 c pm.ram va 0 0 0 0).page_num) := by
  unfold find_frame
  simp only [hnot, ne_eq, not_true_eq_false, if_false, if_neg hfull]

/-- The memory after `find_frame`: at most one word was changed, to 0. -/
theorem find_frame_ram (c : Config) (pm : PM) (va : Nat) :
    (find_frame c pm va).2.ram = pm.ram ∨
      ∃ a, (find_frame c pm va).2.ram = fun x => if x = a then 0 else pm.ram x := by
  by_cases hfound : (choose_frame_1 c pm.ram va 0 0 0).is_found ≠ 0
  · rw [find_frame_first_eq c pm va hfound]
    exact Or.inr ⟨_, rfl⟩
  · have hnot := not_not.mp hfound
    by_cases hlt : c.NUM_FRAMES > u64 (choose_frame_2 c pm.ram 0 0 + 1)
    · rw [find_frame_second_eq c pm va hnot hlt]
      exact Or.inl rfl
    · rw [find_frame_third_eq c pm va hnot hlt]
      exact Or.inr ⟨_, rfl⟩

/-- What `find_frame` achieves when the walker calls it: the frame it returns is a frame other
than the root that is no longer in the tree, the tree keeps its shape, and the walk done so
far is intact. -/
theorem find_frame_spec (c : Config) (h : c.WF) (hF : c.TABLES_DEPTH < c.NUM_FRAMES)
    (hP : ADDRESS_PART_SIZE c ≤ c.OFFSET_WIDTH) (pm : PM) (va k fk : Nat)
    (hs : WalkState c pm.ram va k fk) :
    PreLink c (find_frame c pm va).2.ram (find_frame c pm va).1 ∧
      walk c (find_frame c pm va).2.ram ((address_parts c va).take k) 0 = some fk ∧
      entry c (find_frame c pm va).2.ram fk (get_address_part c k va) = 0 := by
  have hzero : entry c (find_frame c pm va).2.ram fk (get_address_part c k va) = 0 := by
    have hz := hs.zero
    unfold entry PMread at hz ⊢
    rcases find_frame_ram c pm va with e | ⟨a, e⟩
    · rw [e]; exact hz
    · rw [e]
      simp only
      split_ifs
      · rfl
      · exact hz
  by_cases hfound : (choose_frame_1 c pm.ram va 0 0 0).is_found ≠ 0
  · have := find_frame_first c h hP pm.ram va k fk hs hfound
    rw [find_frame_first_eq c pm va hfound] at hzero ⊢
    exact ⟨this.1, this.2, hzero⟩
  · have hnot := not_not.mp hfound
    by_cases hlt : c.NUM_FRAMES > u64 (choose_frame_2 c pm.ram 0 0 + 1)
    · have := find_frame_second c h pm.ram hs.inv hlt
      rw [find_frame_second_eq c pm va hnot hlt] at hzero ⊢
      exact ⟨this, hs.walk_pre, hzero⟩
    · have := find_frame_third c h hF hP pm.ram va k fk hs hnot hlt
      rw [find_frame_third_eq c pm va hnot hlt] at hzero ⊢
      exact ⟨this.1, this.2, hzero⟩

/-! ## Initialising a frame -/

theorem fill_loop_ram (base x : Nat) (n : Nat) : ∀ pm : PM,
    ((List.range n).foldl (fun m i => PMwrite m (u64 (base + i)) 0) pm).ram x =
      if ∃ i, i < n ∧ x = u64 (base + i) then 0 else pm.ram x := by
  induction n with
  | zero =>
    intro pm
    simp only [List.range_zero, List.foldl_nil]
    rw [if_neg]
    rintro ⟨i, hi, -⟩
    omega
  | succ n ih =>
    intro pm
    rw [List.range_succ, List.foldl_append, List.foldl_cons, List.foldl_nil, PMwrite_ram]
    simp only
    by_cases hx : x = u64 (base + n)
    · rw [if_pos hx, if_pos ⟨n, by omega, hx⟩]
    · rw [if_neg hx, ih]
      by_cases hex : ∃ i, i < n ∧ x = u64 (base + i)
      · obtain ⟨i, hi, e⟩ := hex
        rw [if_pos ⟨i, hi, e⟩, if_pos ⟨i, by omega, e⟩]
      · rw [if_neg hex, if_neg]
        rintro ⟨i, hi, e⟩
        by_cases hin : i = n
        · exact hx (hin ▸ e)
        · exact hex ⟨i, by omega, e⟩

theorem fill_zeroes_ram (c : Config) (pm : PM) (f x : Nat) :
    (fill_zeroes c pm f).ram x =
      if ∃ i, i < PAGE_SIZE c ∧ x = u64 (u64 (f * PAGE_SIZE c) + i) then 0 else pm.ram x :=
  fill_loop_ram _ x (PAGE_SIZE c) pm

theorem frame_base_eq (c : Config) (h : c.WF) (f i : Nat) (hf : f < c.NUM_FRAMES) :
    u64 (u64 (f * PAGE_SIZE c) + i) = u64 (f * PAGE_SIZE c + i) := by
  have := entry_addr_eq c h f 0 hf (page_size_pos c)
  rw [Nat.add_zero] at this
  rw [this]

theorem PMrestore_ram (c : Config) (pm : PM) (f p x : Nat)
    (hx : ∀ i, i < PAGE_SIZE c → x ≠ f * PAGE_SIZE c + i) :
    (PMrestore c pm f p).ram x = pm.ram x := by
  unfold PMrestore
  cases pm.swap p with
  | none => rfl
  | some ws =>
    simp only
    rw [if_neg]
    rintro ⟨h1, h2⟩
    exact hx (x - f * PAGE_SIZE c) (by omega) (by omega)

/-! ## One step of the walker -/

theorem walk_step_zero_eq (c : Config) (va last k : Nat) (pm : PM)
    (hz : entry c pm.ram last (get_address_part c k va) = 0) :
    walk_step c va (last, pm) k =
      ((find_frame c pm va).1,
        if k + 1 = c.TABLES_DEPTH then
          PMrestore c (PMwrite (find_frame c pm va).2
            (u64 (last * PAGE_SIZE c + get_address_part c k va)) (find_frame c pm va).1)
            (find_frame c pm va).1 (va >>> c.OFFSET_WIDTH)
        else
          fill_zeroes c (PMwrite (find_frame c pm va).2
            (u64 (last * PAGE_SIZE c + get_address_part c k va)) (find_frame c pm va).1)
            (find_frame c pm va).1) := by
  have hz2 : PMread pm.ram (u64 (last * PAGE_SIZE c + get_address_part c k va)) = 0 := hz
  unfold walk_step
  simp only [hz2, if_true]
  split_ifs <;> rfl

theorem walk_step_nonzero_eq (c : Config) (va last k : Nat) (pm : PM)
    (hz : entry c pm.ram last (get_address_part c k va) ≠ 0) :
    walk_step c va (last, pm) k = (entry c pm.ram last (get_address_part c k va), pm) := by
  have hz2 : PMread pm.ram (u64 (last * PAGE_SIZE c + get_address_part c k va)) ≠ 0 := hz
  unfold walk_step
  simp only [if_neg hz2]
  rfl

/-- One iteration of the walker keeps the invariant and follows one more part of the address. -/
theorem walk_step_spec (c : Config) (h : c.WF) (hF : c.TABLES_DEPTH < c.NUM_FRAMES)
    (hP : ADDRESS_PART_SIZE c ≤ c.OFFSET_WIDTH) (pm : PM) (va k last : Nat)
    (hinv : TreeInv c pm.ram) (hva : va < 2 ^ c.VIRTUAL_ADDRESS_WIDTH) (hk : k < c.TABLES_DEPTH)
    (hw : walk c pm.ram ((address_parts c va).take k) 0 = some last) :
    TreeInv c (walk_step c va (last, pm) k).2.ram ∧
      walk c (walk_step c va (last, pm) k).2.ram ((address_parts c va).take (k + 1)) 0
        = some (walk_step c va (last, pm) k).1 := by
  rw [address_parts_take_succ c va k hk]
  by_cases hz : entry c pm.ram last (get_address_part c k va) = 0
  · have hs : WalkState c pm.ram va k last := ⟨hinv, hva, hk, hw, hz⟩
    obtain ⟨hpl, hwp, hz2⟩ := find_frame_spec c h hF hP pm va k last hs
    have hvt := validPath_take_parts c h hP va (k + 1)
    rw [address_parts_take_succ c va k hk] at hvt
    have hlast : last < c.NUM_FRAMES := hinv.shape.bound _ _ (validPath_take_parts c h hP va k) hw
    have hj : get_address_part c k va < PAGE_SIZE c := validPath_snoc_index c _ _ hvt
    have hne : ∀ i, i < PAGE_SIZE c →
        u64 (last * PAGE_SIZE c + get_address_part c k va)
          ≠ u64 ((find_frame c pm va).1 * PAGE_SIZE c + i) := by
      intro i hi e
      obtain ⟨e1, -⟩ := entry_addr_inj c h _ _ _ _ hlast hj hpl.lt hi e
      apply hpl.fresh
      rw [← e1]
      exact ⟨_, validPath_take_parts c h hP va k, hwp⟩
    rw [walk_step_zero_eq c va last k pm hz]
    simp only
    apply treeInv_link c h (find_frame c pm va).2.ram _ (find_frame c pm va).1 hpl
      ((address_parts c va).take k) (get_address_part c k va) last hvt ?_ hwp hz2
    · -- the entry written holds the frame
      split_ifs with hleaf
      · rw [PMrestore_ram, PMwrite_ram]
        · simp only [if_true]
        · intro i hi
          rw [← entry_addr_eq c h _ i hpl.lt hi]
          exact hne i hi
      · rw [fill_zeroes_ram, if_neg, PMwrite_ram]
        · simp only [if_true]
        · rintro ⟨i, hi, e⟩
          rw [frame_base_eq c h _ i hpl.lt] at e
          exact hne i hi e
    · -- the other words outside the frame are unchanged
      intro a ha1 ha2
      split_ifs with hleaf
      · rw [PMrestore_ram, PMwrite_ram]
        · simp only [if_neg ha1]
        · intro i hi
          rw [← entry_addr_eq c h _ i hpl.lt hi]
          exact ha2 i hi
      · rw [fill_zeroes_ram, if_neg, PMwrite_ram]
        · simp only [if_neg ha1]
        · rintro ⟨i, hi, e⟩
          rw [frame_base_eq c h _ i hpl.lt] at e
          exact ha2 i hi e
    · -- a new table is empty
      intro hlen i hi
      rw [length_take_parts c va k (le_of_lt hk)] at hlen
      rw [if_neg (by omega)]
      unfold entry PMread
      rw [fill_zeroes_ram, if_pos]
      exact ⟨i, hi, (frame_base_eq c h _ i hpl.lt).symm⟩
    · exact ⟨va, hva, by
        rw [← address_parts_take_succ c va k hk, length_take_parts c va (k + 1) hk]⟩
  · rw [walk_step_nonzero_eq c va last k pm hz]
    exact ⟨hinv, walk_snoc_of c pm.ram _ _ 0 last hw hz⟩

end VM

namespace VM

/-! ## The walker -/

theorem walk_steps_zero (c : Config) (pm : PM) (va : Nat) : walk_steps c pm va 0 = (0, pm) := rfl

theorem walk_steps_succ (c : Config) (pm : PM) (va n : Nat) :
    walk_steps c pm va (n + 1) = walk_step c va (walk_steps c pm va n) n := by
  unfold walk_steps
  rw [List.range_succ, List.foldl_append]
  rfl

/-- After `n` iterations the walker has followed `n` parts of the address and the invariant
holds. -/
theorem walk_steps_spec (c : Config) (h : c.WF) (hF : c.TABLES_DEPTH < c.NUM_FRAMES)
    (hP : ADDRESS_PART_SIZE c ≤ c.OFFSET_WIDTH) (pm : PM) (va : Nat)
    (hinv : TreeInv c pm.ram) (hva : va < 2 ^ c.VIRTUAL_ADDRESS_WIDTH) (n : Nat)
    (hn : n ≤ c.TABLES_DEPTH) :
    TreeInv c (walk_steps c pm va n).2.ram ∧
      walk c (walk_steps c pm va n).2.ram ((address_parts c va).take n) 0
        = some (walk_steps c pm va n).1 := by
  induction n with
  | zero => exact ⟨hinv, rfl⟩
  | succ n ih =>
    obtain ⟨h1, h2⟩ := ih (by omega)
    rw [walk_steps_succ]
    exact walk_step_spec c h hF hP (walk_steps c pm va n).2 va n (walk_steps c pm va n).1 h1 hva
      (by omega) h2

/-- When the whole chain of an address is present, the walker changes nothing. -/
theorem walk_steps_mapped (c : Config) (pm : PM) (va leaf : Nat)
    (hw : walk_address c pm.ram va = some leaf) (n : Nat) (hn : n ≤ c.TABLES_DEPTH) :
    (walk_steps c pm va n).2 = pm ∧
      walk c pm.ram ((address_parts c va).take n) 0 = some (walk_steps c pm va n).1 := by
  induction n with
  | zero => exact ⟨rfl, rfl⟩
  | succ n ih =>
    obtain ⟨h1, h2⟩ := ih (by omega)
    have hn1 : n < c.TABLES_DEPTH := hn
    obtain ⟨m, hm⟩ := walk_take_some c pm.ram _ 0 leaf (n + 1) hw
    rw [address_parts_take_succ c va n hn1] at hm ⊢
    obtain ⟨m2, hm2, hent, hm0⟩ := walk_snoc_some c pm.ram _ _ _ _ hm
    rw [h2] at hm2
    have e : (walk_steps c pm va n).1 = m2 := Option.some.inj hm2
    have hst : walk_steps c pm va n = (m2, pm) := Prod.ext e h1
    rw [walk_steps_succ, hst, walk_step_nonzero_eq c va m2 n pm (by rw [hent]; exact hm0)]
    exact ⟨rfl, by rw [hent]; exact hm⟩

theorem get_physical_address_mapped (c : Config) (pm : PM) (va leaf : Nat)
    (hw : walk_address c pm.ram va = some leaf) :
    get_physical_address c pm va = (u64 (leaf * PAGE_SIZE c + get_offset c va), pm) := by
  obtain ⟨h1, h2⟩ := walk_steps_mapped c pm va leaf hw c.TABLES_DEPTH (le_refl _)
  rw [List.take_of_length_le (by rw [address_parts_length])] at h2
  have hw2 : walk c pm.ram (address_parts c va) 0 = some leaf := hw
  rw [hw2] at h2
  have e : (walk_steps c pm va c.TABLES_DEPTH).1 = leaf := (Option.some.inj h2).symm
  unfold get_physical_address
  simp only [e, h1]

/-- The walker maps the page of the address: afterwards the invariant holds, the chain of the
address ends in a frame, and the address returned is the word of that frame at the offset. -/
theorem get_physical_address_spec (c : Config) (h : c.WF) (hF : c.TABLES_DEPTH < c.NUM_FRAMES)
    (hP : ADDRESS_PART_SIZE c ≤ c.OFFSET_WIDTH) (pm : PM) (va : Nat)
    (hinv : TreeInv c pm.ram) (hva : va < 2 ^ c.VIRTUAL_ADDRESS_WIDTH) :
    TreeInv c (get_physical_address c pm va).2.ram ∧
      ∃ leaf, walk_address c (get_physical_address c pm va).2.ram va = some leaf ∧
        (get_physical_address c pm va).1 = u64 (leaf * PAGE_SIZE c + get_offset c va) := by
  obtain ⟨h1, h2⟩ := walk_steps_spec c h hF hP pm va hinv hva c.TABLES_DEPTH (le_refl _)
  rw [List.take_of_length_le (by rw [address_parts_length])] at h2
  exact ⟨h1, _, h2, rfl⟩

/-! ## Words of a leaf -/

/-- A memory in which every valid chain reaches what it reaches in a memory with the invariant
has the invariant. -/
theorem treeInv_congr (c : Config) (ram ram2 : Nat → Nat) (hinv : TreeInv c ram)
    (hsame : ∀ path, ValidPath c path → walk c ram2 path 0 = walk c ram path 0) :
    TreeInv c ram2 := by
  have hin : ∀ f, InTree c ram2 f ↔ InTree c ram f := by
    intro f
    constructor
    · rintro ⟨p, hv, hw⟩; exact ⟨p, hv, by rw [← hsame p hv]; exact hw⟩
    · rintro ⟨p, hv, hw⟩; exact ⟨p, hv, by rw [hsame p hv]; exact hw⟩
  refine ⟨⟨?_, ?_, ?_⟩, ?_⟩
  · intro p f hv hw
    exact hinv.shape.bound p f hv (by rw [← hsame p hv]; exact hw)
  · intro p1 p2 f hv1 hv2 w1 w2
    exact hinv.shape.inj p1 p2 f hv1 hv2 (by rw [← hsame p1 hv1]; exact w1)
      (by rw [← hsame p2 hv2]; exact w2)
  · intro p f hv hw
    exact hinv.shape.parts p f hv (by rw [← hsame p hv]; exact hw)
  · intro f g hf hg
    exact (hin g).mpr (hinv.closed f g ((hin f).mp hf) hg)

/-- Writing a word of a leaf frame changes no chain of the tree. -/
theorem walk_write_leaf (c : Config) (h : c.WF) (ram : Nat → Nat) (hinv : TreeInv c ram)
    (lp : List Nat) (leaf off v : Nat) (hlp : ValidPath c lp) (hlen : lp.length = c.TABLES_DEPTH)
    (hw : walk c ram lp 0 = some leaf) (hoff : off < PAGE_SIZE c)
    (path : List Nat) (hp : ValidPath c path) :
    walk c (fun x => if x = u64 (leaf * PAGE_SIZE c + off) then v else ram x) path 0
      = walk c ram path 0 := by
  apply walk_congr
  intro q i rest m hq hm
  have hqi : ValidPath c (q ++ [i]) := by
    apply validPath_of_append c (q ++ [i]) rest
    rw [List.append_assoc]
    exact hq ▸ hp
  have hvq : ValidPath c q := validPath_of_append c q [i] hqi
  unfold entry PMread
  simp only
  rw [if_neg]
  intro e
  obtain ⟨e1, -⟩ := entry_addr_inj c h m i leaf off (hinv.shape.bound q m hvq hm)
    (validPath_snoc_index c q i hqi) (hinv.shape.bound lp leaf hlp hw) hoff e
  subst e1
  have := hinv.shape.inj q lp m hvq hlp hm hw
  have hl := validPath_snoc_length c q i hqi
  rw [this, hlen] at hl
  omega

/-! ## The facade keeps the invariant -/

theorem validate_ne_zero (c : Config) (h : c.WF) (va : Nat)
    (hval : validate_virtual_address c va ≠ 0) : va < 2 ^ c.VIRTUAL_ADDRESS_WIDTH := by
  by_contra hcon
  exact hval ((validate_eq_zero_iff c h.width_lt va).mpr (by omega))

theorem validate_of_lt (c : Config) (h : c.WF) (va : Nat)
    (hva : va < 2 ^ c.VIRTUAL_ADDRESS_WIDTH) : ¬ validate_virtual_address c va = 0 := by
  intro hval
  have := (validate_eq_zero_iff c h.width_lt va).mp hval
  omega

theorem VMread_spec (c : Config) (h : c.WF) (hF : c.TABLES_DEPTH < c.NUM_FRAMES)
    (hP : ADDRESS_PART_SIZE c ≤ c.OFFSET_WIDTH) (pm : PM) (va value : Nat)
    (hinv : TreeInv c pm.ram) :
    TreeInv c (VMread c pm va value).2.2.ram ∧
      (va < 2 ^ c.VIRTUAL_ADDRESS_WIDTH →
        ∃ leaf, walk_address c (VMread c pm va value).2.2.ram va = some leaf) := by
  unfold VMread
  by_cases hval : validate_virtual_address c va = 0
  · rw [if_pos hval]
    refine ⟨hinv, fun hva => ?_⟩
    exact absurd hval (validate_of_lt c h va hva)
  · rw [if_neg hval]
    obtain ⟨h1, leaf, h2, -⟩ :=
      get_physical_address_spec c h hF hP pm va hinv (validate_ne_zero c h va hval)
    exact ⟨h1, fun _ => ⟨leaf, h2⟩⟩

theorem VMwrite_spec (c : Config) (h : c.WF) (hF : c.TABLES_DEPTH < c.NUM_FRAMES)
    (hP : ADDRESS_PART_SIZE c ≤ c.OFFSET_WIDTH) (pm : PM) (va value : Nat)
    (hinv : TreeInv c pm.ram) :
    TreeInv c (VMwrite c pm va value).2.ram ∧
      (va < 2 ^ c.VIRTUAL_ADDRESS_WIDTH →
        ∃ leaf, walk_address c (VMwrite c pm va value).2.ram va = some leaf ∧
          (VMwrite c pm va value).2.ram (u64 (leaf * PAGE_SIZE c + get_offset c va)) = value) := by
  unfold VMwrite
  by_cases hval : validate_virtual_address c va = 0
  · rw [if_pos hval]
    refine ⟨hinv, fun hva => ?_⟩
    exact absurd hval (validate_of_lt c h va hva)
  · rw [if_neg hval]
    have hva := validate_ne_zero c h va hval
    obtain ⟨h1, leaf, h2, h3⟩ := get_physical_address_spec c h hF hP pm va hinv hva
    have hlp : ValidPath c (address_parts c va) := by
      have := validPath_take_parts c h hP va c.TABLES_DEPTH
      rw [List.take_of_length_le (by rw [address_parts_length])] at this
      exact this
    have hsame := walk_write_leaf c h _ h1 (address_parts c va) leaf (get_offset c va) value hlp
      (address_parts_length c va) h2 (get_offset_lt c h va)
    simp only [PMwrite_ram, h3]
    refine ⟨treeInv_congr c _ _ h1 hsame, fun _ => ⟨leaf, ?_, by simp only [if_true]⟩⟩
    unfold walk_address
    rw [hsame _ hlp]
    exact h2

/-- After ` VMinitialize` the tree consists of the root alone. -/
theorem treeInv_init (c : Config) (h : c.WF) (hF : c.TABLES_DEPTH < c.NUM_FRAMES) (pm : PM) :
    TreeInv c ( VMinitialize c pm).ram := by
  have hF0 : 0 < c.NUM_FRAMES := by omega
  have hroot : ∀ path f, ValidPath c path → walk c ( VMinitialize c pm).ram path 0 = some f →
      path = [] ∧ f = 0 := by
    intro path f hv hw
    cases path with
    | nil => exact ⟨rfl, (Option.some.inj hw).symm⟩
    | cons i rest =>
      exfalso
      have hi : i < PAGE_SIZE c := hv.2 i (List.mem_cons_self _ _)
      rw [walk_cons, if_pos] at hw
      · exact absurd hw (by simp)
      · unfold entry PMread VMinitialize
        rw [fill_zeroes_ram, if_pos]
        exact ⟨i, hi, (frame_base_eq c h 0 i hF0).symm⟩
  refine ⟨⟨?_, ?_, ?_⟩, ?_⟩
  · intro p f hv hw
    rw [(hroot p f hv hw).2]
    exact hF0
  · intro p1 p2 f hv1 hv2 w1 w2
    rw [(hroot p1 f hv1 w1).1, (hroot p2 f hv2 w2).1]
  · intro p f hv hw
    rw [(hroot p f hv hw).1]
    exact ⟨0, Nat.pow_pos (by norm_num), by simp⟩
  · rintro f g ⟨p, hv, hw⟩ hg
    have := (hroot p f hv hw).2
    omega

/-- Every reachable memory has the invariant. -/
theorem treeInv_of_reachable (c : Config) (h : c.WF) (hF : c.TABLES_DEPTH < c.NUM_FRAMES)
    (hP : ADDRESS_PART_SIZE c ≤ c.OFFSET_WIDTH) (pm : PM) (hr : Reachable c pm) :
    TreeInv c pm.ram := by
  induction hr with
  | init pm0 => exact treeInv_init c h hF pm0
  | read pm0 va value _ ih => exact (VMread_spec c h hF hP pm0 va value ih).1
  | write pm0 va value _ ih => exact (VMwrite_spec c h hF hP pm0 va value ih).1

end VM

namespace VM

/-! ## The calls that `find_frame` makes -/

theorem PMwrite_calls (pm : PM) (a v : Nat) :
    (PMwrite pm a v).calls = pm.calls ++ [PMcall.write a v] := rfl

theorem PMevict_calls (c : Config) (pm : PM) (f p : Nat) :
    (PMevict c pm f p).calls = pm.calls ++ [PMcall.evict f p] := rfl

/-- The calls of `PMwrite`, `PMevict` and `PMrestore` that one call of `find_frame` makes: the
only call of `PMevict` is the one of the third priority, on the leaf that `choose_frame_3`
returned. -/
theorem find_frame_new_calls (c : Config) (pm : PM) (va : Nat) (fr pg : Nat)
    (hmem : PMcall.evict fr pg ∈ find_frame_calls c pm va) :
    (choose_frame_1 c pm.ram va 0 0 0).is_found = 0 ∧
      ¬ c.NUM_FRAMES > u64 (choose_frame_2 c pm.ram 0 0 + 1) ∧
      fr = (choose_frame_3 c pm.ram va 0 0 0 0).frame ∧
      pg = (choose_frame_3 c pm.ram va 0 0 0 0).page_num ∧
      fr = (find_frame c pm va).1 := by
  unfold find_frame_calls at hmem
  by_cases hfound : (choose_frame_1 c pm.ram va 0 0 0).is_found ≠ 0
  · rw [find_frame_first_eq c pm va hfound] at hmem
    simp only [PMwrite_calls, List.drop_left, List.mem_singleton] at hmem
    exact absurd hmem (by simp)
  · have hnot := not_not.mp hfound
    by_cases hlt : c.NUM_FRAMES > u64 (choose_frame_2 c pm.ram 0 0 + 1)
    · rw [find_frame_second_eq c pm va hnot hlt] at hmem
      simp only [List.drop_length, List.not_mem_nil] at hmem
    · rw [find_frame_third_eq c pm va hnot hlt] at hmem ⊢
      simp only [PMevict_calls, PMwrite_calls, List.append_assoc, List.drop_left,
        List.singleton_append, List.mem_cons, List.mem_singleton, PMcall.evict.injEq,
        List.not_mem_nil, or_false] at hmem
      rcases hmem with hmem | ⟨rfl, rfl⟩
      · exact absurd hmem (by simp)
      · exact ⟨hnot, hlt, rfl, rfl, rfl⟩

/-- The state in which the walker calls `find_frame` at iteration `k` of a walk that starts in a
reachable memory. -/
theorem walkState_of_reachable (c : Config) (h : c.WF) (hF : c.TABLES_DEPTH < c.NUM_FRAMES)
    (hP : ADDRESS_PART_SIZE c ≤ c.OFFSET_WIDTH) (pm : PM) (hr : Reachable c pm) (va k : Nat)
    (hva : va < 2 ^ c.VIRTUAL_ADDRESS_WIDTH) (hcall : calls_find_frame c pm va k) :
    WalkState c (call_memory c pm va k).ram va k (walk_steps c pm va k).1 := by
  obtain ⟨h1, h2⟩ := walk_steps_spec c h hF hP pm va (treeInv_of_reachable c h hF hP pm hr) hva k
    (le_of_lt hcall.1)
  exact ⟨h1, hva, hcall.1, h2, hcall.2⟩

/-- The walk done before `find_frame` was called reads the same frames afterwards. -/
theorem find_frame_walk_same (c : Config) (h : c.WF) (hF : c.TABLES_DEPTH < c.NUM_FRAMES)
    (hP : ADDRESS_PART_SIZE c ≤ c.OFFSET_WIDTH) (pm : PM) (va k fk : Nat)
    (hs : WalkState c pm.ram va k fk) (j : Nat) (hj : j ≤ k) :
    ∃ x, walk c pm.ram ((address_parts c va).take j) 0 = some x ∧
      walk c (find_frame c pm va).2.ram ((address_parts c va).take j) 0 = some x ∧
      x ≠ (find_frame c pm va).1 := by
  obtain ⟨hpl, hwp, -⟩ := find_frame_spec c h hF hP pm va k fk hs
  obtain ⟨x, hx⟩ := walk_take_some c _ _ 0 fk j hwp
  rw [take_take_parts c va j k hj] at hx
  have hold : walk c pm.ram ((address_parts c va).take j) 0 = some x := by
    rcases find_frame_ram c pm va with e | ⟨a, e⟩
    · rw [e] at hx; exact hx
    · rw [e] at hx; exact walk_of_walk_unlink c pm.ram a _ 0 x hx
  refine ⟨x, hold, hx, ?_⟩
  intro e
  apply hpl.fresh
  rw [← e]
  exact ⟨_, validPath_take_parts c h hP va j, hx⟩

end VM

namespace VM

/-! ## The unrolled recursions satisfy the recursive equations of the source -/

theorem choose_frame_2_loop_congr (c : Config) (ram : Nat → Nat) (r1 r2 : Nat → Nat)
    (v l : Nat) (h : l < c.TABLES_DEPTH → ∀ x, r1 x = r2 x) (is : List Nat) :
    ∀ m, choose_frame_2_loop c ram r1 v l is m = choose_frame_2_loop c ram r2 v l is m := by
  induction is with
  | nil => intro m; rfl
  | cons i rest ih =>
    intro m
    unfold choose_frame_2_loop
    simp only
    by_cases hc : PMread ram (u64 (v * PAGE_SIZE c + i)) ≠ 0 ∧ l < c.TABLES_DEPTH
    · rw [if_pos hc, if_pos hc, h hc.2]
      split_ifs
      · exact ih _
      · exact ih _
    · rw [if_neg hc, if_neg hc]
      exact ih _

/-- The result of `choose_frame_2_fuel` does not depend on the fuel once there is enough. -/
theorem choose_frame_2_fuel_indep (c : Config) (ram : Nat → Nat) (n : Nat) :
    ∀ f1 f2 v l, c.TABLES_DEPTH ≤ f1 + l → c.TABLES_DEPTH ≤ f2 + l → c.TABLES_DEPTH ≤ l + n →
      choose_frame_2_fuel c ram f1 v l = choose_frame_2_fuel c ram f2 v l := by
  induction n with
  | zero =>
    intro f1 f2 v l h1 h2 hn
    obtain ⟨r1, e1, -⟩ := choose_frame_2_fuel_unfold c ram f1 v l h1
    obtain ⟨r2, e2, -⟩ := choose_frame_2_fuel_unfold c ram f2 v l h2
    rw [e1, e2]
    exact choose_frame_2_loop_congr c ram r1 r2 v l (fun hl => by omega) _ _
  | succ n ih =>
    intro f1 f2 v l h1 h2 hn
    obtain ⟨r1, e1, hr1⟩ := choose_frame_2_fuel_unfold c ram f1 v l h1
    obtain ⟨r2, e2, hr2⟩ := choose_frame_2_fuel_unfold c ram f2 v l h2
    rw [e1, e2]
    apply choose_frame_2_loop_congr
    intro hl x
    obtain ⟨g1, hg1, rfl⟩ := hr1 hl
    obtain ⟨g2, hg2, rfl⟩ := hr2 hl
    exact ih g1 g2 x (l + 1) hg1 hg2 (by omega)

/-- The recursive equation of `choose_frame_2`, lines 153-167 of the source. -/
theorem choose_frame_2_unfold (c : Config) (ram : Nat → Nat) (v l : Nat) :
    choose_frame_2 c ram v l =
      choose_frame_2_loop c ram (fun next_address => choose_frame_2 c ram next_address (l + 1))
        v l (List.range (PAGE_SIZE c)) v := by
  unfold choose_frame_2
  obtain ⟨r1, e1, hr1⟩ := choose_frame_2_fuel_unfold c ram c.TABLES_DEPTH v l (by omega)
  rw [e1]
  apply choose_frame_2_loop_congr
  intro hl x
  obtain ⟨g1, hg1, rfl⟩ := hr1 hl
  exact choose_frame_2_fuel_indep c ram c.TABLES_DEPTH g1 c.TABLES_DEPTH x (l + 1) hg1 (by omega)
    (by omega)

theorem choose_frame_3_loop_congr (c : Config) (ram : Nat → Nat)
    (r1 r2 : Nat → Nat → Nat → MaxDistanceFrame) (v p l : Nat)
    (h : l < c.TABLES_DEPTH → ∀ x y z, r1 x y z = r2 x y z) (is : List Nat) :
    ∀ md mf, choose_frame_3_loop c ram r1 v p l is md mf
      = choose_frame_3_loop c ram r2 v p l is md mf := by
  induction is with
  | nil => intro md mf; rfl
  | cons i rest ih =>
    intro md mf
    unfold choose_frame_3_loop
    simp only
    by_cases hc : PMread ram (u64 (v * PAGE_SIZE c + i)) ≠ 0 ∧ l < c.TABLES_DEPTH
    · rw [if_pos hc, if_pos hc, h hc.2]
      split_ifs
      · exact ih _ _
      · exact ih _ _
    · rw [if_neg hc, if_neg hc]
      exact ih _ _

theorem choose_frame_3_fuel_unfold (c : Config) (ram : Nat → Nat) (va fuel v par p l : Nat)
    (h : c.TABLES_DEPTH ≤ fuel + l) :
    ∃ recurse : Nat → Nat → Nat → MaxDistanceFrame,
      choose_frame_3_fuel c ram va fuel v par p l
        = choose_frame_3_body c ram va recurse v par p l ∧
      (l < c.TABLES_DEPTH → ∃ f2, c.TABLES_DEPTH ≤ f2 + (l + 1) ∧
        recurse = fun nv np pp => choose_frame_3_fuel c ram va f2 nv np pp (l + 1)) := by
  cases fuel with
  | zero => exact ⟨fun _ _ _ => ⟨0, 0, 0, 0⟩, rfl, fun hl => by omega⟩
  | succ f => exact ⟨_, rfl, fun _ => ⟨f, by omega, rfl⟩⟩

theorem choose_frame_3_body_congr (c : Config) (ram : Nat → Nat) (va : Nat)
    (r1 r2 : Nat → Nat → Nat → MaxDistanceFrame) (v par p l : Nat)
    (h : l < c.TABLES_DEPTH → ∀ x y z, r1 x y z = r2 x y z) :
    choose_frame_3_body c ram va r1 v par p l = choose_frame_3_body c ram va r2 v par p l := by
  unfold choose_frame_3_body
  split_ifs
  · rfl
  · exact choose_frame_3_loop_congr c ram r1 r2 v p l h _ _ _

/-- The result of `choose_frame_3_fuel` does not depend on the fuel once there is enough. -/
theorem choose_frame_3_fuel_indep (c : Config) (ram : Nat → Nat) (va : Nat) (n : Nat) :
    ∀ f1 f2 v par p l, c.TABLES_DEPTH ≤ f1 + l → c.TABLES_DEPTH ≤ f2 + l →
      c.TABLES_DEPTH ≤ l + n →
      choose_frame_3_fuel c ram va f1 v par p l = choose_frame_3_fuel c ram va f2 v par p l := by
  induction n with
  | zero =>
    intro f1 f2 v par p l h1 h2 hn
    obtain ⟨r1, e1, -⟩ := choose_frame_3_fuel_unfold c ram va f1 v par p l h1
    obtain ⟨r2, e2, -⟩ := choose_frame_3_fuel_unfold c ram va f2 v par p l h2
    rw [e1, e2]
    exact choose_frame_3_body_congr c ram va r1 r2 v par p l (fun hl => by omega)
  | succ n ih =>
    intro f1 f2 v par p l h1 h2 hn
    obtain ⟨r1, e1, hr1⟩ := choose_frame_3_fuel_unfold c ram va f1 v par p l h1
    obtain ⟨r2, e2, hr2⟩ := choose_frame_3_fuel_unfold c ram va f2 v par p l h2
    rw [e1, e2]
    apply choose_frame_3_body_congr
    intro hl x y z
    obtain ⟨g1, hg1, rfl⟩ := hr1 hl
    obtain ⟨g2, hg2, rfl⟩ := hr2 hl
    exact ih g1 g2 x y z (l + 1) hg1 hg2 (by omega)

/-- The recursive equation of `choose_frame_3`, lines 179-206 of the source. -/
theorem choose_frame_3_unfold (c : Config) (ram : Nat → Nat) (va v par p l : Nat) :
    choose_frame_3 c ram va v par p l =
      choose_frame_3_body c ram va
        (fun next_address current_address new_p =>
          choose_frame_3 c ram va next_address current_address new_p (l + 1))
        v par p l := by
  unfold choose_frame_3
  obtain ⟨r1, e1, hr1⟩ := choose_frame_3_fuel_unfold c ram va c.TABLES_DEPTH v par p l (by omega)
  rw [e1]
  apply choose_frame_3_body_congr
  intro hl x y z
  obtain ⟨g1, hg1, rfl⟩ := hr1 hl
  exact choose_frame_3_fuel_indep c ram va c.TABLES_DEPTH g1 c.TABLES_DEPTH x y z (l + 1) hg1
    (by omega) (by omega)

theorem choose_frame_1_loop_congr (c : Config) (ram : Nat → Nat)
    (r1 r2 : Nat → Nat → ZerosFrame) (v l : Nat)
    (h : l + 1 < c.TABLES_DEPTH → ∀ x y, r1 x y = r2 x y) (is : List Nat) :
    ∀ z, choose_frame_1_loop c ram r1 v l is z = choose_frame_1_loop c ram r2 v l is z := by
  induction is with
  | nil => intro z; rfl
  | cons i rest ih =>
    intro z
    unfold choose_frame_1_loop
    simp only
    by_cases h1 : PMread ram (u64 (v * PAGE_SIZE c + i)) ≠ 0
    · rw [if_pos h1, if_pos h1]
      by_cases h2 : l + 1 < c.TABLES_DEPTH
      · rw [if_pos h2, if_pos h2, h h2]
        split_ifs
        · rfl
        · exact ih _
      · rw [if_neg h2, if_neg h2]
        exact ih _
    · rw [if_neg h1, if_neg h1]
      exact ih _

theorem choose_frame_1_body_congr (c : Config) (ram : Nat → Nat) (va : Nat)
    (r1 r2 : Nat → Nat → ZerosFrame) (v par l : Nat)
    (h : l + 1 < c.TABLES_DEPTH → ∀ x y, r1 x y = r2 x y) :
    choose_frame_1_body c ram va r1 v par l = choose_frame_1_body c ram va r2 v par l := by
  unfold choose_frame_1_body
  rw [choose_frame_1_loop_congr c ram r1 r2 v l h]

/-- The result of `choose_frame_1_fuel` does not depend on the fuel once there is enough. -/
theorem choose_frame_1_fuel_indep (c : Config) (ram : Nat → Nat) (va : Nat) (n : Nat) :
    ∀ f1 f2 v par l, c.TABLES_DEPTH ≤ f1 + l + 1 → c.TABLES_DEPTH ≤ f2 + l + 1 →
      c.TABLES_DEPTH ≤ l + n + 1 →
      choose_frame_1_fuel c ram va f1 v par l = choose_frame_1_fuel c ram va f2 v par l := by
  induction n with
  | zero =>
    intro f1 f2 v par l h1 h2 hn
    obtain ⟨r1, e1, -⟩ := choose_frame_1_fuel_unfold c ram va f1 v par l h1
    obtain ⟨r2, e2, -⟩ := choose_frame_1_fuel_unfold c ram va f2 v par l h2
    rw [e1, e2]
    exact choose_frame_1_body_congr c ram va r1 r2 v par l (fun hl => by omega)
  | succ n ih =>
    intro f1 f2 v par l h1 h2 hn
    obtain ⟨r1, e1, hr1⟩ := choose_frame_1_fuel_unfold c ram va f1 v par l h1
    obtain ⟨r2, e2, hr2⟩ := choose_frame_1_fuel_unfold c ram va f2 v par l h2
    rw [e1, e2]
    apply choose_frame_1_body_congr
    intro hl x y
    obtain ⟨g1, hg1, rfl⟩ := hr1 hl
    obtain ⟨g2, hg2, rfl⟩ := hr2 hl
    exact ih g1 g2 x y (l + 1) hg1 hg2 (by omega)

/-- The recursive equation of `choose_frame_1`, lines 112-143 of the source. -/
theorem choose_frame_1_unfold (c : Config) (ram : Nat → Nat) (va v par l : Nat) :
    choose_frame_1 c ram va v par l =
      choose_frame_1_body c ram va
        (fun next_address current_address =>
          choose_frame_1 c ram va next_address current_address (l + 1))
        v par l := by
  unfold choose_frame_1
  obtain ⟨r1, e1, hr1⟩ := choose_frame_1_fuel_unfold c ram va c.TABLES_DEPTH v par l (by omega)
  rw [e1]
  apply choose_frame_1_body_congr
  intro hl x y
  obtain ⟨g1, hg1, rfl⟩ := hr1 hl
  exact choose_frame_1_fuel_indep c ram va c.TABLES_DEPTH g1 c.TABLES_DEPTH x y (l + 1) hg1
    (by omega) (by omega)

end VM

namespace VM

/-! ## The node that `find_frame` reuses -/

/-- The table that the first priority reuses. -/
theorem find_frame_first_node (c : Config) (ram : Nat → Nat) (va k fk : Nat)
    (hs : WalkState c ram va k fk)
    (hfound : (choose_frame_1 c ram va 0 0 0).is_found ≠ 0) :
    ∃ q i m, Removed c ram va k q i m (PMread ram (choose_frame_1 c ram va 0 0 0).parent) ∧
      (q ++ [i]).length < c.TABLES_DEPTH ∧
      (choose_frame_1 c ram va 0 0 0).parent = u64 (m * PAGE_SIZE c + i) ∧
      (∀ j, j < PAGE_SIZE c →
        entry c ram (PMread ram (choose_frame_1 c ram va 0 0 0).parent) j = 0) ∧
      verify c ram va (PMread ram (choose_frame_1 c ram va 0 0 0).parent) ≠ 0 := by
  obtain ⟨path, t2, a1, a2, a3, a4, a5, a6⟩ := choose_frame_1_fuel_sound c ram va c.TABLES_DEPTH
    c.TABLES_DEPTH 0 0 0 0 (by omega) (by omega) hfound
  obtain ⟨b1, -, b3, b4⟩ := descend_some c ram path _ _ a3
  have hne : path ≠ [] := by
    intro hnil
    have := b3 hnil
    rw [this] at a6
    exact a6 rfl
  obtain ⟨q, i, rfl⟩ := exists_snoc path hne
  have hlen : (q ++ [i]).length < c.TABLES_DEPTH := by
    rcases a1 with a1 | a1
    · exact absurd a1 hne
    · omega
  have hq : ValidPath c (q ++ [i]) := ⟨by omega, a2⟩
  obtain ⟨m, hm, hpar, hent⟩ := b4 q i rfl
  have hpar2 : (choose_frame_1 c ram va 0 0 0).parent = u64 (m * PAGE_SIZE c + i) := by
    rw [← hpar]; exact a4.symm
  have hres : PMread ram (choose_frame_1 c ram va 0 0 0).parent = t2.1 := by
    rw [hpar2]; exact hent
  rw [hres]
  simp only at b1
  refine ⟨q, i, m, ⟨hq, hm, b1, ?_, ?_⟩, hlen, hpar2, a5, a6⟩
  · rintro path f hv ⟨rest, rfl⟩ hw
    cases rest with
    | nil => rw [List.append_nil]
    | cons x rest =>
      exfalso
      obtain ⟨g2, hg2, hw2⟩ := walk_append_some c ram _ _ _ _ hw
      rw [b1] at hg2
      have e : t2.1 = g2 := Option.some.inj hg2
      subst e
      rw [walk_cons] at hw2
      have hx : x < PAGE_SIZE c :=
        hv.2 x (List.mem_append_right _ (List.mem_cons_self _ _))
      rw [if_pos (a5 x hx)] at hw2
      exact absurd hw2 (by simp)
  · intro hpre
    have hpre2 : (q ++ [i]) <+: address_parts c va := hpre.trans (List.take_prefix _ _)
    have e := List.prefix_iff_eq_take.mp hpre2
    have hk : (q ++ [i]).length ≤ k := by
      have := hpre.length_le
      rw [length_take_parts c va k (le_of_lt hs.level_lt)] at this
      exact this
    have := ((hs.verify_iff t2.1).mp a6).2 (q ++ [i]).length hk
    rw [← e] at this
    exact this b1

/-- The leaf that the third priority evicts. -/
theorem find_frame_third_node (c : Config) (h : c.WF) (hF : c.TABLES_DEPTH < c.NUM_FRAMES)
    (hP : ADDRESS_PART_SIZE c ≤ c.OFFSET_WIDTH) (ram : Nat → Nat) (va k fk : Nat)
    (hs : WalkState c ram va k fk)
    (hnot : (choose_frame_1 c ram va 0 0 0).is_found = 0)
    (hfull : ¬ c.NUM_FRAMES > u64 (choose_frame_2 c ram 0 0 + 1)) :
    ∃ q i m va2, Removed c ram va k q i m (choose_frame_3 c ram va 0 0 0 0).frame ∧
      (q ++ [i]).length = c.TABLES_DEPTH ∧
      (choose_frame_3 c ram va 0 0 0 0).parent = u64 (m * PAGE_SIZE c + i) ∧
      va2 < 2 ^ c.VIRTUAL_ADDRESS_WIDTH ∧ q ++ [i] = address_parts c va2 ∧
      (choose_frame_3 c ram va 0 0 0 0).page_num = va2 >>> c.OFFSET_WIDTH := by
  obtain ⟨q, i, m, va2, hq, hlen, hm, hw, hpar, hva2, hparts, hpage⟩ :=
    find_frame_third_leaf c h hF hP ram va k fk hs hnot hfull
  refine ⟨q, i, m, va2, ⟨hq, hm, hw, ?_, ?_⟩, hlen, hpar, hva2, hparts, hpage⟩
  · rintro path f hv ⟨rest, rfl⟩ _
    have := hv.1
    rw [List.length_append, hlen] at this
    have hr : rest = [] := List.length_eq_zero.mp (by omega)
    rw [hr, List.append_nil]
  · intro hpre
    have := hpre.length_le
    rw [length_take_parts c va k (le_of_lt hs.level_lt), hlen] at this
    have := hs.level_lt
    omega

/-- In a memory with the invariant the frames of the tree are the frames up to the result of
`choose_frame_2`. -/
theorem inTree_iff_le (c : Config) (ram : Nat → Nat) (hinv : TreeInv c ram) (f : Nat) :
    InTree c ram f ↔ f ≤ choose_frame_2 c ram 0 0 := by
  obtain ⟨path, hp1, hp2, hp3⟩ := choose_frame_2_mem c ram
  constructor
  · rintro ⟨p, hv, hw⟩
    exact choose_frame_2_ge c ram p f hv.1 hv.2 hw
  · intro hle
    by_cases e : f = choose_frame_2 c ram 0 0
    · exact e ▸ ⟨path, ⟨hp1, hp2⟩, hp3⟩
    · exact hinv.closed _ f ⟨path, ⟨hp1, hp2⟩, hp3⟩ (by omega)

theorem choose_frame_2_lt (c : Config) (ram : Nat → Nat) (hinv : TreeInv c ram) :
    choose_frame_2 c ram 0 0 < c.NUM_FRAMES := by
  obtain ⟨path, hp1, hp2, hp3⟩ := choose_frame_2_mem c ram
  exact hinv.shape.bound path _ ⟨hp1, hp2⟩ hp3

theorem num_frames_lt (c : Config) (h : c.WF) : c.NUM_FRAMES < 2 ^ 64 :=
  lt_of_le_of_lt (Nat.le_mul_of_pos_right _ (page_size_pos c)) h.ram_fits

/-- The three ways in which `find_frame` returns when the walker calls it: a frame number
above those of the tree, with the memory unchanged; an empty table off the walk, with the entry
that referred to it set to 0; or a leaf, with the entry that referred to it set to 0 and the
page it held evicted. -/
theorem find_frame_cases (c : Config) (h : c.WF) (hF : c.TABLES_DEPTH < c.NUM_FRAMES)
    (hP : ADDRESS_PART_SIZE c ≤ c.OFFSET_WIDTH) (pm : PM) (va k fk : Nat)
    (hs : WalkState c pm.ram va k fk) :
    ((choose_frame_1 c pm.ram va 0 0 0).is_found = 0 ∧
      choose_frame_2 c pm.ram 0 0 + 1 < c.NUM_FRAMES ∧
      c.NUM_FRAMES > u64 (choose_frame_2 c pm.ram 0 0 + 1) ∧
      find_frame c pm va = (choose_frame_2 c pm.ram 0 0 + 1, pm)) ∨
    (∃ q i m, Removed c pm.ram va k q i m (find_frame c pm va).1 ∧
      (choose_frame_1 c pm.ram va 0 0 0).is_found ≠ 0 ∧
      (q ++ [i]).length < c.TABLES_DEPTH ∧
      (choose_frame_1 c pm.ram va 0 0 0).parent = u64 (m * PAGE_SIZE c + i) ∧
      (∀ j, j < PAGE_SIZE c → entry c pm.ram (find_frame c pm va).1 j = 0) ∧
      find_frame c pm va
        = ((find_frame c pm va).1, PMwrite pm (u64 (m * PAGE_SIZE c + i)) 0)) ∨
    (∃ q i m va2, Removed c pm.ram va k q i m (find_frame c pm va).1 ∧
      (choose_frame_1 c pm.ram va 0 0 0).is_found = 0 ∧
      ¬ c.NUM_FRAMES > u64 (choose_frame_2 c pm.ram 0 0 + 1) ∧
      (q ++ [i]).length = c.TABLES_DEPTH ∧
      (choose_frame_3 c pm.ram va 0 0 0 0).parent = u64 (m * PAGE_SIZE c + i) ∧
      (choose_frame_3 c pm.ram va 0 0 0 0).frame = (find_frame c pm va).1 ∧
      (choose_frame_3 c pm.ram va 0 0 0 0).page_num = va2 >>> c.OFFSET_WIDTH ∧
      va2 < 2 ^ c.VIRTUAL_ADDRESS_WIDTH ∧ q ++ [i] = address_parts c va2 ∧
      find_frame c pm va
        = ((find_frame c pm va).1,
            PMevict c (PMwrite pm (u64 (m * PAGE_SIZE c + i)) 0) (find_frame c pm va).1
              (va2 >>> c.OFFSET_WIDTH))) := by
  by_cases hfound : (choose_frame_1 c pm.ram va 0 0 0).is_found ≠ 0
  · right; left
    obtain ⟨q, i, m, hrem, hlen, hpar, hzero, -⟩ :=
      find_frame_first_node c pm.ram va k fk hs hfound
    have e := find_frame_first_eq c pm va hfound
    rw [e]
    exact ⟨q, i, m, hrem, hfound, hlen, hpar, hzero, by rw [hpar]⟩
  · have hnot := not_not.mp hfound
    by_cases hlt : c.NUM_FRAMES > u64 (choose_frame_2 c pm.ram 0 0 + 1)
    · left
      have hmax := choose_frame_2_lt c pm.ram hs.inv
      have hF64 := num_frames_lt c h
      have e : u64 (choose_frame_2 c pm.ram 0 0 + 1) = choose_frame_2 c pm.ram 0 0 + 1 :=
        u64_of_lt (by omega)
      have e2 := find_frame_second_eq c pm va hnot hlt
      rw [e] at e2
      exact ⟨hnot, by rw [e] at hlt; exact hlt, hlt, e2⟩
    · right; right
      obtain ⟨q, i, m, va2, hrem, hlen, hpar, hva2, hparts, hpage⟩ :=
        find_frame_third_node c h hF hP pm.ram va k fk hs hnot hlt
      have e := find_frame_third_eq c pm va hnot hlt
      rw [e]
      exact ⟨q, i, m, va2, hrem, hnot, hlt, hlen, hpar, rfl, hpage, hva2, hparts,
        by rw [hpar, hpage]⟩

end VM

namespace VM

/-! ## One step of the walker that calls `find_frame` -/

/-- The words of the memory after `find_frame`: unchanged, with the returned frame outside the
tree, or with the entry that referred to the reused node set to 0. -/
theorem find_frame_ram_cases (c : Config) (h : c.WF) (hF : c.TABLES_DEPTH < c.NUM_FRAMES)
    (hP : ADDRESS_PART_SIZE c ≤ c.OFFSET_WIDTH) (pm : PM) (va k fk : Nat)
    (hs : WalkState c pm.ram va k fk) :
    ((find_frame c pm va).2.ram = pm.ram ∧ ¬ InTree c pm.ram (find_frame c pm va).1) ∨
    (∃ q i m, Removed c pm.ram va k q i m (find_frame c pm va).1 ∧
      (find_frame c pm va).2.ram = fun x => if x = u64 (m * PAGE_SIZE c + i) then 0 else pm.ram x) := by
  rcases find_frame_cases c h hF hP pm va k fk hs with
    ⟨-, hlt, -, e⟩ | ⟨q, i, m, hrem, -, -, -, -, e⟩ | ⟨q, i, m, va2, hrem, -, -, -, -, -, -, -, -, e⟩
  · left
    rw [e]
    refine ⟨rfl, ?_⟩
    intro hin
    have := (inTree_iff_le c pm.ram hs.inv _).mp hin
    omega
  · right
    refine ⟨q, i, m, hrem, ?_⟩
    rw [e]
    rfl
  · right
    refine ⟨q, i, m, hrem, ?_⟩
    rw [e]
    rfl

/-- The chains of the tree after `find_frame`. -/
theorem find_frame_walk_iff (c : Config) (h : c.WF) (hF : c.TABLES_DEPTH < c.NUM_FRAMES)
    (hP : ADDRESS_PART_SIZE c ≤ c.OFFSET_WIDTH) (pm : PM) (va k fk : Nat)
    (hs : WalkState c pm.ram va k fk) (path : List Nat) (hp : ValidPath c path) (f : Nat) :
    walk c (find_frame c pm va).2.ram path 0 = some f ↔
      walk c pm.ram path 0 = some f ∧ f ≠ (find_frame c pm va).1 := by
  rcases find_frame_ram_cases c h hF hP pm va k fk hs with ⟨e, hfresh⟩ | ⟨q, i, m, hrem, e⟩
  · rw [e]
    constructor
    · intro hw
      exact ⟨hw, fun hf => hfresh ⟨path, hp, hf ▸ hw⟩⟩
    · exact fun hw => hw.1
  · rw [e, walk_unlink_iff c h pm.ram hs.inv.shape q i m hrem.valid hrem.parent path hp f]
    constructor
    · rintro ⟨hw, hnp⟩
      refine ⟨hw, ?_⟩
      intro hf
      rw [hf] at hw
      have := hs.inv.shape.inj path (q ++ [i]) _ hp hrem.valid hw hrem.node
      exact hnp (this ▸ List.prefix_refl _)
    · rintro ⟨hw, hne⟩
      refine ⟨hw, ?_⟩
      intro hpre
      have := hrem.childless path f hp hpre hw
      rw [this, hrem.node] at hw
      exact hne (Option.some.inj hw).symm

/-- The words of the memory after a step of the walker that called `find_frame`: the entry of
the walk holds the returned frame, the words outside that frame are otherwise those left by
`find_frame`, and a new table is empty. -/
theorem walk_step_zero_ram (c : Config) (h : c.WF) (hF : c.TABLES_DEPTH < c.NUM_FRAMES)
    (hP : ADDRESS_PART_SIZE c ≤ c.OFFSET_WIDTH) (pm : PM) (va k fk : Nat)
    (hs : WalkState c pm.ram va k fk) :
    (walk_step c va (fk, pm) k).1 = (find_frame c pm va).1 ∧
    (walk_step c va (fk, pm) k).2.ram (u64 (fk * PAGE_SIZE c + get_address_part c k va))
      = (find_frame c pm va).1 ∧
    (∀ a, a ≠ u64 (fk * PAGE_SIZE c + get_address_part c k va) →
      (∀ i, i < PAGE_SIZE c → a ≠ u64 ((find_frame c pm va).1 * PAGE_SIZE c + i)) →
      (walk_step c va (fk, pm) k).2.ram a = (find_frame c pm va).2.ram a) ∧
    (k + 1 < c.TABLES_DEPTH → ∀ i, i < PAGE_SIZE c →
      entry c (walk_step c va (fk, pm) k).2.ram (find_frame c pm va).1 i = 0) := by
  obtain ⟨hpl, hwp, hz2⟩ := find_frame_spec c h hF hP pm va k fk hs
  have hk := hs.level_lt
  have hvt := validPath_take_parts c h hP va (k + 1)
  rw [address_parts_take_succ c va k hk] at hvt
  have hlast : fk < c.NUM_FRAMES :=
    hs.inv.shape.bound _ _ (validPath_take_parts c h hP va k) hs.walk_pre
  have hj : get_address_part c k va < PAGE_SIZE c := validPath_snoc_index c _ _ hvt
  have hne : ∀ i, i < PAGE_SIZE c →
      u64 (fk * PAGE_SIZE c + get_address_part c k va)
        ≠ u64 ((find_frame c pm va).1 * PAGE_SIZE c + i) := by
    intro i hi e
    obtain ⟨e1, -⟩ := entry_addr_inj c h _ _ _ _ hlast hj hpl.lt hi e
    apply hpl.fresh
    rw [← e1]
    exact ⟨_, validPath_take_parts c h hP va k, hwp⟩
  rw [walk_step_zero_eq c va fk k pm hs.zero]
  refine ⟨rfl, ?_, ?_, ?_⟩
  · simp only
    split_ifs with hleaf
    · rw [PMrestore_ram, PMwrite_ram]
      · simp only [if_true]
      · intro i hi
        rw [← entry_addr_eq c h _ i hpl.lt hi]
        exact hne i hi
    · rw [fill_zeroes_ram, if_neg, PMwrite_ram]
      · simp only [if_true]
      · rintro ⟨i, hi, e⟩
        rw [frame_base_eq c h _ i hpl.lt] at e
        exact hne i hi e
  · intro a ha1 ha2
    simp only
    split_ifs with hleaf
    · rw [PMrestore_ram, PMwrite_ram]
      · simp only [if_neg ha1]
      · intro i hi
        rw [← entry_addr_eq c h _ i hpl.lt hi]
        exact ha2 i hi
    · rw [fill_zeroes_ram, if_neg, PMwrite_ram]
      · simp only [if_neg ha1]
      · rintro ⟨i, hi, e⟩
        rw [frame_base_eq c h _ i hpl.lt] at e
        exact ha2 i hi e
  · intro hlen i hi
    simp only
    rw [if_neg (by omega)]
    unfold entry PMread
    rw [fill_zeroes_ram, if_pos]
    exact ⟨i, hi, (frame_base_eq c h _ i hpl.lt).symm⟩

/-- The chains of the tree after a step of the walker that called `find_frame`: the chains
left by `find_frame` and the new chain along the address. -/
theorem walk_step_walk_iff (c : Config) (h : c.WF) (hF : c.TABLES_DEPTH < c.NUM_FRAMES)
    (hP : ADDRESS_PART_SIZE c ≤ c.OFFSET_WIDTH) (pm : PM) (va k fk : Nat)
    (hs : WalkState c pm.ram va k fk) (path : List Nat) (hp : ValidPath c path) (f : Nat) :
    walk c (walk_step c va (fk, pm) k).2.ram path 0 = some f ↔
      (walk c pm.ram path 0 = some f ∧ f ≠ (find_frame c pm va).1) ∨
      (path = (address_parts c va).take (k + 1) ∧ f = (find_frame c pm va).1) := by
  obtain ⟨hpl, hwp, hz2⟩ := find_frame_spec c h hF hP pm va k fk hs
  obtain ⟨-, r1, r2, r3⟩ := walk_step_zero_ram c h hF hP pm va k fk hs
  have hk := hs.level_lt
  have hvt := validPath_take_parts c h hP va (k + 1)
  rw [address_parts_take_succ c va k hk] at hvt ⊢
  have := walk_link_iff c h (find_frame c pm va).2.ram (walk_step c va (fk, pm) k).2.ram
    (find_frame c pm va).1 hpl ((address_parts c va).take k) (get_address_part c k va) fk hvt
    hwp hz2 r1 r2
    (by rw [length_take_parts c va k (le_of_lt hk)]; exact r3) path hp f
  rw [this, find_frame_walk_iff c h hF hP pm va k fk hs path hp f]

/-- A step of the walker keeps every frame of the tree in the tree and adds the frame that
`find_frame` returned. -/
theorem walk_step_inTree (c : Config) (h : c.WF) (hF : c.TABLES_DEPTH < c.NUM_FRAMES)
    (hP : ADDRESS_PART_SIZE c ≤ c.OFFSET_WIDTH) (pm : PM) (va k fk : Nat)
    (hs : WalkState c pm.ram va k fk) (f : Nat) :
    InTree c (walk_step c va (fk, pm) k).2.ram f ↔
      InTree c pm.ram f ∨ f = (find_frame c pm va).1 := by
  have hvt := validPath_take_parts c h hP va (k + 1)
  constructor
  · rintro ⟨p, hv, hw⟩
    rcases (walk_step_walk_iff c h hF hP pm va k fk hs p hv f).mp hw with ⟨hw1, -⟩ | ⟨-, e⟩
    · exact Or.inl ⟨p, hv, hw1⟩
    · exact Or.inr e
  · intro hin
    by_cases e : f = (find_frame c pm va).1
    · exact ⟨_, hvt, (walk_step_walk_iff c h hF hP pm va k fk hs _ hvt f).mpr (Or.inr ⟨rfl, e⟩)⟩
    · rcases hin with ⟨p, hv, hw⟩ | e2
      · exact ⟨p, hv, (walk_step_walk_iff c h hF hP pm va k fk hs p hv f).mpr (Or.inl ⟨hw, e⟩)⟩
      · exact absurd e2 e

end VM

namespace VM

/-! ## The tree property -/

theorem validPath_parts (c : Config) (h : c.WF) (hP : ADDRESS_PART_SIZE c ≤ c.OFFSET_WIDTH)
    (va : Nat) : ValidPath c (address_parts c va) := by
  have := validPath_take_parts c h hP va c.TABLES_DEPTH
  rw [List.take_of_length_le (by rw [address_parts_length])] at this
  exact this

/-- A memory whose tree has the shape of the invariant has the tree property. -/
theorem isTree_of_shape (c : Config) (h : c.WF) (hP : ADDRESS_PART_SIZE c ≤ c.OFFSET_WIDTH)
    (ram : Nat → Nat) (hs : TreeShape c ram) : IsTree c ram where
  no_root_reference := fun path f hv hne hw => hs.ne_zero path f hv hne hw
  one_parent := by
    intro q1 i1 m1 q2 i2 m2 f hv1 hv2 hw1 hw2 e1 e2 hf
    have w1 := walk_snoc_of c ram q1 i1 0 m1 hw1 (by rw [e1]; exact hf)
    have w2 := walk_snoc_of c ram q2 i2 0 m2 hw2 (by rw [e2]; exact hf)
    rw [e1] at w1
    rw [e2] at w2
    have e := hs.inj _ _ f hv1 hv2 w1 w2
    obtain ⟨eq, ei⟩ := List.append_inj' e rfl
    have ei2 : i1 = i2 := by simpa using ei
    subst eq
    rw [hw1] at hw2
    exact ⟨Option.some.inj hw2, ei2, rfl⟩
  one_level := fun p1 p2 f hv1 hv2 w1 w2 => by rw [hs.inj p1 p2 f hv1 hv2 w1 w2]
  leaves_distinct := by
    intro a b la lb ha hb wa wb hne e
    subst e
    have := hs.inj _ _ la (validPath_parts c h hP a) (validPath_parts c h hP b) wa wb
    apply hne
    rw [← page_from_address_parts c h a ha, ← page_from_address_parts c h b hb, this]
  table_not_leaf := by
    intro p1 p2 f hv1 hv2 hl1 hl2 w1 w2
    have := hs.inj p1 p2 f hv1 hv2 w1 w2
    rw [this] at hl1
    omega

/-! ## The frames returned by `find_frame` stay in the tree -/

theorem returned_frames_succ (c : Config) (pm : PM) (va n : Nat) :
    returned_frames c pm va (n + 1) = returned_frames c pm va n ++
      (if calls_find_frame c pm va n then [(find_frame c (call_memory c pm va n) va).1]
        else []) := by
  unfold returned_frames
  rw [List.range_succ, List.flatMap_append]
  simp only [List.flatMap_cons, List.flatMap_nil, List.append_nil]

theorem walk_steps_prod (c : Config) (pm : PM) (va n : Nat) :
    walk_steps c pm va n = ((walk_steps c pm va n).1, call_memory c pm va n) := rfl

/-- After any number of iterations of the walker the frames that were in the tree at the start
and the frames that `find_frame` returned are in the tree. -/
theorem walk_steps_inTree (c : Config) (h : c.WF) (hF : c.TABLES_DEPTH < c.NUM_FRAMES)
    (hP : ADDRESS_PART_SIZE c ≤ c.OFFSET_WIDTH) (pm : PM) (va : Nat)
    (hinv : TreeInv c pm.ram) (hva : va < 2 ^ c.VIRTUAL_ADDRESS_WIDTH) (n : Nat)
    (hn : n ≤ c.TABLES_DEPTH) (g : Nat)
    (hg : InTree c pm.ram g ∨ g ∈ returned_frames c pm va n) :
    InTree c (call_memory c pm va n).ram g := by
  induction n with
  | zero =>
    rcases hg with hg | hg
    · exact hg
    · simp [returned_frames] at hg
  | succ n ih =>
    obtain ⟨h1, h2⟩ := walk_steps_spec c h hF hP pm va hinv hva n (by omega)
    have hstep : call_memory c pm va (n + 1)
        = (walk_step c va ((walk_steps c pm va n).1, call_memory c pm va n) n).2 := by
      unfold call_memory
      rw [walk_steps_succ]
    rw [hstep]
    by_cases hcall : calls_find_frame c pm va n
    · have hs : WalkState c (call_memory c pm va n).ram va n (walk_steps c pm va n).1 :=
        ⟨h1, hva, hcall.1, h2, hcall.2⟩
      rw [walk_step_inTree c h hF hP _ va n _ hs]
      rw [returned_frames_succ, if_pos hcall] at hg
      rcases hg with hg | hg
      · exact Or.inl (ih (by omega) (Or.inl hg))
      · rcases List.mem_append.mp hg with hg | hg
        · exact Or.inl (ih (by omega) (Or.inr hg))
        · exact Or.inr (List.mem_singleton.mp hg)
    · have hnz : entry c (call_memory c pm va n).ram (walk_steps c pm va n).1
          (get_address_part c n va) ≠ 0 := fun hz => hcall ⟨by omega, hz⟩
      rw [walk_step_nonzero_eq c va _ n _ hnz]
      rw [returned_frames_succ, if_neg hcall, List.append_nil] at hg
      exact ih (by omega) hg

theorem call_memory_depth (c : Config) (pm : PM) (va : Nat) :
    call_memory c pm va c.TABLES_DEPTH = (get_physical_address c pm va).2 := rfl

/-- Writing the word of an access changes no chain of the tree. -/
theorem walk_write_access (c : Config) (h : c.WF) (hF : c.TABLES_DEPTH < c.NUM_FRAMES)
    (hP : ADDRESS_PART_SIZE c ≤ c.OFFSET_WIDTH) (pm : PM) (va value : Nat)
    (hinv : TreeInv c pm.ram) (hva : va < 2 ^ c.VIRTUAL_ADDRESS_WIDTH) (path : List Nat)
    (hp : ValidPath c path) :
    walk c (PMwrite (get_physical_address c pm va).2 (get_physical_address c pm va).1 value).ram
      path 0 = walk c (get_physical_address c pm va).2.ram path 0 := by
  obtain ⟨h1, leaf, h2, h3⟩ := get_physical_address_spec c h hF hP pm va hinv hva
  rw [PMwrite_ram, h3]
  exact walk_write_leaf c h _ h1 (address_parts c va) leaf (get_offset c va) value
    (validPath_parts c h hP va) (address_parts_length c va) h2 (get_offset_lt c h va) path hp

theorem VMread_eq (c : Config) (h : c.WF) (pm : PM) (va value : Nat)
    (hva : va < 2 ^ c.VIRTUAL_ADDRESS_WIDTH) :
    VMread c pm va value = (1, PMread (get_physical_address c pm va).2.ram
      (get_physical_address c pm va).1, (get_physical_address c pm va).2) := by
  unfold VMread
  rw [if_neg (validate_of_lt c h va hva)]

theorem VMwrite_eq (c : Config) (h : c.WF) (pm : PM) (va value : Nat)
    (hva : va < 2 ^ c.VIRTUAL_ADDRESS_WIDTH) :
    VMwrite c pm va value = (1, PMwrite (get_physical_address c pm va).2
      (get_physical_address c pm va).1 value) := by
  unfold VMwrite
  rw [if_neg (validate_of_lt c h va hva)]

theorem VMread_invalid (c : Config) (h : c.WF) (pm : PM) (va value : Nat)
    (hva : ¬ va < 2 ^ c.VIRTUAL_ADDRESS_WIDTH) : VMread c pm va value = (0, value, pm) := by
  unfold VMread
  rw [if_pos ((validate_eq_zero_iff c h.width_lt va).mpr (by omega))]

theorem VMwrite_invalid (c : Config) (h : c.WF) (pm : PM) (va value : Nat)
    (hva : ¬ va < 2 ^ c.VIRTUAL_ADDRESS_WIDTH) : VMwrite c pm va value = (0, pm) := by
  unfold VMwrite
  rw [if_pos ((validate_eq_zero_iff c h.width_lt va).mpr (by omega))]

theorem access_returned_valid (c : Config) (h : c.WF) (pm : PM) (va : Nat)
    (hva : va < 2 ^ c.VIRTUAL_ADDRESS_WIDTH) :
    access_returned c pm va = returned_frames c pm va c.TABLES_DEPTH := by
  unfold access_returned
  rw [if_neg (validate_of_lt c h va hva)]

theorem access_returned_invalid (c : Config) (h : c.WF) (pm : PM) (va : Nat)
    (hva : ¬ va < 2 ^ c.VIRTUAL_ADDRESS_WIDTH) : access_returned c pm va = [] := by
  unfold access_returned
  rw [if_pos ((validate_eq_zero_iff c h.width_lt va).mpr (by omega))]

theorem reachable_of_history (c : Config) (pm : PM) (L : List Nat) (hist : History c pm L) :
    Reachable c pm := by
  induction hist with
  | init pm0 => exact Reachable.init pm0
  | read pm0 L0 va value _ ih => exact Reachable.read pm0 va value ih
  | write pm0 L0 va value _ ih => exact Reachable.write pm0 va value ih

/-- Every frame that `find_frame` ever returned is in the tree. -/
theorem history_inTree (c : Config) (h : c.WF) (hF : c.TABLES_DEPTH < c.NUM_FRAMES)
    (hP : ADDRESS_PART_SIZE c ≤ c.OFFSET_WIDTH) (pm : PM) (L : List Nat)
    (hist : History c pm L) : ∀ g ∈ L, InTree c pm.ram g := by
  induction hist with
  | init pm0 => intro g hg; exact absurd hg (List.not_mem_nil g)
  | read pm0 L0 va value hist0 ih =>
    have hinv := treeInv_of_reachable c h hF hP pm0 (reachable_of_history c pm0 L0 hist0)
    intro g hg
    by_cases hva : va < 2 ^ c.VIRTUAL_ADDRESS_WIDTH
    · rw [access_returned_valid c h pm0 va hva] at hg
      rw [VMread_eq c h pm0 va value hva]
      show InTree c (get_physical_address c pm0 va).2.ram g
      rw [← call_memory_depth]
      apply walk_steps_inTree c h hF hP pm0 va hinv hva c.TABLES_DEPTH (le_refl _) g
      rcases List.mem_append.mp hg with hg | hg
      · exact Or.inl (ih g hg)
      · exact Or.inr hg
    · rw [access_returned_invalid c h pm0 va hva, List.append_nil] at hg
      rw [VMread_invalid c h pm0 va value hva]
      exact ih g hg
  | write pm0 L0 va value hist0 ih =>
    have hinv := treeInv_of_reachable c h hF hP pm0 (reachable_of_history c pm0 L0 hist0)
    intro g hg
    by_cases hva : va < 2 ^ c.VIRTUAL_ADDRESS_WIDTH
    · rw [access_returned_valid c h pm0 va hva] at hg
      rw [VMwrite_eq c h pm0 va value hva]
      have hin : InTree c (get_physical_address c pm0 va).2.ram g := by
        rw [← call_memory_depth]
        apply walk_steps_inTree c h hF hP pm0 va hinv hva c.TABLES_DEPTH (le_refl _) g
        rcases List.mem_append.mp hg with hg | hg
        · exact Or.inl (ih g hg)
        · exact Or.inr hg
      obtain ⟨p, hv, hw⟩ := hin
      exact ⟨p, hv, by
        show walk c (PMwrite _ _ value).ram p 0 = some g
        rw [walk_write_access c h hF hP pm0 va value hinv hva p hv]; exact hw⟩
    · rw [access_returned_invalid c h pm0 va hva, List.append_nil] at hg
      rw [VMwrite_invalid c h pm0 va value hva]
      exact ih g hg

end VM

namespace VM

/-! ## The calls and the memory of `find_frame` in each of its three branches -/

/-- The node that `find_frame` removes and its parent are different frames below `NUM_FRAMES`,
so the entry that is set to 0 is not a word of the removed frame. -/
theorem removed_parent_outside (c : Config) (h : c.WF) (ram : Nat → Nat) (hinv : TreeInv c ram)
    (va k : Nat) (q : List Nat) (i m g : Nat) (hrem : Removed c ram va k q i m g) :
    m ≠ g ∧ m < c.NUM_FRAMES ∧ g < c.NUM_FRAMES ∧ i < PAGE_SIZE c ∧
      u64 (m * PAGE_SIZE c + i) = m * PAGE_SIZE c + i ∧
      ∀ j, j < PAGE_SIZE c → u64 (m * PAGE_SIZE c + i) ≠ g * PAGE_SIZE c + j := by
  have hvq : ValidPath c q := validPath_of_append c q [i] hrem.valid
  have hi : i < PAGE_SIZE c := hrem.valid.2 i (by simp)
  have hm : m < c.NUM_FRAMES := hinv.shape.bound q m hvq hrem.parent
  have hg : g < c.NUM_FRAMES := hinv.shape.bound _ g hrem.valid hrem.node
  have hne : m ≠ g := by
    intro e
    have hp := hrem.parent
    rw [e] at hp
    have := congrArg List.length (hinv.shape.inj _ _ g hvq hrem.valid hp hrem.node)
    simp at this
  refine ⟨hne, hm, hg, hi, entry_addr_eq c h m i hm hi, ?_⟩
  intro j hj e
  rw [← entry_addr_eq c h g j hg hj] at e
  exact hne (entry_addr_inj c h m i g j hm hi hg hj e).1

theorem find_frame_calls_first (c : Config) (pm : PM) (va : Nat)
    (hfound : (choose_frame_1 c pm.ram va 0 0 0).is_found ≠ 0) :
    find_frame_calls c pm va = [PMcall.write (choose_frame_1 c pm.ram va 0 0 0).parent 0] := by
  unfold find_frame_calls
  rw [find_frame_first_eq c pm va hfound]
  simp only [PMwrite_calls, List.drop_left]

theorem find_frame_calls_second (c : Config) (pm : PM) (va : Nat)
    (hnot : (choose_frame_1 c pm.ram va 0 0 0).is_found = 0)
    (hlt : c.NUM_FRAMES > u64 (choose_frame_2 c pm.ram 0 0 + 1)) :
    find_frame_calls c pm va = [] := by
  unfold find_frame_calls
  rw [find_frame_second_eq c pm va hnot hlt]
  simp only [List.drop_length]

theorem find_frame_calls_third (c : Config) (pm : PM) (va : Nat)
    (hnot : (choose_frame_1 c pm.ram va 0 0 0).is_found = 0)
    (hfull : ¬ c.NUM_FRAMES > u64 (choose_frame_2 c pm.ram 0 0 + 1)) :
    find_frame_calls c pm va = [PMcall.write (choose_frame_3 c pm.ram va 0 0 0 0).parent 0,
      PMcall.evict (choose_frame_3 c pm.ram va 0 0 0 0).frame
        (choose_frame_3 c pm.ram va 0 0 0 0).page_num] := by
  unfold find_frame_calls
  rw [find_frame_third_eq c pm va hnot hfull]
  simp only [PMwrite_calls, PMevict_calls, List.append_assoc, List.drop_left]
  rfl

/-- When the walker calls `find_frame` and the third priority is taken, the entry that is set
to 0 is not a word of the evicted frame. -/
theorem third_parent_outside (c : Config) (h : c.WF) (hF : c.TABLES_DEPTH < c.NUM_FRAMES)
    (hP : ADDRESS_PART_SIZE c ≤ c.OFFSET_WIDTH) (pm : PM) (va k fk : Nat)
    (hs : WalkState c pm.ram va k fk)
    (hnot : (choose_frame_1 c pm.ram va 0 0 0).is_found = 0)
    (hfull : ¬ c.NUM_FRAMES > u64 (choose_frame_2 c pm.ram 0 0 + 1)) :
    ∀ j, j < PAGE_SIZE c → (choose_frame_3 c pm.ram va 0 0 0 0).parent
      ≠ (choose_frame_3 c pm.ram va 0 0 0 0).frame * PAGE_SIZE c + j := by
  rcases find_frame_cases c h hF hP pm va k fk hs with h2 | h1 | h3
  · exact absurd h2.2.2.1 hfull
  · obtain ⟨q, i, m, -, hf, -⟩ := h1
    exact absurd hnot hf
  · obtain ⟨q, i, m, va2, hrem, -, -, -, hpar, hfr, -⟩ := h3
    rw [hpar, hfr]
    exact (removed_parent_outside c h pm.ram hs.inv va k q i m _ hrem).2.2.2.2.2

end VM

namespace VM

/-! ## The first priority: which table is found -/

theorem verify_loop_zero_or_one (c : Config) (ram : Nat → Nat) (va g : Nat) :
    ∀ (is : List Nat) (last : Nat),
      verify_loop c ram va g is last = 0 ∨ verify_loop c ram va g is last = 1 := by
  intro is
  induction is with
  | nil => intro last; exact Or.inr rfl
  | cons i rest ih =>
    intro last
    unfold verify_loop
    simp only
    split_ifs
    · exact Or.inl rfl
    · exact Or.inr rfl
    · exact ih _

theorem verify_zero_or_one (c : Config) (ram : Nat → Nat) (va g : Nat) :
    verify c ram va g = 0 ∨ verify c ram va g = 1 := by
  unfold verify
  split_ifs
  · exact Or.inl rfl
  · exact verify_loop_zero_or_one c ram va g _ _

theorem range_split (n : Nat) (pre : List Nat) (i : Nat) (post : List Nat)
    (e : List.range n = pre ++ i :: post) : i < n ∧ ∀ j, j ∈ pre ↔ j < i := by
  have hlen : n = pre.length + 1 + post.length := by
    have := congrArg List.length e
    simp only [List.length_range, List.length_append, List.length_cons] at this
    omega
  have hi : i = pre.length := by
    have h1 : (List.range n)[pre.length]? = some i := by
      rw [e, List.getElem?_append_right (le_refl _)]
      simp
    rw [List.getElem?_range (by omega)] at h1
    exact (Option.some.inj h1).symm
  have hpre : pre = List.range pre.length := by
    have := congrArg (List.take pre.length) e
    rw [List.take_range, List.take_left, Nat.min_eq_left (by omega)] at this
    exact this.symm
  refine ⟨by omega, fun j => ?_⟩
  rw [hi]
  constructor
  · intro hj
    rw [hpre] at hj
    exact List.mem_range.mp hj
  · intro hj
    rw [hpre]
    exact List.mem_range.mpr hj

/-- The loop of `choose_frame_1` returns from the first entry whose subtree holds a table that
qualifies. -/
theorem choose_frame_1_loop_first (c : Config) (ram : Nat → Nat)
    (recurse : Nat → Nat → ZerosFrame) (v l : Nat) (is : List Nat) :
    ∀ z r z2, choose_frame_1_loop c ram recurse v l is z = (some r, z2) →
      ∃ pre i post, is = pre ++ i :: post ∧ entry c ram v i ≠ 0 ∧ l + 1 < c.TABLES_DEPTH ∧
        r = recurse (entry c ram v i) (u64 (v * PAGE_SIZE c + i)) ∧ r.is_found ≠ 0 ∧
        ∀ j ∈ pre, entry c ram v j ≠ 0 →
          (recurse (entry c ram v j) (u64 (v * PAGE_SIZE c + j))).is_found = 0 := by
  induction is with
  | nil => intro z r z2 h; simp [choose_frame_1_loop] at h
  | cons i rest ih =>
    intro z r z2 h
    unfold choose_frame_1_loop at h
    have e : PMread ram (u64 (v * PAGE_SIZE c + i)) = entry c ram v i := rfl
    simp only [e] at h
    split_ifs at h with h1 h2 h3
    · simp only [Prod.mk.injEq, Option.some.injEq] at h
      obtain ⟨rfl, -⟩ := h
      exact ⟨[], i, rest, rfl, h1, h2, rfl, h3, fun j hj => absurd hj (List.not_mem_nil j)⟩
    · obtain ⟨pre, i2, post, e1, a1, a2, a3, a4, a5⟩ := ih _ r z2 h
      refine ⟨i :: pre, i2, post, by rw [e1]; rfl, a1, a2, a3, a4, ?_⟩
      intro j hj hj0
      rcases List.mem_cons.mp hj with rfl | hj
      · exact not_not.mp h3
      · exact a5 j hj hj0
    · obtain ⟨pre, i2, post, e1, a1, a2, a3, a4, a5⟩ := ih _ r z2 h
      exact absurd a2 h2
    · obtain ⟨pre, i2, post, e1, a1, a2, a3, a4, a5⟩ := ih _ r z2 h
      refine ⟨i :: pre, i2, post, by rw [e1]; rfl, a1, a2, a3, a4, ?_⟩
      intro j hj hj0
      rcases List.mem_cons.mp hj with rfl | hj
      · exact absurd (not_not.mp h1) hj0
      · exact a5 j hj hj0

/-- The two ways in which the body of `choose_frame_1` returns, with the index at which the
loop returns being the first at which the recursive call reports a table. -/
theorem choose_frame_1_body_first (c : Config) (ram : Nat → Nat) (va : Nat)
    (recurse : Nat → Nat → ZerosFrame) (v par l : Nat) :
    (∃ i, i < PAGE_SIZE c ∧ entry c ram v i ≠ 0 ∧ l + 1 < c.TABLES_DEPTH ∧
      (recurse (entry c ram v i) (u64 (v * PAGE_SIZE c + i))).is_found ≠ 0 ∧
      choose_frame_1_body c ram va recurse v par l
        = recurse (entry c ram v i) (u64 (v * PAGE_SIZE c + i)) ∧
      ∀ j, j < i → entry c ram v j ≠ 0 →
        (recurse (entry c ram v j) (u64 (v * PAGE_SIZE c + j))).is_found = 0) ∨
    ((∀ i, i < PAGE_SIZE c → entry c ram v i ≠ 0 → l + 1 < c.TABLES_DEPTH →
        (recurse (entry c ram v i) (u64 (v * PAGE_SIZE c + i))).is_found = 0) ∧
      choose_frame_1_body c ram va recurse v par l
        = if (∀ i, i < PAGE_SIZE c → entry c ram v i = 0) ∧ verify c ram va v ≠ 0
          then ⟨1, par⟩ else ⟨0, 0⟩) := by
  cases hloop : choose_frame_1_loop c ram recurse v l (List.range (PAGE_SIZE c)) 1 with
  | mk res z2 =>
    cases res with
    | some r =>
      left
      obtain ⟨pre, i, post, e1, a1, a2, a3, a4, a5⟩ :=
        choose_frame_1_loop_first c ram recurse v l _ _ _ _ hloop
      obtain ⟨hi, hpre⟩ := range_split _ pre i post e1
      refine ⟨i, hi, a1, a2, a3 ▸ a4, ?_, fun j hj => a5 j ((hpre j).mpr hj)⟩
      unfold choose_frame_1_body
      rw [hloop]
      exact a3
    | none =>
      right
      rcases choose_frame_1_body_cases c ram va recurse v par l with
        ⟨i, h1, h2, h3, h4, -⟩ | hB
      · obtain ⟨a1, -⟩ := choose_frame_1_loop_none c ram recurse v l _ _ _ hloop
        exact absurd (a1 i (List.mem_range.mpr h1) h2 h3) h4
      · exact hB

theorem choose_frame_1_fuel_zero_or_one (c : Config) (ram : Nat → Nat) (va : Nat) :
    ∀ fuel v par l, (choose_frame_1_fuel c ram va fuel v par l).is_found = 0 ∨
      (choose_frame_1_fuel c ram va fuel v par l).is_found = 1 := by
  intro fuel
  induction fuel with
  | zero =>
    intro v par l
    have e : choose_frame_1_fuel c ram va 0 v par l
        = choose_frame_1_body c ram va (fun _ _ => ⟨0, 0⟩) v par l := rfl
    rw [e]
    rcases choose_frame_1_body_cases c ram va (fun _ _ => ⟨0, 0⟩) v par l with
      ⟨i, -, -, -, h4, -⟩ | ⟨-, h2⟩
    · exact absurd rfl h4
    · rw [h2]
      split_ifs
      · exact Or.inr rfl
      · exact Or.inl rfl
  | succ f ih =>
    intro v par l
    have e : choose_frame_1_fuel c ram va (f + 1) v par l = choose_frame_1_body c ram va
        (fun nv np => choose_frame_1_fuel c ram va f nv np (l + 1)) v par l := rfl
    rw [e]
    rcases choose_frame_1_body_cases c ram va
        (fun nv np => choose_frame_1_fuel c ram va f nv np (l + 1)) v par l with
      ⟨i, -, -, -, -, h5⟩ | ⟨-, h2⟩
    · rw [h5]
      exact ih _ _ _
    · rw [h2]
      split_ifs
      · exact Or.inr rfl
      · exact Or.inl rfl

theorem dfs_before_cons (i : Nat) (p1 p2 : List Nat) (h : dfs_before p1 p2) :
    dfs_before (i :: p1) (i :: p2) := by
  obtain ⟨r, a, b, hab, ⟨t1, e1⟩, ⟨t2, e2⟩⟩ := h
  exact ⟨i :: r, a, b, hab, ⟨t1, by rw [← e1]; rfl⟩, ⟨t2, by rw [← e2]; rfl⟩⟩

/-- The table that `choose_frame_1` reports is the first one that qualifies, in the order of a
depth-first traversal by ascending index. -/
theorem choose_frame_1_fuel_first (c : Config) (ram : Nat → Nat) (va : Nat) (n : Nat) :
    ∀ fuel v par p l, c.TABLES_DEPTH ≤ fuel + l + 1 → c.TABLES_DEPTH ≤ l + n →
      (choose_frame_1_fuel c ram va fuel v par l).is_found ≠ 0 →
      ∃ path t2, (path = [] ∨ path.length + l < c.TABLES_DEPTH) ∧
        (∀ i ∈ path, i < PAGE_SIZE c) ∧ descend c ram path (v, par, p) = some t2 ∧
        t2.2.1 = (choose_frame_1_fuel c ram va fuel v par l).parent ∧
        (∀ i, i < PAGE_SIZE c → entry c ram t2.1 i = 0) ∧ verify c ram va t2.1 ≠ 0 ∧
        ∀ p2 g2, (p2 = [] ∨ p2.length + l < c.TABLES_DEPTH) → (∀ i ∈ p2, i < PAGE_SIZE c) →
          walk c ram p2 v = some g2 → (∀ i, i < PAGE_SIZE c → entry c ram g2 i = 0) →
          verify c ram va g2 ≠ 0 → p2 = path ∨ dfs_before path p2 := by
  induction n with
  | zero =>
    intro fuel v par p l hf hn hfound
    obtain ⟨recurse, e, -⟩ := choose_frame_1_fuel_unfold c ram va fuel v par l hf
    rw [e] at hfound ⊢
    rcases choose_frame_1_body_cases c ram va recurse v par l with
      ⟨i, -, -, h3, -, -⟩ | ⟨-, h2⟩
    · omega
    · rw [h2] at hfound ⊢
      split_ifs at hfound ⊢ with h3
      · refine ⟨[], (v, par, p), Or.inl rfl, fun i hi => absurd hi (List.not_mem_nil i), rfl, rfl,
          h3.1, h3.2, ?_⟩
        intro p2 g2 hlen hidx hw _ _
        cases p2 with
        | nil => exact Or.inl rfl
        | cons j rest =>
          rw [walk_cons, if_pos (h3.1 j (hidx j (List.mem_cons_self _ _)))] at hw
          exact absurd hw (by simp)
      · exact absurd rfl hfound
  | succ n ih =>
    intro fuel v par p l hf hn hfound
    obtain ⟨recurse, e, hr⟩ := choose_frame_1_fuel_unfold c ram va fuel v par l hf
    rw [e] at hfound ⊢
    rcases choose_frame_1_body_first c ram va recurse v par l with
      ⟨i, h1, h2, h3, h4, h5, h6⟩ | ⟨-, h2⟩
    · obtain ⟨f2, hf2, hrec⟩ := hr h3
      rw [h5, hrec]
      rw [hrec] at h4 h6
      obtain ⟨path, t2, a1, a2, a3, a4, a5, a6, a7⟩ := ih f2 (entry c ram v i)
        (u64 (v * PAGE_SIZE c + i)) (u64 ((p <<< ADDRESS_PART_SIZE c) + i)) (l + 1) hf2
        (by omega) h4
      refine ⟨i :: path, t2, Or.inr ?_, ?_, ?_, a4, a5, a6, ?_⟩
      · rcases a1 with rfl | a1
        · simp only [List.length_singleton]; omega
        · simp only [List.length_cons]; omega
      · intro j hj
        rcases List.mem_cons.mp hj with rfl | hj
        · exact h1
        · exact a2 j hj
      · rw [descend, if_neg h2]
        exact a3
      · intro p2 g2 hlen hidx hw hzero hver
        cases p2 with
        | nil =>
          rw [walk_nil] at hw
          have hv : v = g2 := Option.some.inj hw
          subst hv
          exact absurd (hzero i h1) h2
        | cons j rest =>
          rw [walk_cons] at hw
          split_ifs at hw with h0
          have hlen2 : rest = [] ∨ rest.length + (l + 1) < c.TABLES_DEPTH := by
            rcases hlen with hl | hl
            · exact absurd hl (by simp)
            · right; simp only [List.length_cons] at hl; omega
          have hidx2 : ∀ x ∈ rest, x < PAGE_SIZE c :=
            fun x hx => hidx x (List.mem_cons_of_mem _ hx)
          rcases Nat.lt_trichotomy j i with hlt | heq | hgt
          · exact absurd (choose_frame_1_fuel_complete c ram va rest f2 (entry c ram v j)
              (u64 (v * PAGE_SIZE c + j)) (l + 1) g2 hf2 (h6 j hlt h0) hlen2 hidx2 hw hzero) hver
          · subst heq
            rcases a7 rest g2 hlen2 hidx2 hw hzero hver with e2 | hb
            · exact Or.inl (by rw [e2])
            · exact Or.inr (dfs_before_cons j _ _ hb)
          · exact Or.inr ⟨[], i, j, hgt, ⟨path, rfl⟩, ⟨rest, rfl⟩⟩
    · rw [h2] at hfound ⊢
      split_ifs at hfound ⊢ with h3
      · refine ⟨[], (v, par, p), Or.inl rfl, fun i hi => absurd hi (List.not_mem_nil i), rfl, rfl,
          h3.1, h3.2, ?_⟩
        intro p2 g2 hlen hidx hw _ _
        cases p2 with
        | nil => exact Or.inl rfl
        | cons j rest =>
          rw [walk_cons, if_pos (h3.1 j (hidx j (List.mem_cons_self _ _)))] at hw
          exact absurd hw (by simp)
      · exact absurd rfl hfound

/-! ## Memories in which every frame is referred to once -/

/-- In a memory in which every frame is referred to by at most one entry of the tree, a frame
is at the end of at most one chain of entries from the root. -/
theorem singleReference_inj (c : Config) (ram : Nat → Nat) (hsr : SingleReference c ram)
    (n : Nat) : ∀ p1 p2 f, p1.length ≤ n → ValidPath c p1 → ValidPath c p2 →
      walk c ram p1 0 = some f → walk c ram p2 0 = some f → p1 = p2 := by
  induction n with
  | zero =>
    intro p1 p2 f hl _ _ h1 h2
    have hp1 : p1 = [] := List.length_eq_zero.mp (by omega)
    subst hp1
    rw [walk_nil] at h1
    have hf : 0 = f := Option.some.inj h1
    subst hf
    by_contra hne
    obtain ⟨q, i, e⟩ := exists_snoc p2 (fun e => hne e.symm)
    subst e
    obtain ⟨m, -, -, h0⟩ := walk_snoc_some c ram q i 0 0 h2
    exact h0 rfl
  | succ n ih =>
    intro p1 p2 f hl hv1 hv2 h1 h2
    by_cases hp1 : p1 = []
    · subst hp1
      rw [walk_nil] at h1
      have hf : 0 = f := Option.some.inj h1
      subst hf
      by_contra hne
      obtain ⟨q, i, e⟩ := exists_snoc p2 (fun e => hne e.symm)
      subst e
      obtain ⟨m, -, -, h0⟩ := walk_snoc_some c ram q i 0 0 h2
      exact h0 rfl
    · obtain ⟨q1, i1, e1⟩ := exists_snoc p1 hp1
      subst e1
      obtain ⟨m1, w1, en1, hne1⟩ := walk_snoc_some c ram q1 i1 0 f h1
      have hp2 : p2 ≠ [] := by
        intro e
        subst e
        rw [walk_nil] at h2
        exact hne1 (Option.some.inj h2).symm
      obtain ⟨q2, i2, e2⟩ := exists_snoc p2 hp2
      subst e2
      obtain ⟨m2, w2, en2, -⟩ := walk_snoc_some c ram q2 i2 0 f h2
      obtain ⟨em, ei⟩ := hsr q1 i1 m1 q2 i2 m2 hv1 hv2 w1 w2 (by rw [en1]; exact hne1)
        (by rw [en1, en2])
      subst em ei
      have hq := ih q1 q2 m1 (by rw [List.length_append, List.length_singleton] at hl; omega)
        (validPath_of_append c q1 [i1] hv1) (validPath_of_append c q2 [i1] hv2) w1 w2
      rw [hq]

theorem singleReference_of_shape (c : Config) (ram : Nat → Nat) (hs : TreeShape c ram) :
    SingleReference c ram := by
  intro q1 i1 m1 q2 i2 m2 hv1 hv2 hw1 hw2 hne e
  have w1 := walk_snoc_of c ram q1 i1 0 m1 hw1 hne
  have w2 := walk_snoc_of c ram q2 i2 0 m2 hw2 (by rw [← e]; exact hne)
  rw [← e] at w2
  have e3 := hs.inj _ _ _ hv1 hv2 w1 w2
  obtain ⟨eq, ei⟩ := List.append_inj' e3 rfl
  have ei2 : i1 = i2 := by simpa using ei
  subst eq
  rw [hw1] at hw2
  exact ⟨Option.some.inj hw2, ei2⟩

/-- The memories in which the walker calls `find_frame` are of this kind. -/
theorem singleReference_of_call (c : Config) (h : c.WF) (hF : c.TABLES_DEPTH < c.NUM_FRAMES)
    (hP : ADDRESS_PART_SIZE c ≤ c.OFFSET_WIDTH) (pm : PM) (hr : Reachable c pm) (va k : Nat)
    (hva : va < 2 ^ c.VIRTUAL_ADDRESS_WIDTH) (hk : k ≤ c.TABLES_DEPTH) :
    SingleReference c (call_memory c pm va k).ram :=
  singleReference_of_shape c _
    (walk_steps_spec c h hF hP pm va (treeInv_of_reachable c h hF hP pm hr) hva k hk).1.shape

end VM

namespace VM

/-! ## The searches never nest deeper than the depth of the tree -/

theorem choose_frame_1_bounded_loop_eq (c : Config) (ram : Nat → Nat)
    (recurse : Nat → Nat → Option ZerosFrame) (r : Nat → Nat → ZerosFrame) (v l : Nat)
    (h : l + 1 < c.TABLES_DEPTH → ∀ x y, recurse x y = some (r x y)) (is : List Nat) :
    ∀ z, choose_frame_1_bounded_loop c ram recurse v l is z
      = some (choose_frame_1_loop c ram r v l is z) := by
  induction is with
  | nil => intro z; rfl
  | cons i rest ih =>
    intro z
    unfold choose_frame_1_bounded_loop choose_frame_1_loop
    simp only
    by_cases h1 : PMread ram (u64 (v * PAGE_SIZE c + i)) ≠ 0
    · rw [if_pos h1, if_pos h1]
      by_cases h2 : l + 1 < c.TABLES_DEPTH
      · rw [if_pos h2, if_pos h2, h h2]
        simp only
        split_ifs
        · rfl
        · exact ih _
      · rw [if_neg h2, if_neg h2]
        exact ih _
    · rw [if_neg h1, if_neg h1]
      exact ih _

/-- With `depth` nested activations allowed, `choose_frame_1` started at level `l` returns its
result as soon as `depth + l` reaches `TABLES_DEPTH`. -/
theorem choose_frame_1_bounded_eq (c : Config) (ram : Nat → Nat) (va : Nat) :
    ∀ depth v par l, c.TABLES_DEPTH ≤ depth + l → 1 ≤ depth →
      choose_frame_1_bounded c ram va depth v par l = some (choose_frame_1 c ram va v par l) := by
  intro depth
  induction depth with
  | zero => intro v par l _ h1; omega
  | succ d ih =>
    intro v par l hd _
    rw [choose_frame_1_unfold]
    unfold choose_frame_1_bounded choose_frame_1_body
    rw [choose_frame_1_bounded_loop_eq c ram _
      (fun x y => choose_frame_1 c ram va x y (l + 1)) v l
      (fun hl x y => ih x y (l + 1) (by omega) (by omega))]
    cases choose_frame_1_loop c ram (fun x y => choose_frame_1 c ram va x y (l + 1)) v l
        (List.range (PAGE_SIZE c)) 1 with
    | mk res z =>
      cases res with
      | some r => rfl
      | none => rfl

theorem choose_frame_2_bounded_loop_eq (c : Config) (ram : Nat → Nat)
    (recurse : Nat → Option Nat) (r : Nat → Nat) (v l : Nat)
    (h : l < c.TABLES_DEPTH → ∀ x, recurse x = some (r x)) (is : List Nat) :
    ∀ m, choose_frame_2_bounded_loop c ram recurse v l is m
      = some (choose_frame_2_loop c ram r v l is m) := by
  induction is with
  | nil => intro m; rfl
  | cons i rest ih =>
    intro m
    unfold choose_frame_2_bounded_loop choose_frame_2_loop
    simp only
    by_cases hc : PMread ram (u64 (v * PAGE_SIZE c + i)) ≠ 0 ∧ l < c.TABLES_DEPTH
    · rw [if_pos hc, if_pos hc, h hc.2]
      simp only
      split_ifs
      · exact ih _
      · exact ih _
    · rw [if_neg hc, if_neg hc]
      exact ih _

/-- With `depth` nested activations allowed, `choose_frame_2` started at level `l` returns its
result as soon as `depth + l` exceeds `TABLES_DEPTH`. -/
theorem choose_frame_2_bounded_eq (c : Config) (ram : Nat → Nat) :
    ∀ depth v l, c.TABLES_DEPTH + 1 ≤ depth + l → 1 ≤ depth →
      choose_frame_2_bounded c ram depth v l = some (choose_frame_2 c ram v l) := by
  intro depth
  induction depth with
  | zero => intro v l _ h1; omega
  | succ d ih =>
    intro v l hd _
    rw [choose_frame_2_unfold]
    unfold choose_frame_2_bounded
    exact choose_frame_2_bounded_loop_eq c ram _ (fun x => choose_frame_2 c ram x (l + 1)) v l
      (fun hl x => ih x (l + 1) (by omega) (by omega)) _ _

theorem choose_frame_3_bounded_loop_eq (c : Config) (ram : Nat → Nat)
    (recurse : Nat → Nat → Nat → Option MaxDistanceFrame)
    (r : Nat → Nat → Nat → MaxDistanceFrame) (v p l : Nat)
    (h : l < c.TABLES_DEPTH → ∀ x y z, recurse x y z = some (r x y z)) (is : List Nat) :
    ∀ md mf, choose_frame_3_bounded_loop c ram recurse v p l is md mf
      = some (choose_frame_3_loop c ram r v p l is md mf) := by
  induction is with
  | nil => intro md mf; rfl
  | cons i rest ih =>
    intro md mf
    unfold choose_frame_3_bounded_loop choose_frame_3_loop
    simp only
    by_cases hc : PMread ram (u64 (v * PAGE_SIZE c + i)) ≠ 0 ∧ l < c.TABLES_DEPTH
    · rw [if_pos hc, if_pos hc, h hc.2]
      simp only
      split_ifs
      · exact ih _ _
      · exact ih _ _
    · rw [if_neg hc, if_neg hc]
      exact ih _ _

/-- With `depth` nested activations allowed, `choose_frame_3` started at level `l` returns its
result as soon as `depth + l` exceeds `TABLES_DEPTH`. -/
theorem choose_frame_3_bounded_eq (c : Config) (ram : Nat → Nat) (va : Nat) :
    ∀ depth v par p l, c.TABLES_DEPTH + 1 ≤ depth + l → 1 ≤ depth →
      choose_frame_3_bounded c ram va depth v par p l
        = some (choose_frame_3 c ram va v par p l) := by
  intro depth
  induction depth with
  | zero => intro v par p l _ h1; omega
  | succ d ih =>
    intro v par p l hd _
    rw [choose_frame_3_unfold]
    unfold choose_frame_3_bounded choose_frame_3_body
    by_cases hl : l = c.TABLES_DEPTH
    · rw [if_pos hl, if_pos hl]
    · rw [if_neg hl, if_neg hl]
      exact choose_frame_3_bounded_loop_eq c ram _
        (fun x y z => choose_frame_3 c ram va x y z (l + 1)) v p l
        (fun hl2 x y z => ih x y z (l + 1) (by omega) (by omega)) _ _ _

theorem find_frame_bounded_eq (c : Config) (hD : 1 ≤ c.TABLES_DEPTH) (pm : PM) (va : Nat) :
    find_frame_bounded c pm va c.TABLES_DEPTH (c.TABLES_DEPTH + 1) (c.TABLES_DEPTH + 1)
      = some (find_frame c pm va) := by
  unfold find_frame_bounded find_frame
  rw [choose_frame_1_bounded_eq c pm.ram va c.TABLES_DEPTH 0 0 0 (by omega) hD,
    choose_frame_2_bounded_eq c pm.ram (c.TABLES_DEPTH + 1) 0 0 (by omega) (by omega),
    choose_frame_3_bounded_eq c pm.ram va (c.TABLES_DEPTH + 1) 0 0 0 0 (by omega) (by omega)]
  simp only
  split_ifs <;> rfl

theorem walk_step_counted_eq (c : Config) (hD : 1 ≤ c.TABLES_DEPTH) (va : Nat)
    (st : Nat × PM) (count i : Nat) :
    walk_step_counted c va c.TABLES_DEPTH (c.TABLES_DEPTH + 1) (c.TABLES_DEPTH + 1)
        (some (st.1, st.2, count)) i
      = some ((walk_step c va st i).1, (walk_step c va st i).2,
          count + if PMread st.2.ram (u64 (st.1 * PAGE_SIZE c + get_address_part c i va)) = 0
            then 1 else 0) := by
  unfold walk_step_counted walk_step
  simp only
  rw [find_frame_bounded_eq c hD]
  simp only
  split_ifs <;> rfl

/-- The walker with the bounded searches runs like the walker, and its count is the number of
iterations in which the entry read is 0. -/
theorem walk_steps_counted_eq (c : Config) (hD : 1 ≤ c.TABLES_DEPTH) (pm : PM) (va : Nat)
    (n : Nat) (hn : n ≤ c.TABLES_DEPTH) :
    (List.range n).foldl
        (walk_step_counted c va c.TABLES_DEPTH (c.TABLES_DEPTH + 1) (c.TABLES_DEPTH + 1))
        (some (0, pm, 0))
      = some ((walk_steps c pm va n).1, (walk_steps c pm va n).2,
          (List.range n).countP (fun k => decide (calls_find_frame c pm va k))) := by
  induction n with
  | zero => rfl
  | succ n ih =>
    rw [List.range_succ, List.foldl_append, ih (by omega), List.foldl_cons, List.foldl_nil,
      walk_step_counted_eq c hD va (walk_steps c pm va n), ← walk_steps_succ,
      List.countP_append, List.countP_cons, List.countP_nil]
    congr 3
    by_cases hz : PMread (walk_steps c pm va n).2.ram
        (u64 ((walk_steps c pm va n).1 * PAGE_SIZE c + get_address_part c n va)) = 0
    · have : calls_find_frame c pm va n := ⟨by omega, hz⟩
      rw [if_pos hz]
      simp [this]
    · have : ¬ calls_find_frame c pm va n := fun hc => hz hc.2
      rw [if_neg hz]
      simp [this]

theorem get_physical_address_counted_eq (c : Config) (hD : 1 ≤ c.TABLES_DEPTH) (pm : PM)
    (va : Nat) :
    get_physical_address_counted c pm va c.TABLES_DEPTH (c.TABLES_DEPTH + 1)
        (c.TABLES_DEPTH + 1)
      = some (get_physical_address c pm va,
          (List.range c.TABLES_DEPTH).countP (fun k => decide (calls_find_frame c pm va k))) := by
  unfold get_physical_address_counted
  rw [walk_steps_counted_eq c hD pm va c.TABLES_DEPTH (le_refl _)]
  rfl

end VM

namespace VM

/-! ## The backing store and the log of calls under the primitives -/

theorem PMwrite_swap (pm : PM) (a v : Nat) : (PMwrite pm a v).swap = pm.swap := rfl

theorem PMevict_swap (c : Config) (pm : PM) (f p q : Nat) :
    (PMevict c pm f p).swap q = if q = p then
      some ((List.range (PAGE_SIZE c)).map (fun i => pm.ram (f * PAGE_SIZE c + i)))
    else pm.swap q := rfl

theorem PMrestore_swap (c : Config) (pm : PM) (f p : Nat) :
    (PMrestore c pm f p).swap = pm.swap := by
  unfold PMrestore
  cases pm.swap p <;> rfl

theorem PMrestore_calls (c : Config) (pm : PM) (f p : Nat) :
    (PMrestore c pm f p).calls = pm.calls ++ [PMcall.restore f p] := by
  unfold PMrestore
  cases pm.swap p <;> rfl

/-- The words of a frame after `PMrestore`: the saved words of the page, or the words the frame
had when the page was never saved. -/
theorem PMrestore_ram_in (c : Config) (pm : PM) (f p i : Nat) (hi : i < PAGE_SIZE c) :
    (PMrestore c pm f p).ram (f * PAGE_SIZE c + i) =
      match pm.swap p with
      | some ws => ws.getD i 0
      | none => pm.ram (f * PAGE_SIZE c + i) := by
  unfold PMrestore
  cases pm.swap p with
  | none => rfl
  | some ws =>
    simp only
    rw [if_pos ⟨by omega, by omega⟩, Nat.add_sub_cancel_left]

theorem fill_loop_swap (base : Nat) (n : Nat) : ∀ pm : PM,
    ((List.range n).foldl (fun m i => PMwrite m (u64 (base + i)) 0) pm).swap = pm.swap := by
  induction n with
  | zero => intro pm; rfl
  | succ n ih =>
    intro pm
    rw [List.range_succ, List.foldl_append, List.foldl_cons, List.foldl_nil, PMwrite_swap, ih]

theorem fill_zeroes_swap (c : Config) (pm : PM) (f : Nat) : (fill_zeroes c pm f).swap = pm.swap :=
  fill_loop_swap _ (PAGE_SIZE c) pm

theorem fill_loop_calls (base : Nat) (n : Nat) : ∀ pm : PM,
    ((List.range n).foldl (fun m i => PMwrite m (u64 (base + i)) 0) pm).calls
      = pm.calls ++ (List.range n).map (fun i => PMcall.write (u64 (base + i)) 0) := by
  induction n with
  | zero => intro pm; simp
  | succ n ih =>
    intro pm
    rw [List.range_succ, List.foldl_append, List.foldl_cons, List.foldl_nil, PMwrite_calls, ih,
      List.map_append, List.append_assoc]
    rfl

theorem fill_zeroes_calls (c : Config) (pm : PM) (f : Nat) :
    (fill_zeroes c pm f).calls = pm.calls ++
      (List.range (PAGE_SIZE c)).map (fun i => PMcall.write (u64 (u64 (f * PAGE_SIZE c) + i)) 0) :=
  fill_loop_calls _ (PAGE_SIZE c) pm

theorem find_frame_calls_append (c : Config) (pm : PM) (va : Nat) :
    (find_frame c pm va).2.calls = pm.calls ++ find_frame_calls c pm va := by
  unfold find_frame_calls
  by_cases hfound : (choose_frame_1 c pm.ram va 0 0 0).is_found ≠ 0
  · rw [find_frame_first_eq c pm va hfound]
    simp only [PMwrite_calls, List.drop_left]
  · have hnot := not_not.mp hfound
    by_cases hlt : c.NUM_FRAMES > u64 (choose_frame_2 c pm.ram 0 0 + 1)
    · rw [find_frame_second_eq c pm va hnot hlt]
      simp only [List.drop_length, List.append_nil]
    · rw [find_frame_third_eq c pm va hnot hlt]
      simp only [PMwrite_calls, PMevict_calls, List.append_assoc, List.drop_left]

/-- The calls that one iteration of the walker makes when the entry it reads is 0: those of
`find_frame`, the write of the new entry, and the restore of the page or the writes that clear
the new table. -/
theorem walk_step_zero_calls (c : Config) (va last k : Nat) (pm : PM)
    (hz : entry c pm.ram last (get_address_part c k va) = 0) :
    (walk_step c va (last, pm) k).2.calls = pm.calls ++ (find_frame_calls c pm va ++
      PMcall.write (u64 (last * PAGE_SIZE c + get_address_part c k va)) (find_frame c pm va).1 ::
      (if k + 1 = c.TABLES_DEPTH then
        [PMcall.restore (find_frame c pm va).1 (va >>> c.OFFSET_WIDTH)]
      else (List.range (PAGE_SIZE c)).map (fun i =>
        PMcall.write (u64 (u64 ((find_frame c pm va).1 * PAGE_SIZE c) + i)) 0))) := by
  rw [walk_step_zero_eq c va last k pm hz]
  simp only
  split_ifs
  · rw [PMrestore_calls, PMwrite_calls, find_frame_calls_append]
    simp only [List.append_assoc, List.singleton_append]
  · rw [fill_zeroes_calls, PMwrite_calls, find_frame_calls_append]
    simp only [List.append_assoc, List.singleton_append]

/-! ## The iterations of one walk -/

theorem part_lt_page (c : Config) (h : c.WF) (hP : ADDRESS_PART_SIZE c ≤ c.OFFSET_WIDTH)
    (i v : Nat) : get_address_part c i v < PAGE_SIZE c :=
  lt_of_lt_of_le (get_address_part_lt c h i v) (Nat.pow_le_pow_right (by norm_num) hP)

theorem walkState_of_inv (c : Config) (h : c.WF) (hF : c.TABLES_DEPTH < c.NUM_FRAMES)
    (hP : ADDRESS_PART_SIZE c ≤ c.OFFSET_WIDTH) (pm : PM) (hinv : TreeInv c pm.ram) (va k : Nat)
    (hva : va < 2 ^ c.VIRTUAL_ADDRESS_WIDTH) (hcall : calls_find_frame c pm va k) :
    WalkState c (call_memory c pm va k).ram va k (walk_steps c pm va k).1 := by
  obtain ⟨h1, h2⟩ := walk_steps_spec c h hF hP pm va hinv hva k (le_of_lt hcall.1)
  exact ⟨h1, hva, hcall.1, h2, hcall.2⟩

theorem walk_steps_succ_call (c : Config) (pm : PM) (va k : Nat) :
    walk_steps c pm va (k + 1)
      = walk_step c va ((walk_steps c pm va k).1, call_memory c pm va k) k :=
  walk_steps_succ c pm va k

/-- An iteration in which the entry read is not 0 changes nothing. -/
theorem walk_steps_succ_skip (c : Config) (pm : PM) (va k : Nat) (hk : k < c.TABLES_DEPTH)
    (hcall : ¬ calls_find_frame c pm va k) :
    call_memory c pm va (k + 1) = call_memory c pm va k := by
  have hnz : entry c (call_memory c pm va k).ram (walk_steps c pm va k).1
      (get_address_part c k va) ≠ 0 := fun hz => hcall ⟨hk, hz⟩
  unfold call_memory
  rw [walk_steps_succ_call, walk_step_nonzero_eq c va _ k _ hnz]
  rfl

/-- Once `find_frame` has been called in an iteration, it is called in the next one too:
the table just created is empty. -/
theorem calls_find_frame_succ (c : Config) (h : c.WF) (hF : c.TABLES_DEPTH < c.NUM_FRAMES)
    (hP : ADDRESS_PART_SIZE c ≤ c.OFFSET_WIDTH) (pm : PM) (hinv : TreeInv c pm.ram) (va k : Nat)
    (hva : va < 2 ^ c.VIRTUAL_ADDRESS_WIDTH) (hcall : calls_find_frame c pm va k)
    (hk : k + 1 < c.TABLES_DEPTH) : calls_find_frame c pm va (k + 1) := by
  have hs := walkState_of_inv c h hF hP pm hinv va k hva hcall
  obtain ⟨e1, -, -, e4⟩ := walk_step_zero_ram c h hF hP _ va k _ hs
  refine ⟨hk, ?_⟩
  rw [walk_steps_succ_call, e1]
  exact e4 hk _ (part_lt_page c h hP _ _)

theorem calls_find_frame_from (c : Config) (h : c.WF) (hF : c.TABLES_DEPTH < c.NUM_FRAMES)
    (hP : ADDRESS_PART_SIZE c ≤ c.OFFSET_WIDTH) (pm : PM) (hinv : TreeInv c pm.ram) (va k : Nat)
    (hva : va < 2 ^ c.VIRTUAL_ADDRESS_WIDTH) (hcall : calls_find_frame c pm va k) (n : Nat)
    (hkn : k ≤ n) (hn : n < c.TABLES_DEPTH) : calls_find_frame c pm va n := by
  induction n with
  | zero =>
    have : k = 0 := by omega
    exact this ▸ hcall
  | succ n ih =>
    by_cases e : k = n + 1
    · exact e ▸ hcall
    · exact calls_find_frame_succ c h hF hP pm hinv va n hva (ih (by omega) (by omega)) hn

/-- As long as no iteration has called `find_frame`, the walk has followed entries that were
there and the memory is as it was. -/
theorem walk_steps_no_call (c : Config) (pm : PM) (va : Nat) (n : Nat)
    (hn : n ≤ c.TABLES_DEPTH) (hno : ∀ j, j < n → ¬ calls_find_frame c pm va j) :
    (walk_steps c pm va n).2 = pm ∧
      walk c pm.ram ((address_parts c va).take n) 0 = some (walk_steps c pm va n).1 := by
  induction n with
  | zero => exact ⟨rfl, rfl⟩
  | succ n ih =>
    obtain ⟨h1, h2⟩ := ih (by omega) (fun j hj => hno j (by omega))
    have hnz : entry c (call_memory c pm va n).ram (walk_steps c pm va n).1
        (get_address_part c n va) ≠ 0 := fun hz => hno n (by omega) ⟨by omega, hz⟩
    rw [walk_steps_succ_call, walk_step_nonzero_eq c va _ n _ hnz]
    have hcm : call_memory c pm va n = pm := h1
    rw [hcm] at hnz ⊢
    refine ⟨rfl, ?_⟩
    rw [address_parts_take_succ c va n (by omega)]
    exact walk_snoc_of c pm.ram _ _ 0 _ h2 hnz

/-- A page that is not resident makes the last iteration of the walk call `find_frame`. -/
theorem calls_find_frame_last (c : Config) (h : c.WF) (hF : c.TABLES_DEPTH < c.NUM_FRAMES)
    (hP : ADDRESS_PART_SIZE c ≤ c.OFFSET_WIDTH) (pm : PM) (hinv : TreeInv c pm.ram) (va : Nat)
    (hva : va < 2 ^ c.VIRTUAL_ADDRESS_WIDTH) (hnr : walk_address c pm.ram va = none) :
    calls_find_frame c pm va (c.TABLES_DEPTH - 1) := by
  have hD := h.depth_pos
  by_contra hlast
  have hno : ∀ j, j < c.TABLES_DEPTH → ¬ calls_find_frame c pm va j := by
    intro j hj hcall
    exact hlast (calls_find_frame_from c h hF hP pm hinv va j hva hcall _ (by omega) (by omega))
  obtain ⟨-, h2⟩ := walk_steps_no_call c pm va c.TABLES_DEPTH (le_refl _) hno
  rw [List.take_of_length_le (by rw [address_parts_length])] at h2
  have : walk_address c pm.ram va = some (walk_steps c pm va c.TABLES_DEPTH).1 := h2
  rw [hnr] at this
  exact absurd this (by simp)

/-- A page that is resident makes no iteration call `find_frame`. -/
theorem not_calls_of_resident (c : Config) (pm : PM) (va leaf : Nat)
    (hw : walk_address c pm.ram va = some leaf) (k : Nat) : ¬ calls_find_frame c pm va k := by
  rintro ⟨hk, hz⟩
  obtain ⟨h1, h2⟩ := walk_steps_mapped c pm va leaf hw k (le_of_lt hk)
  obtain ⟨m, hm⟩ := walk_take_some c pm.ram _ 0 leaf (k + 1) hw
  rw [address_parts_take_succ c va k hk] at hm
  obtain ⟨m2, hm2, hent, hm0⟩ := walk_snoc_some c pm.ram _ _ _ _ hm
  rw [h2] at hm2
  have e : (walk_steps c pm va k).1 = m2 := Option.some.inj hm2
  rw [h1, e] at hz
  exact hm0 (hent ▸ hz)

/-- The frames on the path behind the walk stay where they are. -/
theorem walk_steps_prefix (c : Config) (h : c.WF) (hF : c.TABLES_DEPTH < c.NUM_FRAMES)
    (hP : ADDRESS_PART_SIZE c ≤ c.OFFSET_WIDTH) (pm : PM) (hinv : TreeInv c pm.ram) (va : Nat)
    (hva : va < 2 ^ c.VIRTUAL_ADDRESS_WIDTH) (n : Nat) (hn : n ≤ c.TABLES_DEPTH) :
    ∀ j, j ≤ n → walk c (call_memory c pm va n).ram ((address_parts c va).take j) 0
      = some (walk_steps c pm va j).1 := by
  induction n with
  | zero =>
    intro j hj
    have : j = 0 := by omega
    subst this
    rfl
  | succ n ih =>
    intro j hj
    by_cases e : j = n + 1
    · subst e
      exact (walk_steps_spec c h hF hP pm va hinv hva (n + 1) hn).2
    · have hjn : j ≤ n := by omega
      have hold := ih (by omega) j hjn
      by_cases hcall : calls_find_frame c pm va n
      · have hs := walkState_of_inv c h hF hP pm hinv va n hva hcall
        have hstep : call_memory c pm va (n + 1)
            = (walk_step c va ((walk_steps c pm va n).1, call_memory c pm va n) n).2 := by
          unfold call_memory
          rw [walk_steps_succ]
        rw [hstep, walk_step_walk_iff c h hF hP _ va n _ hs _ (validPath_take_parts c h hP va j)]
        left
        refine ⟨hold, ?_⟩
        obtain ⟨x, hx1, -, hx3⟩ := find_frame_walk_same c h hF hP _ va n _ hs j hjn
        rw [hold] at hx1
        exact (Option.some.inj hx1) ▸ hx3
      · rw [walk_steps_succ_skip c pm va n (by omega) hcall]
        exact hold

end VM

namespace VM

/-! ## What one walk materialises -/

theorem restore_calls_append (l1 l2 : List PMcall) :
    restore_calls (l1 ++ l2) = restore_calls l1 ++ restore_calls l2 := by
  unfold restore_calls
  rw [List.filter_append]

theorem restore_calls_writes (f : Nat → PMcall) (hf : ∀ i, ∃ a v, f i = PMcall.write a v)
    (l : List Nat) : restore_calls (l.map f) = [] := by
  unfold restore_calls
  rw [List.filter_eq_nil_iff]
  intro x hx
  obtain ⟨i, -, rfl⟩ := List.mem_map.mp hx
  obtain ⟨a, v, e⟩ := hf i
  rw [e]
  simp

theorem restore_calls_find_frame (c : Config) (pm : PM) (va : Nat) :
    restore_calls (find_frame_calls c pm va) = [] := by
  by_cases hfound : (choose_frame_1 c pm.ram va 0 0 0).is_found ≠ 0
  · rw [find_frame_calls_first c pm va hfound]; rfl
  · have hnot := not_not.mp hfound
    by_cases hlt : c.NUM_FRAMES > u64 (choose_frame_2 c pm.ram 0 0 + 1)
    · rw [find_frame_calls_second c pm va hnot hlt]; rfl
    · rw [find_frame_calls_third c pm va hnot hlt]; rfl

/-- The calls of `PMrestore` made in the first `n` iterations of a walk: none before the last
iteration, and in the last iteration one if `find_frame` is called there. -/
theorem walk_steps_restore_calls (c : Config) (pm : PM) (va : Nat) (n : Nat)
    (hn : n ≤ c.TABLES_DEPTH) :
    ∃ l, (call_memory c pm va n).calls = pm.calls ++ l ∧
      restore_calls l = if n = c.TABLES_DEPTH ∧ calls_find_frame c pm va (c.TABLES_DEPTH - 1)
        then [PMcall.restore (walk_steps c pm va c.TABLES_DEPTH).1 (va >>> c.OFFSET_WIDTH)]
        else [] := by
  induction n with
  | zero =>
    refine ⟨[], by simp [call_memory, walk_steps_zero], ?_⟩
    rw [if_neg]
    · rfl
    · rintro ⟨e, hc⟩
      have := hc.1
      omega
  | succ n ih =>
    obtain ⟨l, hl, hr⟩ := ih (by omega)
    rw [if_neg (by omega)] at hr
    by_cases hcall : calls_find_frame c pm va n
    · have hstep : call_memory c pm va (n + 1)
          = (walk_step c va ((walk_steps c pm va n).1, call_memory c pm va n) n).2 := by
        unfold call_memory
        rw [walk_steps_succ]
      have hg : (walk_steps c pm va (n + 1)).1 = (find_frame c (call_memory c pm va n) va).1 := by
        rw [walk_steps_succ_call,
          walk_step_zero_eq c va (walk_steps c pm va n).1 n (call_memory c pm va n) hcall.2]
      have hc := walk_step_zero_calls c va (walk_steps c pm va n).1 n (call_memory c pm va n)
        hcall.2
      rw [← hstep, hl, List.append_assoc] at hc
      refine ⟨_, hc, ?_⟩
      · rw [restore_calls_append, hr, List.nil_append, restore_calls_append,
          restore_calls_find_frame, List.nil_append]
        by_cases hlast : n + 1 = c.TABLES_DEPTH
        · have hn1 : c.TABLES_DEPTH - 1 = n := by omega
          rw [if_pos hlast, if_pos ⟨hlast, hn1 ▸ hcall⟩, ← hlast, hg]
          rfl
        · rw [if_neg hlast, if_neg (fun hc => hlast hc.1)]
          unfold restore_calls
          rw [List.filter_cons_of_neg (by simp)]
          exact restore_calls_writes _ (fun i => ⟨_, _, rfl⟩) _
    · refine ⟨l, ?_, ?_⟩
      · rw [walk_steps_succ_skip c pm va n (by omega) hcall]
        exact hl
      · rw [hr, if_neg]
        rintro ⟨e, hc⟩
        have hn1 : c.TABLES_DEPTH - 1 = n := by omega
        exact hcall (hn1 ▸ hc)

/-- The calls of `PMrestore` of one call of `get_physical_address`. -/
theorem get_physical_address_restore_calls (c : Config) (pm : PM) (va : Nat) :
    restore_calls (get_physical_address_calls c pm va) =
      if calls_find_frame c pm va (c.TABLES_DEPTH - 1)
        then [PMcall.restore (walk_steps c pm va c.TABLES_DEPTH).1 (va >>> c.OFFSET_WIDTH)]
        else [] := by
  obtain ⟨l, hl, hr⟩ := walk_steps_restore_calls c pm va c.TABLES_DEPTH (le_refl _)
  have e : get_physical_address_calls c pm va = l := by
    unfold get_physical_address_calls
    rw [← call_memory_depth, hl, List.drop_left]
  rw [e, hr]
  simp only [true_and]

/-- A table created by the walk has, in every later iteration, no entry off the path of the
address. -/
theorem walk_steps_new_table (c : Config) (h : c.WF) (hF : c.TABLES_DEPTH < c.NUM_FRAMES)
    (hP : ADDRESS_PART_SIZE c ≤ c.OFFSET_WIDTH) (pm : PM) (hinv : TreeInv c pm.ram) (va k : Nat)
    (hva : va < 2 ^ c.VIRTUAL_ADDRESS_WIDTH) (hcall : calls_find_frame c pm va k)
    (hk : k + 1 < c.TABLES_DEPTH) (n : Nat) (hkn : k + 1 ≤ n) (hn : n ≤ c.TABLES_DEPTH) :
    ∀ i, i < PAGE_SIZE c → i ≠ get_address_part c (k + 1) va →
      entry c (call_memory c pm va n).ram (walk_steps c pm va (k + 1)).1 i = 0 := by
  have hsk := walkState_of_inv c h hF hP pm hinv va k hva hcall
  obtain ⟨e1, -, -, e4⟩ := walk_step_zero_ram c h hF hP _ va k _ hsk
  have hg : (walk_steps c pm va (k + 1)).1 = (find_frame c (call_memory c pm va k) va).1 := by
    rw [walk_steps_succ_call, e1]
  induction n with
  | zero => omega
  | succ n ih =>
    intro i hi hne
    by_cases e : k = n
    · subst e
      have hstep : call_memory c pm va (k + 1)
          = (walk_step c va ((walk_steps c pm va k).1, call_memory c pm va k) k).2 := by
        unfold call_memory
        rw [walk_steps_succ]
      rw [hstep, hg]
      exact e4 hk i hi
    · have hold := ih (by omega) (by omega) i hi hne
      have hcn := calls_find_frame_from c h hF hP pm hinv va k hva hcall n (by omega) (by omega)
      have hs := walkState_of_inv c h hF hP pm hinv va n hva hcn
      obtain ⟨-, -, f3, -⟩ := walk_step_zero_ram c h hF hP _ va n _ hs
      have hstep : call_memory c pm va (n + 1)
          = (walk_step c va ((walk_steps c pm va n).1, call_memory c pm va n) n).2 := by
        unfold call_memory
        rw [walk_steps_succ]
      have hpre := walk_steps_prefix c h hF hP pm hinv va hva n (by omega) (k + 1) (by omega)
      have hgl : (walk_steps c pm va (k + 1)).1 < c.NUM_FRAMES :=
        hs.inv.shape.bound _ _ (validPath_take_parts c h hP va (k + 1)) hpre
      have hfl : (walk_steps c pm va n).1 < c.NUM_FRAMES :=
        hs.inv.shape.bound _ _ (validPath_take_parts c h hP va n) hs.walk_pre
      obtain ⟨hpl, -, -⟩ := find_frame_spec c h hF hP _ va n _ hs
      rw [hstep]
      unfold entry PMread
      rw [f3]
      · rcases find_frame_ram c (call_memory c pm va n) va with e2 | ⟨a, e2⟩
        · rw [e2]; exact hold
        · rw [e2]
          simp only
          split_ifs
          · rfl
          · exact hold
      · intro e2
        obtain ⟨e3, e4⟩ := entry_addr_inj c h _ _ _ _ hgl hi hfl (part_lt_page c h hP _ _) e2
        by_cases e5 : n = k + 1
        · subst e5
          exact hne e4
        · have := hs.inv.shape.inj _ _ _ (validPath_take_parts c h hP va (k + 1))
            (validPath_take_parts c h hP va n) hpre (e3 ▸ hs.walk_pre)
          have := congrArg List.length this
          rw [length_take_parts c va (k + 1) (by omega), length_take_parts c va n (by omega)]
            at this
          omega
      · intro j hj e2
        obtain ⟨e3, -⟩ := entry_addr_inj c h _ _ _ _ hgl hi hpl.lt hj e2
        obtain ⟨x, hx1, -, hx3⟩ := find_frame_walk_same c h hF hP _ va n _ hs (k + 1) (by omega)
        rw [hpre] at hx1
        exact hx3 ((Option.some.inj hx1).symm.trans e3)

end VM

namespace VM

/-! ## The backing store under `find_frame` -/

/-- The memory after `find_frame`, called by the walker: unchanged, with a frame that is not
in the tree; or with the entry of an empty table set to 0; or with the entry of a leaf set to 0
and the words of the leaf saved under its page. -/
theorem find_frame_effect (c : Config) (h : c.WF) (hF : c.TABLES_DEPTH < c.NUM_FRAMES)
    (hP : ADDRESS_PART_SIZE c ≤ c.OFFSET_WIDTH) (pm : PM) (va k fk : Nat)
    (hs : WalkState c pm.ram va k fk) :
    (¬ InTree c pm.ram (find_frame c pm va).1 ∧ (find_frame c pm va).2.ram = pm.ram ∧
      (find_frame c pm va).2.swap = pm.swap) ∨
    (∃ q i m, Removed c pm.ram va k q i m (find_frame c pm va).1 ∧
      (q ++ [i]).length < c.TABLES_DEPTH ∧
      ((find_frame c pm va).2.ram = fun x => if x = u64 (m * PAGE_SIZE c + i) then 0
        else pm.ram x) ∧
      (find_frame c pm va).2.swap = pm.swap) ∨
    (∃ q i m va2, Removed c pm.ram va k q i m (find_frame c pm va).1 ∧
      (q ++ [i]).length = c.TABLES_DEPTH ∧ va2 < 2 ^ c.VIRTUAL_ADDRESS_WIDTH ∧
      q ++ [i] = address_parts c va2 ∧
      ((find_frame c pm va).2.ram = fun x => if x = u64 (m * PAGE_SIZE c + i) then 0
        else pm.ram x) ∧
      (find_frame c pm va).2.swap = fun p => if p = va2 >>> c.OFFSET_WIDTH then
          some ((List.range (PAGE_SIZE c)).map
            (fun j => pm.ram ((find_frame c pm va).1 * PAGE_SIZE c + j)))
        else pm.swap p) := by
  rcases find_frame_cases c h hF hP pm va k fk hs with h2 | h1 | h3
  · left
    refine ⟨?_, by rw [h2.2.2.2], by rw [h2.2.2.2]⟩
    rw [inTree_iff_le c pm.ram hs.inv, h2.2.2.2]
    simp only
    omega
  · right; left
    obtain ⟨q, i, m, hrem, -, hlen, -, -, e⟩ := h1
    refine ⟨q, i, m, hrem, hlen, ?_, ?_⟩
    · rw [congrArg Prod.snd e]; rfl
    · rw [congrArg Prod.snd e]; rfl
  · right; right
    obtain ⟨q, i, m, va2, hrem, -, -, hlen, -, -, -, hva2, hq, e⟩ := h3
    have hout := (removed_parent_outside c h pm.ram hs.inv va k q i m _ hrem).2.2.2.2.2
    refine ⟨q, i, m, va2, hrem, hlen, hva2, hq, ?_, ?_⟩
    · rw [congrArg Prod.snd e]; rfl
    · generalize (find_frame c pm va).1 = g at e hout ⊢
      rw [congrArg Prod.snd e]
      funext p
      rw [PMevict_swap]
      by_cases hp : p = va2 >>> c.OFFSET_WIDTH
      · rw [if_pos hp, if_pos hp]
        congr 1
        apply List.map_congr_left
        intro j hj
        rw [PMwrite_ram]
        simp only
        rw [if_neg (fun e2 => hout j (List.mem_range.mp hj) e2.symm)]
      · rw [if_neg hp, if_neg hp]
        rfl

theorem walk_step_zero_swap (c : Config) (va last k : Nat) (pm : PM)
    (hz : entry c pm.ram last (get_address_part c k va) = 0) :
    (walk_step c va (last, pm) k).2.swap = (find_frame c pm va).2.swap := by
  rw [walk_step_zero_eq c va last k pm hz]
  simp only
  split_ifs
  · rw [PMrestore_swap, PMwrite_swap]
  · rw [fill_zeroes_swap, PMwrite_swap]

/-- The word of the leaf just restored, at an offset. -/
theorem walk_step_restored_word (c : Config) (pm : PM) (va k fk : Nat)
    (hz : entry c pm.ram fk (get_address_part c k va) = 0) (hk : k + 1 = c.TABLES_DEPTH)
    (off : Nat) (hoff : off < PAGE_SIZE c) (ws : List Nat)
    (hsw : (find_frame c pm va).2.swap (va >>> c.OFFSET_WIDTH) = some ws) :
    (walk_step c va (fk, pm) k).2.ram ((find_frame c pm va).1 * PAGE_SIZE c + off)
      = ws.getD off 0 := by
  rw [walk_step_zero_eq c va fk k pm hz]
  simp only
  rw [if_pos hk, PMrestore_ram_in c _ _ _ off hoff, PMwrite_swap, hsw]

/-! ## The word stored for an address is kept by the walk for another address -/

theorem stored_word_resident (c : Config) (pm : PM) (a leaf : Nat)
    (hw : walk_address c pm.ram a = some leaf) :
    stored_word c pm a = some (pm.ram (u64 (leaf * PAGE_SIZE c + get_offset c a))) := by
  unfold stored_word
  rw [hw]
  rfl

theorem stored_word_absent (c : Config) (pm : PM) (a : Nat)
    (hw : walk_address c pm.ram a = none) :
    stored_word c pm a
      = (pm.swap (a >>> c.OFFSET_WIDTH)).map (fun ws => ws.getD (get_offset c a) 0) := by
  unfold stored_word
  rw [hw]

theorem page_of_parts (c : Config) (h : c.WF) (a b : Nat) (ha : a < 2 ^ c.VIRTUAL_ADDRESS_WIDTH)
    (hb : b < 2 ^ c.VIRTUAL_ADDRESS_WIDTH) (e : address_parts c a = address_parts c b) :
    a >>> c.OFFSET_WIDTH = b >>> c.OFFSET_WIDTH := by
  rw [← page_from_address_parts c h a ha, ← page_from_address_parts c h b hb, e]

/-- One iteration of the walk for an address `b` keeps the word stored for an address `a`. -/
theorem walk_step_stored (c : Config) (h : c.WF) (hF : c.TABLES_DEPTH < c.NUM_FRAMES)
    (hP : ADDRESS_PART_SIZE c ≤ c.OFFSET_WIDTH) (pm : PM) (b k fk : Nat)
    (hs : WalkState c pm.ram b k fk) (a v : Nat) (ha : a < 2 ^ c.VIRTUAL_ADDRESS_WIDTH)
    (hst : stored_word c pm a = some v) :
    stored_word c (walk_step c b (fk, pm) k).2 a = some v := by
  have hva := validPath_parts c h hP a
  have hlen := address_parts_length c a
  have hoff := get_offset_lt c h a
  have hiff := walk_step_walk_iff c h hF hP pm b k fk hs (address_parts c a) hva
  obtain ⟨-, -, e3, -⟩ := walk_step_zero_ram c h hF hP pm b k fk hs
  obtain ⟨hpl, -, -⟩ := find_frame_spec c h hF hP pm b k fk hs
  have hfk : fk < c.NUM_FRAMES :=
    hs.inv.shape.bound _ _ (validPath_take_parts c h hP b k) hs.walk_pre
  have hnotnew : address_parts c a = (address_parts c b).take (k + 1) →
      ∀ f, walk c pm.ram (address_parts c a) 0 ≠ some f := by
    intro e f hw
    rw [e] at hw
    exact hs.walk_gt (k + 1) (by omega) f hw
  have hk := hs.level_lt
  cases hW : walk_address c pm.ram a with
  | some leaf =>
    have hW2 : walk c pm.ram (address_parts c a) 0 = some leaf := hW
    rw [stored_word_resident c pm a leaf hW] at hst
    have hleaf : leaf < c.NUM_FRAMES := hs.inv.shape.bound _ _ hva hW2
    by_cases hg : leaf = (find_frame c pm b).1
    · -- the leaf of the page is the frame that `find_frame` returns: it was evicted
      have hW3 : walk_address c (walk_step c b (fk, pm) k).2.ram a = none := by
        cases hW4 : walk_address c (walk_step c b (fk, pm) k).2.ram a with
        | none => rfl
        | some f =>
          exfalso
          rcases (hiff f).mp hW4 with ⟨x1, x2⟩ | ⟨x1, -⟩
          · rw [hW2] at x1
            exact x2 ((Option.some.inj x1).symm.trans hg)
          · exact hnotnew x1 leaf hW2
      rw [stored_word_absent c _ a hW3, walk_step_zero_swap c b fk k pm hs.zero]
      rcases find_frame_effect c h hF hP pm b k fk hs with ⟨y, -, -⟩ | y | y
      · exact absurd ⟨_, hva, hg ▸ hW2⟩ y
      · obtain ⟨q, i, m, hrem, hl, -, -⟩ := y
        have := hs.inv.shape.inj _ _ _ hrem.valid hva hrem.node (hg ▸ hW2)
        rw [this, hlen] at hl
        omega
      · obtain ⟨q, i, m, va2, hrem, -, hva2, hq, -, hsw⟩ := y
        have epath := hs.inv.shape.inj _ _ _ hrem.valid hva hrem.node (hg ▸ hW2)
        have epage := page_of_parts c h a va2 ha hva2 (by rw [← epath, hq])
        rw [hsw]
        simp only
        rw [if_pos epage, Option.map_some', ← hg]
        have hidx : get_offset c a < ((List.range (PAGE_SIZE c)).map
            (fun j => pm.ram (leaf * PAGE_SIZE c + j))).length := by
          rw [List.length_map, List.length_range]; exact hoff
        rw [List.getD_eq_getElem _ _ hidx, List.getElem_map, List.getElem_range,
          ← entry_addr_eq c h leaf _ hleaf hoff]
        exact hst
    · -- the leaf of the page stays where it is
      have hW3 : walk_address c (walk_step c b (fk, pm) k).2.ram a = some leaf :=
        (hiff leaf).mpr (Or.inl ⟨hW2, hg⟩)
      rw [stored_word_resident c _ a leaf hW3]
      rw [e3]
      · rcases find_frame_effect c h hF hP pm b k fk hs with ⟨-, y, -⟩ | y | y
        · rw [y]; exact hst
        · obtain ⟨q, i, m, hrem, -, y, -⟩ := y
          obtain ⟨-, hm, -, hi, -, -⟩ := removed_parent_outside c h pm.ram hs.inv b k q i m _ hrem
          rw [y]
          simp only
          rw [if_neg]
          · exact hst
          · intro e
            obtain ⟨e2, -⟩ := entry_addr_inj c h _ _ _ _ hleaf hoff hm hi e
            have := hs.inv.shape.inj _ _ _ hva (validPath_of_append c q [i] hrem.valid) hW2
              (e2 ▸ hrem.parent)
            have hl := hrem.valid.1
            rw [← this, List.length_append, hlen] at hl
            simp at hl
        · obtain ⟨q, i, m, va2, hrem, -, -, -, y, -⟩ := y
          obtain ⟨-, hm, -, hi, -, -⟩ := removed_parent_outside c h pm.ram hs.inv b k q i m _ hrem
          rw [y]
          simp only
          rw [if_neg]
          · exact hst
          · intro e
            obtain ⟨e2, -⟩ := entry_addr_inj c h _ _ _ _ hleaf hoff hm hi e
            have := hs.inv.shape.inj _ _ _ hva (validPath_of_append c q [i] hrem.valid) hW2
              (e2 ▸ hrem.parent)
            have hl := hrem.valid.1
            rw [← this, List.length_append, hlen] at hl
            simp at hl
      · intro e
        obtain ⟨e2, -⟩ := entry_addr_inj c h _ _ _ _ hleaf hoff hfk (part_lt_page c h hP _ _) e
        have := hs.inv.shape.inj _ _ _ hva (validPath_take_parts c h hP b k) hW2
          (e2 ▸ hs.walk_pre)
        have hl := congrArg List.length this
        rw [hlen, length_take_parts c b k (by omega)] at hl
        omega
      · intro j hj e
        exact hg (entry_addr_inj c h _ _ _ _ hleaf hoff hpl.lt hj e).1
  | none =>
    have hW2 : walk c pm.ram (address_parts c a) 0 = none := hW
    rw [stored_word_absent c pm a hW] at hst
    obtain ⟨ws, hws, hget⟩ := Option.map_eq_some'.mp hst
    have hsw : (find_frame c pm b).2.swap (a >>> c.OFFSET_WIDTH) = some ws := by
      rcases find_frame_effect c h hF hP pm b k fk hs with ⟨-, -, y⟩ | y | y
      · rw [y]; exact hws
      · obtain ⟨q, i, m, -, -, -, y⟩ := y
        rw [y]; exact hws
      · obtain ⟨q, i, m, va2, hrem, -, hva2, hq, -, y⟩ := y
        rw [y]
        simp only
        rw [if_neg]
        · exact hws
        · intro e
          have := address_parts_page c h a va2 e
          rw [this, ← hq, hrem.node] at hW2
          exact absurd hW2 (by simp)
    by_cases hnew : address_parts c a = (address_parts c b).take (k + 1)
    · -- the page of `a` is the page that the walk makes resident
      have hkD : k + 1 = c.TABLES_DEPTH := by
        have := congrArg List.length hnew
        rw [hlen, length_take_parts c b (k + 1) (by omega)] at this
        omega
      have hW3 : walk_address c (walk_step c b (fk, pm) k).2.ram a
          = some (find_frame c pm b).1 := (hiff _).mpr (Or.inr ⟨hnew, rfl⟩)
      have hparts : address_parts c a = address_parts c b := by
        rw [hnew, List.take_of_length_le (by rw [address_parts_length]; omega)]
      have hpage := page_of_parts c h a b ha hs.addr_lt hparts
      rw [stored_word_resident c _ a _ hW3, entry_addr_eq c h _ _ hpl.lt hoff,
        walk_step_restored_word c pm b k fk hs.zero hkD _ hoff ws (hpage ▸ hsw), hget]
    · have hW3 : walk_address c (walk_step c b (fk, pm) k).2.ram a = none := by
        cases hW4 : walk_address c (walk_step c b (fk, pm) k).2.ram a with
        | none => rfl
        | some f =>
          exfalso
          rcases (hiff f).mp hW4 with ⟨x1, -⟩ | ⟨x1, -⟩
          · rw [hW2] at x1
            exact absurd x1 (by simp)
          · exact hnew x1
      rw [stored_word_absent c _ a hW3, walk_step_zero_swap c b fk k pm hs.zero, hsw,
        Option.map_some', hget]

end VM

namespace VM

/-! ## The word stored for an address across calls of the facade -/

/-- The walk for an address `b` keeps the word stored for an address `a`. -/
theorem walk_steps_stored (c : Config) (h : c.WF) (hF : c.TABLES_DEPTH < c.NUM_FRAMES)
    (hP : ADDRESS_PART_SIZE c ≤ c.OFFSET_WIDTH) (pm : PM) (hinv : TreeInv c pm.ram) (b : Nat)
    (hb : b < 2 ^ c.VIRTUAL_ADDRESS_WIDTH) (a v : Nat) (ha : a < 2 ^ c.VIRTUAL_ADDRESS_WIDTH)
    (hst : stored_word c pm a = some v) (n : Nat) (hn : n ≤ c.TABLES_DEPTH) :
    stored_word c (call_memory c pm b n) a = some v := by
  induction n with
  | zero => exact hst
  | succ n ih =>
    by_cases hcall : calls_find_frame c pm b n
    · have hs := walkState_of_inv c h hF hP pm hinv b n hb hcall
      have hstep : call_memory c pm b (n + 1)
          = (walk_step c b ((walk_steps c pm b n).1, call_memory c pm b n) n).2 := by
        unfold call_memory
        rw [walk_steps_succ]
      rw [hstep]
      exact walk_step_stored c h hF hP _ b n _ hs a v ha (ih (by omega))
    · rw [walk_steps_succ_skip c pm b n (by omega) hcall]
      exact ih (by omega)

theorem get_physical_address_stored (c : Config) (h : c.WF)
    (hF : c.TABLES_DEPTH < c.NUM_FRAMES) (hP : ADDRESS_PART_SIZE c ≤ c.OFFSET_WIDTH) (pm : PM)
    (hinv : TreeInv c pm.ram) (b : Nat) (hb : b < 2 ^ c.VIRTUAL_ADDRESS_WIDTH) (a v : Nat)
    (ha : a < 2 ^ c.VIRTUAL_ADDRESS_WIDTH) (hst : stored_word c pm a = some v) :
    stored_word c (get_physical_address c pm b).2 a = some v := by
  rw [← call_memory_depth]
  exact walk_steps_stored c h hF hP pm hinv b hb a v ha hst c.TABLES_DEPTH (le_refl _)

/-- An address is its page number and its offset. -/
theorem address_eq_of_page_offset (c : Config) (h : c.WF) (a b : Nat)
    (hp : a >>> c.OFFSET_WIDTH = b >>> c.OFFSET_WIDTH)
    (ho : get_offset c a = get_offset c b) : a = b := by
  rw [get_offset_eq c h, get_offset_eq c h] at ho
  rw [Nat.shiftRight_eq_div_pow, Nat.shiftRight_eq_div_pow] at hp
  rw [← Nat.div_add_mod a (2 ^ c.OFFSET_WIDTH), ← Nat.div_add_mod b (2 ^ c.OFFSET_WIDTH), hp, ho]

/-- Writing the word of an address `b` keeps the word stored for another address `a`. -/
theorem PMwrite_stored (c : Config) (h : c.WF) (hP : ADDRESS_PART_SIZE c ≤ c.OFFSET_WIDTH)
    (pm : PM) (hinv : TreeInv c pm.ram) (a b leaf w : Nat)
    (ha : a < 2 ^ c.VIRTUAL_ADDRESS_WIDTH) (hb : b < 2 ^ c.VIRTUAL_ADDRESS_WIDTH)
    (hab : a ≠ b) (hw : walk_address c pm.ram b = some leaf) :
    stored_word c (PMwrite pm (u64 (leaf * PAGE_SIZE c + get_offset c b)) w) a
      = stored_word c pm a := by
  have hvb := validPath_parts c h hP b
  have hva := validPath_parts c h hP a
  have hwalk : walk_address c (PMwrite pm (u64 (leaf * PAGE_SIZE c + get_offset c b)) w).ram a
      = walk_address c pm.ram a :=
    walk_write_leaf c h pm.ram hinv (address_parts c b) leaf (get_offset c b) w hvb
      (address_parts_length c b) hw (get_offset_lt c h b) (address_parts c a) hva
  have hleaf : leaf < c.NUM_FRAMES := hinv.shape.bound _ _ hvb hw
  unfold stored_word
  rw [hwalk]
  cases hW : walk_address c pm.ram a with
  | none => rfl
  | some la =>
    simp only
    congr 1
    unfold PMread
    rw [PMwrite_ram]
    simp only
    rw [if_neg]
    intro e
    have hla : la < c.NUM_FRAMES := hinv.shape.bound _ _ hva hW
    obtain ⟨e1, e2⟩ := entry_addr_inj c h _ _ _ _ hla (get_offset_lt c h a) hleaf
      (get_offset_lt c h b) e
    have hparts := hinv.shape.inj _ _ _ hva hvb hW (e1 ▸ hw)
    exact hab (address_eq_of_page_offset c h a b (page_of_parts c h a b ha hb hparts) e2)

/-- A call of the facade keeps the word stored for an address that it does not write. -/
theorem apply_op_stored (c : Config) (h : c.WF) (hF : c.TABLES_DEPTH < c.NUM_FRAMES)
    (hP : ADDRESS_PART_SIZE c ≤ c.OFFSET_WIDTH) (pm : PM) (hinv : TreeInv c pm.ram) (a v : Nat)
    (ha : a < 2 ^ c.VIRTUAL_ADDRESS_WIDTH) (hst : stored_word c pm a = some v) (op : Op)
    (hop : ∀ w, op ≠ Op.write a w) : stored_word c (apply_op c pm op) a = some v := by
  cases op with
  | read b value =>
    show stored_word c (VMread c pm b value).2.2 a = some v
    by_cases hb : b < 2 ^ c.VIRTUAL_ADDRESS_WIDTH
    · rw [VMread_eq c h pm b value hb]
      exact get_physical_address_stored c h hF hP pm hinv b hb a v ha hst
    · rw [VMread_invalid c h pm b value hb]
      exact hst
  | write b w =>
    show stored_word c (VMwrite c pm b w).2 a = some v
    by_cases hb : b < 2 ^ c.VIRTUAL_ADDRESS_WIDTH
    · rw [VMwrite_eq c h pm b w hb]
      obtain ⟨hinv2, leaf, h2, h3⟩ := get_physical_address_spec c h hF hP pm b hinv hb
      simp only
      rw [h3, PMwrite_stored c h hP _ hinv2 a b leaf w ha hb (fun e => hop w (e ▸ rfl)) h2]
      exact get_physical_address_stored c h hF hP pm hinv b hb a v ha hst
    · rw [VMwrite_invalid c h pm b w hb]
      exact hst

theorem apply_op_inv (c : Config) (h : c.WF) (hF : c.TABLES_DEPTH < c.NUM_FRAMES)
    (hP : ADDRESS_PART_SIZE c ≤ c.OFFSET_WIDTH) (pm : PM) (hinv : TreeInv c pm.ram) (op : Op) :
    TreeInv c (apply_op c pm op).ram := by
  cases op with
  | read b value => exact (VMread_spec c h hF hP pm b value hinv).1
  | write b w => exact (VMwrite_spec c h hF hP pm b w hinv).1

/-- After a `VMwrite` to an address in range the word stored for it is the word written. -/
theorem VMwrite_stored (c : Config) (h : c.WF) (hF : c.TABLES_DEPTH < c.NUM_FRAMES)
    (hP : ADDRESS_PART_SIZE c ≤ c.OFFSET_WIDTH) (pm : PM) (hinv : TreeInv c pm.ram) (a w : Nat)
    (ha : a < 2 ^ c.VIRTUAL_ADDRESS_WIDTH) :
    stored_word c (VMwrite c pm a w).2 a = some w := by
  obtain ⟨-, hw⟩ := VMwrite_spec c h hF hP pm a w hinv
  obtain ⟨leaf, h1, h2⟩ := hw ha
  rw [stored_word_resident c _ a leaf h1, h2]

/-- After a sequence of calls the word stored for an address is the word of the last
`VMwrite` to it. -/
theorem run_stored (c : Config) (h : c.WF) (hF : c.TABLES_DEPTH < c.NUM_FRAMES)
    (hP : ADDRESS_PART_SIZE c ≤ c.OFFSET_WIDTH) (a : Nat) (ha : a < 2 ^ c.VIRTUAL_ADDRESS_WIDTH)
    (ops : List Op) : ∀ (pm : PM) (acc : Option Nat), TreeInv c pm.ram →
      (∀ w, acc = some w → stored_word c pm a = some w) →
      ∀ v, last_write_from a acc ops = some v →
        TreeInv c (run c pm ops).ram ∧ stored_word c (run c pm ops) a = some v := by
  induction ops with
  | nil =>
    intro pm acc hinv hacc v hv
    exact ⟨hinv, hacc v hv⟩
  | cons op rest ih =>
    intro pm acc hinv hacc v hv
    have hinv2 := apply_op_inv c h hF hP pm hinv op
    have hrun : run c pm (op :: rest) = run c (apply_op c pm op) rest := rfl
    rw [hrun]
    cases op with
    | read b value =>
      refine ih _ acc hinv2 ?_ v hv
      intro w hw
      exact apply_op_stored c h hF hP pm hinv a w ha (hacc w hw) _ (fun _ e => by cases e)
    | write b w0 =>
      by_cases hba : b = a
      · subst hba
        have hv2 : last_write_from b (some w0) rest = some v := by
          unfold last_write_from at hv ⊢
          rw [List.foldl_cons] at hv
          simpa using hv
        refine ih _ (some w0) hinv2 ?_ v hv2
        intro w hw
        have e : w0 = w := Option.some.inj hw
        subst e
        exact VMwrite_stored c h hF hP pm hinv b w0 ha
      · have hv2 : last_write_from a acc rest = some v := by
          unfold last_write_from at hv ⊢
          rw [List.foldl_cons] at hv
          simpa [hba] using hv
        refine ih _ acc hinv2 ?_ v hv2
        intro w hw
        exact apply_op_stored c h hF hP pm hinv a w ha (hacc w hw) _
          (fun w2 e => by
            injection e with e1 e2
            exact hba e1)

/-- A `VMread` returns the word stored for the address. -/
theorem VMread_stored (c : Config) (h : c.WF) (hF : c.TABLES_DEPTH < c.NUM_FRAMES)
    (hP : ADDRESS_PART_SIZE c ≤ c.OFFSET_WIDTH) (pm : PM) (hinv : TreeInv c pm.ram)
    (a v value : Nat) (ha : a < 2 ^ c.VIRTUAL_ADDRESS_WIDTH)
    (hst : stored_word c pm a = some v) :
    (VMread c pm a value).1 = 1 ∧ (VMread c pm a value).2.1 = v := by
  rw [VMread_eq c h pm a value ha]
  refine ⟨rfl, ?_⟩
  have hst2 := get_physical_address_stored c h hF hP pm hinv a ha a v ha hst
  obtain ⟨-, leaf, h2, h3⟩ := get_physical_address_spec c h hF hP pm a hinv ha
  rw [stored_word_resident c _ a leaf h2] at hst2
  simp only
  rw [h3]
  exact Option.some.inj hst2

end VM

namespace VM

/-! ## The addresses read lie inside the physical memory -/

theorem addr_in_bounds (c : Config) (h : c.WF) (f i : Nat) (hf : f < c.NUM_FRAMES)
    (hi : i < PAGE_SIZE c) : u64 (f * PAGE_SIZE c + i) < c.NUM_FRAMES * PAGE_SIZE c := by
  rw [entry_addr_eq c h f i hf hi]
  have h1 : (f + 1) * PAGE_SIZE c ≤ c.NUM_FRAMES * PAGE_SIZE c := Nat.mul_le_mul_right _ hf
  rw [Nat.add_mul, Nat.one_mul] at h1
  omega

theorem verify_reads_loop_bound (c : Config) (h : c.WF)
    (hP : ADDRESS_PART_SIZE c ≤ c.OFFSET_WIDTH) (ram : Nat → Nat) (hs : TreeShape c ram)
    (va g : Nat) (is : List Nat) :
    ∀ last path, ValidPath c path → path.length + is.length ≤ c.TABLES_DEPTH →
      walk c ram path 0 = some last →
      ∀ a ∈ verify_reads_loop c ram va g is last, a < c.NUM_FRAMES * PAGE_SIZE c := by
  induction is with
  | nil => intro last path _ _ _ a ha; exact absurd ha (List.not_mem_nil a)
  | cons i rest ih =>
    intro last path hv hl hw a ha
    have hlast : last < c.NUM_FRAMES := hs.bound _ _ hv hw
    have hpart := part_lt_page c h hP i va
    unfold verify_reads_loop at ha
    simp only at ha
    rcases List.mem_cons.mp ha with e | ha
    · rw [e]; exact addr_in_bounds c h _ _ hlast hpart
    · split_ifs at ha with h1 h2
      · exact absurd ha (List.not_mem_nil a)
      · exact absurd ha (List.not_mem_nil a)
      · have hl2 : path.length < c.TABLES_DEPTH := by
          simp only [List.length_cons] at hl; omega
        exact ih _ (path ++ [get_address_part c i va]) (validPath_snoc c path _ hv hl2 hpart)
          (by simp only [List.length_append, List.length_cons, List.length_nil] at hl ⊢
              omega)
          (walk_snoc_of c ram path _ 0 last hw h2) a ha

theorem verify_reads_bound (c : Config) (h : c.WF) (hP : ADDRESS_PART_SIZE c ≤ c.OFFSET_WIDTH)
    (ram : Nat → Nat) (hs : TreeShape c ram) (va g : Nat) :
    ∀ a ∈ verify_reads c ram va g, a < c.NUM_FRAMES * PAGE_SIZE c := by
  intro a ha
  unfold verify_reads at ha
  split_ifs at ha
  · exact absurd ha (List.not_mem_nil a)
  · exact verify_reads_loop_bound c h hP ram hs va g _ 0 [] (validPath_nil c)
      (by simp) rfl a ha

theorem choose_frame_1_reads_loop_bound (c : Config) (h : c.WF) (ram : Nat → Nat)
    (recurse : Nat → Nat → ZerosFrame) (recurse_reads : Nat → Nat → List Nat) (v l : Nat)
    (hv : v < c.NUM_FRAMES) (is : List Nat) (hidx : ∀ i ∈ is, i < PAGE_SIZE c)
    (hrec : ∀ i ∈ is, entry c ram v i ≠ 0 → l + 1 < c.TABLES_DEPTH →
      ∀ a ∈ recurse_reads (entry c ram v i) (u64 (v * PAGE_SIZE c + i)),
        a < c.NUM_FRAMES * PAGE_SIZE c) :
    ∀ a ∈ choose_frame_1_reads_loop c ram recurse recurse_reads v l is,
      a < c.NUM_FRAMES * PAGE_SIZE c := by
  induction is with
  | nil => intro a ha; exact absurd ha (List.not_mem_nil a)
  | cons i rest ih =>
    intro a ha
    have ih2 := ih (fun j hj => hidx j (List.mem_cons_of_mem _ hj))
      (fun j hj => hrec j (List.mem_cons_of_mem _ hj))
    unfold choose_frame_1_reads_loop at ha
    simp only at ha
    rcases List.mem_cons.mp ha with e | ha
    · rw [e]; exact addr_in_bounds c h _ _ hv (hidx i (List.mem_cons_self _ _))
    · split_ifs at ha with h1 h2 h3
      · rw [List.append_nil] at ha
        exact hrec i (List.mem_cons_self _ _) h1 h2 a ha
      · rcases List.mem_append.mp ha with ha | ha
        · exact hrec i (List.mem_cons_self _ _) h1 h2 a ha
        · exact ih2 a ha
      · exact ih2 a ha
      · exact ih2 a ha

theorem choose_frame_1_reads_body_bound (c : Config) (h : c.WF)
    (hP : ADDRESS_PART_SIZE c ≤ c.OFFSET_WIDTH) (ram : Nat → Nat) (hs : TreeShape c ram)
    (va : Nat) (recurse : Nat → Nat → ZerosFrame) (recurse_reads : Nat → Nat → List Nat)
    (v l : Nat) (hv : v < c.NUM_FRAMES)
    (hrec : ∀ i, i < PAGE_SIZE c → entry c ram v i ≠ 0 → l + 1 < c.TABLES_DEPTH →
      ∀ a ∈ recurse_reads (entry c ram v i) (u64 (v * PAGE_SIZE c + i)),
        a < c.NUM_FRAMES * PAGE_SIZE c) :
    ∀ a ∈ choose_frame_1_reads_body c ram va recurse recurse_reads v l,
      a < c.NUM_FRAMES * PAGE_SIZE c := by
  intro a ha
  unfold choose_frame_1_reads_body at ha
  rcases List.mem_append.mp ha with ha | ha
  · exact choose_frame_1_reads_loop_bound c h ram recurse recurse_reads v l hv _
      (fun i hi => List.mem_range.mp hi) (fun i hi => hrec i (List.mem_range.mp hi)) a ha
  · cases hloop : choose_frame_1_loop c ram recurse v l (List.range (PAGE_SIZE c)) 1 with
    | mk res z =>
      rw [hloop] at ha
      cases res with
      | some r => exact absurd ha (List.not_mem_nil a)
      | none =>
        simp only at ha
        split_ifs at ha
        · exact verify_reads_bound c h hP ram hs va v a ha
        · exact absurd ha (List.not_mem_nil a)

theorem choose_frame_1_reads_fuel_bound (c : Config) (h : c.WF)
    (hP : ADDRESS_PART_SIZE c ≤ c.OFFSET_WIDTH) (ram : Nat → Nat) (hs : TreeShape c ram)
    (va : Nat) : ∀ fuel v l path, ValidPath c path → path.length = l →
      walk c ram path 0 = some v →
      ∀ a ∈ choose_frame_1_reads_fuel c ram va fuel v l, a < c.NUM_FRAMES * PAGE_SIZE c := by
  intro fuel
  induction fuel with
  | zero =>
    intro v l path hv hl hw
    exact choose_frame_1_reads_body_bound c h hP ram hs va _ _ v l (hs.bound _ _ hv hw)
      (fun i _ _ _ a ha => absurd ha (List.not_mem_nil a))
  | succ f ih =>
    intro v l path hv hl hw
    refine choose_frame_1_reads_body_bound c h hP ram hs va _ _ v l (hs.bound _ _ hv hw) ?_
    intro i hi hne hl1 a ha
    exact ih (entry c ram v i) (l + 1) (path ++ [i])
      (validPath_snoc c path i hv (by omega) hi)
      (by rw [List.length_append, List.length_singleton, hl])
      (walk_snoc_of c ram path i 0 v hw hne) a ha

theorem search_reads_loop_bound (c : Config) (h : c.WF) (ram : Nat → Nat)
    (recurse_reads : Nat → List Nat) (v l : Nat) (hv : v < c.NUM_FRAMES) (is : List Nat)
    (hidx : ∀ i ∈ is, i < PAGE_SIZE c)
    (hrec : ∀ i ∈ is, entry c ram v i ≠ 0 → l < c.TABLES_DEPTH →
      ∀ a ∈ recurse_reads (entry c ram v i), a < c.NUM_FRAMES * PAGE_SIZE c) :
    ∀ a ∈ search_reads_loop c ram recurse_reads v l is, a < c.NUM_FRAMES * PAGE_SIZE c := by
  induction is with
  | nil => intro a ha; exact absurd ha (List.not_mem_nil a)
  | cons i rest ih =>
    intro a ha
    have ih2 := ih (fun j hj => hidx j (List.mem_cons_of_mem _ hj))
      (fun j hj => hrec j (List.mem_cons_of_mem _ hj))
    unfold search_reads_loop at ha
    simp only at ha
    rcases List.mem_cons.mp ha with e | ha
    · rw [e]; exact addr_in_bounds c h _ _ hv (hidx i (List.mem_cons_self _ _))
    · rcases List.mem_append.mp ha with ha | ha
      · split_ifs at ha with h1
        · exact hrec i (List.mem_cons_self _ _) h1.1 h1.2 a ha
        · exact absurd ha (List.not_mem_nil a)
      · exact ih2 a ha

theorem choose_frame_2_reads_fuel_bound (c : Config) (h : c.WF) (ram : Nat → Nat)
    (hs : TreeShape c ram) : ∀ fuel v l path, ValidPath c path → path.length = l →
      walk c ram path 0 = some v →
      ∀ a ∈ choose_frame_2_reads_fuel c ram fuel v l, a < c.NUM_FRAMES * PAGE_SIZE c := by
  intro fuel
  induction fuel with
  | zero =>
    intro v l path hv hl hw
    exact search_reads_loop_bound c h ram _ v l (hs.bound _ _ hv hw) _
      (fun i hi => List.mem_range.mp hi) (fun i _ _ _ a ha => absurd ha (List.not_mem_nil a))
  | succ f ih =>
    intro v l path hv hl hw
    refine search_reads_loop_bound c h ram _ v l (hs.bound _ _ hv hw) _
      (fun i hi => List.mem_range.mp hi) ?_
    intro i hi hne hl1 a ha
    exact ih (entry c ram v i) (l + 1) (path ++ [i])
      (validPath_snoc c path i hv (by omega) (List.mem_range.mp hi))
      (by rw [List.length_append, List.length_singleton, hl])
      (walk_snoc_of c ram path i 0 v hw hne) a ha

theorem choose_frame_3_reads_fuel_bound (c : Config) (h : c.WF) (ram : Nat → Nat)
    (hs : TreeShape c ram) : ∀ fuel v l path, ValidPath c path → path.length = l →
      walk c ram path 0 = some v →
      ∀ a ∈ choose_frame_3_reads_fuel c ram fuel v l, a < c.NUM_FRAMES * PAGE_SIZE c := by
  intro fuel
  induction fuel with
  | zero =>
    intro v l path hv hl hw a ha
    unfold choose_frame_3_reads_fuel at ha
    split_ifs at ha
    · exact absurd ha (List.not_mem_nil a)
    · exact search_reads_loop_bound c h ram _ v l (hs.bound _ _ hv hw) _
        (fun i hi => List.mem_range.mp hi) (fun i _ _ _ a ha => absurd ha (List.not_mem_nil a))
        a ha
  | succ f ih =>
    intro v l path hv hl hw a ha
    unfold choose_frame_3_reads_fuel at ha
    split_ifs at ha
    · exact absurd ha (List.not_mem_nil a)
    · refine search_reads_loop_bound c h ram _ v l (hs.bound _ _ hv hw) _
        (fun i hi => List.mem_range.mp hi) ?_ a ha
      intro i hi hne hl1 a ha
      exact ih (entry c ram v i) (l + 1) (path ++ [i])
        (validPath_snoc c path i hv (by omega) (List.mem_range.mp hi))
        (by rw [List.length_append, List.length_singleton, hl])
        (walk_snoc_of c ram path i 0 v hw hne) a ha

/-- The addresses that `find_frame` reads when the walker calls it. -/
theorem find_frame_reads_bound (c : Config) (h : c.WF) (hF : c.TABLES_DEPTH < c.NUM_FRAMES)
    (hP : ADDRESS_PART_SIZE c ≤ c.OFFSET_WIDTH) (pm : PM) (va k fk : Nat)
    (hs : WalkState c pm.ram va k fk) :
    ∀ a ∈ find_frame_reads c pm va, a < c.NUM_FRAMES * PAGE_SIZE c := by
  intro a ha
  have hsh := hs.inv.shape
  unfold find_frame_reads at ha
  rcases List.mem_append.mp ha with ha | ha
  · exact choose_frame_1_reads_fuel_bound c h hP pm.ram hsh va _ 0 0 [] (validPath_nil c) rfl
      rfl a ha
  · by_cases hfound : (choose_frame_1 c pm.ram va 0 0 0).is_found ≠ 0
    · rw [if_pos hfound, List.mem_singleton] at ha
      obtain ⟨q, i, m, hrem, -, hpar, -⟩ := find_frame_first_node c pm.ram va k fk hs hfound
      obtain ⟨-, hm, -, hi, -, -⟩ := removed_parent_outside c h pm.ram hs.inv va k q i m _ hrem
      rw [ha, hpar]
      exact addr_in_bounds c h m i hm hi
    · rw [if_neg hfound] at ha
      have hnot := not_not.mp hfound
      rcases List.mem_append.mp ha with ha | ha
      · exact choose_frame_2_reads_fuel_bound c h pm.ram hsh _ 0 0 [] (validPath_nil c) rfl
          rfl a ha
      · by_cases hlt : c.NUM_FRAMES > u64 (choose_frame_2 c pm.ram 0 0 + 1)
        · rw [if_pos hlt] at ha
          exact absurd ha (List.not_mem_nil a)
        · rw [if_neg hlt] at ha
          rcases List.mem_append.mp ha with ha | ha
          · exact choose_frame_3_reads_fuel_bound c h pm.ram hsh _ 0 0 []
              (validPath_nil c) rfl rfl a ha
          · rw [List.mem_singleton] at ha
            obtain ⟨q, i, m, va2, hrem, -, hpar, -⟩ :=
              find_frame_third_node c h hF hP pm.ram va k fk hs hnot hlt
            obtain ⟨-, hm, -, hi, -, -⟩ :=
              removed_parent_outside c h pm.ram hs.inv va k q i m _ hrem
            rw [ha, hpar]
            exact addr_in_bounds c h m i hm hi

/-- The addresses that one call of `get_physical_address` reads. -/
theorem get_physical_address_reads_bound (c : Config) (h : c.WF)
    (hF : c.TABLES_DEPTH < c.NUM_FRAMES) (hP : ADDRESS_PART_SIZE c ≤ c.OFFSET_WIDTH) (pm : PM)
    (hinv : TreeInv c pm.ram) (va : Nat) (hva : va < 2 ^ c.VIRTUAL_ADDRESS_WIDTH) :
    ∀ a ∈ get_physical_address_reads c pm va, a < c.NUM_FRAMES * PAGE_SIZE c := by
  intro a ha
  unfold get_physical_address_reads at ha
  obtain ⟨k, hk, ha⟩ := List.mem_flatMap.mp ha
  have hk := List.mem_range.mp hk
  obtain ⟨h1, h2⟩ := walk_steps_spec c h hF hP pm va hinv hva k (le_of_lt hk)
  have hlast : (walk_steps c pm va k).1 < c.NUM_FRAMES :=
    h1.shape.bound _ _ (validPath_take_parts c h hP va k) h2
  unfold walk_step_reads at ha
  simp only at ha
  rcases List.mem_cons.mp ha with e | ha
  · rw [e]; exact addr_in_bounds c h _ _ hlast (part_lt_page c h hP _ _)
  · split_ifs at ha with hz
    · exact find_frame_reads_bound c h hF hP _ va k _ ⟨h1, hva, hk, h2, hz⟩ a ha
    · exact absurd ha (List.not_mem_nil a)

end VM

namespace VM

/-! ## The calls of the primitives stay inside the physical memory -/

theorem find_frame_calls_bound (c : Config) (h : c.WF) (hF : c.TABLES_DEPTH < c.NUM_FRAMES)
    (hP : ADDRESS_PART_SIZE c ≤ c.OFFSET_WIDTH) (pm : PM) (va k fk : Nat)
    (hs : WalkState c pm.ram va k fk) :
    ∀ x ∈ find_frame_calls c pm va, call_in_bounds c x := by
  intro x hx
  by_cases hfound : (choose_frame_1 c pm.ram va 0 0 0).is_found ≠ 0
  · rw [find_frame_calls_first c pm va hfound, List.mem_singleton] at hx
    obtain ⟨q, i, m, hrem, -, hpar, -⟩ := find_frame_first_node c pm.ram va k fk hs hfound
    obtain ⟨-, hm, -, hi, -, -⟩ := removed_parent_outside c h pm.ram hs.inv va k q i m _ hrem
    rw [hx, hpar]
    exact addr_in_bounds c h m i hm hi
  · have hnot := not_not.mp hfound
    by_cases hlt : c.NUM_FRAMES > u64 (choose_frame_2 c pm.ram 0 0 + 1)
    · rw [find_frame_calls_second c pm va hnot hlt] at hx
      exact absurd hx (List.not_mem_nil x)
    · rw [find_frame_calls_third c pm va hnot hlt] at hx
      obtain ⟨q, i, m, va2, hrem, -, hpar, -⟩ :=
        find_frame_third_node c h hF hP pm.ram va k fk hs hnot hlt
      obtain ⟨-, hm, hg, hi, -, -⟩ := removed_parent_outside c h pm.ram hs.inv va k q i m _ hrem
      rcases List.mem_cons.mp hx with e | hx
      · rw [e, hpar]
        exact addr_in_bounds c h m i hm hi
      · rw [List.mem_singleton] at hx
        rw [hx]
        exact hg

/-- The calls made in the first `n` iterations of a walk. -/
theorem walk_steps_calls_bound (c : Config) (h : c.WF) (hF : c.TABLES_DEPTH < c.NUM_FRAMES)
    (hP : ADDRESS_PART_SIZE c ≤ c.OFFSET_WIDTH) (pm : PM) (hinv : TreeInv c pm.ram) (va : Nat)
    (hva : va < 2 ^ c.VIRTUAL_ADDRESS_WIDTH) (n : Nat) (hn : n ≤ c.TABLES_DEPTH) :
    ∃ l, (call_memory c pm va n).calls = pm.calls ++ l ∧ ∀ x ∈ l, call_in_bounds c x := by
  induction n with
  | zero => exact ⟨[], by simp [call_memory, walk_steps_zero], fun x hx => absurd hx (List.not_mem_nil x)⟩
  | succ n ih =>
    obtain ⟨l, hl, hb⟩ := ih (by omega)
    by_cases hcall : calls_find_frame c pm va n
    · have hs := walkState_of_inv c h hF hP pm hinv va n hva hcall
      have hstep : call_memory c pm va (n + 1)
          = (walk_step c va ((walk_steps c pm va n).1, call_memory c pm va n) n).2 := by
        unfold call_memory
        rw [walk_steps_succ]
      have hc := walk_step_zero_calls c va (walk_steps c pm va n).1 n (call_memory c pm va n)
        hcall.2
      rw [← hstep, hl, List.append_assoc] at hc
      obtain ⟨hpl, -, -⟩ := find_frame_spec c h hF hP _ va n _ hs
      have hlast : (walk_steps c pm va n).1 < c.NUM_FRAMES :=
        hs.inv.shape.bound _ _ (validPath_take_parts c h hP va n) hs.walk_pre
      refine ⟨_, hc, ?_⟩
      intro x hx
      rcases List.mem_append.mp hx with hx | hx
      · exact hb x hx
      · rcases List.mem_append.mp hx with hx | hx
        · exact find_frame_calls_bound c h hF hP _ va n _ hs x hx
        · rcases List.mem_cons.mp hx with e | hx
          · rw [e]
            exact addr_in_bounds c h _ _ hlast (part_lt_page c h hP _ _)
          · split_ifs at hx
            · rw [List.mem_singleton] at hx
              rw [hx]
              exact hpl.lt
            · obtain ⟨i, hi, e⟩ := List.mem_map.mp hx
              rw [← e]
              show u64 (u64 _ + i) < _
              rw [frame_base_eq c h _ i hpl.lt]
              exact addr_in_bounds c h _ i hpl.lt (List.mem_range.mp hi)
    · refine ⟨l, ?_, hb⟩
      rw [walk_steps_succ_skip c pm va n (by omega) hcall]
      exact hl

theorem get_physical_address_bound (c : Config) (h : c.WF)
    (hF : c.TABLES_DEPTH < c.NUM_FRAMES) (hP : ADDRESS_PART_SIZE c ≤ c.OFFSET_WIDTH) (pm : PM)
    (hinv : TreeInv c pm.ram) (va : Nat) (hva : va < 2 ^ c.VIRTUAL_ADDRESS_WIDTH) :
    (get_physical_address c pm va).1 < c.NUM_FRAMES * PAGE_SIZE c := by
  obtain ⟨hinv2, leaf, h2, h3⟩ := get_physical_address_spec c h hF hP pm va hinv hva
  rw [h3]
  exact addr_in_bounds c h leaf _ (hinv2.shape.bound _ _ (validPath_parts c h hP va) h2)
    (get_offset_lt c h va)

theorem VMread_reads_bound (c : Config) (h : c.WF) (hF : c.TABLES_DEPTH < c.NUM_FRAMES)
    (hP : ADDRESS_PART_SIZE c ≤ c.OFFSET_WIDTH) (pm : PM) (hinv : TreeInv c pm.ram) (va : Nat) :
    ∀ a ∈ VMread_reads c pm va, a < c.NUM_FRAMES * PAGE_SIZE c := by
  intro a ha
  unfold VMread_reads at ha
  split_ifs at ha with hval
  · exact absurd ha (List.not_mem_nil a)
  · have hva := validate_ne_zero c h va hval
    rcases List.mem_append.mp ha with ha | ha
    · exact get_physical_address_reads_bound c h hF hP pm hinv va hva a ha
    · rw [List.mem_singleton] at ha
      rw [ha]
      exact get_physical_address_bound c h hF hP pm hinv va hva

theorem VMwrite_reads_bound (c : Config) (h : c.WF) (hF : c.TABLES_DEPTH < c.NUM_FRAMES)
    (hP : ADDRESS_PART_SIZE c ≤ c.OFFSET_WIDTH) (pm : PM) (hinv : TreeInv c pm.ram) (va : Nat) :
    ∀ a ∈ VMwrite_reads c pm va, a < c.NUM_FRAMES * PAGE_SIZE c := by
  intro a ha
  unfold VMwrite_reads at ha
  split_ifs at ha with hval
  · exact absurd ha (List.not_mem_nil a)
  · exact get_physical_address_reads_bound c h hF hP pm hinv va (validate_ne_zero c h va hval)
      a ha

theorem VMread_calls_bound (c : Config) (h : c.WF) (hF : c.TABLES_DEPTH < c.NUM_FRAMES)
    (hP : ADDRESS_PART_SIZE c ≤ c.OFFSET_WIDTH) (pm : PM) (hinv : TreeInv c pm.ram)
    (va value : Nat) : ∀ x ∈ VMread_calls c pm va value, call_in_bounds c x := by
  intro x hx
  unfold VMread_calls at hx
  by_cases hva : va < 2 ^ c.VIRTUAL_ADDRESS_WIDTH
  · rw [VMread_eq c h pm va value hva] at hx
    obtain ⟨l, hl, hb⟩ := walk_steps_calls_bound c h hF hP pm hinv va hva c.TABLES_DEPTH
      (le_refl _)
    rw [call_memory_depth] at hl
    simp only at hx
    rw [hl, List.drop_left] at hx
    exact hb x hx
  · rw [VMread_invalid c h pm va value hva] at hx
    simp at hx

theorem VMwrite_calls_bound (c : Config) (h : c.WF) (hF : c.TABLES_DEPTH < c.NUM_FRAMES)
    (hP : ADDRESS_PART_SIZE c ≤ c.OFFSET_WIDTH) (pm : PM) (hinv : TreeInv c pm.ram)
    (va value : Nat) : ∀ x ∈ VMwrite_calls c pm va value, call_in_bounds c x := by
  intro x hx
  unfold VMwrite_calls at hx
  by_cases hva : va < 2 ^ c.VIRTUAL_ADDRESS_WIDTH
  · rw [VMwrite_eq c h pm va value hva] at hx
    obtain ⟨l, hl, hb⟩ := walk_steps_calls_bound c h hF hP pm hinv va hva c.TABLES_DEPTH
      (le_refl _)
    rw [call_memory_depth] at hl
    simp only at hx
    rw [PMwrite_calls, hl, List.append_assoc, List.drop_left] at hx
    rcases List.mem_append.mp hx with hx | hx
    · exact hb x hx
    · rw [List.mem_singleton] at hx
      rw [hx]
      exact get_physical_address_bound c h hF hP pm hinv va hva
  · rw [VMwrite_invalid c h pm va value hva] at hx
    simp at hx

end VM

namespace VM

/-! ## The first access after the initialisation -/

theorem evict_calls_append (l1 l2 : List PMcall) :
    evict_calls (l1 ++ l2) = evict_calls l1 ++ evict_calls l2 := by
  unfold evict_calls
  rw [List.filter_append]

theorem evict_calls_writes (f : Nat → PMcall) (hf : ∀ i, ∃ a v, f i = PMcall.write a v)
    (l : List Nat) : evict_calls (l.map f) = [] := by
  unfold evict_calls
  rw [List.filter_eq_nil_iff]
  intro x hx
  obtain ⟨i, -, rfl⟩ := List.mem_map.mp hx
  obtain ⟨a, v, e⟩ := hf i
  rw [e]
  simp

/-- The calls of `PMevict` made in the first `n` iterations of a walk are those that
`find_frame` makes in them. -/
theorem walk_steps_evict_calls (c : Config) (pm : PM) (va : Nat) (n : Nat)
    (hn : n ≤ c.TABLES_DEPTH) :
    ∃ l, (call_memory c pm va n).calls = pm.calls ++ l ∧
      evict_calls l = (List.range n).flatMap (fun k =>
        if calls_find_frame c pm va k then
          evict_calls (find_frame_calls c (call_memory c pm va k) va)
        else []) := by
  induction n with
  | zero => exact ⟨[], by simp [call_memory, walk_steps_zero], rfl⟩
  | succ n ih =>
    obtain ⟨l, hl, hr⟩ := ih (by omega)
    rw [List.range_succ, List.flatMap_append, ← hr]
    simp only [List.flatMap_cons, List.flatMap_nil, List.append_nil]
    by_cases hcall : calls_find_frame c pm va n
    · have hstep : call_memory c pm va (n + 1)
          = (walk_step c va ((walk_steps c pm va n).1, call_memory c pm va n) n).2 := by
        unfold call_memory
        rw [walk_steps_succ]
      have hc := walk_step_zero_calls c va (walk_steps c pm va n).1 n (call_memory c pm va n)
        hcall.2
      rw [← hstep, hl, List.append_assoc] at hc
      refine ⟨_, hc, ?_⟩
      rw [if_pos hcall, evict_calls_append, evict_calls_append]
      congr 1
      have : evict_calls (PMcall.write
          (u64 ((walk_steps c pm va n).1 * PAGE_SIZE c + get_address_part c n va))
          (find_frame c (call_memory c pm va n) va).1 ::
          (if n + 1 = c.TABLES_DEPTH then
            [PMcall.restore (find_frame c (call_memory c pm va n) va).1 (va >>> c.OFFSET_WIDTH)]
          else (List.range (PAGE_SIZE c)).map (fun i => PMcall.write
            (u64 (u64 ((find_frame c (call_memory c pm va n) va).1 * PAGE_SIZE c) + i)) 0)))
          = [] := by
        unfold evict_calls
        rw [List.filter_cons_of_neg (by simp)]
        split_ifs
        · rfl
        · exact evict_calls_writes _ (fun i => ⟨_, _, rfl⟩) _
      rw [this, List.append_nil]
    · refine ⟨l, ?_, ?_⟩
      · rw [walk_steps_succ_skip c pm va n (by omega) hcall]
        exact hl
      · rw [if_neg hcall, List.append_nil]

/-- When every frame of the tree lies on the part of the walk already done, `find_frame`
returns the frame after the highest frame of the tree and changes nothing. -/
theorem find_frame_fresh (c : Config) (h : c.WF) (hF : c.TABLES_DEPTH < c.NUM_FRAMES)
    (hP : ADDRESS_PART_SIZE c ≤ c.OFFSET_WIDTH) (pm : PM) (va k fk : Nat)
    (hs : WalkState c pm.ram va k fk)
    (htree : ∀ f, InTree c pm.ram f →
      ∃ j, j ≤ k ∧ walk c pm.ram ((address_parts c va).take j) 0 = some f) :
    find_frame c pm va = (choose_frame_2 c pm.ram 0 0 + 1, pm) := by
  have hoff : ∀ q i m, ¬ Removed c pm.ram va k q i m (find_frame c pm va).1 := by
    intro q i m hrem
    obtain ⟨j, hj, hw⟩ := htree _ ⟨_, hrem.valid, hrem.node⟩
    have e := hs.inv.shape.inj _ _ _ hrem.valid (validPath_take_parts c h hP va j) hrem.node hw
    apply hrem.off_path
    rw [e, ← take_take_parts c va j k hj]
    exact List.take_prefix _ _
  rcases find_frame_cases c h hF hP pm va k fk hs with h2 | h1 | h3
  · exact h2.2.2.2
  · obtain ⟨q, i, m, hrem, -⟩ := h1
    exact absurd hrem (hoff q i m)
  · obtain ⟨q, i, m, va2, hrem, -⟩ := h3
    exact absurd hrem (hoff q i m)

theorem entry_init (c : Config) (h : c.WF) (hF : c.TABLES_DEPTH < c.NUM_FRAMES) (pm0 : PM)
    (i : Nat) (hi : i < PAGE_SIZE c) : entry c ( VMinitialize c pm0).ram 0 i = 0 := by
  unfold entry PMread VMinitialize
  rw [fill_zeroes_ram, if_pos]
  exact ⟨i, hi, (frame_base_eq c h 0 i (by omega)).symm⟩

theorem inTree_init (c : Config) (h : c.WF) (hF : c.TABLES_DEPTH < c.NUM_FRAMES) (pm0 : PM)
    (f : Nat) : InTree c ( VMinitialize c pm0).ram f ↔ f ≤ 0 := by
  constructor
  · rintro ⟨path, hv, hw⟩
    cases path with
    | nil => exact le_of_eq (Option.some.inj hw).symm
    | cons i rest =>
      rw [walk_cons, if_pos (entry_init c h hF pm0 i (hv.2 i (List.mem_cons_self _ _)))] at hw
      exact absurd hw (by simp)
  · intro hf
    have : f = 0 := by omega
    subst this
    exact inTree_root c _

/-- The walk of the first access after the initialisation: iteration `k` asks for a frame
and gets frame `k + 1` from the second priority, with the memory unchanged by `find_frame`;
after `n` iterations the frames of the tree are `0 .. n`, frame `j < n` holds `j + 1` in its
entry on the path and 0 elsewhere, and frame `n` is an empty table. -/
theorem first_access (c : Config) (h : c.WF) (hF : c.TABLES_DEPTH < c.NUM_FRAMES)
    (hP : ADDRESS_PART_SIZE c ≤ c.OFFSET_WIDTH) (pm0 : PM) (va : Nat)
    (hva : va < 2 ^ c.VIRTUAL_ADDRESS_WIDTH) (n : Nat) (hn : n ≤ c.TABLES_DEPTH) :
    (∀ j, j ≤ n → (walk_steps c ( VMinitialize c pm0) va j).1 = j) ∧
    (∀ f, InTree c (call_memory c ( VMinitialize c pm0) va n).ram f ↔ f ≤ n) ∧
    (∀ j, j < n → ∀ i, i < PAGE_SIZE c →
      entry c (call_memory c ( VMinitialize c pm0) va n).ram j i
        = if i = get_address_part c j va then j + 1 else 0) ∧
    (n < c.TABLES_DEPTH → ∀ i, i < PAGE_SIZE c →
      entry c (call_memory c ( VMinitialize c pm0) va n).ram n i = 0) ∧
    (∀ k, k < n → calls_find_frame c ( VMinitialize c pm0) va k ∧
      find_frame c (call_memory c ( VMinitialize c pm0) va k) va
        = (k + 1, call_memory c ( VMinitialize c pm0) va k)) := by
  have hinv := treeInv_init c h hF pm0
  induction n with
  | zero =>
    refine ⟨?_, inTree_init c h hF pm0, fun j hj => by omega,
      fun _ i hi => entry_init c h hF pm0 i hi, fun k hk => by omega⟩
    intro j hj
    have : j = 0 := by omega
    subst this
    rfl
  | succ n ih =>
    obtain ⟨a1, a2, a3, a4, a5⟩ := ih (by omega)
    have hnD : n < c.TABLES_DEPTH := by omega
    have hpart := part_lt_page c h hP n va
    have hcall : calls_find_frame c ( VMinitialize c pm0) va n := by
      refine ⟨hnD, ?_⟩
      rw [a1 n (le_refl _)]
      exact a4 hnD _ hpart
    have hs := walkState_of_inv c h hF hP _ hinv va n hva hcall
    have hfresh := find_frame_fresh c h hF hP _ va n _ hs (by
      intro f hf
      have hfn := (a2 f).mp hf
      refine ⟨f, hfn, ?_⟩
      have := walk_steps_prefix c h hF hP _ hinv va hva n (by omega) f hfn
      rw [a1 f hfn] at this
      exact this)
    have hmax : choose_frame_2 c (call_memory c ( VMinitialize c pm0) va n).ram 0 0 = n := by
      have hiff := inTree_iff_le c _ hs.inv
      have h1 := (hiff n).mp ((a2 n).mpr (le_refl _))
      have h2 := (a2 _).mp ((hiff _).mpr (le_refl _))
      omega
    rw [hmax] at hfresh
    obtain ⟨e1, e2, e3, e4⟩ := walk_step_zero_ram c h hF hP _ va n _ hs
    rw [hfresh] at e1 e2 e3 e4
    simp only at e1 e2 e3 e4
    have hstep : call_memory c ( VMinitialize c pm0) va (n + 1)
        = (walk_step c va ((walk_steps c ( VMinitialize c pm0) va n).1,
            call_memory c ( VMinitialize c pm0) va n) n).2 := by
      unfold call_memory
      rw [walk_steps_succ]
    have hg : (walk_steps c ( VMinitialize c pm0) va (n + 1)).1 = n + 1 := by
      rw [walk_steps_succ_call, e1]
    rw [a1 n (le_refl _)] at e2 e3 e4 hstep
    have hnF : n < c.NUM_FRAMES := by omega
    have hn1F : n + 1 < c.NUM_FRAMES := by omega
    refine ⟨?_, ?_, ?_, ?_, ?_⟩
    · intro j hj
      by_cases e : j = n + 1
      · rw [e]; exact hg
      · exact a1 j (by omega)
    · intro f
      have hin := walk_step_inTree c h hF hP _ va n _ hs f
      rw [a1 n (le_refl _)] at hin
      rw [hstep, hin, a2, hfresh]
      simp only
      omega
    · intro j hj i hi
      have hjF : j < c.NUM_FRAMES := by omega
      rw [hstep]
      unfold entry PMread
      by_cases hlink : j = n ∧ i = get_address_part c n va
      · rw [hlink.1, hlink.2, e2, if_pos rfl]
      · rw [e3]
        · by_cases e : j = n
          · subst e
            have hi2 : i ≠ get_address_part c j va := fun e2 => hlink ⟨rfl, e2⟩
            rw [if_neg hi2]
            exact a4 hnD i hi
          · have := a3 j (by omega) i hi
            exact this
        · intro e
          obtain ⟨x1, x2⟩ := entry_addr_inj c h _ _ _ _ hjF hi hnF hpart e
          exact hlink ⟨x1, x2⟩
        · intro i2 hi2 e
          obtain ⟨x1, -⟩ := entry_addr_inj c h _ _ _ _ hjF hi hn1F hi2 e
          omega
    · intro hn1 i hi
      rw [hstep]
      exact e4 hn1 i hi
    · intro k hk
      by_cases e : k = n
      · subst e
        exact ⟨hcall, hfresh⟩
      · exact a5 k (by omega)

end VM

namespace VM

/-! ## The calls of one access -/

theorem get_physical_address_calls_append (c : Config) (pm : PM) (va : Nat) :
    (get_physical_address c pm va).2.calls = pm.calls ++ get_physical_address_calls c pm va := by
  obtain ⟨l, hl, -⟩ := walk_steps_evict_calls c pm va c.TABLES_DEPTH (le_refl _)
  rw [call_memory_depth] at hl
  unfold get_physical_address_calls
  rw [hl, List.drop_left]

theorem VMwrite_calls_eq (c : Config) (h : c.WF) (pm : PM) (va v : Nat)
    (hva : va < 2 ^ c.VIRTUAL_ADDRESS_WIDTH) :
    VMwrite_calls c pm va v = get_physical_address_calls c pm va ++
      [PMcall.write (get_physical_address c pm va).1 v] := by
  unfold VMwrite_calls
  rw [VMwrite_eq c h pm va v hva]
  simp only
  rw [PMwrite_calls, get_physical_address_calls_append, List.append_assoc, List.drop_left]

theorem get_physical_address_evict_calls (c : Config) (pm : PM) (va : Nat) :
    evict_calls (get_physical_address_calls c pm va) =
      (List.range c.TABLES_DEPTH).flatMap (fun k =>
        if calls_find_frame c pm va k then
          evict_calls (find_frame_calls c (call_memory c pm va k) va)
        else []) := by
  obtain ⟨l, hl, hr⟩ := walk_steps_evict_calls c pm va c.TABLES_DEPTH (le_refl _)
  have e : get_physical_address_calls c pm va = l := by
    unfold get_physical_address_calls
    rw [← call_memory_depth, hl, List.drop_left]
  rw [e, hr]

theorem VMwrite_evict_calls (c : Config) (h : c.WF) (pm : PM) (va v : Nat)
    (hva : va < 2 ^ c.VIRTUAL_ADDRESS_WIDTH) :
    evict_calls (VMwrite_calls c pm va v) = evict_calls (get_physical_address_calls c pm va) := by
  rw [VMwrite_calls_eq c h pm va v hva, evict_calls_append]
  exact List.append_nil _

theorem VMwrite_restore_calls (c : Config) (h : c.WF) (pm : PM) (va v : Nat)
    (hva : va < 2 ^ c.VIRTUAL_ADDRESS_WIDTH) :
    restore_calls (VMwrite_calls c pm va v)
      = restore_calls (get_physical_address_calls c pm va) := by
  rw [VMwrite_calls_eq c h pm va v hva, restore_calls_append]
  exact List.append_nil _

theorem find_frame_calls_unchanged (c : Config) (pm : PM) (va g : Nat)
    (e : find_frame c pm va = (g, pm)) : find_frame_calls c pm va = [] := by
  unfold find_frame_calls
  rw [e]
  simp

theorem get_address_part_zero (c : Config) (j : Nat) : get_address_part c j 0 = 0 := by
  unfold get_address_part
  simp

theorem get_offset_zero (c : Config) : get_offset c 0 = 0 := by
  unfold get_offset
  simp

/-- The memory after a `VMwrite` to an address in range. -/
theorem VMwrite_ram (c : Config) (h : c.WF) (pm : PM) (va v : Nat)
    (hva : va < 2 ^ c.VIRTUAL_ADDRESS_WIDTH) (x : Nat) :
    (VMwrite c pm va v).2.ram x = if x = (get_physical_address c pm va).1 then v
      else (call_memory c pm va c.TABLES_DEPTH).ram x := by
  rw [VMwrite_eq c h pm va v hva]
  rfl

theorem get_physical_address_fst (c : Config) (pm : PM) (va : Nat) :
    (get_physical_address c pm va).1
      = u64 ((walk_steps c pm va c.TABLES_DEPTH).1 * PAGE_SIZE c + get_offset c va) := rfl

/-- A `VMread` right after a `VMwrite` to the same address returns the word written. -/
theorem VMread_after_VMwrite (c : Config) (h : c.WF) (hF : c.TABLES_DEPTH < c.NUM_FRAMES)
    (hP : ADDRESS_PART_SIZE c ≤ c.OFFSET_WIDTH) (pm : PM) (hinv : TreeInv c pm.ram)
    (a w value : Nat) (ha : a < 2 ^ c.VIRTUAL_ADDRESS_WIDTH) :
    (VMread c (VMwrite c pm a w).2 a value).1 = 1 ∧
      (VMread c (VMwrite c pm a w).2 a value).2.1 = w :=
  VMread_stored c h hF hP _ (VMwrite_spec c h hF hP pm a w hinv).1 a w value ha
    (VMwrite_stored c h hF hP pm hinv a w ha)

end VM

namespace VM

/-! ## The memory after the first write, and the access that follows it -/

/-- The tree after the first `VMwrite` that follows the initialisation: frame `j` is at the
end of the first `j` parts of the address written, and nothing else is in the tree. -/
theorem first_write_walk (c : Config) (h : c.WF) (hF : c.TABLES_DEPTH < c.NUM_FRAMES)
    (hP : ADDRESS_PART_SIZE c ≤ c.OFFSET_WIDTH) (pm0 : PM) (va v : Nat)
    (hva : va < 2 ^ c.VIRTUAL_ADDRESS_WIDTH) :
    (∀ j, j ≤ c.TABLES_DEPTH →
      walk c (VMwrite c ( VMinitialize c pm0) va v).2.ram ((address_parts c va).take j) 0
        = some j) ∧
    (∀ path f, ValidPath c path →
      walk c (VMwrite c ( VMinitialize c pm0) va v).2.ram path 0 = some f →
      f ≤ c.TABLES_DEPTH ∧ path = (address_parts c va).take f) ∧
    (∀ j, j < c.TABLES_DEPTH → ∀ i, i < PAGE_SIZE c →
      entry c (VMwrite c ( VMinitialize c pm0) va v).2.ram j i
        = if i = get_address_part c j va then j + 1 else 0) := by
  have hinv := treeInv_init c h hF pm0
  obtain ⟨a1, a2, a3, -, -⟩ := first_access c h hF hP pm0 va hva c.TABLES_DEPTH (le_refl _)
  have hinv1 := (VMwrite_spec c h hF hP _ va v hinv).1
  have hwalk : ∀ path, ValidPath c path →
      walk c (VMwrite c ( VMinitialize c pm0) va v).2.ram path 0
        = walk c (call_memory c ( VMinitialize c pm0) va c.TABLES_DEPTH).ram path 0 := by
    intro path hp
    rw [VMwrite_eq c h _ va v hva, call_memory_depth]
    exact walk_write_access c h hF hP _ va v hinv hva path hp
  have hpre : ∀ j, j ≤ c.TABLES_DEPTH →
      walk c (VMwrite c ( VMinitialize c pm0) va v).2.ram ((address_parts c va).take j) 0
        = some j := by
    intro j hj
    rw [hwalk _ (validPath_take_parts c h hP va j),
      walk_steps_prefix c h hF hP _ hinv va hva c.TABLES_DEPTH (le_refl _) j hj, a1 j hj]
  refine ⟨hpre, ?_, ?_⟩
  · intro path f hp hw
    have hf : f ≤ c.TABLES_DEPTH := (a2 f).mp ⟨path, hp, by rw [← hwalk path hp]; exact hw⟩
    exact ⟨hf, hinv1.shape.inj _ _ f hp (validPath_take_parts c h hP va f) hw (hpre f hf)⟩
  · intro j hj i hi
    rw [← a3 j hj i hi]
    unfold entry PMread
    rw [VMwrite_ram c h _ va v hva, if_neg]
    rw [get_physical_address_fst, a1 _ (le_refl _)]
    intro e
    have := (entry_addr_inj c h _ _ _ _ (by omega) hi hF (get_offset_lt c h va) e).1
    omega

/-- With every frame in the tree, `find_frame` does not take the second priority. -/
theorem not_second_of_full (c : Config) (h : c.WF) (ram : Nat → Nat) (hinv : TreeInv c ram)
    (hfull : InTree c ram (c.NUM_FRAMES - 1)) :
    ¬ c.NUM_FRAMES > u64 (choose_frame_2 c ram 0 0 + 1) := by
  have h1 := (inTree_iff_le c ram hinv _).mp hfull
  have h2 := choose_frame_2_lt c ram hinv
  have h3 := num_frames_lt c h
  rw [u64_of_lt (by omega)]
  omega

/-- A memory without a leaf: no chain of `TABLES_DEPTH` entries ends in a frame. -/
theorem not_third_of_no_leaf (c : Config) (h : c.WF) (hF : c.TABLES_DEPTH < c.NUM_FRAMES)
    (hP : ADDRESS_PART_SIZE c ≤ c.OFFSET_WIDTH) (pm : PM) (va k fk : Nat)
    (hs : WalkState c pm.ram va k fk)
    (hfull : InTree c pm.ram (c.NUM_FRAMES - 1))
    (hno : ∀ path f, ValidPath c path → path.length = c.TABLES_DEPTH →
      walk c pm.ram path 0 ≠ some f) :
    (choose_frame_1 c pm.ram va 0 0 0).is_found ≠ 0 ∧
      evict_calls (find_frame_calls c pm va) = [] := by
  rcases find_frame_cases c h hF hP pm va k fk hs with h2 | h1 | h3
  · exact absurd h2.2.2.1 (not_second_of_full c h pm.ram hs.inv hfull)
  · obtain ⟨q, i, m, -, hfound, -⟩ := h1
    refine ⟨hfound, ?_⟩
    rw [find_frame_calls_first c pm va hfound]
    rfl
  · obtain ⟨q, i, m, va2, hrem, -, -, hlen, -⟩ := h3
    exact absurd hrem.node (hno _ _ hrem.valid hlen)

/-- An iteration of the walk other than the last one creates no leaf. -/
theorem no_leaf_step (c : Config) (h : c.WF) (hF : c.TABLES_DEPTH < c.NUM_FRAMES)
    (hP : ADDRESS_PART_SIZE c ≤ c.OFFSET_WIDTH) (pm : PM) (va k fk : Nat)
    (hs : WalkState c pm.ram va k fk) (hk : k + 1 < c.TABLES_DEPTH)
    (hno : ∀ path f, ValidPath c path → path.length = c.TABLES_DEPTH →
      walk c pm.ram path 0 = some f → f = (find_frame c pm va).1) :
    ∀ path f, ValidPath c path → path.length = c.TABLES_DEPTH →
      walk c (walk_step c va (fk, pm) k).2.ram path 0 ≠ some f := by
  intro path f hp hlen hw
  rcases (walk_step_walk_iff c h hF hP pm va k fk hs path hp f).mp hw with ⟨x1, x2⟩ | ⟨x1, -⟩
  · exact x2 (hno path f hp hlen x1)
  · rw [x1, length_take_parts c va (k + 1) (by omega)] at hlen
    omega

/-- The access that follows the first write, with as many frames as the first write needs and
an address that differs from the one written in its first part: iteration 0 evicts the page
written, from frame `TABLES_DEPTH`; the later iterations reuse empty tables. -/
theorem second_access (c : Config) (h : c.WF) (hfull : c.NUM_FRAMES = c.TABLES_DEPTH + 1)
    (hP : ADDRESS_PART_SIZE c ≤ c.OFFSET_WIDTH) (pm0 : PM) (va v a : Nat)
    (hva : va < 2 ^ c.VIRTUAL_ADDRESS_WIDTH) (ha : a < 2 ^ c.VIRTUAL_ADDRESS_WIDTH)
    (hdiff : get_address_part c 0 a ≠ get_address_part c 0 va) (k : Nat)
    (hk : k < c.TABLES_DEPTH) :
    calls_find_frame c (VMwrite c ( VMinitialize c pm0) va v).2 a k ∧
    (find_frame c (call_memory c (VMwrite c ( VMinitialize c pm0) va v).2 a k) a).1 ≠ 0 ∧
    ((choose_frame_1 c (call_memory c (VMwrite c ( VMinitialize c pm0) va v).2 a k).ram
        a 0 0 0).is_found ≠ 0 ∨
      ¬ c.NUM_FRAMES > u64 (choose_frame_2 c
        (call_memory c (VMwrite c ( VMinitialize c pm0) va v).2 a k).ram 0 0 + 1)) ∧
    evict_calls (find_frame_calls c
        (call_memory c (VMwrite c ( VMinitialize c pm0) va v).2 a k) a)
      = (if k = 0 then [PMcall.evict c.TABLES_DEPTH (va >>> c.OFFSET_WIDTH)] else []) ∧
    (0 < k → ∀ path f, ValidPath c path → path.length = c.TABLES_DEPTH →
      walk c (call_memory c (VMwrite c ( VMinitialize c pm0) va v).2 a k).ram path 0
        ≠ some f) := by
  have hF : c.TABLES_DEPTH < c.NUM_FRAMES := by omega
  have hD := h.depth_pos
  have hinv0 := treeInv_init c h hF pm0
  have hinv := (VMwrite_spec c h hF hP _ va v hinv0).1
  obtain ⟨w1, w2, w3⟩ := first_write_walk c h hF hP pm0 va v hva
  generalize (VMwrite c ( VMinitialize c pm0) va v).2 = pm1 at hinv w1 w2 w3 ⊢
  have hcall0 : calls_find_frame c pm1 a 0 := by
    refine ⟨hD, ?_⟩
    show entry c pm1.ram 0 (get_address_part c 0 a) = 0
    rw [w3 0 hD _ (part_lt_page c h hP 0 a), if_neg hdiff]
  have hcalls : ∀ n, n < c.TABLES_DEPTH → calls_find_frame c pm1 a n :=
    fun n hn => calls_find_frame_from c h hF hP pm1 hinv a 0 ha hcall0 n (Nat.zero_le _) hn
  have hfullk : ∀ n, n ≤ c.TABLES_DEPTH →
      InTree c (call_memory c pm1 a n).ram (c.NUM_FRAMES - 1) := by
    intro n hn
    apply walk_steps_inTree c h hF hP pm1 a hinv ha n hn
    left
    refine ⟨_, validPath_take_parts c h hP va c.TABLES_DEPTH, ?_⟩
    rw [w1 _ (le_refl _), hfull]
    rfl
  -- iteration 0 evicts the leaf
  have hzero : (choose_frame_1 c pm1.ram a 0 0 0).is_found = 0 ∧
      ¬ c.NUM_FRAMES > u64 (choose_frame_2 c pm1.ram 0 0 + 1) ∧
      (find_frame c pm1 a).1 = c.TABLES_DEPTH ∧
      evict_calls (find_frame_calls c pm1 a)
        = [PMcall.evict c.TABLES_DEPTH (va >>> c.OFFSET_WIDTH)] := by
    have hs := walkState_of_inv c h hF hP pm1 hinv a 0 ha hcall0
    have hcm : call_memory c pm1 a 0 = pm1 := rfl
    rw [hcm] at hs
    rcases find_frame_cases c h hF hP pm1 a 0 _ hs with h2 | h1 | h3
    · exact absurd h2.2.2.1 (not_second_of_full c h pm1.ram hinv (hfullk 0 (Nat.zero_le _)))
    · exfalso
      obtain ⟨q, i, m, hrem, -, hlen, -, hzero, -⟩ := h1
      obtain ⟨hg, hpath⟩ := w2 _ _ hrem.valid hrem.node
      have hl := congrArg List.length hpath
      rw [length_take_parts c va _ hg] at hl
      have hg1 : (find_frame c pm1 a).1 < c.TABLES_DEPTH := by omega
      have := hzero _ (part_lt_page c h hP (find_frame c pm1 a).1 va)
      rw [w3 _ hg1 _ (part_lt_page c h hP _ va), if_pos rfl] at this
      omega
    · obtain ⟨q, i, m, va2, hrem, hnf, hnot, hlen, -, hfr, hpg, hva2, hq, -⟩ := h3
      obtain ⟨hg, hpath⟩ := w2 _ _ hrem.valid hrem.node
      have hl := congrArg List.length hpath
      rw [length_take_parts c va _ hg, hlen] at hl
      have hparts : address_parts c va2 = address_parts c va := by
        rw [← hq, hpath, ← hl, List.take_of_length_le (by rw [address_parts_length])]
      have hpage := page_of_parts c h va2 va hva2 hva hparts
      refine ⟨hnf, hnot, hl.symm, ?_⟩
      rw [find_frame_calls_third c pm1 a hnf hnot, hfr, hpg, hpage, ← hl]
      rfl
  -- the later iterations find no leaf
  have hnoleaf : ∀ n, 0 < n → n < c.TABLES_DEPTH → ∀ path f, ValidPath c path →
      path.length = c.TABLES_DEPTH → walk c (call_memory c pm1 a n).ram path 0 ≠ some f := by
    intro n
    induction n with
    | zero => intro h0; omega
    | succ n ih =>
      intro _ hn
      have hs := walkState_of_inv c h hF hP pm1 hinv a n ha (hcalls n (by omega))
      have hstep : call_memory c pm1 a (n + 1)
          = (walk_step c a ((walk_steps c pm1 a n).1, call_memory c pm1 a n) n).2 := by
        unfold call_memory
        rw [walk_steps_succ]
      rw [hstep]
      apply no_leaf_step c h hF hP _ a n _ hs hn
      intro path f hp hlen hw
      by_cases e : n = 0
      · subst e
        have hcm : call_memory c pm1 a 0 = pm1 := rfl
        rw [hcm] at hw ⊢
        rw [hzero.2.2.1]
        obtain ⟨hg, hpath⟩ := w2 path f hp hw
        have hl := congrArg List.length hpath
        rw [length_take_parts c va _ hg, hlen] at hl
        exact hl.symm
      · exact absurd hw (ih (by omega) (by omega) path f hp hlen)
  have hs := walkState_of_inv c h hF hP pm1 hinv a k ha (hcalls k hk)
  obtain ⟨hpl, -, -⟩ := find_frame_spec c h hF hP _ a k _ hs
  refine ⟨hcalls k hk, hpl.pos, ?_, ?_, fun hk0 => hnoleaf k hk0 hk⟩
  · by_cases e : k = 0
    · subst e
      exact Or.inr hzero.2.1
    · exact Or.inl (not_third_of_no_leaf c h hF hP _ a k _ hs (hfullk k (by omega))
        (hnoleaf k (by omega) hk)).1
  · by_cases e : k = 0
    · subst e
      rw [if_pos rfl]
      exact hzero.2.2.2
    · rw [if_neg e]
      exact (not_third_of_no_leaf c h hF hP _ a k _ hs (hfullk k (by omega))
        (hnoleaf k (by omega) hk)).2

end VM

namespace VM

/-! ## The address codec for every address width

The lemmas of this section use no bound on `VIRTUAL_ADDRESS_WIDTH`: the masks of the codec are
`int` expressions in `ADDRESS_PART_SIZE` and `OFFSET_WIDTH` only, and the address is a
`uint64_t`. -/

/-- A frame other than the root is not a frame of the tree when no word of the frames up to
the highest frame of the tree holds its number: `m` is the highest frame of the tree, and none
of the first `(m + 1) * PAGE_SIZE` words of the memory is `f`. -/
theorem not_inTree_of_no_word (c : Config) (ram : Nat → Nat) (f m : Nat)
    (h : f ≠ 0 ∧ choose_frame_2 c ram 0 0 = m ∧ (m + 1) * PAGE_SIZE c ≤ 2 ^ 64 ∧
      ∀ a, a < (m + 1) * PAGE_SIZE c → ram a ≠ f) :
    choose_frame_2 c ram 0 0 = m ∧ ¬ InTree c ram f := by
  obtain ⟨hf, hm, h64, hno⟩ := h
  refine ⟨hm, ?_⟩
  rintro ⟨path, hvalid, hw⟩
  by_cases hnil : path = []
  · subst hnil
    rw [walk_nil] at hw
    exact hf (Option.some.inj hw).symm
  · obtain ⟨q, i, rfl⟩ := exists_snoc path hnil
    obtain ⟨g, hg, he, -⟩ := walk_snoc_some c ram q i 0 f hw
    have hq := validPath_of_append c q [i] hvalid
    have hi := validPath_snoc_index c q i hvalid
    have hle := choose_frame_2_ge c ram q g hq.1 hq.2 hg
    rw [hm] at hle
    have hlt : g * PAGE_SIZE c + i < (m + 1) * PAGE_SIZE c := by
      have : (g + 1) * PAGE_SIZE c ≤ (m + 1) * PAGE_SIZE c := Nat.mul_le_mul_right _ (by omega)
      rw [Nat.add_mul, Nat.one_mul] at this
      omega
    apply hno _ hlt
    unfold entry PMread at he
    rw [u64_of_lt (by omega)] at he
    exact he

/-- A memory in which one frame is at the end of a chain shorter than `TABLES_DEPTH` and at
the end of a chain of `TABLES_DEPTH` entries is not a tree: the frame is a table and a leaf. -/
theorem not_isTree_of_table_leaf (c : Config) (ram : Nat → Nat) (p1 p2 : List Nat) (f : Nat)
    (h : (p1.length < c.TABLES_DEPTH ∧ ∀ i ∈ p1, i < PAGE_SIZE c) ∧
      (p2.length = c.TABLES_DEPTH ∧ ∀ i ∈ p2, i < PAGE_SIZE c) ∧
      walk c ram p1 0 = some f ∧ walk c ram p2 0 = some f) :
    walk c ram p1 0 = some f ∧ walk c ram p2 0 = some f ∧ ¬ IsTree c ram := by
  obtain ⟨⟨h1, h2⟩, ⟨h3, h4⟩, h5, h6⟩ := h
  refine ⟨h5, h6, ?_⟩
  intro ht
  exact ht.table_not_leaf p1 p2 f ⟨by omega, h2⟩ ⟨by omega, h4⟩ h1 h3 h5 h6

end VM

namespace VM

/-! ## Validation of addresses -/

/-- With an address width that the `int` shift `1 << VIRTUAL_ADDRESS_WIDTH` can hold,
`validate_virtual_address` returns 0 exactly for the addresses `≥ 2^VIRTUAL_ADDRESS_WIDTH`,
in every memory state `VMread` and `VMwrite` return 0 exactly for those addresses, and they
return 1 for every address in range. -/
theorem failure_iff_out_of_range (c : Config) (hV : c.VIRTUAL_ADDRESS_WIDTH < 31) (pm : PM)
    (vaddr value w : Nat) :
    (validate_virtual_address c vaddr = 0 ↔ 2 ^ c.VIRTUAL_ADDRESS_WIDTH ≤ vaddr) ∧
    ((VMread c pm vaddr value).1 = 0 ↔ 2 ^ c.VIRTUAL_ADDRESS_WIDTH ≤ vaddr) ∧
    ((VMwrite c pm vaddr w).1 = 0 ↔ 2 ^ c.VIRTUAL_ADDRESS_WIDTH ≤ vaddr) ∧
    (vaddr < 2 ^ c.VIRTUAL_ADDRESS_WIDTH →
      (VMread c pm vaddr value).1 = 1 ∧ (VMwrite c pm vaddr w).1 = 1) := by
  have hval := validate_eq_zero_iff c hV vaddr
  refine ⟨hval, ?_, ?_, ?_⟩
  · unfold VMread
    split_ifs with h1
    · simp only [true_iff]; exact hval.mp h1
    · simp only [one_ne_zero, false_iff]; exact fun h2 => h1 (hval.mpr h2)
  · unfold VMwrite
    split_ifs with h1
    · simp only [true_iff]; exact hval.mp h1
    · simp only [one_ne_zero, false_iff]; exact fun h2 => h1 (hval.mpr h2)
  · intro hlt
    have h1 : ¬ validate_virtual_address c vaddr = 0 := fun h2 => by
      have := hval.mp h2
      omega
    unfold VMread VMwrite
    rw [if_neg h1, if_neg h1]
    exact ⟨rfl, rfl⟩

/-- An instance of the theorem above on the constants of the specification's scenario. -/
theorem failure_iff_out_of_range_witness :
    (validate_virtual_address ⟨16, 4, 3, 4⟩ 4660 = 0 ↔ 2 ^ 16 ≤ 4660) ∧
    ((VMread ⟨16, 4, 3, 4⟩ ⟨fun _ => 0, fun _ => none, []⟩ 4660 7).1 = 0 ↔ 2 ^ 16 ≤ 4660) ∧
    ((VMwrite ⟨16, 4, 3, 4⟩ ⟨fun _ => 0, fun _ => none, []⟩ 4660 9).1 = 0 ↔ 2 ^ 16 ≤ 4660) ∧
    (4660 < 2 ^ 16 →
      (VMread ⟨16, 4, 3, 4⟩ ⟨fun _ => 0, fun _ => none, []⟩ 4660 7).1 = 1 ∧
      (VMwrite ⟨16, 4, 3, 4⟩ ⟨fun _ => 0, fun _ => none, []⟩ 4660 9).1 = 1) :=
  failure_iff_out_of_range ⟨16, 4, 3, 4⟩ (by decide) ⟨fun _ => 0, fun _ => none, []⟩ 4660 7 9

/-- With an address width that the `int` shift can hold, a call of `VMread` or `VMwrite`
on an address `≥ 2^VIRTUAL_ADDRESS_WIDTH` returns 0 and hands back the memory it was given:
the words, the backing store and the record of `PMwrite`, `PMevict` and `PMrestore` calls are
the same, and `VMread` leaves the word behind `value` as it was. -/
theorem rejection_is_atomic (c : Config) (hV : c.VIRTUAL_ADDRESS_WIDTH < 31) (pm : PM)
    (vaddr value w : Nat) (hv : 2 ^ c.VIRTUAL_ADDRESS_WIDTH ≤ vaddr) :
    VMread c pm vaddr value = (0, value, pm) ∧ VMwrite c pm vaddr w = (0, pm) := by
  have h1 : validate_virtual_address c vaddr = 0 := (validate_eq_zero_iff c hV vaddr).mpr hv
  unfold VMread VMwrite
  rw [if_pos h1, if_pos h1]
  exact ⟨rfl, rfl⟩

/-- An instance of the theorem above on the constants of the specification's scenario. -/
theorem rejection_is_atomic_witness :
    VMread ⟨16, 4, 3, 4⟩ ⟨fun a => a, fun _ => none, []⟩ 70000 7
        = (0, 7, ⟨fun a => a, fun _ => none, []⟩) ∧
      VMwrite ⟨16, 4, 3, 4⟩ ⟨fun a => a, fun _ => none, []⟩ 70000 9
        = (0, ⟨fun a => a, fun _ => none, []⟩) :=
  rejection_is_atomic ⟨16, 4, 3, 4⟩ (by decide) ⟨fun a => a, fun _ => none, []⟩ 70000 7 9
    (by decide)

/-! ## The cyclic distance -/

/-- C9. For page numbers `q, p < NUM_PAGES` the distance computed for the address `q << O`
and the page `p` is `min(|q - p|, NUM_PAGES - |q - p|)`; it is symmetric, it is 0 when
`p = q`, it lies between 1 and `NUM_PAGES / 2` when `p ≠ q`, and the offset bits of the first
argument do not matter. -/
theorem cyclic_distance (c : Config) (h64 : c.VIRTUAL_ADDRESS_WIDTH - c.OFFSET_WIDTH < 64)
    (q p : Nat) (hq : q < NUM_PAGES c) (hp : p < NUM_PAGES c) :
    distance_to_page_swapped_in c (q <<< c.OFFSET_WIDTH) p
        = min (Nat.dist q p) (NUM_PAGES c - Nat.dist q p) ∧
    distance_to_page_swapped_in c (q <<< c.OFFSET_WIDTH) p
        = distance_to_page_swapped_in c (p <<< c.OFFSET_WIDTH) q ∧
    (p = q → distance_to_page_swapped_in c (q <<< c.OFFSET_WIDTH) p = 0) ∧
    (p ≠ q → 1 ≤ distance_to_page_swapped_in c (q <<< c.OFFSET_WIDTH) p ∧
      distance_to_page_swapped_in c (q <<< c.OFFSET_WIDTH) p ≤ NUM_PAGES c / 2) ∧
    (∀ off, off < PAGE_SIZE c →
      distance_to_page_swapped_in c (q <<< c.OFFSET_WIDTH + off) p
        = distance_to_page_swapped_in c (q <<< c.OFFSET_WIDTH) p) := by
  have e1 : distance_to_page_swapped_in c (q <<< c.OFFSET_WIDTH) p
      = min (Nat.dist q p) (NUM_PAGES c - Nat.dist q p) := by
    have := distance_eq c h64 (q <<< c.OFFSET_WIDTH) p (by rw [shift_shift]; exact hq) hp
    rw [shift_shift] at this
    exact this
  have e2 : distance_to_page_swapped_in c (p <<< c.OFFSET_WIDTH) q
      = min (Nat.dist p q) (NUM_PAGES c - Nat.dist p q) := by
    have := distance_eq c h64 (p <<< c.OFFSET_WIDTH) q (by rw [shift_shift]; exact hp) hq
    rw [shift_shift] at this
    exact this
  refine ⟨e1, ?_, ?_, ?_, ?_⟩
  · rw [e1, e2, Nat.dist_comm]
  · intro hpq
    rw [e1, hpq, Nat.dist_self]
    exact Nat.zero_min _
  · intro hpq
    rw [e1]
    unfold Nat.dist
    omega
  · intro off hoff
    have := distance_eq c h64 (q <<< c.OFFSET_WIDTH + off) p
      (by rw [shift_add_shift _ _ _ hoff]; exact hq) hp
    rw [shift_add_shift _ _ _ hoff] at this
    rw [this, e1]

/-- Witness of C9: pages 3 and 5 of the specification's scenario. -/
theorem cyclic_distance_witness :
    distance_to_page_swapped_in ⟨16, 4, 3, 4⟩ (3 <<< 4) 5
        = min (Nat.dist 3 5) (NUM_PAGES ⟨16, 4, 3, 4⟩ - Nat.dist 3 5) ∧
    distance_to_page_swapped_in ⟨16, 4, 3, 4⟩ (3 <<< 4) 5
        = distance_to_page_swapped_in ⟨16, 4, 3, 4⟩ (5 <<< 4) 3 ∧
    (5 = 3 → distance_to_page_swapped_in ⟨16, 4, 3, 4⟩ (3 <<< 4) 5 = 0) ∧
    (5 ≠ 3 → 1 ≤ distance_to_page_swapped_in ⟨16, 4, 3, 4⟩ (3 <<< 4) 5 ∧
      distance_to_page_swapped_in ⟨16, 4, 3, 4⟩ (3 <<< 4) 5 ≤ NUM_PAGES ⟨16, 4, 3, 4⟩ / 2) ∧
    (∀ off, off < PAGE_SIZE ⟨16, 4, 3, 4⟩ →
      distance_to_page_swapped_in ⟨16, 4, 3, 4⟩ (3 <<< 4 + off) 5
        = distance_to_page_swapped_in ⟨16, 4, 3, 4⟩ (3 <<< 4) 5) :=
  cyclic_distance ⟨16, 4, 3, 4⟩ (by decide) 3 5 (by decide) (by decide)

/-! ## Decomposition of addresses -/

end VM

namespace VM

/-- C6. In any memory state, if the tree rooted at frame 0 has a leaf (a chain of
`TABLES_DEPTH` non-zero entries) whose accumulated page number has a positive distance to the
page of `vaddr`, then `choose_frame_3 (vaddr, 0, 0, 0, 0)` returns a record of the list of
leaves taken in depth-first order by ascending entry index: no leaf has a larger distance and
every leaf before it in that order has a strictly smaller one.  The record holds the frame at
the end of its chain, the page number accumulated along the chain, the distance of that page,
and the physical address of the last entry of the chain, which stores the frame. -/
theorem eviction_picks_farthest (c : Config) (ram : Nat → Nat) (vaddr : Nat)
    (leaf : List Nat) (hlen : leaf.length = c.TABLES_DEPTH)
    (hidx : ∀ i ∈ leaf, i < PAGE_SIZE c) (hwalk : (walk c ram leaf 0).isSome = true)
    (hpos : 0 < distance_to_page_swapped_in c vaddr (page_from c 0 leaf)) :
    (∃ k, ∃ hk : k < (leaves c ram vaddr).length,
      (leaves c ram vaddr).get ⟨k, hk⟩ = choose_frame_3 c ram vaddr 0 0 0 0 ∧
      ∀ j, ∀ hj : j < (leaves c ram vaddr).length, j < k →
        ((leaves c ram vaddr).get ⟨j, hj⟩).distance
          < (choose_frame_3 c ram vaddr 0 0 0 0).distance) ∧
    (∀ path f, path.length = c.TABLES_DEPTH → (∀ i ∈ path, i < PAGE_SIZE c) →
      walk c ram path 0 = some f →
      distance_to_page_swapped_in c vaddr (page_from c 0 path)
        ≤ (choose_frame_3 c ram vaddr 0 0 0 0).distance) ∧
    (∃ path, path.length = c.TABLES_DEPTH ∧ (∀ i ∈ path, i < PAGE_SIZE c) ∧
      walk c ram path 0 = some (choose_frame_3 c ram vaddr 0 0 0 0).frame ∧
      (choose_frame_3 c ram vaddr 0 0 0 0).page_num = page_from c 0 path ∧
      (choose_frame_3 c ram vaddr 0 0 0 0).distance
        = distance_to_page_swapped_in c vaddr (page_from c 0 path) ∧
      ∀ q i, path = q ++ [i] → ∃ g, walk c ram q 0 = some g ∧
        (choose_frame_3 c ram vaddr 0 0 0 0).parent = u64 (g * PAGE_SIZE c + i) ∧
        PMread ram (choose_frame_3 c ram vaddr 0 0 0 0).parent
          = (choose_frame_3 c ram vaddr 0 0 0 0).frame) := by
  have hmem : ∀ path f, path.length = c.TABLES_DEPTH → (∀ i ∈ path, i < PAGE_SIZE c) →
      walk c ram path 0 = some f →
      ∃ x ∈ leaves c ram vaddr,
        x.distance = distance_to_page_swapped_in c vaddr (page_from c 0 path) := by
    intro path f h1 h2 h3
    obtain ⟨t2, ht2⟩ := descend_of_walk c ram path (0, 0, 0) f h3
    refine ⟨leaf_record c vaddr t2,
      (mem_leaves_from c ram vaddr _ _ _).mpr ⟨path, h1, h2, t2, ht2, rfl⟩, ?_⟩
    obtain ⟨-, hp, -, -⟩ := descend_some c ram path _ _ ht2
    simp only [leaf_record, hp]
  have hex : ∃ x ∈ leaves c ram vaddr, 0 < x.distance := by
    cases hw : walk c ram leaf 0 with
    | none => rw [hw] at hwalk; exact absurd hwalk (by simp)
    | some f =>
      obtain ⟨x, hx, hxd⟩ := hmem leaf f hlen hidx hw
      exact ⟨x, hx, by rw [hxd]; exact hpos⟩
  have heq := choose_frame_3_eq_first_max c ram vaddr hex
  rw [heq]
  rcases first_max_spec (leaves c ram vaddr) ⟨0, 0, 0, 0⟩ with ⟨h1, h2⟩ | ⟨k, hk, h1, h2, h3, h4⟩
  · obtain ⟨x, hx, hxd⟩ := hex
    have := h2 x hx
    simp only at this
    omega
  · refine ⟨⟨k, hk, h1, h4⟩, ?_, ?_⟩
    · intro path f hp1 hp2 hp3
      obtain ⟨x, hx, hxd⟩ := hmem path f hp1 hp2 hp3
      rw [← hxd]
      exact h3 x hx
    · have hin : first_max ⟨0, 0, 0, 0⟩ (leaves c ram vaddr) ∈ leaves c ram vaddr := by
        rw [← h1]
        exact List.get_mem _ _ _
      obtain ⟨path, hp1, hp2, t2, hd, hrec⟩ := (mem_leaves_from c ram vaddr _ _ _).mp hin
      obtain ⟨hw, hp, -, hpar⟩ := descend_some c ram path _ _ hd
      rw [hrec]
      refine ⟨path, hp1, hp2, hw, hp, ?_, ?_⟩
      · simp only [leaf_record, hp]
      · intro q i hq
        obtain ⟨g, hg1, hg2, hg3⟩ := hpar q i hq
        refine ⟨g, hg1, hg2, ?_⟩
        show PMread ram t2.2.1 = t2.1
        rw [hg2]
        exact hg3

/-- Witness of C6: four pages, two levels of tables of two entries, and a memory with three
leaves: page 0 in frame 3, page 1 in frame 4 and page 3 in frame 5.  For address 0 their
distances are 0, 1 and 1, so the greatest distance is attained twice, and `choose_frame_3`
returns the record of page 1, the first of the two in depth-first order, with frame 4 and
its parent entry at the physical address 3. -/
theorem eviction_picks_farthest_witness :
    leaves ⟨3, 1, 2, 6⟩
        (fun a => if a = 0 then 1 else if a = 1 then 2 else if a = 2 then 3 else if a = 3 then 4
            else if a = 5 then 5 else 0) 0
      = [⟨0, 3, 2, 0⟩, ⟨1, 4, 3, 1⟩, ⟨3, 5, 5, 1⟩] ∧
    choose_frame_3 ⟨3, 1, 2, 6⟩
        (fun a => if a = 0 then 1 else if a = 1 then 2 else if a = 2 then 3 else if a = 3 then 4
            else if a = 5 then 5 else 0) 0 0 0 0 0
      = ⟨1, 4, 3, 1⟩ ∧
    ((∃ k, ∃ hk : k < (leaves ⟨3, 1, 2, 6⟩ (fun a => if a = 0 then 1 else if a = 1 then 2 else if a
        = 2 then 3 else if a = 3 then 4 else if a = 5 then 5 else 0) 0).length,
      (leaves ⟨3, 1, 2, 6⟩ (fun a => if a = 0 then 1 else if a = 1 then 2 else if a = 2 then 3 else
          if a = 3 then 4 else if a = 5 then 5 else 0) 0).get ⟨k, hk⟩ = choose_frame_3 ⟨3, 1, 2, 6⟩
          (fun a => if a = 0 then 1 else if a = 1 then 2 else if a = 2 then 3 else if a = 3 then 4
          else if a = 5 then 5 else 0) 0 0 0 0 0 ∧
      ∀ j, ∀ hj : j < (leaves ⟨3, 1, 2, 6⟩ (fun a => if a = 0 then 1 else if a = 1 then 2 else if a
          = 2 then 3 else if a = 3 then 4 else if a = 5 then 5 else 0) 0).length, j < k →
        ((leaves ⟨3, 1, 2, 6⟩ (fun a => if a = 0 then 1 else if a = 1 then 2 else if a = 2 then 3
            else if a = 3 then 4 else if a = 5 then 5 else 0) 0).get ⟨j, hj⟩).distance
          < (choose_frame_3 ⟨3, 1, 2, 6⟩ (fun a => if a = 0 then 1 else if a = 1 then 2 else if a =
              2 then 3 else if a = 3 then 4 else if a = 5 then 5 else 0) 0 0 0 0 0).distance) ∧
    (∀ path f, path.length = (⟨3, 1, 2, 6⟩ : Config).TABLES_DEPTH → (∀ i ∈ path, i < PAGE_SIZE
        ⟨3, 1, 2, 6⟩) →
      walk ⟨3, 1, 2, 6⟩ (fun a => if a = 0 then 1 else if a = 1 then 2 else if a = 2 then 3 else if
          a = 3 then 4 else if a = 5 then 5 else 0) path 0 = some f →
      distance_to_page_swapped_in ⟨3, 1, 2, 6⟩ 0 (page_from ⟨3, 1, 2, 6⟩ 0 path)
        ≤ (choose_frame_3 ⟨3, 1, 2, 6⟩ (fun a => if a = 0 then 1 else if a = 1 then 2 else if a = 2
            then 3 else if a = 3 then 4 else if a = 5 then 5 else 0) 0 0 0 0 0).distance) ∧
    (∃ path, path.length = (⟨3, 1, 2, 6⟩ : Config).TABLES_DEPTH ∧ (∀ i ∈ path, i < PAGE_SIZE
        ⟨3, 1, 2, 6⟩) ∧
      walk ⟨3, 1, 2, 6⟩ (fun a => if a = 0 then 1 else if a = 1 then 2 else if a = 2 then 3 else if
          a = 3 then 4 else if a = 5 then 5 else 0) path 0 = some (choose_frame_3 ⟨3, 1, 2, 6⟩ (fun
          a => if a = 0 then 1 else if a = 1 then 2 else if a = 2 then 3 else if a = 3 then 4 else
          if a = 5 then 5 else 0) 0 0 0 0 0).frame ∧
      (choose_frame_3 ⟨3, 1, 2, 6⟩ (fun a => if a = 0 then 1 else if a = 1 then 2 else if a = 2
          then 3 else if a = 3 then 4 else if a = 5 then 5 else 0) 0 0 0 0 0).page_num = page_from
          ⟨3, 1, 2, 6⟩ 0 path ∧
      (choose_frame_3 ⟨3, 1, 2, 6⟩ (fun a => if a = 0 then 1 else if a = 1 then 2 else if a = 2
          then 3 else if a = 3 then 4 else if a = 5 then 5 else 0) 0 0 0 0 0).distance
        = distance_to_page_swapped_in ⟨3, 1, 2, 6⟩ 0 (page_from ⟨3, 1, 2, 6⟩ 0 path) ∧
      ∀ q i, path = q ++ [i] → ∃ g, walk ⟨3, 1, 2, 6⟩ (fun a => if a = 0 then 1 else if a = 1 then
          2 else if a = 2 then 3 else if a = 3 then 4 else if a = 5 then 5 else 0) q 0 = some g ∧
        (choose_frame_3 ⟨3, 1, 2, 6⟩ (fun a => if a = 0 then 1 else if a = 1 then 2 else if a = 2
            then 3 else if a = 3 then 4 else if a = 5 then 5 else 0) 0 0 0 0 0).parent = u64 (g *
            PAGE_SIZE ⟨3, 1, 2, 6⟩ + i) ∧
        PMread (fun a => if a = 0 then 1 else if a = 1 then 2 else if a = 2 then 3 else if a = 3
            then 4 else if a = 5 then 5 else 0) (choose_frame_3 ⟨3, 1, 2, 6⟩ (fun a => if a = 0
            then 1 else if a = 1 then 2 else if a = 2 then 3 else if a = 3 then 4 else if a = 5
            then 5 else 0) 0 0 0 0 0).parent
          = (choose_frame_3 ⟨3, 1, 2, 6⟩ (fun a => if a = 0 then 1 else if a = 1 then 2 else if a =
              2 then 3 else if a = 3 then 4 else if a = 5 then 5 else 0) 0 0 0 0 0).frame)) :=
  ⟨by decide, by decide,
    eviction_picks_farthest ⟨3, 1, 2, 6⟩
      (fun a => if a = 0 then 1 else if a = 1 then 2 else if a = 2 then 3 else if a = 3 then 4
        else if a = 5 then 5 else 0)
      0 [0, 1] (by decide) (by decide) (by decide) (by decide)⟩

end VM

namespace VM

/-! ## Properties of the reachable memories -/

/-- Address widths below 31.
For well-formed constants with `NUM_FRAMES > TABLES_DEPTH` and
`ADDRESS_PART_SIZE ≤ OFFSET_WIDTH`, in every memory reachable from ` VMinitialize` by calls of
`VMread` and `VMwrite`, for every address below `2^VIRTUAL_ADDRESS_WIDTH` and every word `v`:
`VMwrite(vaddr, v)` returns 1, and a `VMread(vaddr)` that follows at once returns 1 and stores
`v` in `*value`. -/
theorem round_trip (c : Config) (h : c.WF) (hF : c.TABLES_DEPTH < c.NUM_FRAMES)
    (hP : ADDRESS_PART_SIZE c ≤ c.OFFSET_WIDTH) (pm : PM) (hr : Reachable c pm)
    (vaddr v value : Nat) (hva : vaddr < 2 ^ c.VIRTUAL_ADDRESS_WIDTH) :
    (VMwrite c pm vaddr v).1 = 1 ∧
      (VMread c (VMwrite c pm vaddr v).2 vaddr value).1 = 1 ∧
      (VMread c (VMwrite c pm vaddr v).2 vaddr value).2.1 = v := by
  have hval := validate_of_lt c h vaddr hva
  obtain ⟨-, hw⟩ := VMwrite_spec c h hF hP pm vaddr v (treeInv_of_reachable c h hF hP pm hr)
  obtain ⟨leaf, h1, h2⟩ := hw hva
  refine ⟨?_, ?_, ?_⟩
  · unfold VMwrite
    rw [if_neg hval]
  · unfold VMread
    rw [if_neg hval]
  · generalize (VMwrite c pm vaddr v).2 = pm1 at h1 h2
    unfold VMread
    rw [if_neg hval, get_physical_address_mapped c pm1 vaddr leaf h1]
    exact h2

/-- An instance of the theorem above: two frames of two words, writing 5 to address 2 right after the
initialisation. -/
theorem round_trip_witness :
    (VMwrite ⟨2, 1, 1, 2⟩ ( VMinitialize ⟨2, 1, 1, 2⟩ ⟨fun _ => 0, fun _ => none, []⟩) 2 5).1 = 1 ∧
      (VMread ⟨2, 1, 1, 2⟩
        (VMwrite ⟨2, 1, 1, 2⟩ ( VMinitialize ⟨2, 1, 1, 2⟩ ⟨fun _ => 0, fun _ => none, []⟩) 2 5).2
        2 0).1 = 1 ∧
      (VMread ⟨2, 1, 1, 2⟩
        (VMwrite ⟨2, 1, 1, 2⟩ ( VMinitialize ⟨2, 1, 1, 2⟩ ⟨fun _ => 0, fun _ => none, []⟩) 2 5).2
        2 0).2.1 = 5 :=
  round_trip ⟨2, 1, 1, 2⟩ ⟨by decide, by decide, by decide, by decide, by decide⟩ (by decide) (by decide)
    _ (Reachable.init _) 2 5 0 (by decide)

/-- Address widths below 31.
For well-formed constants with `NUM_FRAMES > TABLES_DEPTH` and
`ADDRESS_PART_SIZE ≤ OFFSET_WIDTH`: whenever `get_physical_address`, run on a reachable memory
and an address in range, calls `find_frame` (in some iteration `k` the entry it reads is 0),
the frame returned lies between 1 and `NUM_FRAMES - 1`, whichever priority produced it.  Every
`PMevict` that the call makes is on that frame, so never on frame 0, and the words of the frame
lie above the words `0 .. PAGE_SIZE-1` of the root and inside the physical memory. -/
theorem allocator_never_returns_root (c : Config) (h : c.WF)
    (hF : c.TABLES_DEPTH < c.NUM_FRAMES) (hP : ADDRESS_PART_SIZE c ≤ c.OFFSET_WIDTH) (pm : PM)
    (hr : Reachable c pm) (vaddr k : Nat) (hva : vaddr < 2 ^ c.VIRTUAL_ADDRESS_WIDTH)
    (hcall : calls_find_frame c pm vaddr k) :
    1 ≤ (find_frame c (call_memory c pm vaddr k) vaddr).1 ∧
      (find_frame c (call_memory c pm vaddr k) vaddr).1 < c.NUM_FRAMES ∧
      (∀ fr pg, PMcall.evict fr pg ∈ find_frame_calls c (call_memory c pm vaddr k) vaddr →
        fr = (find_frame c (call_memory c pm vaddr k) vaddr).1 ∧ 1 ≤ fr ∧ fr < c.NUM_FRAMES) ∧
      PAGE_SIZE c ≤ (find_frame c (call_memory c pm vaddr k) vaddr).1 * PAGE_SIZE c ∧
      (find_frame c (call_memory c pm vaddr k) vaddr).1 * PAGE_SIZE c + PAGE_SIZE c
        ≤ c.NUM_FRAMES * PAGE_SIZE c := by
  have hs := walkState_of_reachable c h hF hP pm hr vaddr k hva hcall
  obtain ⟨hpl, -, -⟩ := find_frame_spec c h hF hP _ vaddr k _ hs
  have hpos : 1 ≤ (find_frame c (call_memory c pm vaddr k) vaddr).1 :=
    Nat.one_le_iff_ne_zero.mpr hpl.pos
  refine ⟨hpos, hpl.lt, ?_, ?_, ?_⟩
  · intro fr pg hmem
    obtain ⟨-, -, -, -, e⟩ := find_frame_new_calls c _ vaddr fr pg hmem
    rw [e]
    exact ⟨rfl, hpos, hpl.lt⟩
  · exact Nat.le_mul_of_pos_left _ hpos
  · have := Nat.mul_le_mul_right (PAGE_SIZE c) (Nat.succ_le_of_lt hpl.lt)
    rw [Nat.succ_mul] at this
    exact this

/-- An instance of the theorem above: two frames of two words; page 0 is resident and the walk for address 2
calls `find_frame`, which has to evict. -/
theorem allocator_never_returns_root_witness :
    1 ≤ (find_frame ⟨2, 1, 1, 2⟩ (call_memory ⟨2, 1, 1, 2⟩
        (VMwrite ⟨2, 1, 1, 2⟩ ( VMinitialize ⟨2, 1, 1, 2⟩ ⟨fun _ => 0, fun _ => none, []⟩) 0 5).2
        2 0) 2).1 ∧
      (find_frame ⟨2, 1, 1, 2⟩ (call_memory ⟨2, 1, 1, 2⟩
        (VMwrite ⟨2, 1, 1, 2⟩ ( VMinitialize ⟨2, 1, 1, 2⟩ ⟨fun _ => 0, fun _ => none, []⟩) 0 5).2
        2 0) 2).1 < 2 ∧
      (∀ fr pg, PMcall.evict fr pg ∈ find_frame_calls ⟨2, 1, 1, 2⟩ (call_memory ⟨2, 1, 1, 2⟩
          (VMwrite ⟨2, 1, 1, 2⟩ ( VMinitialize ⟨2, 1, 1, 2⟩ ⟨fun _ => 0, fun _ => none, []⟩) 0 5).2
          2 0) 2 →
        fr = (find_frame ⟨2, 1, 1, 2⟩ (call_memory ⟨2, 1, 1, 2⟩
          (VMwrite ⟨2, 1, 1, 2⟩ ( VMinitialize ⟨2, 1, 1, 2⟩ ⟨fun _ => 0, fun _ => none, []⟩) 0 5).2
          2 0) 2).1 ∧ 1 ≤ fr ∧ fr < 2) ∧
      PAGE_SIZE ⟨2, 1, 1, 2⟩ ≤ (find_frame ⟨2, 1, 1, 2⟩ (call_memory ⟨2, 1, 1, 2⟩
        (VMwrite ⟨2, 1, 1, 2⟩ ( VMinitialize ⟨2, 1, 1, 2⟩ ⟨fun _ => 0, fun _ => none, []⟩) 0 5).2
        2 0) 2).1 * PAGE_SIZE ⟨2, 1, 1, 2⟩ ∧
      (find_frame ⟨2, 1, 1, 2⟩ (call_memory ⟨2, 1, 1, 2⟩
        (VMwrite ⟨2, 1, 1, 2⟩ ( VMinitialize ⟨2, 1, 1, 2⟩ ⟨fun _ => 0, fun _ => none, []⟩) 0 5).2
        2 0) 2).1 * PAGE_SIZE ⟨2, 1, 1, 2⟩ + PAGE_SIZE ⟨2, 1, 1, 2⟩
        ≤ 2 * PAGE_SIZE ⟨2, 1, 1, 2⟩ :=
  allocator_never_returns_root ⟨2, 1, 1, 2⟩ ⟨by decide, by decide, by decide, by decide, by decide⟩
    (by decide) (by decide) _ (Reachable.write _ 0 5 (Reachable.init _)) 2 0 (by decide)
    (by decide)

end VM

namespace VM

/-- Address widths below 31.
For well-formed constants with `NUM_FRAMES > TABLES_DEPTH` and
`ADDRESS_PART_SIZE ≤ OFFSET_WIDTH`: when `get_physical_address`, run on a reachable memory and
an address in range, calls `find_frame` in iteration `k`, each of the frames on the walk so far
(the root for `j = 0` and the tables reached through the parts `0 .. j-1` for `j ≤ k`) exists
and differs from the frame returned, and each entry of the walk at a level `j < k` holds the
same non-zero word after the call as before it. -/
theorem no_collision_with_path (c : Config) (h : c.WF) (hF : c.TABLES_DEPTH < c.NUM_FRAMES)
    (hP : ADDRESS_PART_SIZE c ≤ c.OFFSET_WIDTH) (pm : PM) (hr : Reachable c pm)
    (vaddr k : Nat) (hva : vaddr < 2 ^ c.VIRTUAL_ADDRESS_WIDTH)
    (hcall : calls_find_frame c pm vaddr k) :
    (∀ j, j ≤ k → ∃ x,
      walk c (call_memory c pm vaddr k).ram ((address_parts c vaddr).take j) 0 = some x ∧
      x ≠ (find_frame c (call_memory c pm vaddr k) vaddr).1) ∧
    (∀ j, j < k → ∃ x y,
      walk c (call_memory c pm vaddr k).ram ((address_parts c vaddr).take j) 0 = some x ∧
      y ≠ 0 ∧
      PMread (call_memory c pm vaddr k).ram
        (u64 (x * PAGE_SIZE c + get_address_part c j vaddr)) = y ∧
      PMread (find_frame c (call_memory c pm vaddr k) vaddr).2.ram
        (u64 (x * PAGE_SIZE c + get_address_part c j vaddr)) = y) := by
  have hs := walkState_of_reachable c h hF hP pm hr vaddr k hva hcall
  have hsame := find_frame_walk_same c h hF hP _ vaddr k _ hs
  constructor
  · intro j hj
    obtain ⟨x, h1, -, h3⟩ := hsame j hj
    exact ⟨x, h1, h3⟩
  · intro j hj
    obtain ⟨x, h1, h2, -⟩ := hsame j (le_of_lt hj)
    obtain ⟨y, g1, g2, -⟩ := hsame (j + 1) hj
    have hjD : j < c.TABLES_DEPTH := lt_trans hj hcall.1
    rw [address_parts_take_succ c vaddr j hjD] at g1 g2
    obtain ⟨m1, a1, a2, a3⟩ := walk_snoc_some c _ _ _ _ _ g1
    obtain ⟨m2, b1, b2, -⟩ := walk_snoc_some c _ _ _ _ _ g2
    rw [h1] at a1
    rw [h2] at b1
    have e1 : x = m1 := Option.some.inj a1
    have e2 : x = m2 := Option.some.inj b1
    subst e1
    subst e2
    exact ⟨x, y, h1, a3, a2, b2⟩

/-- An instance of the theorem above: three frames of two words and two levels; right after the initialisation
the walk for address 0 calls `find_frame` at level 1, below the fresh table in frame 1. -/
theorem no_collision_with_path_witness :
    (∀ j, j ≤ 1 → ∃ x,
      walk ⟨2, 1, 2, 3⟩ (call_memory ⟨2, 1, 2, 3⟩
          ( VMinitialize ⟨2, 1, 2, 3⟩ ⟨fun _ => 0, fun _ => none, []⟩) 0 1).ram
        ((address_parts ⟨2, 1, 2, 3⟩ 0).take j) 0 = some x ∧
      x ≠ (find_frame ⟨2, 1, 2, 3⟩ (call_memory ⟨2, 1, 2, 3⟩
          ( VMinitialize ⟨2, 1, 2, 3⟩ ⟨fun _ => 0, fun _ => none, []⟩) 0 1) 0).1) ∧
    (∀ j, j < 1 → ∃ x y,
      walk ⟨2, 1, 2, 3⟩ (call_memory ⟨2, 1, 2, 3⟩
          ( VMinitialize ⟨2, 1, 2, 3⟩ ⟨fun _ => 0, fun _ => none, []⟩) 0 1).ram
        ((address_parts ⟨2, 1, 2, 3⟩ 0).take j) 0 = some x ∧
      y ≠ 0 ∧
      PMread (call_memory ⟨2, 1, 2, 3⟩
          ( VMinitialize ⟨2, 1, 2, 3⟩ ⟨fun _ => 0, fun _ => none, []⟩) 0 1).ram
        (u64 (x * PAGE_SIZE ⟨2, 1, 2, 3⟩ + get_address_part ⟨2, 1, 2, 3⟩ j 0)) = y ∧
      PMread (find_frame ⟨2, 1, 2, 3⟩ (call_memory ⟨2, 1, 2, 3⟩
          ( VMinitialize ⟨2, 1, 2, 3⟩ ⟨fun _ => 0, fun _ => none, []⟩) 0 1) 0).2.ram
        (u64 (x * PAGE_SIZE ⟨2, 1, 2, 3⟩ + get_address_part ⟨2, 1, 2, 3⟩ j 0)) = y) :=
  no_collision_with_path ⟨2, 1, 2, 3⟩ ⟨by decide, by decide, by decide, by decide, by decide⟩ (by decide)
    (by decide) _ (Reachable.init _) 0 1 (by decide) (by decide)

/-- Address widths below 31.
For well-formed constants with `NUM_FRAMES > TABLES_DEPTH` and
`ADDRESS_PART_SIZE ≤ OFFSET_WIDTH`: whenever a call of `find_frame` made by
`get_physical_address` on a reachable memory and an address in range calls
`PMevict(frame, page_num)`, the page number is below `NUM_PAGES`, it is the number that
`choose_frame_3` accumulated, and in the memory before the call (so before the parent entry is
reset) the walk from frame 0 along the parts of the address `page_num << OFFSET_WIDTH` ends in
that frame. -/
theorem evicted_page_is_real (c : Config) (h : c.WF) (hF : c.TABLES_DEPTH < c.NUM_FRAMES)
    (hP : ADDRESS_PART_SIZE c ≤ c.OFFSET_WIDTH) (pm : PM) (hr : Reachable c pm)
    (vaddr k : Nat) (hva : vaddr < 2 ^ c.VIRTUAL_ADDRESS_WIDTH)
    (hcall : calls_find_frame c pm vaddr k) (frame page_num : Nat)
    (hevict : PMcall.evict frame page_num
      ∈ find_frame_calls c (call_memory c pm vaddr k) vaddr) :
    page_num < NUM_PAGES c ∧
      page_num = (choose_frame_3 c (call_memory c pm vaddr k).ram vaddr 0 0 0 0).page_num ∧
      frame = (choose_frame_3 c (call_memory c pm vaddr k).ram vaddr 0 0 0 0).frame ∧
      walk c (call_memory c pm vaddr k).ram
        ((List.range c.TABLES_DEPTH).map
          (fun i => get_address_part c i (page_num <<< c.OFFSET_WIDTH))) 0 = some frame ∧
      page_from c 0 ((List.range c.TABLES_DEPTH).map
          (fun i => get_address_part c i (page_num <<< c.OFFSET_WIDTH))) = page_num := by
  have hs := walkState_of_reachable c h hF hP pm hr vaddr k hva hcall
  obtain ⟨hnot, hfull, e1, e2, -⟩ := find_frame_new_calls c _ vaddr frame page_num hevict
  obtain ⟨q, i, m, va2, -, -, -, hw, -, hva2, hparts, hpage⟩ :=
    find_frame_third_leaf c h hF hP _ vaddr k _ hs hnot hfull
  have hp : page_num = va2 >>> c.OFFSET_WIDTH := by rw [e2, hpage]
  have hlt : page_num < NUM_PAGES c := by rw [hp]; exact page_lt c h va2 hva2
  have hsame : address_parts c (page_num <<< c.OFFSET_WIDTH) = address_parts c va2 :=
    address_parts_page c h _ _ (by rw [shift_shift, hp])
  have hfold : page_from c 0 (address_parts c (page_num <<< c.OFFSET_WIDTH)) = page_num := by
    rw [page_from_address_parts c h _ (page_shift_lt c h page_num hlt), shift_shift]
  refine ⟨hlt, e2, e1, ?_, hfold⟩
  show walk c _ (address_parts c (page_num <<< c.OFFSET_WIDTH)) 0 = some frame
  rw [hsame, ← hparts, e1]
  exact hw

/-- An instance of the theorem above: two frames of two words; page 0 is resident in frame 1 and the walk for
address 2 evicts it. -/
theorem evicted_page_is_real_witness :
    0 < NUM_PAGES ⟨2, 1, 1, 2⟩ ∧
      0 = (choose_frame_3 ⟨2, 1, 1, 2⟩ (call_memory ⟨2, 1, 1, 2⟩
        (VMwrite ⟨2, 1, 1, 2⟩ ( VMinitialize ⟨2, 1, 1, 2⟩ ⟨fun _ => 0, fun _ => none, []⟩) 0 5).2
        2 0).ram 2 0 0 0 0).page_num ∧
      1 = (choose_frame_3 ⟨2, 1, 1, 2⟩ (call_memory ⟨2, 1, 1, 2⟩
        (VMwrite ⟨2, 1, 1, 2⟩ ( VMinitialize ⟨2, 1, 1, 2⟩ ⟨fun _ => 0, fun _ => none, []⟩) 0 5).2
        2 0).ram 2 0 0 0 0).frame ∧
      walk ⟨2, 1, 1, 2⟩ (call_memory ⟨2, 1, 1, 2⟩
        (VMwrite ⟨2, 1, 1, 2⟩ ( VMinitialize ⟨2, 1, 1, 2⟩ ⟨fun _ => 0, fun _ => none, []⟩) 0 5).2
        2 0).ram
        ((List.range 1).map (fun i => get_address_part ⟨2, 1, 1, 2⟩ i (0 <<< 1))) 0 = some 1 ∧
      page_from ⟨2, 1, 1, 2⟩ 0
        ((List.range 1).map (fun i => get_address_part ⟨2, 1, 1, 2⟩ i (0 <<< 1))) = 0 :=
  evicted_page_is_real ⟨2, 1, 1, 2⟩ ⟨by decide, by decide, by decide, by decide, by decide⟩ (by decide)
    (by decide) _ (Reachable.write _ 0 5 (Reachable.init _)) 2 0 (by decide) (by decide) 1 0
    (by decide)

/-- Address widths below 31.
For well-formed constants with `NUM_FRAMES > TABLES_DEPTH` and
`ADDRESS_PART_SIZE ≤ OFFSET_WIDTH`, in every reachable memory and for every address in range:
in the memory left by one `VMread(vaddr)` or `VMwrite(vaddr, v)`, a following `VMread(vaddr)`
returns 1 and hands back the memory unchanged (the words, the backing store and the record of
`PMwrite`, `PMevict` and `PMrestore` calls), and a second following `VMread(vaddr)` returns 1
with the same value as the first. -/
theorem reread_is_idempotent (c : Config) (h : c.WF) (hF : c.TABLES_DEPTH < c.NUM_FRAMES)
    (hP : ADDRESS_PART_SIZE c ≤ c.OFFSET_WIDTH) (pm : PM) (hr : Reachable c pm)
    (vaddr v value0 value1 value2 : Nat) (hva : vaddr < 2 ^ c.VIRTUAL_ADDRESS_WIDTH)
    (pm1 : PM) (hpm1 : pm1 = (VMread c pm vaddr value0).2.2 ∨ pm1 = (VMwrite c pm vaddr v).2) :
      (VMread c pm1 vaddr value1).1 = 1 ∧
      (VMread c pm1 vaddr value1).2.2 = pm1 ∧
      (VMread c (VMread c pm1 vaddr value1).2.2 vaddr value2).1 = 1 ∧
      (VMread c (VMread c pm1 vaddr value1).2.2 vaddr value2).2.1
        = (VMread c pm1 vaddr value1).2.1 ∧
      (VMread c (VMread c pm1 vaddr value1).2.2 vaddr value2).2.2 = pm1 := by
  have hval := validate_of_lt c h vaddr hva
  have hinv := treeInv_of_reachable c h hF hP pm hr
  have key : ∀ pm1 leaf, walk_address c pm1.ram vaddr = some leaf → ∀ value,
      VMread c pm1 vaddr value
        = (1, PMread pm1.ram (u64 (leaf * PAGE_SIZE c + get_offset c vaddr)), pm1) := by
    intro pm1 leaf hw value
    unfold VMread
    rw [if_neg hval, get_physical_address_mapped c pm1 vaddr leaf hw]
  have hleaf : ∃ leaf, walk_address c pm1.ram vaddr = some leaf := by
    rcases hpm1 with rfl | rfl
    · exact (VMread_spec c h hF hP pm vaddr value0 hinv).2 hva
    · obtain ⟨leaf, hl, -⟩ := (VMwrite_spec c h hF hP pm vaddr v hinv).2 hva
      exact ⟨leaf, hl⟩
  obtain ⟨leaf, hl⟩ := hleaf
  have e1 := key pm1 leaf hl value1
  have e2 := key pm1 leaf hl value2
  rw [e1]
  dsimp only
  rw [e2]
  exact ⟨rfl, rfl, rfl, rfl, rfl⟩

/-- An instance of the theorem above: two frames of two words, address 2 written right after the
initialisation. -/
theorem reread_is_idempotent_witness :
    (VMread ⟨2, 1, 1, 2⟩
        (VMwrite ⟨2, 1, 1, 2⟩ ( VMinitialize ⟨2, 1, 1, 2⟩ ⟨fun _ => 0, fun _ => none, []⟩) 2 5).2
        2 0).1 = 1 ∧
      (VMread ⟨2, 1, 1, 2⟩
        (VMwrite ⟨2, 1, 1, 2⟩ ( VMinitialize ⟨2, 1, 1, 2⟩ ⟨fun _ => 0, fun _ => none, []⟩) 2 5).2
        2 0).2.2
        = (VMwrite ⟨2, 1, 1, 2⟩ ( VMinitialize ⟨2, 1, 1, 2⟩ ⟨fun _ => 0, fun _ => none, []⟩) 2 5).2 ∧
      (VMread ⟨2, 1, 1, 2⟩ (VMread ⟨2, 1, 1, 2⟩
        (VMwrite ⟨2, 1, 1, 2⟩ ( VMinitialize ⟨2, 1, 1, 2⟩ ⟨fun _ => 0, fun _ => none, []⟩) 2 5).2
        2 0).2.2 2 0).1 = 1 ∧
      (VMread ⟨2, 1, 1, 2⟩ (VMread ⟨2, 1, 1, 2⟩
        (VMwrite ⟨2, 1, 1, 2⟩ ( VMinitialize ⟨2, 1, 1, 2⟩ ⟨fun _ => 0, fun _ => none, []⟩) 2 5).2
        2 0).2.2 2 0).2.1
        = (VMread ⟨2, 1, 1, 2⟩
          (VMwrite ⟨2, 1, 1, 2⟩ ( VMinitialize ⟨2, 1, 1, 2⟩ ⟨fun _ => 0, fun _ => none, []⟩) 2 5).2
          2 0).2.1 ∧
      (VMread ⟨2, 1, 1, 2⟩ (VMread ⟨2, 1, 1, 2⟩
        (VMwrite ⟨2, 1, 1, 2⟩ ( VMinitialize ⟨2, 1, 1, 2⟩ ⟨fun _ => 0, fun _ => none, []⟩) 2 5).2
        2 0).2.2 2 0).2.2
        = (VMwrite ⟨2, 1, 1, 2⟩ ( VMinitialize ⟨2, 1, 1, 2⟩ ⟨fun _ => 0, fun _ => none, []⟩) 2 5).2 :=
  reread_is_idempotent ⟨2, 1, 1, 2⟩ ⟨by decide, by decide, by decide, by decide, by decide⟩ (by decide)
    (by decide) _ (Reachable.init _) 2 5 0 0 0 (by decide) _ (Or.inr rfl)

end VM

namespace VM

/-! ## The shape of the tree and the frames in use -/

/-- Address widths below 31.
For well-formed constants with `NUM_FRAMES > TABLES_DEPTH` and
`ADDRESS_PART_SIZE ≤ OFFSET_WIDTH`, in every memory reachable from ` VMinitialize` by calls of
`VMread` and `VMwrite` the non-zero entries within `TABLES_DEPTH` levels of frame 0 form a tree:
no chain of entries leads to frame 0, a frame is held by one entry of the tree only, a frame lies
at one level only, two different resident pages are in different leaf frames and no frame is a
table and a leaf at once.  The memory after any further `VMread` or `VMwrite` has the same
property. -/
theorem tree_shape_invariant (c : Config) (h : c.WF) (hF : c.TABLES_DEPTH < c.NUM_FRAMES)
    (hP : ADDRESS_PART_SIZE c ≤ c.OFFSET_WIDTH) (pm : PM) (hr : Reachable c pm)
    (vaddr v value : Nat) :
    IsTree c pm.ram ∧ IsTree c (VMread c pm vaddr value).2.2.ram ∧
      IsTree c (VMwrite c pm vaddr v).2.ram :=
  ⟨isTree_of_shape c h hP _ (treeInv_of_reachable c h hF hP pm hr).shape,
    isTree_of_shape c h hP _
      (treeInv_of_reachable c h hF hP _ (Reachable.read pm vaddr value hr)).shape,
    isTree_of_shape c h hP _
      (treeInv_of_reachable c h hF hP _ (Reachable.write pm vaddr v hr)).shape⟩

/-- An instance of the theorem above: two frames of two words, after the initialisation and around an access of
address 2. -/
theorem tree_shape_invariant_witness :
    IsTree ⟨2, 1, 1, 2⟩ ( VMinitialize ⟨2, 1, 1, 2⟩ ⟨fun _ => 0, fun _ => none, []⟩).ram ∧
      IsTree ⟨2, 1, 1, 2⟩
        (VMread ⟨2, 1, 1, 2⟩ ( VMinitialize ⟨2, 1, 1, 2⟩ ⟨fun _ => 0, fun _ => none, []⟩)
          2 0).2.2.ram ∧
      IsTree ⟨2, 1, 1, 2⟩
        (VMwrite ⟨2, 1, 1, 2⟩ ( VMinitialize ⟨2, 1, 1, 2⟩ ⟨fun _ => 0, fun _ => none, []⟩)
          2 5).2.ram :=
  tree_shape_invariant ⟨2, 1, 1, 2⟩ ⟨by decide, by decide, by decide, by decide, by decide⟩
    (by decide) (by decide) _ (Reachable.init _) 2 5 0

/-- Address widths below 31 in part (2).
(1) On any memory `ram0`, `choose_frame_2(0, 0)` is the greatest of 0 and the frame
numbers held by the non-zero entries within `TABLES_DEPTH` levels of frame 0: it bounds every
frame at the end of a chain of at most `TABLES_DEPTH` non-zero entries, and it is itself at the
end of such a chain (the empty chain ends at frame 0).  (2) For well-formed constants with
`NUM_FRAMES > TABLES_DEPTH` and `ADDRESS_PART_SIZE ≤ OFFSET_WIDTH`, in a memory `pm` reached
from ` VMinitialize` by calls of `VMread` and `VMwrite`, and in the memory in which an iteration
`k` of `get_physical_address` calls `find_frame`, the frames of the tree are exactly the numbers
`0 .. choose_frame_2(0, 0)`; and when that call of `find_frame` returns `choose_frame_2(0, 0) + 1`,
this frame is not in the tree, every frame that is not in the tree is at least as large, and the
frame is none of the frames `returned` by the earlier calls of `find_frame` since the
initialisation, in earlier accesses or earlier in this walk. -/
theorem second_priority_lowest_unused (c : Config) (h : c.WF)
    (hF : c.TABLES_DEPTH < c.NUM_FRAMES) (hP : ADDRESS_PART_SIZE c ≤ c.OFFSET_WIDTH)
    (ram0 : Nat → Nat) (pm : PM) (returned : List Nat) (hist : History c pm returned)
    (vaddr k : Nat) (hva : vaddr < 2 ^ c.VIRTUAL_ADDRESS_WIDTH)
    (hcall : calls_find_frame c pm vaddr k)
    (hret : (find_frame c (call_memory c pm vaddr k) vaddr).1
      = choose_frame_2 c (call_memory c pm vaddr k).ram 0 0 + 1) :
    ((∀ path f, ValidPath c path → walk c ram0 path 0 = some f → f ≤ choose_frame_2 c ram0 0 0) ∧
      (∃ path, ValidPath c path ∧ walk c ram0 path 0 = some (choose_frame_2 c ram0 0 0))) ∧
    (∀ f, InTree c pm.ram f ↔ f ≤ choose_frame_2 c pm.ram 0 0) ∧
    (∀ f, InTree c (call_memory c pm vaddr k).ram f
      ↔ f ≤ choose_frame_2 c (call_memory c pm vaddr k).ram 0 0) ∧
    ¬ InTree c (call_memory c pm vaddr k).ram (find_frame c (call_memory c pm vaddr k) vaddr).1 ∧
    (∀ x, ¬ InTree c (call_memory c pm vaddr k).ram x →
      (find_frame c (call_memory c pm vaddr k) vaddr).1 ≤ x) ∧
    (find_frame c (call_memory c pm vaddr k) vaddr).1 ∉ returned ∧
    (find_frame c (call_memory c pm vaddr k) vaddr).1 ∉ returned_frames c pm vaddr k := by
  have hr := reachable_of_history c pm returned hist
  have hinv := treeInv_of_reachable c h hF hP pm hr
  have hs := walkState_of_reachable c h hF hP pm hr vaddr k hva hcall
  have hiff := inTree_iff_le c _ hs.inv
  have hnot : ¬ InTree c (call_memory c pm vaddr k).ram
      (find_frame c (call_memory c pm vaddr k) vaddr).1 := by
    rw [hiff, hret]
    omega
  refine ⟨⟨fun path f hv hw => choose_frame_2_ge c ram0 path f hv.1 hv.2 hw, ?_⟩,
    inTree_iff_le c _ hinv, hiff, hnot, ?_, ?_, ?_⟩
  · obtain ⟨path, h1, h2, h3⟩ := choose_frame_2_mem c ram0
    exact ⟨path, ⟨h1, h2⟩, h3⟩
  · intro x hx
    rw [hiff] at hx
    rw [hret]
    omega
  · intro hmem
    exact hnot (walk_steps_inTree c h hF hP pm vaddr hinv hva k (le_of_lt hcall.1) _
      (Or.inl (history_inTree c h hF hP pm returned hist _ hmem)))
  · intro hmem
    exact hnot (walk_steps_inTree c h hF hP pm vaddr hinv hva k (le_of_lt hcall.1) _
      (Or.inr hmem))

/-- An instance of the theorem above: three frames of two words and two levels; the first access after the
initialisation asks for a frame at level 0 and gets frame 1, the frame after the root. -/
theorem second_priority_lowest_unused_witness :
    ((∀ path f, ValidPath ⟨2, 1, 2, 3⟩ path → walk ⟨2, 1, 2, 3⟩ (fun _ => 0) path 0 = some f →
        f ≤ choose_frame_2 ⟨2, 1, 2, 3⟩ (fun _ => 0) 0 0) ∧
      (∃ path, ValidPath ⟨2, 1, 2, 3⟩ path ∧ walk ⟨2, 1, 2, 3⟩ (fun _ => 0) path 0
        = some (choose_frame_2 ⟨2, 1, 2, 3⟩ (fun _ => 0) 0 0))) ∧
    (∀ f, InTree ⟨2, 1, 2, 3⟩ ( VMinitialize ⟨2, 1, 2, 3⟩ ⟨fun _ => 0, fun _ => none, []⟩).ram f
      ↔ f ≤ choose_frame_2 ⟨2, 1, 2, 3⟩
        ( VMinitialize ⟨2, 1, 2, 3⟩ ⟨fun _ => 0, fun _ => none, []⟩).ram 0 0) ∧
    (∀ f, InTree ⟨2, 1, 2, 3⟩ (call_memory ⟨2, 1, 2, 3⟩
        ( VMinitialize ⟨2, 1, 2, 3⟩ ⟨fun _ => 0, fun _ => none, []⟩) 2 0).ram f
      ↔ f ≤ choose_frame_2 ⟨2, 1, 2, 3⟩ (call_memory ⟨2, 1, 2, 3⟩
        ( VMinitialize ⟨2, 1, 2, 3⟩ ⟨fun _ => 0, fun _ => none, []⟩) 2 0).ram 0 0) ∧
    ¬ InTree ⟨2, 1, 2, 3⟩ (call_memory ⟨2, 1, 2, 3⟩
        ( VMinitialize ⟨2, 1, 2, 3⟩ ⟨fun _ => 0, fun _ => none, []⟩) 2 0).ram
      (find_frame ⟨2, 1, 2, 3⟩ (call_memory ⟨2, 1, 2, 3⟩
        ( VMinitialize ⟨2, 1, 2, 3⟩ ⟨fun _ => 0, fun _ => none, []⟩) 2 0) 2).1 ∧
    (∀ x, ¬ InTree ⟨2, 1, 2, 3⟩ (call_memory ⟨2, 1, 2, 3⟩
        ( VMinitialize ⟨2, 1, 2, 3⟩ ⟨fun _ => 0, fun _ => none, []⟩) 2 0).ram x →
      (find_frame ⟨2, 1, 2, 3⟩ (call_memory ⟨2, 1, 2, 3⟩
        ( VMinitialize ⟨2, 1, 2, 3⟩ ⟨fun _ => 0, fun _ => none, []⟩) 2 0) 2).1 ≤ x) ∧
    (find_frame ⟨2, 1, 2, 3⟩ (call_memory ⟨2, 1, 2, 3⟩
        ( VMinitialize ⟨2, 1, 2, 3⟩ ⟨fun _ => 0, fun _ => none, []⟩) 2 0) 2).1 ∉ ([] : List Nat) ∧
    (find_frame ⟨2, 1, 2, 3⟩ (call_memory ⟨2, 1, 2, 3⟩
        ( VMinitialize ⟨2, 1, 2, 3⟩ ⟨fun _ => 0, fun _ => none, []⟩) 2 0) 2).1
      ∉ returned_frames ⟨2, 1, 2, 3⟩
        ( VMinitialize ⟨2, 1, 2, 3⟩ ⟨fun _ => 0, fun _ => none, []⟩) 2 0 :=
  second_priority_lowest_unused ⟨2, 1, 2, 3⟩
    ⟨by decide, by decide, by decide, by decide, by decide⟩ (by decide) (by decide)
    (fun _ => 0) _ [] (History.init _) 2 0 (by decide) (by decide) (by decide)

end VM

namespace VM

/-! ## The order of the three priorities -/

/-- C14, as amended.  For every memory `pm` and every `vaddr`, `find_frame(vaddr)` does the
following.  (1) If `choose_frame_1` reports an empty table, it returns the word stored at the
reported parent address, its only call is `PMwrite` of 0 to that address, and it calls
`PMevict` zero times.  (2) Otherwise, if `choose_frame_2(0, 0) + 1`, computed on `uint64_t` as
in the comparison `NUM_FRAMES > max_frame + 1` of the source, is below `NUM_FRAMES`, it returns
that value, makes no call and leaves the memory as it is; the value is the plain sum, and the
comparison the plain one, whenever the sum is below `2^64`, and it is 0 when the sum wraps.
(3) Otherwise it calls `PMwrite` of 0 to the parent entry of the leaf chosen by
`choose_frame_3` and then `PMevict` once, with the frame and the page number of that leaf, and
returns that frame; the write changes the parent entry only; and if the parent entry is not
one of the `PAGE_SIZE` words of the evicted frame, these words are at the moment of the
`PMevict` call what they were before `find_frame`, and they are what is saved under the page
number. -/
theorem eviction_last_resort (c : Config) (pm : PM) (vaddr : Nat) :
    ((choose_frame_1 c pm.ram vaddr 0 0 0).is_found ≠ 0 →
      (find_frame c pm vaddr).1 = PMread pm.ram (choose_frame_1 c pm.ram vaddr 0 0 0).parent ∧
      (find_frame c pm vaddr).2 = PMwrite pm (choose_frame_1 c pm.ram vaddr 0 0 0).parent 0 ∧
      find_frame_calls c pm vaddr
        = [PMcall.write (choose_frame_1 c pm.ram vaddr 0 0 0).parent 0]) ∧
    ((choose_frame_1 c pm.ram vaddr 0 0 0).is_found = 0 →
      c.NUM_FRAMES > u64 (choose_frame_2 c pm.ram 0 0 + 1) →
      (find_frame c pm vaddr).1 = u64 (choose_frame_2 c pm.ram 0 0 + 1) ∧
      (find_frame c pm vaddr).2 = pm ∧ find_frame_calls c pm vaddr = []) ∧
    (choose_frame_2 c pm.ram 0 0 + 1 < 2 ^ 64 →
      u64 (choose_frame_2 c pm.ram 0 0 + 1) = choose_frame_2 c pm.ram 0 0 + 1 ∧
      (c.NUM_FRAMES > u64 (choose_frame_2 c pm.ram 0 0 + 1)
        ↔ choose_frame_2 c pm.ram 0 0 + 1 < c.NUM_FRAMES)) ∧
    (choose_frame_2 c pm.ram 0 0 + 1 = 2 ^ 64 → u64 (choose_frame_2 c pm.ram 0 0 + 1) = 0) ∧
    ((choose_frame_1 c pm.ram vaddr 0 0 0).is_found = 0 →
      ¬ c.NUM_FRAMES > u64 (choose_frame_2 c pm.ram 0 0 + 1) →
      (find_frame c pm vaddr).1 = (choose_frame_3 c pm.ram vaddr 0 0 0 0).frame ∧
      find_frame_calls c pm vaddr
        = [PMcall.write (choose_frame_3 c pm.ram vaddr 0 0 0 0).parent 0,
           PMcall.evict (choose_frame_3 c pm.ram vaddr 0 0 0 0).frame
             (choose_frame_3 c pm.ram vaddr 0 0 0 0).page_num] ∧
      (find_frame c pm vaddr).2 = PMevict c (memory_at_evict c pm vaddr)
        (choose_frame_3 c pm.ram vaddr 0 0 0 0).frame
        (choose_frame_3 c pm.ram vaddr 0 0 0 0).page_num ∧
      (∀ a, a ≠ (choose_frame_3 c pm.ram vaddr 0 0 0 0).parent →
        (memory_at_evict c pm vaddr).ram a = pm.ram a) ∧
      ((∀ j, j < PAGE_SIZE c → (choose_frame_3 c pm.ram vaddr 0 0 0 0).parent
          ≠ (choose_frame_3 c pm.ram vaddr 0 0 0 0).frame * PAGE_SIZE c + j) →
        (∀ j, j < PAGE_SIZE c →
          (memory_at_evict c pm vaddr).ram
              ((choose_frame_3 c pm.ram vaddr 0 0 0 0).frame * PAGE_SIZE c + j)
            = pm.ram ((choose_frame_3 c pm.ram vaddr 0 0 0 0).frame * PAGE_SIZE c + j)) ∧
        (find_frame c pm vaddr).2.swap (choose_frame_3 c pm.ram vaddr 0 0 0 0).page_num
          = some ((List.range (PAGE_SIZE c)).map (fun j =>
              pm.ram ((choose_frame_3 c pm.ram vaddr 0 0 0 0).frame * PAGE_SIZE c + j))))) := by
  refine ⟨?_, ?_, ?_, ?_, ?_⟩
  · intro hfound
    have e := find_frame_first_eq c pm vaddr hfound
    exact ⟨congrArg Prod.fst e, congrArg Prod.snd e, find_frame_calls_first c pm vaddr hfound⟩
  · intro hnot hgt
    have e := find_frame_second_eq c pm vaddr hnot hgt
    exact ⟨congrArg Prod.fst e, congrArg Prod.snd e, find_frame_calls_second c pm vaddr hnot hgt⟩
  · intro hlt
    rw [u64_of_lt hlt]
    exact ⟨rfl, Iff.rfl⟩
  · intro he
    rw [he]
    rfl
  · intro hnot hfull
    have e := find_frame_third_eq c pm vaddr hnot hfull
    refine ⟨congrArg Prod.fst e, find_frame_calls_third c pm vaddr hnot hfull,
      congrArg Prod.snd e, ?_, ?_⟩
    · intro a ha
      show (if a = _ then 0 else pm.ram a) = pm.ram a
      rw [if_neg ha]
    · intro hout
      have hsame : ∀ j, j < PAGE_SIZE c →
          (memory_at_evict c pm vaddr).ram
              ((choose_frame_3 c pm.ram vaddr 0 0 0 0).frame * PAGE_SIZE c + j)
            = pm.ram ((choose_frame_3 c pm.ram vaddr 0 0 0 0).frame * PAGE_SIZE c + j) := by
        intro j hj
        show (if _ = _ then 0 else pm.ram _) = pm.ram _
        rw [if_neg (fun e2 => hout j hj e2.symm)]
      refine ⟨hsame, ?_⟩
      rw [congrArg Prod.snd e]
      show (if _ = _ then some _ else _) = _
      rw [if_pos rfl]
      congr 1
      apply List.map_congr_left
      intro j hj
      exact hsame j (List.mem_range.mp hj)

/-- Witness of C14: three frames of two words and two levels, on three memories.  In the
first, entry 0 of the root refers to frame 1, an empty table off the path of address 4:
`find_frame` takes it by the first priority, with the one call `PMwrite(0, 0)`.  In the second
only the root exists: `find_frame` returns frame 1 by the second priority, with no call.  In the
third the root refers to the table in frame 1 and that table to the leaf in frame 2, which
holds page 0 with the words 7 and 9: for address 4 `find_frame` resets the parent entry at the
physical address 2, calls `PMevict(2, 0)` and returns frame 2, and the words saved are 7, 9. -/
theorem eviction_last_resort_witness :
    ((choose_frame_1 ⟨3, 1, 2, 3⟩ (fun a => if a = 0 then 1 else 0) 4 0 0 0).is_found ≠ 0 ∧
      (find_frame ⟨3, 1, 2, 3⟩ ⟨fun a => if a = 0 then 1 else 0, fun _ => none, []⟩ 4).1 = 1 ∧
      find_frame_calls ⟨3, 1, 2, 3⟩ ⟨fun a => if a = 0 then 1 else 0, fun _ => none, []⟩ 4
        = [PMcall.write 0 0]) ∧
    ((choose_frame_1 ⟨3, 1, 2, 3⟩ (fun _ => 0) 0 0 0 0).is_found = 0 ∧
      3 > u64 (choose_frame_2 ⟨3, 1, 2, 3⟩ (fun _ => 0) 0 0 + 1) ∧
      (find_frame ⟨3, 1, 2, 3⟩ ⟨fun _ => 0, fun _ => none, []⟩ 0).1 = 1 ∧
      find_frame_calls ⟨3, 1, 2, 3⟩ ⟨fun _ => 0, fun _ => none, []⟩ 0 = []) ∧
    ((choose_frame_1 ⟨3, 1, 2, 3⟩
        (fun a => if a = 0 then 1 else if a = 2 then 2 else if a = 4 then 7 else
          if a = 5 then 9 else 0) 4 0 0 0).is_found = 0 ∧
      ¬ 3 > u64 (choose_frame_2 ⟨3, 1, 2, 3⟩
        (fun a => if a = 0 then 1 else if a = 2 then 2 else if a = 4 then 7 else
          if a = 5 then 9 else 0) 0 0 + 1) ∧
      (find_frame ⟨3, 1, 2, 3⟩
        ⟨fun a => if a = 0 then 1 else if a = 2 then 2 else if a = 4 then 7 else
          if a = 5 then 9 else 0, fun _ => none, []⟩ 4).1 = 2 ∧
      find_frame_calls ⟨3, 1, 2, 3⟩
        ⟨fun a => if a = 0 then 1 else if a = 2 then 2 else if a = 4 then 7 else
          if a = 5 then 9 else 0, fun _ => none, []⟩ 4
        = [PMcall.write 2 0, PMcall.evict 2 0] ∧
      (find_frame ⟨3, 1, 2, 3⟩
        ⟨fun a => if a = 0 then 1 else if a = 2 then 2 else if a = 4 then 7 else
          if a = 5 then 9 else 0, fun _ => none, []⟩ 4).2.swap 0 = some [7, 9]) :=
  ⟨⟨by decide,
      ((eviction_last_resort ⟨3, 1, 2, 3⟩
        ⟨fun a => if a = 0 then 1 else 0, fun _ => none, []⟩ 4).1 (by decide)).1,
      ((eviction_last_resort ⟨3, 1, 2, 3⟩
        ⟨fun a => if a = 0 then 1 else 0, fun _ => none, []⟩ 4).1 (by decide)).2.2⟩,
    ⟨by decide, by decide,
      ((eviction_last_resort ⟨3, 1, 2, 3⟩
        ⟨fun _ => 0, fun _ => none, []⟩ 0).2.1 (by decide) (by decide)).1,
      ((eviction_last_resort ⟨3, 1, 2, 3⟩
        ⟨fun _ => 0, fun _ => none, []⟩ 0).2.1 (by decide) (by decide)).2.2⟩,
    ⟨by decide, by decide,
      ((eviction_last_resort ⟨3, 1, 2, 3⟩
        ⟨fun a => if a = 0 then 1 else if a = 2 then 2 else if a = 4 then 7 else
          if a = 5 then 9 else 0, fun _ => none, []⟩ 4).2.2.2.2 (by decide) (by decide)).1,
      ((eviction_last_resort ⟨3, 1, 2, 3⟩
        ⟨fun a => if a = 0 then 1 else if a = 2 then 2 else if a = 4 then 7 else
          if a = 5 then 9 else 0, fun _ => none, []⟩ 4).2.2.2.2 (by decide) (by decide)).2.1,
      (((eviction_last_resort ⟨3, 1, 2, 3⟩
        ⟨fun a => if a = 0 then 1 else if a = 2 then 2 else if a = 4 then 7 else
          if a = 5 then 9 else 0, fun _ => none, []⟩ 4).2.2.2.2 (by decide)
          (by decide)).2.2.2.2 (by decide)).2⟩⟩

/-- Counterexample to C14 as stated, in two parts.  First: three frames of two words, two
levels, and a memory in which entry 0 of the root refers to frame 1, entry 1 of the root refers
to frame 2 and entry 0 of frame 2 refers to frame 2 itself.  For address 0 no empty table
qualifies and frame 2 is the highest frame, so `find_frame` evicts; the leaf it chooses is
frame 2, whose parent entry is word 0 of frame 2.  The entry is set to 0 before `PMevict` is
called: at that moment word 0 of the evicted frame is 0 and no longer 2, and the words saved
are 0, 0.  Second: two frames of two words, one level, and a memory in which entry 0 of the
root holds `2^64 - 1`.  No empty table qualifies and `choose_frame_2(0, 0) + 1` is `2^64`, not
below `NUM_FRAMES`, so the claim has `find_frame` evict; but the sum is computed on `uint64_t`
and wraps to 0, the comparison of the source holds, and `find_frame` returns 0 with no call at
all. -/
theorem eviction_last_resort_counterexample :
    ((choose_frame_1 ⟨3, 1, 2, 3⟩
      (fun a => if a = 0 then 1 else if a = 1 then 2 else if a = 4 then 2 else 0)
      0 0 0 0).is_found = 0 ∧
    ¬ choose_frame_2 ⟨3, 1, 2, 3⟩
      (fun a => if a = 0 then 1 else if a = 1 then 2 else if a = 4 then 2 else 0) 0 0 + 1 < 3 ∧
    find_frame_calls ⟨3, 1, 2, 3⟩
      ⟨fun a => if a = 0 then 1 else if a = 1 then 2 else if a = 4 then 2 else 0,
        fun _ => none, []⟩ 0 = [PMcall.write 4 0, PMcall.evict 2 2] ∧
    (find_frame ⟨3, 1, 2, 3⟩
      ⟨fun a => if a = 0 then 1 else if a = 1 then 2 else if a = 4 then 2 else 0,
        fun _ => none, []⟩ 0).1 = 2 ∧
    ¬ (∀ j, j < PAGE_SIZE ⟨3, 1, 2, 3⟩ →
      (memory_at_evict ⟨3, 1, 2, 3⟩
        ⟨fun a => if a = 0 then 1 else if a = 1 then 2 else if a = 4 then 2 else 0,
          fun _ => none, []⟩ 0).ram (2 * PAGE_SIZE ⟨3, 1, 2, 3⟩ + j)
      = (fun a => if a = 0 then 1 else if a = 1 then 2 else if a = 4 then 2 else 0)
          (2 * PAGE_SIZE ⟨3, 1, 2, 3⟩ + j)) ∧
    (find_frame ⟨3, 1, 2, 3⟩
      ⟨fun a => if a = 0 then 1 else if a = 1 then 2 else if a = 4 then 2 else 0,
        fun _ => none, []⟩ 0).2.swap 2 = some [0, 0]) ∧
    ((choose_frame_1 ⟨2, 1, 1, 2⟩ (fun a => if a = 0 then 2 ^ 64 - 1 else 0)
      0 0 0 0).is_found = 0 ∧
    choose_frame_2 ⟨2, 1, 1, 2⟩ (fun a => if a = 0 then 2 ^ 64 - 1 else 0) 0 0 = 2 ^ 64 - 1 ∧
    ¬ choose_frame_2 ⟨2, 1, 1, 2⟩ (fun a => if a = 0 then 2 ^ 64 - 1 else 0) 0 0 + 1 < 2 ∧
    find_frame_calls ⟨2, 1, 1, 2⟩
      ⟨fun a => if a = 0 then 2 ^ 64 - 1 else 0, fun _ => none, []⟩ 0 = [] ∧
    (find_frame ⟨2, 1, 1, 2⟩
      ⟨fun a => if a = 0 then 2 ^ 64 - 1 else 0, fun _ => none, []⟩ 0).1 = 0) := by
  refine ⟨⟨by decide, by decide, by decide, by decide, ?_, by decide⟩,
    ⟨by decide, by decide, by decide, by decide, by decide⟩⟩
  intro hall
  exact absurd (hall 0 (by decide)) (by decide)

end VM

namespace VM

/-! ## The first priority -/

/-- C15. In every memory in which each frame is referred to by at most one entry of the tree,
and for every `vaddr`: `choose_frame_1(vaddr, 0, 0, 0)` returns `is_found` 0 or 1, and 1 exactly
when some frame at the end of a chain of 1 to `TABLES_DEPTH - 1` non-zero entries from the root
has all its `PAGE_SIZE` entries 0 and `verify(vaddr, frame) = 1`; `verify` returns 0 or 1, and 0
exactly when the frame is 0 or is one of the entries read along the path of `vaddr` before the
first entry that is 0.  When a table is found, `.parent` is the physical address of the entry
that refers to a table of this kind, every other chain to such a table is visited later by a
depth-first traversal by ascending index, and the frame found is not a frame of level
`TABLES_DEPTH`: leaves are no candidates, whatever they contain. -/
theorem first_priority_sound_complete (c : Config) (ram : Nat → Nat)
    (htree : SingleReference c ram) (vaddr : Nat) :
    ((choose_frame_1 c ram vaddr 0 0 0).is_found = 0 ∨
      (choose_frame_1 c ram vaddr 0 0 0).is_found = 1) ∧
    ((choose_frame_1 c ram vaddr 0 0 0).is_found = 1 ↔
      ∃ path g, 1 ≤ path.length ∧ path.length < c.TABLES_DEPTH ∧
        (∀ i ∈ path, i < PAGE_SIZE c) ∧ walk c ram path 0 = some g ∧
        (∀ i, i < PAGE_SIZE c → entry c ram g i = 0) ∧ verify c ram vaddr g = 1) ∧
    (∀ g, (verify c ram vaddr g = 0 ∨ verify c ram vaddr g = 1) ∧
      (verify c ram vaddr g = 0 ↔ g = 0 ∨ ∃ m, m < c.TABLES_DEPTH ∧
        walk c ram ((address_parts c vaddr).take (m + 1)) 0 = some g)) ∧
    ((choose_frame_1 c ram vaddr 0 0 0).is_found = 1 →
      ∃ q i m, 1 ≤ (q ++ [i]).length ∧ (q ++ [i]).length < c.TABLES_DEPTH ∧
        (∀ j ∈ q ++ [i], j < PAGE_SIZE c) ∧ walk c ram q 0 = some m ∧
        walk c ram (q ++ [i]) 0 = some (entry c ram m i) ∧
        (∀ j, j < PAGE_SIZE c → entry c ram (entry c ram m i) j = 0) ∧
        verify c ram vaddr (entry c ram m i) = 1 ∧
        (choose_frame_1 c ram vaddr 0 0 0).parent = u64 (m * PAGE_SIZE c + i) ∧
        (∀ p2 g2, 1 ≤ p2.length → p2.length < c.TABLES_DEPTH → (∀ j ∈ p2, j < PAGE_SIZE c) →
          walk c ram p2 0 = some g2 → (∀ j, j < PAGE_SIZE c → entry c ram g2 j = 0) →
          verify c ram vaddr g2 = 1 → p2 = q ++ [i] ∨ dfs_before (q ++ [i]) p2) ∧
        (∀ p3, p3.length = c.TABLES_DEPTH → (∀ j ∈ p3, j < PAGE_SIZE c) →
          walk c ram p3 0 ≠ some (entry c ram m i))) := by
  have hzo : (choose_frame_1 c ram vaddr 0 0 0).is_found = 0 ∨
      (choose_frame_1 c ram vaddr 0 0 0).is_found = 1 :=
    choose_frame_1_fuel_zero_or_one c ram vaddr _ 0 0 0
  have hv0 : verify c ram vaddr 0 = 0 := by unfold verify; rw [if_pos rfl]
  have hver : ∀ g, verify c ram vaddr g = 1 ↔ verify c ram vaddr g ≠ 0 := by
    intro g
    rcases verify_zero_or_one c ram vaddr g with e | e <;> rw [e] <;> simp
  have hfirst : (choose_frame_1 c ram vaddr 0 0 0).is_found = 1 →
      ∃ q i m, 1 ≤ (q ++ [i]).length ∧ (q ++ [i]).length < c.TABLES_DEPTH ∧
        (∀ j ∈ q ++ [i], j < PAGE_SIZE c) ∧ walk c ram q 0 = some m ∧
        walk c ram (q ++ [i]) 0 = some (entry c ram m i) ∧
        (∀ j, j < PAGE_SIZE c → entry c ram (entry c ram m i) j = 0) ∧
        verify c ram vaddr (entry c ram m i) = 1 ∧
        (choose_frame_1 c ram vaddr 0 0 0).parent = u64 (m * PAGE_SIZE c + i) ∧
        (∀ p2 g2, 1 ≤ p2.length → p2.length < c.TABLES_DEPTH → (∀ j ∈ p2, j < PAGE_SIZE c) →
          walk c ram p2 0 = some g2 → (∀ j, j < PAGE_SIZE c → entry c ram g2 j = 0) →
          verify c ram vaddr g2 = 1 → p2 = q ++ [i] ∨ dfs_before (q ++ [i]) p2) := by
    intro hfound
    obtain ⟨path, t2, a1, a2, a3, a4, a5, a6, a7⟩ :=
      choose_frame_1_fuel_first c ram vaddr c.TABLES_DEPTH c.TABLES_DEPTH 0 0 0 0 (by omega)
        (by omega) (by
          show (choose_frame_1 c ram vaddr 0 0 0).is_found ≠ 0
          rw [hfound]; exact one_ne_zero)
    obtain ⟨b1, -, b3, b4⟩ := descend_some c ram path (0, 0, 0) t2 a3
    have hne : path ≠ [] := by
      intro e
      rw [b3 e] at a6
      exact a6 hv0
    obtain ⟨q, i, e⟩ := exists_snoc path hne
    subst e
    obtain ⟨m, c1, c2, c3⟩ := b4 q i rfl
    have hlen : (q ++ [i]).length < c.TABLES_DEPTH := by
      rcases a1 with a1 | a1
      · exact absurd a1 hne
      · omega
    rw [← c3] at b1 a5 a6
    refine ⟨q, i, m, by simp, hlen, a2, c1, b1, a5, (hver _).mpr a6, ?_, ?_⟩
    · exact a4.symm.trans c2
    · intro p2 g2 h1 h2 h3 h4 h5 h6
      exact a7 p2 g2 (Or.inr (by omega)) h3 h4 h5 ((hver g2).mp h6)
  refine ⟨hzo, ?_, ?_, ?_⟩
  · constructor
    · intro hfound
      obtain ⟨q, i, m, h1, h2, h3, -, h5, h6, h7, -⟩ := hfirst hfound
      exact ⟨q ++ [i], _, h1, h2, h3, h5, h6, h7⟩
    · rintro ⟨path, g, h1, h2, h3, h4, h5, h6⟩
      rcases hzo with h0 | h0
      · have := choose_frame_1_fuel_complete c ram vaddr path c.TABLES_DEPTH 0 0 0 g (by omega)
          h0 (Or.inr (by omega)) h3 h4 h5
        rw [this] at h6
        exact absurd h6 (by simp)
      · exact h0
  · intro g
    refine ⟨verify_zero_or_one c ram vaddr g, ?_⟩
    have := verify_ne_zero_iff c ram vaddr g
    constructor
    · intro h0
      by_contra hcon
      push_neg at hcon
      exact (this.mpr ⟨hcon.1, hcon.2⟩) h0
    · intro hor
      by_contra hcon
      obtain ⟨g0, hall⟩ := this.mp hcon
      rcases hor with e | ⟨m, hm, hw⟩
      · exact g0 e
      · exact hall m hm hw
  · intro hfound
    obtain ⟨q, i, m, h1, h2, h3, h4, h5, h6, h7, h8, h9⟩ := hfirst hfound
    refine ⟨q, i, m, h1, h2, h3, h4, h5, h6, h7, h8, h9, ?_⟩
    intro p3 hl3 hidx3 hw3
    have := singleReference_inj c ram htree _ p3 (q ++ [i]) _ (le_refl _)
      ⟨by omega, hidx3⟩ ⟨by omega, h3⟩ hw3 h5
    rw [this] at hl3
    omega

/-- Witness of C15: three frames of two words and two levels.  Page 0 is resident and the walk
for address 4 has evicted it to get a table, so that at the second level of that walk the table
that led to page 0 is empty and off the path. -/
theorem first_priority_sound_complete_witness :
    ((choose_frame_1 ⟨3, 1, 2, 3⟩ (call_memory ⟨3, 1, 2, 3⟩ (VMwrite ⟨3, 1, 2, 3⟩ ( VMinitialize
        ⟨3, 1, 2, 3⟩ ⟨fun _ => 0, fun _ => none, []⟩) 0 5).2 4 1).ram 4 0 0 0).is_found = 0 ∨
      (choose_frame_1 ⟨3, 1, 2, 3⟩ (call_memory ⟨3, 1, 2, 3⟩ (VMwrite ⟨3, 1, 2, 3⟩ ( VMinitialize
          ⟨3, 1, 2, 3⟩ ⟨fun _ => 0, fun _ => none, []⟩) 0 5).2 4 1).ram 4 0 0 0).is_found = 1) ∧
    ((choose_frame_1 ⟨3, 1, 2, 3⟩ (call_memory ⟨3, 1, 2, 3⟩ (VMwrite ⟨3, 1, 2, 3⟩ ( VMinitialize
        ⟨3, 1, 2, 3⟩ ⟨fun _ => 0, fun _ => none, []⟩) 0 5).2 4 1).ram 4 0 0 0).is_found = 1 ↔
      ∃ path g, 1 ≤ path.length ∧ path.length < (⟨3, 1, 2, 3⟩ : Config).TABLES_DEPTH ∧
        (∀ i ∈ path, i < PAGE_SIZE ⟨3, 1, 2, 3⟩) ∧ walk ⟨3, 1, 2, 3⟩ (call_memory ⟨3, 1, 2, 3⟩
            (VMwrite ⟨3, 1, 2, 3⟩ ( VMinitialize ⟨3, 1, 2, 3⟩ ⟨fun _ => 0, fun _ => none, []⟩) 0
            5).2 4 1).ram path 0 = some g ∧
        (∀ i, i < PAGE_SIZE ⟨3, 1, 2, 3⟩ → entry ⟨3, 1, 2, 3⟩ (call_memory ⟨3, 1, 2, 3⟩ (VMwrite
            ⟨3, 1, 2, 3⟩ ( VMinitialize ⟨3, 1, 2, 3⟩ ⟨fun _ => 0, fun _ => none, []⟩) 0 5).2 4
            1).ram g i = 0) ∧ verify ⟨3, 1, 2, 3⟩ (call_memory ⟨3, 1, 2, 3⟩ (VMwrite ⟨3, 1, 2, 3⟩
            ( VMinitialize ⟨3, 1, 2, 3⟩ ⟨fun _ => 0, fun _ => none, []⟩) 0 5).2 4 1).ram 4 g = 1) ∧
    (∀ g, (verify ⟨3, 1, 2, 3⟩ (call_memory ⟨3, 1, 2, 3⟩ (VMwrite ⟨3, 1, 2, 3⟩ ( VMinitialize
        ⟨3, 1, 2, 3⟩ ⟨fun _ => 0, fun _ => none, []⟩) 0 5).2 4 1).ram 4 g = 0 ∨ verify ⟨3, 1, 2, 3⟩
        (call_memory ⟨3, 1, 2, 3⟩ (VMwrite ⟨3, 1, 2, 3⟩ ( VMinitialize ⟨3, 1, 2, 3⟩
        ⟨fun _ => 0, fun _ => none, []⟩) 0 5).2 4 1).ram 4 g = 1) ∧
      (verify ⟨3, 1, 2, 3⟩ (call_memory ⟨3, 1, 2, 3⟩ (VMwrite ⟨3, 1, 2, 3⟩ ( VMinitialize
          ⟨3, 1, 2, 3⟩ ⟨fun _ => 0, fun _ => none, []⟩) 0 5).2 4 1).ram 4 g = 0 ↔ g = 0 ∨ ∃ m, m <
          (⟨3, 1, 2, 3⟩ : Config).TABLES_DEPTH ∧
        walk ⟨3, 1, 2, 3⟩ (call_memory ⟨3, 1, 2, 3⟩ (VMwrite ⟨3, 1, 2, 3⟩ ( VMinitialize
            ⟨3, 1, 2, 3⟩ ⟨fun _ => 0, fun _ => none, []⟩) 0 5).2 4 1).ram ((address_parts
            ⟨3, 1, 2, 3⟩ 4).take (m + 1)) 0 = some g)) ∧
    ((choose_frame_1 ⟨3, 1, 2, 3⟩ (call_memory ⟨3, 1, 2, 3⟩ (VMwrite ⟨3, 1, 2, 3⟩ ( VMinitialize
        ⟨3, 1, 2, 3⟩ ⟨fun _ => 0, fun _ => none, []⟩) 0 5).2 4 1).ram 4 0 0 0).is_found = 1 →
      ∃ q i m, 1 ≤ (q ++ [i]).length ∧ (q ++ [i]).length < (⟨3, 1, 2, 3⟩ : Config).TABLES_DEPTH ∧
        (∀ j ∈ q ++ [i], j < PAGE_SIZE ⟨3, 1, 2, 3⟩) ∧ walk ⟨3, 1, 2, 3⟩ (call_memory ⟨3, 1, 2, 3⟩
            (VMwrite ⟨3, 1, 2, 3⟩ ( VMinitialize ⟨3, 1, 2, 3⟩ ⟨fun _ => 0, fun _ => none, []⟩) 0
            5).2 4 1).ram q 0 = some m ∧
        walk ⟨3, 1, 2, 3⟩ (call_memory ⟨3, 1, 2, 3⟩ (VMwrite ⟨3, 1, 2, 3⟩ ( VMinitialize
            ⟨3, 1, 2, 3⟩ ⟨fun _ => 0, fun _ => none, []⟩) 0 5).2 4 1).ram (q ++ [i]) 0 = some
            (entry ⟨3, 1, 2, 3⟩ (call_memory ⟨3, 1, 2, 3⟩ (VMwrite ⟨3, 1, 2, 3⟩ ( VMinitialize
            ⟨3, 1, 2, 3⟩ ⟨fun _ => 0, fun _ => none, []⟩) 0 5).2 4 1).ram m i) ∧
        (∀ j, j < PAGE_SIZE ⟨3, 1, 2, 3⟩ → entry ⟨3, 1, 2, 3⟩ (call_memory ⟨3, 1, 2, 3⟩ (VMwrite
            ⟨3, 1, 2, 3⟩ ( VMinitialize ⟨3, 1, 2, 3⟩ ⟨fun _ => 0, fun _ => none, []⟩) 0 5).2 4
            1).ram (entry ⟨3, 1, 2, 3⟩ (call_memory ⟨3, 1, 2, 3⟩ (VMwrite ⟨3, 1, 2, 3⟩
            ( VMinitialize ⟨3, 1, 2, 3⟩ ⟨fun _ => 0, fun _ => none, []⟩) 0 5).2 4 1).ram m i) j =
            0) ∧
        verify ⟨3, 1, 2, 3⟩ (call_memory ⟨3, 1, 2, 3⟩ (VMwrite ⟨3, 1, 2, 3⟩ ( VMinitialize
            ⟨3, 1, 2, 3⟩ ⟨fun _ => 0, fun _ => none, []⟩) 0 5).2 4 1).ram 4 (entry ⟨3, 1, 2, 3⟩
            (call_memory ⟨3, 1, 2, 3⟩ (VMwrite ⟨3, 1, 2, 3⟩ ( VMinitialize ⟨3, 1, 2, 3⟩
            ⟨fun _ => 0, fun _ => none, []⟩) 0 5).2 4 1).ram m i) = 1 ∧
        (choose_frame_1 ⟨3, 1, 2, 3⟩ (call_memory ⟨3, 1, 2, 3⟩ (VMwrite ⟨3, 1, 2, 3⟩ ( VMinitialize
            ⟨3, 1, 2, 3⟩ ⟨fun _ => 0, fun _ => none, []⟩) 0 5).2 4 1).ram 4 0 0 0).parent = u64 (m
            * PAGE_SIZE ⟨3, 1, 2, 3⟩ + i) ∧
        (∀ p2 g2, 1 ≤ p2.length → p2.length < (⟨3, 1, 2, 3⟩ : Config).TABLES_DEPTH → (∀ j ∈ p2, j <
            PAGE_SIZE ⟨3, 1, 2, 3⟩) →
          walk ⟨3, 1, 2, 3⟩ (call_memory ⟨3, 1, 2, 3⟩ (VMwrite ⟨3, 1, 2, 3⟩ ( VMinitialize
              ⟨3, 1, 2, 3⟩ ⟨fun _ => 0, fun _ => none, []⟩) 0 5).2 4 1).ram p2 0 = some g2 → (∀ j,
              j < PAGE_SIZE ⟨3, 1, 2, 3⟩ → entry ⟨3, 1, 2, 3⟩ (call_memory ⟨3, 1, 2, 3⟩ (VMwrite
              ⟨3, 1, 2, 3⟩ ( VMinitialize ⟨3, 1, 2, 3⟩ ⟨fun _ => 0, fun _ => none, []⟩) 0 5).2 4
              1).ram g2 j = 0) →
          verify ⟨3, 1, 2, 3⟩ (call_memory ⟨3, 1, 2, 3⟩ (VMwrite ⟨3, 1, 2, 3⟩ ( VMinitialize
              ⟨3, 1, 2, 3⟩ ⟨fun _ => 0, fun _ => none, []⟩) 0 5).2 4 1).ram 4 g2 = 1 → p2 = q ++
              [i] ∨ dfs_before (q ++ [i]) p2) ∧
        (∀ p3, p3.length = (⟨3, 1, 2, 3⟩ : Config).TABLES_DEPTH → (∀ j ∈ p3, j < PAGE_SIZE
            ⟨3, 1, 2, 3⟩) →
          walk ⟨3, 1, 2, 3⟩ (call_memory ⟨3, 1, 2, 3⟩ (VMwrite ⟨3, 1, 2, 3⟩ ( VMinitialize
              ⟨3, 1, 2, 3⟩ ⟨fun _ => 0, fun _ => none, []⟩) 0 5).2 4 1).ram p3 0 ≠ some (entry
              ⟨3, 1, 2, 3⟩ (call_memory ⟨3, 1, 2, 3⟩ (VMwrite ⟨3, 1, 2, 3⟩ ( VMinitialize
              ⟨3, 1, 2, 3⟩ ⟨fun _ => 0, fun _ => none, []⟩) 0 5).2 4 1).ram m i))) :=
  first_priority_sound_complete ⟨3, 1, 2, 3⟩ _
    (singleReference_of_call ⟨3, 1, 2, 3⟩ ⟨by decide, by decide, by decide, by decide, by decide⟩
      (by decide) (by decide) _ (Reachable.write _ 0 5 (Reachable.init _)) 4 1 (by decide)
      (by decide)) 4

end VM

namespace VM

/-! ## Termination -/

/-- C17. For a depth of at least 1, every memory (entries that form cycles, refer to frame 0 or
share frames included) and every `vaddr`: `choose_frame_1` called at level 0 returns its result
with at most `TABLES_DEPTH` nested activations, `choose_frame_2` and `choose_frame_3` called at
level 0 return theirs with at most `TABLES_DEPTH + 1`; `verify`, a loop over the levels, returns
0 or 1; `find_frame` returns with the searches so bounded; and `get_physical_address` returns
with the searches so bounded, having called `find_frame` in the iterations in which the entry
read is 0, at most `TABLES_DEPTH` times. -/
theorem bounded_recursion (c : Config) (hD : 1 ≤ c.TABLES_DEPTH) (pm : PM)
    (vaddr frame current_vertex parent p : Nat) :
    choose_frame_1_bounded c pm.ram vaddr c.TABLES_DEPTH current_vertex parent 0
      = some (choose_frame_1 c pm.ram vaddr current_vertex parent 0) ∧
    choose_frame_2_bounded c pm.ram (c.TABLES_DEPTH + 1) current_vertex 0
      = some (choose_frame_2 c pm.ram current_vertex 0) ∧
    choose_frame_3_bounded c pm.ram vaddr (c.TABLES_DEPTH + 1) current_vertex parent p 0
      = some (choose_frame_3 c pm.ram vaddr current_vertex parent p 0) ∧
    (verify c pm.ram vaddr frame = 0 ∨ verify c pm.ram vaddr frame = 1) ∧
    find_frame_bounded c pm vaddr c.TABLES_DEPTH (c.TABLES_DEPTH + 1) (c.TABLES_DEPTH + 1)
      = some (find_frame c pm vaddr) ∧
    get_physical_address_counted c pm vaddr c.TABLES_DEPTH (c.TABLES_DEPTH + 1)
        (c.TABLES_DEPTH + 1)
      = some (get_physical_address c pm vaddr,
          (List.range c.TABLES_DEPTH).countP
            (fun k => decide (calls_find_frame c pm vaddr k))) ∧
    (List.range c.TABLES_DEPTH).countP (fun k => decide (calls_find_frame c pm vaddr k))
      ≤ c.TABLES_DEPTH := by
  refine ⟨choose_frame_1_bounded_eq c pm.ram vaddr _ _ _ 0 (by omega) hD,
    choose_frame_2_bounded_eq c pm.ram _ _ 0 (by omega) (by omega),
    choose_frame_3_bounded_eq c pm.ram vaddr _ _ _ _ 0 (by omega) (by omega),
    verify_zero_or_one c pm.ram vaddr frame, find_frame_bounded_eq c hD pm vaddr,
    get_physical_address_counted_eq c hD pm vaddr, ?_⟩
  have := List.countP_le_length (fun k => decide (calls_find_frame c pm vaddr k))
    (l := List.range c.TABLES_DEPTH)
  rw [List.length_range] at this
  exact this

/-- Witness of C17: three frames of two words and two levels, with a memory in which entry 0
of frame 2 refers to frame 2 itself. -/
theorem bounded_recursion_witness :
    choose_frame_1_bounded ⟨3, 1, 2, 3⟩
        (⟨fun a => if a = 0 then 1 else if a = 1 then 2 else if a = 4 then 2 else 0, fun _ => none, []⟩ : PM).ram
        0 (⟨3, 1, 2, 3⟩ : Config).TABLES_DEPTH 0 0 0
      = some (choose_frame_1 ⟨3, 1, 2, 3⟩
          (⟨fun a => if a = 0 then 1 else if a = 1 then 2 else if a = 4 then 2 else 0, fun _ => none, []⟩ : PM).ram
          0 0 0 0) ∧
    choose_frame_2_bounded ⟨3, 1, 2, 3⟩
        (⟨fun a => if a = 0 then 1 else if a = 1 then 2 else if a = 4 then 2 else 0, fun _ => none, []⟩ : PM).ram
        ((⟨3, 1, 2, 3⟩ : Config).TABLES_DEPTH + 1) 0 0
      = some (choose_frame_2 ⟨3, 1, 2, 3⟩
          (⟨fun a => if a = 0 then 1 else if a = 1 then 2 else if a = 4 then 2 else 0, fun _ => none, []⟩ : PM).ram
          0 0) ∧
    choose_frame_3_bounded ⟨3, 1, 2, 3⟩
        (⟨fun a => if a = 0 then 1 else if a = 1 then 2 else if a = 4 then 2 else 0, fun _ => none, []⟩ : PM).ram
        0 ((⟨3, 1, 2, 3⟩ : Config).TABLES_DEPTH + 1) 0 0 0 0
      = some (choose_frame_3 ⟨3, 1, 2, 3⟩
          (⟨fun a => if a = 0 then 1 else if a = 1 then 2 else if a = 4 then 2 else 0, fun _ => none, []⟩ : PM).ram
          0 0 0 0 0) ∧
    (verify ⟨3, 1, 2, 3⟩
        (⟨fun a => if a = 0 then 1 else if a = 1 then 2 else if a = 4 then 2 else 0, fun _ => none, []⟩ : PM).ram
        0 2 = 0 ∨ verify ⟨3, 1, 2, 3⟩
        (⟨fun a => if a = 0 then 1 else if a = 1 then 2 else if a = 4 then 2 else 0, fun _ => none, []⟩ : PM).ram
        0 2 = 1) ∧
    find_frame_bounded ⟨3, 1, 2, 3⟩
        ⟨fun a => if a = 0 then 1 else if a = 1 then 2 else if a = 4 then 2 else 0, fun _ => none, []⟩
        0 (⟨3, 1, 2, 3⟩ : Config).TABLES_DEPTH ((⟨3, 1, 2, 3⟩ : Config).TABLES_DEPTH + 1)
        ((⟨3, 1, 2, 3⟩ : Config).TABLES_DEPTH + 1)
      = some (find_frame ⟨3, 1, 2, 3⟩
          ⟨fun a => if a = 0 then 1 else if a = 1 then 2 else if a = 4 then 2 else 0, fun _ => none, []⟩
          0) ∧
    get_physical_address_counted ⟨3, 1, 2, 3⟩
        ⟨fun a => if a = 0 then 1 else if a = 1 then 2 else if a = 4 then 2 else 0, fun _ => none, []⟩
        0 (⟨3, 1, 2, 3⟩ : Config).TABLES_DEPTH ((⟨3, 1, 2, 3⟩ : Config).TABLES_DEPTH + 1)
        ((⟨3, 1, 2, 3⟩ : Config).TABLES_DEPTH + 1)
      = some (get_physical_address ⟨3, 1, 2, 3⟩
          ⟨fun a => if a = 0 then 1 else if a = 1 then 2 else if a = 4 then 2 else 0, fun _ => none, []⟩
          0,
          (List.range (⟨3, 1, 2, 3⟩ : Config).TABLES_DEPTH).countP
            (fun k => decide (calls_find_frame ⟨3, 1, 2, 3⟩
                ⟨fun a => if a = 0 then 1 else if a = 1 then 2 else if a = 4 then 2 else 0, fun _ => none, []⟩
                0 k))) ∧
    (List.range (⟨3, 1, 2, 3⟩ : Config).TABLES_DEPTH).countP (fun k => decide (calls_find_frame
        ⟨3, 1, 2, 3⟩
        ⟨fun a => if a = 0 then 1 else if a = 1 then 2 else if a = 4 then 2 else 0, fun _ => none, []⟩
        0 k))
      ≤ (⟨3, 1, 2, 3⟩ : Config).TABLES_DEPTH :=
  bounded_recursion ⟨3, 1, 2, 3⟩ (by decide)
    ⟨fun a => if a = 0 then 1 else if a = 1 then 2 else if a = 4 then 2 else 0, fun _ => none, []⟩
    0 2 0 0 0

end VM

namespace VM

/-! ## What the walker materialises -/

/-- Address widths below 31.
For well-formed constants with `NUM_FRAMES > TABLES_DEPTH` and
`ADDRESS_PART_SIZE ≤ OFFSET_WIDTH`, in every memory reachable from ` VMinitialize` and for every
`vaddr` below `2^VIRTUAL_ADDRESS_WIDTH`, one call of `get_physical_address(vaddr)`:
(a) calls `PMrestore` exactly once, as `PMrestore(leaf, vaddr >> OFFSET_WIDTH)` with `leaf` the
frame in which the chain of `vaddr` ends afterwards, if the page was not resident before the
call, and makes no call at all if it was resident;
(b) leaves the table that it created in an iteration `k < TABLES_DEPTH - 1` (the frame that
`find_frame` returned there) at the place `k + 1` of the chain of `vaddr`, with the entry on
that chain not 0 and all its other entries 0;
(c) returns `leaf * PAGE_SIZE + get_offset(vaddr)` for the frame `leaf` in which the chain of
`vaddr` ends in the resulting memory. -/
theorem materialisation_discipline (c : Config) (h : c.WF) (hF : c.TABLES_DEPTH < c.NUM_FRAMES)
    (hP : ADDRESS_PART_SIZE c ≤ c.OFFSET_WIDTH) (pm : PM) (hr : Reachable c pm) (vaddr k : Nat)
    (hva : vaddr < 2 ^ c.VIRTUAL_ADDRESS_WIDTH) :
    (walk_address c pm.ram vaddr = none →
      ∃ leaf, walk_address c (get_physical_address c pm vaddr).2.ram vaddr = some leaf ∧
        restore_calls (get_physical_address_calls c pm vaddr)
          = [PMcall.restore leaf (vaddr >>> c.OFFSET_WIDTH)]) ∧
    ((∃ leaf, walk_address c pm.ram vaddr = some leaf) →
      get_physical_address_calls c pm vaddr = [] ∧
      restore_calls (get_physical_address_calls c pm vaddr) = []) ∧
    (calls_find_frame c pm vaddr k → k + 1 < c.TABLES_DEPTH →
      walk c (get_physical_address c pm vaddr).2.ram ((address_parts c vaddr).take (k + 1)) 0
        = some (find_frame c (call_memory c pm vaddr k) vaddr).1 ∧
      entry c (get_physical_address c pm vaddr).2.ram
        (find_frame c (call_memory c pm vaddr k) vaddr).1 (get_address_part c (k + 1) vaddr) ≠ 0 ∧
      walk c (get_physical_address c pm vaddr).2.ram ((address_parts c vaddr).take (k + 2)) 0
        = some (entry c (get_physical_address c pm vaddr).2.ram
          (find_frame c (call_memory c pm vaddr k) vaddr).1 (get_address_part c (k + 1) vaddr)) ∧
      ∀ i, i < PAGE_SIZE c → i ≠ get_address_part c (k + 1) vaddr →
        entry c (get_physical_address c pm vaddr).2.ram
          (find_frame c (call_memory c pm vaddr k) vaddr).1 i = 0) ∧
    (∃ leaf, walk_address c (get_physical_address c pm vaddr).2.ram vaddr = some leaf ∧
      (get_physical_address c pm vaddr).1 = leaf * PAGE_SIZE c + get_offset c vaddr) := by
  have hinv := treeInv_of_reachable c h hF hP pm hr
  obtain ⟨hfin, hwfin⟩ := walk_steps_spec c h hF hP pm vaddr hinv hva c.TABLES_DEPTH (le_refl _)
  rw [List.take_of_length_le (by rw [address_parts_length])] at hwfin
  refine ⟨?_, ?_, ?_, ?_⟩
  · intro hnr
    refine ⟨_, hwfin, ?_⟩
    rw [get_physical_address_restore_calls,
      if_pos (calls_find_frame_last c h hF hP pm hinv vaddr hva hnr)]
  · rintro ⟨leaf, hw⟩
    have e : get_physical_address_calls c pm vaddr = [] := by
      unfold get_physical_address_calls
      rw [get_physical_address_mapped c pm vaddr leaf hw]
      simp
    exact ⟨e, by rw [e]; rfl⟩
  · intro hcall hk
    have hs := walkState_of_inv c h hF hP pm hinv vaddr k hva hcall
    obtain ⟨e1, -, -, -⟩ := walk_step_zero_ram c h hF hP _ vaddr k _ hs
    have hg : (walk_steps c pm vaddr (k + 1)).1
        = (find_frame c (call_memory c pm vaddr k) vaddr).1 := by
      rw [walk_steps_succ_call, e1]
    have p1 := walk_steps_prefix c h hF hP pm hinv vaddr hva c.TABLES_DEPTH (le_refl _) (k + 1)
      (by omega)
    have p2 := walk_steps_prefix c h hF hP pm hinv vaddr hva c.TABLES_DEPTH (le_refl _) (k + 2)
      (by omega)
    rw [call_memory_depth] at p1 p2
    rw [hg] at p1
    have p3 := p2
    rw [address_parts_take_succ c vaddr (k + 1) hk] at p3
    obtain ⟨m, hm1, hm2, hm3⟩ := walk_snoc_some c _ _ _ _ _ p3
    rw [p1] at hm1
    have em : (find_frame c (call_memory c pm vaddr k) vaddr).1 = m := Option.some.inj hm1
    rw [← em] at hm2
    refine ⟨p1, by rw [hm2]; exact hm3, by rw [hm2]; exact p2, ?_⟩
    have := walk_steps_new_table c h hF hP pm hinv vaddr k hva hcall hk c.TABLES_DEPTH (by omega)
      (le_refl _)
    rw [call_memory_depth, hg] at this
    exact this
  · obtain ⟨-, leaf, h2, h3⟩ := get_physical_address_spec c h hF hP pm vaddr hinv hva
    refine ⟨leaf, h2, ?_⟩
    rw [h3]
    have hv : ValidPath c (address_parts c vaddr) := validPath_parts c h hP vaddr
    obtain ⟨hinv2, -⟩ := get_physical_address_spec c h hF hP pm vaddr hinv hva
    exact entry_addr_eq c h leaf _ (hinv2.shape.bound _ _ hv h2) (get_offset_lt c h vaddr)

/-- An instance of the theorem above: three frames of two words and two levels; the first walk after the
initialisation, for address 4, creates a table in iteration 0 and a leaf in iteration 1. -/
theorem materialisation_discipline_witness :
    (walk_address ⟨3, 1, 2, 3⟩ ( VMinitialize ⟨3, 1, 2, 3⟩ ⟨fun _ => 0, fun _ => none, []⟩).ram 4 =
        none →
      ∃ leaf, walk_address ⟨3, 1, 2, 3⟩ (get_physical_address ⟨3, 1, 2, 3⟩ ( VMinitialize
          ⟨3, 1, 2, 3⟩ ⟨fun _ => 0, fun _ => none, []⟩) 4).2.ram 4 = some leaf ∧
        restore_calls (get_physical_address_calls ⟨3, 1, 2, 3⟩ ( VMinitialize ⟨3, 1, 2, 3⟩
            ⟨fun _ => 0, fun _ => none, []⟩) 4)
          = [PMcall.restore leaf (4 >>> (⟨3, 1, 2, 3⟩ : Config).OFFSET_WIDTH)]) ∧
    ((∃ leaf, walk_address ⟨3, 1, 2, 3⟩ ( VMinitialize ⟨3, 1, 2, 3⟩
        ⟨fun _ => 0, fun _ => none, []⟩).ram 4 = some leaf) →
      get_physical_address_calls ⟨3, 1, 2, 3⟩ ( VMinitialize ⟨3, 1, 2, 3⟩
          ⟨fun _ => 0, fun _ => none, []⟩) 4 = [] ∧
      restore_calls (get_physical_address_calls ⟨3, 1, 2, 3⟩ ( VMinitialize ⟨3, 1, 2, 3⟩
          ⟨fun _ => 0, fun _ => none, []⟩) 4) = []) ∧
    (calls_find_frame ⟨3, 1, 2, 3⟩ ( VMinitialize ⟨3, 1, 2, 3⟩ ⟨fun _ => 0, fun _ => none, []⟩) 4 0
        → 0 + 1 < (⟨3, 1, 2, 3⟩ : Config).TABLES_DEPTH →
      walk ⟨3, 1, 2, 3⟩ (get_physical_address ⟨3, 1, 2, 3⟩ ( VMinitialize ⟨3, 1, 2, 3⟩
          ⟨fun _ => 0, fun _ => none, []⟩) 4).2.ram ((address_parts ⟨3, 1, 2, 3⟩ 4).take (0 + 1)) 0
        = some (find_frame ⟨3, 1, 2, 3⟩ (call_memory ⟨3, 1, 2, 3⟩ ( VMinitialize ⟨3, 1, 2, 3⟩
            ⟨fun _ => 0, fun _ => none, []⟩) 4 0) 4).1 ∧
      entry ⟨3, 1, 2, 3⟩ (get_physical_address ⟨3, 1, 2, 3⟩ ( VMinitialize ⟨3, 1, 2, 3⟩
          ⟨fun _ => 0, fun _ => none, []⟩) 4).2.ram
        (find_frame ⟨3, 1, 2, 3⟩ (call_memory ⟨3, 1, 2, 3⟩ ( VMinitialize ⟨3, 1, 2, 3⟩
            ⟨fun _ => 0, fun _ => none, []⟩) 4 0) 4).1 (get_address_part ⟨3, 1, 2, 3⟩ (0 + 1) 4) ≠
            0 ∧
      walk ⟨3, 1, 2, 3⟩ (get_physical_address ⟨3, 1, 2, 3⟩ ( VMinitialize ⟨3, 1, 2, 3⟩
          ⟨fun _ => 0, fun _ => none, []⟩) 4).2.ram ((address_parts ⟨3, 1, 2, 3⟩ 4).take (0 + 2)) 0
        = some (entry ⟨3, 1, 2, 3⟩ (get_physical_address ⟨3, 1, 2, 3⟩ ( VMinitialize ⟨3, 1, 2, 3⟩
            ⟨fun _ => 0, fun _ => none, []⟩) 4).2.ram
          (find_frame ⟨3, 1, 2, 3⟩ (call_memory ⟨3, 1, 2, 3⟩ ( VMinitialize ⟨3, 1, 2, 3⟩
              ⟨fun _ => 0, fun _ => none, []⟩) 4 0) 4).1 (get_address_part ⟨3, 1, 2, 3⟩ (0 + 1) 4))
              ∧
      ∀ i, i < PAGE_SIZE ⟨3, 1, 2, 3⟩ → i ≠ get_address_part ⟨3, 1, 2, 3⟩ (0 + 1) 4 →
        entry ⟨3, 1, 2, 3⟩ (get_physical_address ⟨3, 1, 2, 3⟩ ( VMinitialize ⟨3, 1, 2, 3⟩
            ⟨fun _ => 0, fun _ => none, []⟩) 4).2.ram
          (find_frame ⟨3, 1, 2, 3⟩ (call_memory ⟨3, 1, 2, 3⟩ ( VMinitialize ⟨3, 1, 2, 3⟩
              ⟨fun _ => 0, fun _ => none, []⟩) 4 0) 4).1 i = 0) ∧
    (∃ leaf, walk_address ⟨3, 1, 2, 3⟩ (get_physical_address ⟨3, 1, 2, 3⟩ ( VMinitialize
        ⟨3, 1, 2, 3⟩ ⟨fun _ => 0, fun _ => none, []⟩) 4).2.ram 4 = some leaf ∧
      (get_physical_address ⟨3, 1, 2, 3⟩ ( VMinitialize ⟨3, 1, 2, 3⟩
          ⟨fun _ => 0, fun _ => none, []⟩) 4).1 = leaf * PAGE_SIZE ⟨3, 1, 2, 3⟩ + get_offset
          ⟨3, 1, 2, 3⟩ 4) :=
  materialisation_discipline ⟨3, 1, 2, 3⟩
    ⟨by decide, by decide, by decide, by decide, by decide⟩ (by decide) (by decide) _
    (Reachable.init _) 4 0 (by decide)

end VM

namespace VM

/-! ## The virtual memory behaves like a flat memory -/

/-- Address widths below 31.
With the backing store a map from page numbers to saved words (`PMevict` saves the
words of a frame under a page, `PMrestore` copies the saved words of a page into a frame and
leaves the frame as it is when nothing was saved), for well-formed constants with
`NUM_FRAMES > TABLES_DEPTH` and `ADDRESS_PART_SIZE ≤ OFFSET_WIDTH`: after ` VMinitialize` on any
memory and any sequence `ops` of calls of `VMread` and `VMwrite`, for every address `a` below
`2^VIRTUAL_ADDRESS_WIDTH`, if the last `VMwrite` to `a` in the sequence wrote `v`, then a
`VMread(a)` at the end returns 1 and stores `v` in `*value`, whatever other addresses were read
or written in between. -/
theorem persistence_across_eviction (c : Config) (h : c.WF)
    (hF : c.TABLES_DEPTH < c.NUM_FRAMES) (hP : ADDRESS_PART_SIZE c ≤ c.OFFSET_WIDTH) (pm0 : PM)
    (ops : List Op) (a v value : Nat) (ha : a < 2 ^ c.VIRTUAL_ADDRESS_WIDTH)
    (hlast : last_write a ops = some v) :
    (VMread c (run c ( VMinitialize c pm0) ops) a value).1 = 1 ∧
      (VMread c (run c ( VMinitialize c pm0) ops) a value).2.1 = v := by
  obtain ⟨hinv, hst⟩ := run_stored c h hF hP a ha ops ( VMinitialize c pm0) none
    (treeInv_init c h hF pm0) (fun w hw => by cases hw) v hlast
  exact VMread_stored c h hF hP _ hinv a v value ha hst

/-- An instance of the theorem above: two frames of two words and one level, so that one page is resident at a
time; 5 is written to address 0, then 7 to address 2, which evicts page 0, and the read of
address 0 at the end returns 5. -/
theorem persistence_across_eviction_witness :
    (VMread ⟨2, 1, 1, 2⟩ (run ⟨2, 1, 1, 2⟩ ( VMinitialize ⟨2, 1, 1, 2⟩
        ⟨fun _ => 0, fun _ => none, []⟩) [Op.write 0 5, Op.write 2 7, Op.read 2 0]) 0 0).1 = 1 ∧
      (VMread ⟨2, 1, 1, 2⟩ (run ⟨2, 1, 1, 2⟩ ( VMinitialize ⟨2, 1, 1, 2⟩
        ⟨fun _ => 0, fun _ => none, []⟩) [Op.write 0 5, Op.write 2 7, Op.read 2 0]) 0 0).2.1 = 5 :=
  persistence_across_eviction ⟨2, 1, 1, 2⟩ ⟨by decide, by decide, by decide, by decide, by decide⟩
    (by decide) (by decide) ⟨fun _ => 0, fun _ => none, []⟩
    [Op.write 0 5, Op.write 2 7, Op.read 2 0] 0 5 0 (by decide) (by decide)

end VM

namespace VM

/-! ## Accesses to the physical memory -/

/-- Address widths below 31.
For well-formed constants with `NUM_FRAMES > TABLES_DEPTH` and
`ADDRESS_PART_SIZE ≤ OFFSET_WIDTH`, in every memory reachable from ` VMinitialize` by calls of
`VMread` and `VMwrite`: every frame at the end of a chain of non-zero entries from frame 0 is
below `NUM_FRAMES`; every part of an address, and its offset, is below `PAGE_SIZE`; every
address that `VMread(vaddr)` or `VMwrite(vaddr, v)` passes to `PMread` (in the walker, in
`verify`, in the three searches, in `find_frame` and for the word itself) or to `PMwrite` (in
`find_frame`, in the walker, in `fill_zeroes` and for the word itself) is below
`NUM_FRAMES * PAGE_SIZE`; every frame they pass to `PMevict` or `PMrestore` is below
`NUM_FRAMES`; and the address that `get_physical_address` returns for an address in range is
below `NUM_FRAMES * PAGE_SIZE`.  Without `ADDRESS_PART_SIZE ≤ OFFSET_WIDTH` an index can lie
past the end of a frame: for an address width of 3, an offset width of 1 and one level, part 0
of the address 6 is 3, with frames of 2 words. -/
theorem accesses_in_bounds (c : Config) (h : c.WF) (hF : c.TABLES_DEPTH < c.NUM_FRAMES)
    (hP : ADDRESS_PART_SIZE c ≤ c.OFFSET_WIDTH) (pm : PM) (hr : Reachable c pm)
    (vaddr v value : Nat) :
    (∀ path f, ValidPath c path → walk c pm.ram path 0 = some f → f < c.NUM_FRAMES) ∧
    (∀ i, get_address_part c i vaddr < PAGE_SIZE c) ∧
    get_offset c vaddr < PAGE_SIZE c ∧
    (∀ a ∈ VMread_reads c pm vaddr, a < c.NUM_FRAMES * PAGE_SIZE c) ∧
    (∀ a ∈ VMwrite_reads c pm vaddr, a < c.NUM_FRAMES * PAGE_SIZE c) ∧
    (∀ x ∈ VMread_calls c pm vaddr value, call_in_bounds c x) ∧
    (∀ x ∈ VMwrite_calls c pm vaddr v, call_in_bounds c x) ∧
    (vaddr < 2 ^ c.VIRTUAL_ADDRESS_WIDTH →
      (get_physical_address c pm vaddr).1 < c.NUM_FRAMES * PAGE_SIZE c) ∧
    PAGE_SIZE ⟨3, 1, 1, 2⟩ ≤ get_address_part ⟨3, 1, 1, 2⟩ 0 6 := by
  have hinv := treeInv_of_reachable c h hF hP pm hr
  exact ⟨hinv.shape.bound, fun i => part_lt_page c h hP i vaddr, get_offset_lt c h vaddr,
    VMread_reads_bound c h hF hP pm hinv vaddr, VMwrite_reads_bound c h hF hP pm hinv vaddr,
    VMread_calls_bound c h hF hP pm hinv vaddr value,
    VMwrite_calls_bound c h hF hP pm hinv vaddr v,
    get_physical_address_bound c h hF hP pm hinv vaddr, by decide⟩

/-- An instance of the theorem above: two frames of two words and one level; page 0 is resident and address 2
is accessed, which evicts it. -/
theorem accesses_in_bounds_witness :
    (∀ path f, ValidPath ⟨2, 1, 1, 2⟩ path → walk ⟨2, 1, 1, 2⟩ (VMwrite ⟨2, 1, 1, 2⟩ ( VMinitialize
        ⟨2, 1, 1, 2⟩ ⟨fun _ => 0, fun _ => none, []⟩) 0 5).2.ram path 0 = some f → f <
        (⟨2, 1, 1, 2⟩ : Config).NUM_FRAMES) ∧
    (∀ i, get_address_part ⟨2, 1, 1, 2⟩ i 2 < PAGE_SIZE ⟨2, 1, 1, 2⟩) ∧
    get_offset ⟨2, 1, 1, 2⟩ 2 < PAGE_SIZE ⟨2, 1, 1, 2⟩ ∧
    (∀ a ∈ VMread_reads ⟨2, 1, 1, 2⟩ (VMwrite ⟨2, 1, 1, 2⟩ ( VMinitialize ⟨2, 1, 1, 2⟩
        ⟨fun _ => 0, fun _ => none, []⟩) 0 5).2 2, a < (⟨2, 1, 1, 2⟩ : Config).NUM_FRAMES *
        PAGE_SIZE ⟨2, 1, 1, 2⟩) ∧
    (∀ a ∈ VMwrite_reads ⟨2, 1, 1, 2⟩ (VMwrite ⟨2, 1, 1, 2⟩ ( VMinitialize ⟨2, 1, 1, 2⟩
        ⟨fun _ => 0, fun _ => none, []⟩) 0 5).2 2, a < (⟨2, 1, 1, 2⟩ : Config).NUM_FRAMES *
        PAGE_SIZE ⟨2, 1, 1, 2⟩) ∧
    (∀ x ∈ VMread_calls ⟨2, 1, 1, 2⟩ (VMwrite ⟨2, 1, 1, 2⟩ ( VMinitialize ⟨2, 1, 1, 2⟩
        ⟨fun _ => 0, fun _ => none, []⟩) 0 5).2 2 0, call_in_bounds ⟨2, 1, 1, 2⟩ x) ∧
    (∀ x ∈ VMwrite_calls ⟨2, 1, 1, 2⟩ (VMwrite ⟨2, 1, 1, 2⟩ ( VMinitialize ⟨2, 1, 1, 2⟩
        ⟨fun _ => 0, fun _ => none, []⟩) 0 5).2 2 7, call_in_bounds ⟨2, 1, 1, 2⟩ x) ∧
    (2 < 2 ^ (⟨2, 1, 1, 2⟩ : Config).VIRTUAL_ADDRESS_WIDTH →
      (get_physical_address ⟨2, 1, 1, 2⟩ (VMwrite ⟨2, 1, 1, 2⟩ ( VMinitialize ⟨2, 1, 1, 2⟩
          ⟨fun _ => 0, fun _ => none, []⟩) 0 5).2 2).1 < (⟨2, 1, 1, 2⟩ : Config).NUM_FRAMES *
          PAGE_SIZE ⟨2, 1, 1, 2⟩) ∧
    PAGE_SIZE ⟨3, 1, 1, 2⟩ ≤ get_address_part ⟨3, 1, 1, 2⟩ 0 6 :=
  accesses_in_bounds ⟨2, 1, 1, 2⟩ ⟨by decide, by decide, by decide, by decide, by decide⟩
    (by decide) (by decide) _ (Reachable.write _ 0 5 (Reachable.init _)) 2 7 0

end VM

namespace VM

/-! ## The scenario with 16-bit addresses, pages of 16 words, three levels and four frames -/

/-- C11. With `VIRTUAL_ADDRESS_WIDTH = 16`, `OFFSET_WIDTH = 4`, `TABLES_DEPTH = 3` and
`NUM_FRAMES = 4`, and any physical memory `pm0` to start from: after ` VMinitialize`,
`VMwrite(0, 5)` returns 1, calls `PMevict` zero times and `PMrestore` once, as
`PMrestore(3, 0)`, and leaves the words 0, 16 and 32 (word 0 of the frames 0, 1 and 2) equal
to 1, 2 and 3, all other words of the frames 0, 1 and 2 equal to 0 and word 48 equal to 5; a
`VMread(0)` that follows returns 1 and stores 5 in `*value`. -/
theorem first_write_scenario (pm0 : PM) (value : Nat) :
    (VMwrite ⟨16, 4, 3, 4⟩ ( VMinitialize ⟨16, 4, 3, 4⟩ pm0) 0 5).1 = 1 ∧
    evict_calls (VMwrite_calls ⟨16, 4, 3, 4⟩ ( VMinitialize ⟨16, 4, 3, 4⟩ pm0) 0 5) = [] ∧
    restore_calls (VMwrite_calls ⟨16, 4, 3, 4⟩ ( VMinitialize ⟨16, 4, 3, 4⟩ pm0) 0 5)
      = [PMcall.restore 3 0] ∧
    (VMwrite ⟨16, 4, 3, 4⟩ ( VMinitialize ⟨16, 4, 3, 4⟩ pm0) 0 5).2.ram 0 = 1 ∧
    (VMwrite ⟨16, 4, 3, 4⟩ ( VMinitialize ⟨16, 4, 3, 4⟩ pm0) 0 5).2.ram 16 = 2 ∧
    (VMwrite ⟨16, 4, 3, 4⟩ ( VMinitialize ⟨16, 4, 3, 4⟩ pm0) 0 5).2.ram 32 = 3 ∧
    (∀ a, a < 48 → a ≠ 0 → a ≠ 16 → a ≠ 32 →
      (VMwrite ⟨16, 4, 3, 4⟩ ( VMinitialize ⟨16, 4, 3, 4⟩ pm0) 0 5).2.ram a = 0) ∧
    (VMwrite ⟨16, 4, 3, 4⟩ ( VMinitialize ⟨16, 4, 3, 4⟩ pm0) 0 5).2.ram 48 = 5 ∧
    (VMread ⟨16, 4, 3, 4⟩ (VMwrite ⟨16, 4, 3, 4⟩ ( VMinitialize ⟨16, 4, 3, 4⟩ pm0) 0 5).2
      0 value).1 = 1 ∧
    (VMread ⟨16, 4, 3, 4⟩ (VMwrite ⟨16, 4, 3, 4⟩ ( VMinitialize ⟨16, 4, 3, 4⟩ pm0) 0 5).2
      0 value).2.1 = 5 := by
  have hwf : Config.WF ⟨16, 4, 3, 4⟩ := ⟨by decide, by decide, by decide, by decide, by decide⟩
  have hF : (⟨16, 4, 3, 4⟩ : Config).TABLES_DEPTH < (⟨16, 4, 3, 4⟩ : Config).NUM_FRAMES := by
    decide
  have hP : ADDRESS_PART_SIZE ⟨16, 4, 3, 4⟩ ≤ (⟨16, 4, 3, 4⟩ : Config).OFFSET_WIDTH := by decide
  have hva : 0 < 2 ^ (⟨16, 4, 3, 4⟩ : Config).VIRTUAL_ADDRESS_WIDTH := by decide
  obtain ⟨a1, -, a3, -, a5⟩ := first_access ⟨16, 4, 3, 4⟩ hwf hF hP pm0 0 hva 3 (le_refl 3)
  have hlast : (walk_steps ⟨16, 4, 3, 4⟩ ( VMinitialize ⟨16, 4, 3, 4⟩ pm0) 0 3).1 = 3 :=
    a1 3 (le_refl 3)
  have hpa : (get_physical_address ⟨16, 4, 3, 4⟩ ( VMinitialize ⟨16, 4, 3, 4⟩ pm0) 0).1 = 48 := by
    rw [get_physical_address_fst]
    show u64 ((walk_steps _ _ 0 3).1 * PAGE_SIZE _ + get_offset _ 0) = 48
    rw [hlast, get_offset_zero]
    decide
  have hram : ∀ x, (VMwrite ⟨16, 4, 3, 4⟩ ( VMinitialize ⟨16, 4, 3, 4⟩ pm0) 0 5).2.ram x
      = if x = 48 then 5
        else (call_memory ⟨16, 4, 3, 4⟩ ( VMinitialize ⟨16, 4, 3, 4⟩ pm0) 0 3).ram x := by
    intro x
    rw [VMwrite_ram _ hwf _ 0 5 hva x, hpa]
  have hword : ∀ a, a < 48 →
      (call_memory ⟨16, 4, 3, 4⟩ ( VMinitialize ⟨16, 4, 3, 4⟩ pm0) 0 3).ram a
        = if a % 16 = 0 then a / 16 + 1 else 0 := by
    intro a ha
    have hj : a / 16 < 3 := by omega
    have hi : a % 16 < PAGE_SIZE ⟨16, 4, 3, 4⟩ := by
      show a % 16 < 16
      omega
    have := a3 (a / 16) hj (a % 16) hi
    rw [get_address_part_zero] at this
    have haddr : u64 (a / 16 * PAGE_SIZE ⟨16, 4, 3, 4⟩ + a % 16) = a := by
      show u64 (a / 16 * 16 + a % 16) = a
      have e : a / 16 * 16 + a % 16 = a := by omega
      rw [e]
      exact u64_of_lt (by omega)
    unfold entry PMread at this
    rw [haddr] at this
    exact this
  have hno : ∀ k, k < 3 →
      find_frame_calls ⟨16, 4, 3, 4⟩
        (call_memory ⟨16, 4, 3, 4⟩ ( VMinitialize ⟨16, 4, 3, 4⟩ pm0) 0 k) 0 = [] :=
    fun k hk => find_frame_calls_unchanged _ _ 0 _ (a5 k hk).2
  refine ⟨?_, ?_, ?_, ?_, ?_, ?_, ?_, ?_, ?_⟩
  · rw [VMwrite_eq _ hwf _ 0 5 hva]
  · rw [VMwrite_evict_calls _ hwf _ 0 5 hva, get_physical_address_evict_calls,
      List.flatMap_eq_nil_iff]
    intro k hk
    have hk3 : k < 3 := List.mem_range.mp hk
    rw [if_pos (a5 k hk3).1, hno k hk3]
    rfl
  · rw [VMwrite_restore_calls _ hwf _ 0 5 hva, get_physical_address_restore_calls]
    have h2 : calls_find_frame ⟨16, 4, 3, 4⟩ ( VMinitialize ⟨16, 4, 3, 4⟩ pm0) 0
        ((⟨16, 4, 3, 4⟩ : Config).TABLES_DEPTH - 1) := (a5 2 (by decide)).1
    rw [if_pos h2]
    show [PMcall.restore (walk_steps _ _ 0 3).1 _] = _
    rw [hlast]
    rfl
  · rw [hram, if_neg (by decide), hword 0 (by decide)]
    rfl
  · rw [hram, if_neg (by decide), hword 16 (by decide)]
    rfl
  · rw [hram, if_neg (by decide), hword 32 (by decide)]
    rfl
  · intro a ha h0 h16 h32
    rw [hram, if_neg (by omega), hword a ha, if_neg (by omega)]
  · rw [hram, if_pos rfl]
  · exact VMread_after_VMwrite _ hwf hF hP _ (treeInv_init _ hwf hF pm0) 0 5 value hva

end VM

namespace VM

/-- C12. With `VIRTUAL_ADDRESS_WIDTH = 16`, `OFFSET_WIDTH = 4`, `TABLES_DEPTH = 3` and
`NUM_FRAMES = 4`, any physical memory `pm0` to start from, after ` VMinitialize` and
`VMwrite(0, 5)`: page 0 is the only resident page, and for every address `a` below `2^16`
whose part 0 is not 0 and every word `w`, `VMwrite(a, w)` returns 1, calls `PMevict` exactly
once, as `PMevict(3, 0)`, calls `find_frame` in each of its three iterations, where
`find_frame` never takes the second priority (it finds an empty table, or else it finds that
no frame is unused) and never returns frame 0; and a `VMread(a)` that follows returns 1 and
stores `w` in `*value`. -/
theorem second_write_scenario (pm0 : PM) (a w value : Nat) (ha : a < 2 ^ 16)
    (hpart : get_address_part ⟨16, 4, 3, 4⟩ 0 a ≠ 0) :
    (VMwrite ⟨16, 4, 3, 4⟩ (VMwrite ⟨16, 4, 3, 4⟩ ( VMinitialize ⟨16, 4, 3, 4⟩ pm0) 0 5).2
      a w).1 = 1 ∧
    evict_calls (VMwrite_calls ⟨16, 4, 3, 4⟩
      (VMwrite ⟨16, 4, 3, 4⟩ ( VMinitialize ⟨16, 4, 3, 4⟩ pm0) 0 5).2 a w)
      = [PMcall.evict 3 0] ∧
    (∀ b leaf, b < 2 ^ 16 →
      walk_address ⟨16, 4, 3, 4⟩
        (VMwrite ⟨16, 4, 3, 4⟩ ( VMinitialize ⟨16, 4, 3, 4⟩ pm0) 0 5).2.ram b = some leaf →
      b >>> 4 = 0 ∧ leaf = 3) ∧
    (∀ k, k < 3 →
      calls_find_frame ⟨16, 4, 3, 4⟩
        (VMwrite ⟨16, 4, 3, 4⟩ ( VMinitialize ⟨16, 4, 3, 4⟩ pm0) 0 5).2 a k ∧
      ((choose_frame_1 ⟨16, 4, 3, 4⟩ (call_memory ⟨16, 4, 3, 4⟩
          (VMwrite ⟨16, 4, 3, 4⟩ ( VMinitialize ⟨16, 4, 3, 4⟩ pm0) 0 5).2 a k).ram
          a 0 0 0).is_found ≠ 0 ∨
        ¬ 4 > u64 (choose_frame_2 ⟨16, 4, 3, 4⟩ (call_memory ⟨16, 4, 3, 4⟩
          (VMwrite ⟨16, 4, 3, 4⟩ ( VMinitialize ⟨16, 4, 3, 4⟩ pm0) 0 5).2 a k).ram 0 0 + 1)) ∧
      (find_frame ⟨16, 4, 3, 4⟩ (call_memory ⟨16, 4, 3, 4⟩
        (VMwrite ⟨16, 4, 3, 4⟩ ( VMinitialize ⟨16, 4, 3, 4⟩ pm0) 0 5).2 a k) a).1 ≠ 0) ∧
    (VMread ⟨16, 4, 3, 4⟩ (VMwrite ⟨16, 4, 3, 4⟩
      (VMwrite ⟨16, 4, 3, 4⟩ ( VMinitialize ⟨16, 4, 3, 4⟩ pm0) 0 5).2 a w).2 a value).1 = 1 ∧
    (VMread ⟨16, 4, 3, 4⟩ (VMwrite ⟨16, 4, 3, 4⟩
      (VMwrite ⟨16, 4, 3, 4⟩ ( VMinitialize ⟨16, 4, 3, 4⟩ pm0) 0 5).2 a w).2 a value).2.1 = w := by
  have hwf : Config.WF ⟨16, 4, 3, 4⟩ := ⟨by decide, by decide, by decide, by decide, by decide⟩
  have hF : (⟨16, 4, 3, 4⟩ : Config).TABLES_DEPTH < (⟨16, 4, 3, 4⟩ : Config).NUM_FRAMES := by
    decide
  have hP : ADDRESS_PART_SIZE ⟨16, 4, 3, 4⟩ ≤ (⟨16, 4, 3, 4⟩ : Config).OFFSET_WIDTH := by decide
  have hva : 0 < 2 ^ (⟨16, 4, 3, 4⟩ : Config).VIRTUAL_ADDRESS_WIDTH := by decide
  have ha2 : a < 2 ^ (⟨16, 4, 3, 4⟩ : Config).VIRTUAL_ADDRESS_WIDTH := ha
  have hdiff : get_address_part ⟨16, 4, 3, 4⟩ 0 a ≠ get_address_part ⟨16, 4, 3, 4⟩ 0 0 := by
    rw [get_address_part_zero]
    exact hpart
  have hsec := second_access ⟨16, 4, 3, 4⟩ hwf rfl hP pm0 0 5 a hva ha2 hdiff
  have hinv1 := (VMwrite_spec _ hwf hF hP _ 0 5 (treeInv_init _ hwf hF pm0)).1
  obtain ⟨-, w2, -⟩ := first_write_walk ⟨16, 4, 3, 4⟩ hwf hF hP pm0 0 5 hva
  refine ⟨?_, ?_, ?_, ?_, ?_⟩
  · rw [VMwrite_eq _ hwf _ a w ha2]
  · rw [VMwrite_evict_calls _ hwf _ a w ha2, get_physical_address_evict_calls]
    show (List.range 3).flatMap _ = _
    have e0 := hsec 0 (by decide)
    have e1 := hsec 1 (by decide)
    have e2 := hsec 2 (by decide)
    simp only [List.range_succ, List.range_zero, List.nil_append, List.flatMap_append,
      List.flatMap_cons, List.flatMap_nil, List.append_nil]
    rw [if_pos e0.1, if_pos e1.1, if_pos e2.1, e0.2.2.2.1, e1.2.2.2.1, e2.2.2.2.1]
    rfl
  · intro b leaf hb hw
    have hvb := validPath_parts ⟨16, 4, 3, 4⟩ hwf hP b
    obtain ⟨hf, hpath⟩ := w2 _ leaf hvb hw
    have hl := congrArg List.length hpath
    rw [length_take_parts _ 0 _ hf, address_parts_length] at hl
    have hparts : address_parts ⟨16, 4, 3, 4⟩ b = address_parts ⟨16, 4, 3, 4⟩ 0 := by
      rw [hpath, ← hl, List.take_of_length_le (by rw [address_parts_length])]
    have := page_of_parts ⟨16, 4, 3, 4⟩ hwf b 0 hb hva hparts
    exact ⟨this, hl.symm⟩
  · intro k hk
    obtain ⟨e1, e2, e3, -⟩ := hsec k hk
    exact ⟨e1, e3, e2⟩
  · exact VMread_after_VMwrite _ hwf hF hP _ hinv1 a w value ha2

/-- Witness of C12: the memory that is all 0 to start from, the address 4096 (part 0 is 1)
and the word 7. -/
theorem second_write_scenario_witness :
    (VMwrite ⟨16, 4, 3, 4⟩ (VMwrite ⟨16, 4, 3, 4⟩ ( VMinitialize ⟨16, 4, 3, 4⟩
        ⟨fun _ => 0, fun _ => none, []⟩) 0 5).2
      4096 7).1 = 1 ∧
    evict_calls (VMwrite_calls ⟨16, 4, 3, 4⟩
      (VMwrite ⟨16, 4, 3, 4⟩ ( VMinitialize ⟨16, 4, 3, 4⟩ ⟨fun _ => 0, fun _ => none, []⟩) 0 5).2
          4096 7)
      = [PMcall.evict 3 0] ∧
    (∀ b leaf, b < 2 ^ 16 →
      walk_address ⟨16, 4, 3, 4⟩
        (VMwrite ⟨16, 4, 3, 4⟩ ( VMinitialize ⟨16, 4, 3, 4⟩ ⟨fun _ => 0, fun _ => none, []⟩) 0
            5).2.ram b = some leaf →
      b >>> 4 = 0 ∧ leaf = 3) ∧
    (∀ k, k < 3 →
      calls_find_frame ⟨16, 4, 3, 4⟩
        (VMwrite ⟨16, 4, 3, 4⟩ ( VMinitialize ⟨16, 4, 3, 4⟩ ⟨fun _ => 0, fun _ => none, []⟩) 0 5).2
            4096 k ∧
      ((choose_frame_1 ⟨16, 4, 3, 4⟩ (call_memory ⟨16, 4, 3, 4⟩
          (VMwrite ⟨16, 4, 3, 4⟩ ( VMinitialize ⟨16, 4, 3, 4⟩ ⟨fun _ => 0, fun _ => none, []⟩) 0
              5).2 4096 k).ram
          4096 0 0 0).is_found ≠ 0 ∨
        ¬ 4 > u64 (choose_frame_2 ⟨16, 4, 3, 4⟩ (call_memory ⟨16, 4, 3, 4⟩
          (VMwrite ⟨16, 4, 3, 4⟩ ( VMinitialize ⟨16, 4, 3, 4⟩ ⟨fun _ => 0, fun _ => none, []⟩) 0
              5).2 4096 k).ram 0 0 + 1)) ∧
      (find_frame ⟨16, 4, 3, 4⟩ (call_memory ⟨16, 4, 3, 4⟩
        (VMwrite ⟨16, 4, 3, 4⟩ ( VMinitialize ⟨16, 4, 3, 4⟩ ⟨fun _ => 0, fun _ => none, []⟩) 0 5).2
            4096 k) 4096).1 ≠ 0) ∧
    (VMread ⟨16, 4, 3, 4⟩ (VMwrite ⟨16, 4, 3, 4⟩
      (VMwrite ⟨16, 4, 3, 4⟩ ( VMinitialize ⟨16, 4, 3, 4⟩ ⟨fun _ => 0, fun _ => none, []⟩) 0 5).2
          4096 7).2 4096 0).1 = 1 ∧
    (VMread ⟨16, 4, 3, 4⟩ (VMwrite ⟨16, 4, 3, 4⟩
      (VMwrite ⟨16, 4, 3, 4⟩ ( VMinitialize ⟨16, 4, 3, 4⟩ ⟨fun _ => 0, fun _ => none, []⟩) 0 5).2
          4096 7).2 4096 0).2.1 = 7 :=
  second_write_scenario ⟨fun _ => 0, fun _ => none, []⟩ 4096 7 0 (by decide) (by decide)

end VM

namespace VM

/-! ## The address width 31

`validate_virtual_address` computes the size of the address space as `1 << VIRTUAL_ADDRESS_WIDTH`
on `int` (line 268).  For a width of 31 the value is `INT_MIN`, which the conversion to
`uint64_t` turns into `2^64 - 2^31`: addresses from `2^31` on are accepted.  The theorems of this
section evaluate the functions of the source on the constants `VIRTUAL_ADDRESS_WIDTH = 31`,
`OFFSET_WIDTH = 4`, `TABLES_DEPTH = 7`, `NUM_FRAMES = 8`, starting from the memory that
` VMinitialize` leaves when all words are 0 and the backing store is empty. -/

/-- C2 fails for `VIRTUAL_ADDRESS_WIDTH = 31`.  Line 268 computes `1 << 31` on `int`; converted
to `uint64_t` the bound is `2^64 - 2^31`, not `2^31`.  With 31 address bits, pages of 16 words,
7 levels and 8 frames, `validate_virtual_address` returns 1 for the addresses `2^31` and `2^32`,
which are not below `2^31`, and `VMread` and `VMwrite` on the address `2^31` return 1. -/
theorem validation_accepts_at_width_31 :
    int_shl_one (⟨31, 4, 7, 8⟩ : Config).VIRTUAL_ADDRESS_WIDTH = 2 ^ 64 - 2 ^ 31 ∧
    2 ^ (⟨31, 4, 7, 8⟩ : Config).VIRTUAL_ADDRESS_WIDTH ≤ 2 ^ 31 ∧
    validate_virtual_address ⟨31, 4, 7, 8⟩ (2 ^ 31) = 1 ∧
    validate_virtual_address ⟨31, 4, 7, 8⟩ (2 ^ 32) = 1 ∧
    (VMread ⟨31, 4, 7, 8⟩ ( VMinitialize ⟨31, 4, 7, 8⟩ ⟨fun _ => 0, fun _ => none, []⟩) (2 ^ 31)
        99).1 = 1 ∧
    (VMwrite ⟨31, 4, 7, 8⟩ ( VMinitialize ⟨31, 4, 7, 8⟩ ⟨fun _ => 0, fun _ => none, []⟩) (2 ^ 31)
        1).1 = 1 :=
  by decide!

/-- C3 fails for `VIRTUAL_ADDRESS_WIDTH = 31`, by the `int` shift of line 268.  With 31
address bits, pages of 16 words, 7 levels and 8 frames, on the memory left by ` VMinitialize`,
`VMwrite(2^31, 1)` is not rejected: it returns 1, sets entry 8 of the root (physical word 8)
from 0 to 1, stores the word 1 at the physical address 112 and calls `PMrestore(7, 2^27)`; and
`VMread(2^31)` returns 1, calls `PMrestore(7, 2^27)` and replaces the 99 behind `value` by 0. -/
theorem rejection_missing_at_width_31 :
    2 ^ (⟨31, 4, 7, 8⟩ : Config).VIRTUAL_ADDRESS_WIDTH ≤ 2 ^ 31 ∧
    (VMwrite ⟨31, 4, 7, 8⟩ ( VMinitialize ⟨31, 4, 7, 8⟩ ⟨fun _ => 0, fun _ => none, []⟩) (2 ^ 31)
        1).1 = 1 ∧
    ( VMinitialize ⟨31, 4, 7, 8⟩ ⟨fun _ => 0, fun _ => none, []⟩).ram 8 = 0 ∧
    (VMwrite ⟨31, 4, 7, 8⟩ ( VMinitialize ⟨31, 4, 7, 8⟩ ⟨fun _ => 0, fun _ => none, []⟩) (2 ^ 31)
        1).2.ram 8 = 1 ∧
    (VMwrite ⟨31, 4, 7, 8⟩ ( VMinitialize ⟨31, 4, 7, 8⟩ ⟨fun _ => 0, fun _ => none, []⟩) (2 ^ 31)
        1).2.ram 112 = 1 ∧
    restore_calls (VMwrite_calls ⟨31, 4, 7, 8⟩ ( VMinitialize ⟨31, 4, 7, 8⟩
        ⟨fun _ => 0, fun _ => none, []⟩) (2 ^ 31) 1) = [PMcall.restore 7 (2 ^ 27)] ∧
    (VMread ⟨31, 4, 7, 8⟩ ( VMinitialize ⟨31, 4, 7, 8⟩ ⟨fun _ => 0, fun _ => none, []⟩) (2 ^ 31)
        99).1 = 1 ∧
    (VMread ⟨31, 4, 7, 8⟩ ( VMinitialize ⟨31, 4, 7, 8⟩ ⟨fun _ => 0, fun _ => none, []⟩) (2 ^ 31)
        99).2.1 = 0 ∧
    restore_calls (VMread_calls ⟨31, 4, 7, 8⟩ ( VMinitialize ⟨31, 4, 7, 8⟩
        ⟨fun _ => 0, fun _ => none, []⟩) (2 ^ 31) 99) = [PMcall.restore 7 (2 ^ 27)] :=
  by decide!

/-- C1 fails for `VIRTUAL_ADDRESS_WIDTH = 31`, by the `int` shift of line 268.  With 31
address bits, pages of 16 words, 7 levels and 8 frames (`NUM_FRAMES > TABLES_DEPTH`, parts of 4
bits), the call `VMwrite(2^31, 1)` after ` VMinitialize` is accepted and leaves a reachable
memory in which page `2^27 = NUM_PAGES` is resident.  In that memory `VMwrite(0, 5)` returns 1
and the `VMread(0)` that follows at once returns 1 with the word 6, not 5. -/
theorem round_trip_fails_at_width_31 :
    Reachable ⟨31, 4, 7, 8⟩ (VMwrite ⟨31, 4, 7, 8⟩ ( VMinitialize ⟨31, 4, 7, 8⟩
        ⟨fun _ => 0, fun _ => none, []⟩) (2 ^ 31) 1).2 ∧
    (⟨31, 4, 7, 8⟩ : Config).TABLES_DEPTH < (⟨31, 4, 7, 8⟩ : Config).NUM_FRAMES ∧
    ADDRESS_PART_SIZE ⟨31, 4, 7, 8⟩ ≤ (⟨31, 4, 7, 8⟩ : Config).OFFSET_WIDTH ∧
    (VMwrite ⟨31, 4, 7, 8⟩ ( VMinitialize ⟨31, 4, 7, 8⟩ ⟨fun _ => 0, fun _ => none, []⟩) (2 ^ 31)
        1).1 = 1 ∧
    0 < 2 ^ (⟨31, 4, 7, 8⟩ : Config).VIRTUAL_ADDRESS_WIDTH ∧
    (VMwrite ⟨31, 4, 7, 8⟩ (VMwrite ⟨31, 4, 7, 8⟩ ( VMinitialize ⟨31, 4, 7, 8⟩
        ⟨fun _ => 0, fun _ => none, []⟩) (2 ^ 31) 1).2 0 5).1 = 1 ∧
    (VMread ⟨31, 4, 7, 8⟩ (VMwrite ⟨31, 4, 7, 8⟩ (VMwrite ⟨31, 4, 7, 8⟩ ( VMinitialize
        ⟨31, 4, 7, 8⟩ ⟨fun _ => 0, fun _ => none, []⟩) (2 ^ 31) 1).2 0 5).2 0 0).1 = 1 ∧
    (VMread ⟨31, 4, 7, 8⟩ (VMwrite ⟨31, 4, 7, 8⟩ (VMwrite ⟨31, 4, 7, 8⟩ ( VMinitialize
        ⟨31, 4, 7, 8⟩ ⟨fun _ => 0, fun _ => none, []⟩) (2 ^ 31) 1).2 0 5).2 0 0).2.1 = 6 :=
  ⟨Reachable.write _ _ _ (Reachable.init _), by decide!⟩

/-- C4 fails for `VIRTUAL_ADDRESS_WIDTH = 31`, by the `int` shift of line 268.  With 31
address bits, pages of 16 words, 7 levels and 8 frames, in the reachable memory left by the
accepted `VMwrite(2^31, 1)`, `get_physical_address(0)` calls `find_frame` in iteration 0: no
empty table qualifies, all 8 frames are in use, and the one leaf holds page `2^27`, whose
distance to page 0 is 0, so `choose_frame_3` returns its initial record of zeros; `find_frame`
calls `PMwrite(0, 0)` and `PMevict(0, 0)` and returns frame 0, the root. -/
theorem allocator_returns_root_at_width_31 :
    Reachable ⟨31, 4, 7, 8⟩ (VMwrite ⟨31, 4, 7, 8⟩ ( VMinitialize ⟨31, 4, 7, 8⟩
        ⟨fun _ => 0, fun _ => none, []⟩) (2 ^ 31) 1).2 ∧
    (⟨31, 4, 7, 8⟩ : Config).TABLES_DEPTH < (⟨31, 4, 7, 8⟩ : Config).NUM_FRAMES ∧
    ADDRESS_PART_SIZE ⟨31, 4, 7, 8⟩ ≤ (⟨31, 4, 7, 8⟩ : Config).OFFSET_WIDTH ∧
    0 < 2 ^ (⟨31, 4, 7, 8⟩ : Config).VIRTUAL_ADDRESS_WIDTH ∧
    calls_find_frame ⟨31, 4, 7, 8⟩ (VMwrite ⟨31, 4, 7, 8⟩ ( VMinitialize ⟨31, 4, 7, 8⟩
        ⟨fun _ => 0, fun _ => none, []⟩) (2 ^ 31) 1).2 0 0 ∧
    choose_frame_3 ⟨31, 4, 7, 8⟩ (call_memory ⟨31, 4, 7, 8⟩ (VMwrite ⟨31, 4, 7, 8⟩ ( VMinitialize
        ⟨31, 4, 7, 8⟩ ⟨fun _ => 0, fun _ => none, []⟩) (2 ^ 31) 1).2 0 0).ram 0 0 0 0 0 =
        ⟨0, 0, 0, 0⟩ ∧
    (find_frame ⟨31, 4, 7, 8⟩ (call_memory ⟨31, 4, 7, 8⟩ (VMwrite ⟨31, 4, 7, 8⟩ ( VMinitialize
        ⟨31, 4, 7, 8⟩ ⟨fun _ => 0, fun _ => none, []⟩) (2 ^ 31) 1).2 0 0) 0).1 = 0 ∧
    find_frame_calls ⟨31, 4, 7, 8⟩ (call_memory ⟨31, 4, 7, 8⟩ (VMwrite ⟨31, 4, 7, 8⟩ ( VMinitialize
        ⟨31, 4, 7, 8⟩ ⟨fun _ => 0, fun _ => none, []⟩) (2 ^ 31) 1).2 0 0) 0 = [PMcall.write 0 0,
        PMcall.evict 0 0] :=
  ⟨Reachable.write _ _ _ (Reachable.init _), by decide!⟩

/-- C5 fails for `VIRTUAL_ADDRESS_WIDTH = 31`, by the `int` shift of line 268.  With 31
address bits, pages of 16 words, 7 levels and 8 frames, in the reachable memory left by the
accepted `VMwrite(2^31, 1)`, the call of `find_frame` in iteration 0 of
`get_physical_address(0)` returns the frame in which the walk so far ends, the root; and when
`find_frame` is called in iteration 1 of the same walk, the entry of the path at level 0 holds
0, so that the chain of the first part of the address ends nowhere. -/
theorem collision_with_path_at_width_31 :
    Reachable ⟨31, 4, 7, 8⟩ (VMwrite ⟨31, 4, 7, 8⟩ ( VMinitialize ⟨31, 4, 7, 8⟩
        ⟨fun _ => 0, fun _ => none, []⟩) (2 ^ 31) 1).2 ∧
    (⟨31, 4, 7, 8⟩ : Config).TABLES_DEPTH < (⟨31, 4, 7, 8⟩ : Config).NUM_FRAMES ∧
    ADDRESS_PART_SIZE ⟨31, 4, 7, 8⟩ ≤ (⟨31, 4, 7, 8⟩ : Config).OFFSET_WIDTH ∧
    0 < 2 ^ (⟨31, 4, 7, 8⟩ : Config).VIRTUAL_ADDRESS_WIDTH ∧
    calls_find_frame ⟨31, 4, 7, 8⟩ (VMwrite ⟨31, 4, 7, 8⟩ ( VMinitialize ⟨31, 4, 7, 8⟩
        ⟨fun _ => 0, fun _ => none, []⟩) (2 ^ 31) 1).2 0 0 ∧
    walk ⟨31, 4, 7, 8⟩ (call_memory ⟨31, 4, 7, 8⟩ (VMwrite ⟨31, 4, 7, 8⟩ ( VMinitialize
        ⟨31, 4, 7, 8⟩ ⟨fun _ => 0, fun _ => none, []⟩) (2 ^ 31) 1).2 0 0).ram ((address_parts
        ⟨31, 4, 7, 8⟩ 0).take 0) 0
      = some (find_frame ⟨31, 4, 7, 8⟩ (call_memory ⟨31, 4, 7, 8⟩ (VMwrite ⟨31, 4, 7, 8⟩
          ( VMinitialize ⟨31, 4, 7, 8⟩ ⟨fun _ => 0, fun _ => none, []⟩) (2 ^ 31) 1).2 0 0) 0).1 ∧
    calls_find_frame ⟨31, 4, 7, 8⟩ (VMwrite ⟨31, 4, 7, 8⟩ ( VMinitialize ⟨31, 4, 7, 8⟩
        ⟨fun _ => 0, fun _ => none, []⟩) (2 ^ 31) 1).2 0 1 ∧
    walk ⟨31, 4, 7, 8⟩ (call_memory ⟨31, 4, 7, 8⟩ (VMwrite ⟨31, 4, 7, 8⟩ ( VMinitialize
        ⟨31, 4, 7, 8⟩ ⟨fun _ => 0, fun _ => none, []⟩) (2 ^ 31) 1).2 0 1).ram ((address_parts
        ⟨31, 4, 7, 8⟩ 0).take 1) 0 = none :=
  ⟨Reachable.write _ _ _ (Reachable.init _), by decide!⟩

/-- C7 fails for `VIRTUAL_ADDRESS_WIDTH = 31`, by the `int` shift of line 268.  With 31
address bits, pages of 16 words, 7 levels and 8 frames, in the reachable memory left by the
accepted `VMwrite(2^31, 1)` the one leaf is frame 7, at the end of the chain 8, 0, 0, 0, 0, 0, 0,
with the page number `2^27 = NUM_PAGES`, at distance 0 from page 0.  The call of `find_frame`
in iteration 0 of `get_physical_address(0)` calls `PMevict(0, 0)`, while in the memory of that
call the walk along the parts of page 0 ends nowhere: page 0 is not mapped, and not to
frame 0. -/
theorem evicted_page_not_mapped_at_width_31 :
    Reachable ⟨31, 4, 7, 8⟩ (VMwrite ⟨31, 4, 7, 8⟩ ( VMinitialize ⟨31, 4, 7, 8⟩
        ⟨fun _ => 0, fun _ => none, []⟩) (2 ^ 31) 1).2 ∧
    (⟨31, 4, 7, 8⟩ : Config).TABLES_DEPTH < (⟨31, 4, 7, 8⟩ : Config).NUM_FRAMES ∧
    ADDRESS_PART_SIZE ⟨31, 4, 7, 8⟩ ≤ (⟨31, 4, 7, 8⟩ : Config).OFFSET_WIDTH ∧
    0 < 2 ^ (⟨31, 4, 7, 8⟩ : Config).VIRTUAL_ADDRESS_WIDTH ∧
    calls_find_frame ⟨31, 4, 7, 8⟩ (VMwrite ⟨31, 4, 7, 8⟩ ( VMinitialize ⟨31, 4, 7, 8⟩
        ⟨fun _ => 0, fun _ => none, []⟩) (2 ^ 31) 1).2 0 0 ∧
    walk ⟨31, 4, 7, 8⟩ (VMwrite ⟨31, 4, 7, 8⟩ ( VMinitialize ⟨31, 4, 7, 8⟩
        ⟨fun _ => 0, fun _ => none, []⟩) (2 ^ 31) 1).2.ram [8, 0, 0, 0, 0, 0, 0] 0 = some 7 ∧
    page_from ⟨31, 4, 7, 8⟩ 0 [8, 0, 0, 0, 0, 0, 0] = NUM_PAGES ⟨31, 4, 7, 8⟩ ∧
    distance_to_page_swapped_in ⟨31, 4, 7, 8⟩ 0 (NUM_PAGES ⟨31, 4, 7, 8⟩) = 0 ∧
    PMcall.evict 0 0 ∈ find_frame_calls ⟨31, 4, 7, 8⟩ (call_memory ⟨31, 4, 7, 8⟩ (VMwrite
        ⟨31, 4, 7, 8⟩ ( VMinitialize ⟨31, 4, 7, 8⟩ ⟨fun _ => 0, fun _ => none, []⟩) (2 ^ 31) 1).2 0
        0) 0 ∧
    walk ⟨31, 4, 7, 8⟩ (call_memory ⟨31, 4, 7, 8⟩ (VMwrite ⟨31, 4, 7, 8⟩ ( VMinitialize
        ⟨31, 4, 7, 8⟩ ⟨fun _ => 0, fun _ => none, []⟩) (2 ^ 31) 1).2 0 0).ram
      ((List.range (⟨31, 4, 7, 8⟩ : Config).TABLES_DEPTH).map (fun i => get_address_part
          ⟨31, 4, 7, 8⟩ i (0 <<< 4))) 0 = none :=
  ⟨Reachable.write _ _ _ (Reachable.init _), by decide!⟩

/-- C8 fails for `VIRTUAL_ADDRESS_WIDTH = 31`, by the `int` shift of line 268.  With 31
address bits, pages of 16 words, 7 levels and 8 frames, in the reachable memory left by the
accepted `VMwrite(2^31, 1)`: the first `VMread(0)` takes the root for the first level of its
walk and so leaves its leaf, frame 6, one level too high; the `VMread(0)` that follows finds
the entry 0 in that frame and is not silent: it calls `PMwrite(96, 7)` and `PMrestore(7, 0)`,
and the physical word 96 changes from 0 to 7. -/
theorem reread_not_silent_at_width_31 :
    Reachable ⟨31, 4, 7, 8⟩ (VMwrite ⟨31, 4, 7, 8⟩ ( VMinitialize ⟨31, 4, 7, 8⟩
        ⟨fun _ => 0, fun _ => none, []⟩) (2 ^ 31) 1).2 ∧
    (⟨31, 4, 7, 8⟩ : Config).TABLES_DEPTH < (⟨31, 4, 7, 8⟩ : Config).NUM_FRAMES ∧
    ADDRESS_PART_SIZE ⟨31, 4, 7, 8⟩ ≤ (⟨31, 4, 7, 8⟩ : Config).OFFSET_WIDTH ∧
    0 < 2 ^ (⟨31, 4, 7, 8⟩ : Config).VIRTUAL_ADDRESS_WIDTH ∧
    VMread_calls ⟨31, 4, 7, 8⟩ (VMread ⟨31, 4, 7, 8⟩ (VMwrite ⟨31, 4, 7, 8⟩ ( VMinitialize
        ⟨31, 4, 7, 8⟩ ⟨fun _ => 0, fun _ => none, []⟩) (2 ^ 31) 1).2 0 99).2.2 0 99
      = [PMcall.write 96 7, PMcall.restore 7 0] ∧
    (VMread ⟨31, 4, 7, 8⟩ (VMwrite ⟨31, 4, 7, 8⟩ ( VMinitialize ⟨31, 4, 7, 8⟩
        ⟨fun _ => 0, fun _ => none, []⟩) (2 ^ 31) 1).2 0 99).2.2.ram 96 = 0 ∧
    (VMread ⟨31, 4, 7, 8⟩ (VMread ⟨31, 4, 7, 8⟩ (VMwrite ⟨31, 4, 7, 8⟩ ( VMinitialize ⟨31, 4, 7, 8⟩
        ⟨fun _ => 0, fun _ => none, []⟩) (2 ^ 31) 1).2 0 99).2.2 0 99).2.2.ram 96 = 7 :=
  ⟨Reachable.write _ _ _ (Reachable.init _), by decide!⟩

/-- C13 fails for `VIRTUAL_ADDRESS_WIDTH = 31`, by the `int` shift of line 268.  With 31
address bits, pages of 16 words, 7 levels and 8 frames, in the reachable memory left by the
accepted `VMwrite(2^31, 1)`, page 0 is not resident and `get_physical_address(0)` calls
`PMrestore(6, 0)` and returns `96 = 6 * 16 + 0`; but in the resulting memory frame 6 is at the
end of the first 6 parts of the address only, and the walk along all 7 parts ends nowhere, so
frame 6 is not the leaf of the address. -/
theorem walker_leaf_off_path_at_width_31 :
    Reachable ⟨31, 4, 7, 8⟩ (VMwrite ⟨31, 4, 7, 8⟩ ( VMinitialize ⟨31, 4, 7, 8⟩
        ⟨fun _ => 0, fun _ => none, []⟩) (2 ^ 31) 1).2 ∧
    (⟨31, 4, 7, 8⟩ : Config).TABLES_DEPTH < (⟨31, 4, 7, 8⟩ : Config).NUM_FRAMES ∧
    ADDRESS_PART_SIZE ⟨31, 4, 7, 8⟩ ≤ (⟨31, 4, 7, 8⟩ : Config).OFFSET_WIDTH ∧
    0 < 2 ^ (⟨31, 4, 7, 8⟩ : Config).VIRTUAL_ADDRESS_WIDTH ∧
    walk_address ⟨31, 4, 7, 8⟩ (VMwrite ⟨31, 4, 7, 8⟩ ( VMinitialize ⟨31, 4, 7, 8⟩
        ⟨fun _ => 0, fun _ => none, []⟩) (2 ^ 31) 1).2.ram 0 = none ∧
    restore_calls (get_physical_address_calls ⟨31, 4, 7, 8⟩ (VMwrite ⟨31, 4, 7, 8⟩ ( VMinitialize
        ⟨31, 4, 7, 8⟩ ⟨fun _ => 0, fun _ => none, []⟩) (2 ^ 31) 1).2 0) = [PMcall.restore 6 0] ∧
    (get_physical_address ⟨31, 4, 7, 8⟩ (VMwrite ⟨31, 4, 7, 8⟩ ( VMinitialize ⟨31, 4, 7, 8⟩
        ⟨fun _ => 0, fun _ => none, []⟩) (2 ^ 31) 1).2 0).1 = 96 ∧
    walk ⟨31, 4, 7, 8⟩ (get_physical_address ⟨31, 4, 7, 8⟩ (VMwrite ⟨31, 4, 7, 8⟩ ( VMinitialize
        ⟨31, 4, 7, 8⟩ ⟨fun _ => 0, fun _ => none, []⟩) (2 ^ 31) 1).2 0).2.ram ((address_parts
        ⟨31, 4, 7, 8⟩ 0).take 6) 0 = some 6 ∧
    walk_address ⟨31, 4, 7, 8⟩ (get_physical_address ⟨31, 4, 7, 8⟩ (VMwrite ⟨31, 4, 7, 8⟩
        ( VMinitialize ⟨31, 4, 7, 8⟩ ⟨fun _ => 0, fun _ => none, []⟩) (2 ^ 31) 1).2 0).2.ram 0 =
        none :=
  ⟨Reachable.write _ _ _ (Reachable.init _), by decide!⟩

/-- C16 fails for `VIRTUAL_ADDRESS_WIDTH = 31`, by the `int` shift of line 268.  With 31
address bits, pages of 16 words, 7 levels and 8 frames, the accepted `VMwrite(2^31, 1)` after
` VMinitialize` has `find_frame` return the frames 1 to 7.  In the memory it leaves,
iteration 0 of `get_physical_address(0)` gets the root from `find_frame` and clears it, and in
iteration 1 `find_frame` returns `choose_frame_2(0, 0) + 1 = 1`, a frame that it has returned
before.  And in the reachable memory left by `VMwrite(2^31, 1)` and `VMwrite(0, 9)`,
`choose_frame_2(0, 0)` is 9 while frame 7 is not in the tree: the frames of the tree are not
the numbers 0 to 9. -/
theorem second_priority_reuses_frame_at_width_31 :
    History ⟨31, 4, 7, 8⟩ (VMwrite ⟨31, 4, 7, 8⟩ ( VMinitialize ⟨31, 4, 7, 8⟩
        ⟨fun _ => 0, fun _ => none, []⟩) (2 ^ 31) 1).2 ([] ++ access_returned ⟨31, 4, 7, 8⟩
        ( VMinitialize ⟨31, 4, 7, 8⟩ ⟨fun _ => 0, fun _ => none, []⟩) (2 ^ 31)) ∧
    Reachable ⟨31, 4, 7, 8⟩ (VMwrite ⟨31, 4, 7, 8⟩ (VMwrite ⟨31, 4, 7, 8⟩ ( VMinitialize
        ⟨31, 4, 7, 8⟩ ⟨fun _ => 0, fun _ => none, []⟩) (2 ^ 31) 1).2 0 9).2 ∧
    (choose_frame_2 ⟨31, 4, 7, 8⟩ (VMwrite ⟨31, 4, 7, 8⟩ (VMwrite ⟨31, 4, 7, 8⟩ ( VMinitialize
        ⟨31, 4, 7, 8⟩ ⟨fun _ => 0, fun _ => none, []⟩) (2 ^ 31) 1).2 0 9).2.ram 0 0 = 9 ∧
      ¬ InTree ⟨31, 4, 7, 8⟩ (VMwrite ⟨31, 4, 7, 8⟩ (VMwrite ⟨31, 4, 7, 8⟩ ( VMinitialize
          ⟨31, 4, 7, 8⟩ ⟨fun _ => 0, fun _ => none, []⟩) (2 ^ 31) 1).2 0 9).2.ram 7) ∧
    (⟨31, 4, 7, 8⟩ : Config).TABLES_DEPTH < (⟨31, 4, 7, 8⟩ : Config).NUM_FRAMES ∧
    ADDRESS_PART_SIZE ⟨31, 4, 7, 8⟩ ≤ (⟨31, 4, 7, 8⟩ : Config).OFFSET_WIDTH ∧
    [] ++ access_returned ⟨31, 4, 7, 8⟩ ( VMinitialize ⟨31, 4, 7, 8⟩
        ⟨fun _ => 0, fun _ => none, []⟩) (2 ^ 31) = [1, 2, 3, 4, 5, 6, 7] ∧
    0 < 2 ^ (⟨31, 4, 7, 8⟩ : Config).VIRTUAL_ADDRESS_WIDTH ∧
    calls_find_frame ⟨31, 4, 7, 8⟩ (VMwrite ⟨31, 4, 7, 8⟩ ( VMinitialize ⟨31, 4, 7, 8⟩
        ⟨fun _ => 0, fun _ => none, []⟩) (2 ^ 31) 1).2 0 1 ∧
    choose_frame_2 ⟨31, 4, 7, 8⟩ (call_memory ⟨31, 4, 7, 8⟩ (VMwrite ⟨31, 4, 7, 8⟩ ( VMinitialize
        ⟨31, 4, 7, 8⟩ ⟨fun _ => 0, fun _ => none, []⟩) (2 ^ 31) 1).2 0 1).ram 0 0 = 0 ∧
    (find_frame ⟨31, 4, 7, 8⟩ (call_memory ⟨31, 4, 7, 8⟩ (VMwrite ⟨31, 4, 7, 8⟩ ( VMinitialize
        ⟨31, 4, 7, 8⟩ ⟨fun _ => 0, fun _ => none, []⟩) (2 ^ 31) 1).2 0 1) 0).1 = 1 ∧
    (find_frame ⟨31, 4, 7, 8⟩ (call_memory ⟨31, 4, 7, 8⟩ (VMwrite ⟨31, 4, 7, 8⟩ ( VMinitialize
        ⟨31, 4, 7, 8⟩ ⟨fun _ => 0, fun _ => none, []⟩) (2 ^ 31) 1).2 0 1) 0).1 ∈ [] ++
        access_returned ⟨31, 4, 7, 8⟩ ( VMinitialize ⟨31, 4, 7, 8⟩ ⟨fun _ => 0, fun _ => none, []⟩)
        (2 ^ 31) :=
  ⟨History.write _ _ _ _ (History.init _),
    Reachable.write _ _ _ (Reachable.write _ _ _ (Reachable.init _)),
    not_inTree_of_no_word _ _ 7 9 (by decide!), by decide!⟩

/-- C18 fails for `VIRTUAL_ADDRESS_WIDTH = 31`, by the `int` shift of line 268.  With 31
address bits, pages of 16 words, 7 levels and 8 frames, after ` VMinitialize` and the calls
`VMwrite(2^31, 1)`, which is accepted, and `VMwrite(0, 5)`, the last word written to the
address 0 is 5, and a `VMread(0)` at the end returns 1 with the word 6. -/
theorem persistence_fails_at_width_31 :
    (⟨31, 4, 7, 8⟩ : Config).TABLES_DEPTH < (⟨31, 4, 7, 8⟩ : Config).NUM_FRAMES ∧
    ADDRESS_PART_SIZE ⟨31, 4, 7, 8⟩ ≤ (⟨31, 4, 7, 8⟩ : Config).OFFSET_WIDTH ∧
    0 < 2 ^ (⟨31, 4, 7, 8⟩ : Config).VIRTUAL_ADDRESS_WIDTH ∧
    last_write 0 [Op.write (2 ^ 31) 1, Op.write 0 5] = some 5 ∧
    (VMread ⟨31, 4, 7, 8⟩ (run ⟨31, 4, 7, 8⟩ ( VMinitialize ⟨31, 4, 7, 8⟩
        ⟨fun _ => 0, fun _ => none, []⟩) [Op.write (2 ^ 31) 1, Op.write 0 5]) 0 0).1 = 1 ∧
    (VMread ⟨31, 4, 7, 8⟩ (run ⟨31, 4, 7, 8⟩ ( VMinitialize ⟨31, 4, 7, 8⟩
        ⟨fun _ => 0, fun _ => none, []⟩) [Op.write (2 ^ 31) 1, Op.write 0 5]) 0 0).2.1 = 6 :=
  by decide!

/-- C19 fails for `VIRTUAL_ADDRESS_WIDTH = 31`, by the `int` shift of line 268.  With 31
address bits, pages of 16 words, 7 levels and 8 frames, in the reachable memory left by the
accepted `VMwrite(2^31, 1)` and `VMwrite(0, 5)`, frame 5 is at the end of the chain of five
entries 0, where it is a table, and at the end of the chain of seven entries 0, where it is a
leaf: the entries do not form a tree. -/
theorem tree_shape_breaks_at_width_31 :
    Reachable ⟨31, 4, 7, 8⟩ (VMwrite ⟨31, 4, 7, 8⟩ (VMwrite ⟨31, 4, 7, 8⟩ ( VMinitialize
        ⟨31, 4, 7, 8⟩ ⟨fun _ => 0, fun _ => none, []⟩) (2 ^ 31) 1).2 0 5).2 ∧
    (⟨31, 4, 7, 8⟩ : Config).TABLES_DEPTH < (⟨31, 4, 7, 8⟩ : Config).NUM_FRAMES ∧
    ADDRESS_PART_SIZE ⟨31, 4, 7, 8⟩ ≤ (⟨31, 4, 7, 8⟩ : Config).OFFSET_WIDTH ∧
    walk ⟨31, 4, 7, 8⟩ (VMwrite ⟨31, 4, 7, 8⟩ (VMwrite ⟨31, 4, 7, 8⟩ ( VMinitialize ⟨31, 4, 7, 8⟩
        ⟨fun _ => 0, fun _ => none, []⟩) (2 ^ 31) 1).2 0 5).2.ram [0, 0, 0, 0, 0] 0 = some 5 ∧
    walk ⟨31, 4, 7, 8⟩ (VMwrite ⟨31, 4, 7, 8⟩ (VMwrite ⟨31, 4, 7, 8⟩ ( VMinitialize ⟨31, 4, 7, 8⟩
        ⟨fun _ => 0, fun _ => none, []⟩) (2 ^ 31) 1).2 0 5).2.ram [0, 0, 0, 0, 0, 0, 0] 0 = some 5 ∧
    ¬ IsTree ⟨31, 4, 7, 8⟩ (VMwrite ⟨31, 4, 7, 8⟩ (VMwrite ⟨31, 4, 7, 8⟩ ( VMinitialize
        ⟨31, 4, 7, 8⟩ ⟨fun _ => 0, fun _ => none, []⟩) (2 ^ 31) 1).2 0 5).2.ram :=
  ⟨Reachable.write _ _ _ (Reachable.write _ _ _ (Reachable.init _)), by decide!, by decide!,
    not_isTree_of_table_leaf _ _ [0, 0, 0, 0, 0] [0, 0, 0, 0, 0, 0, 0] 5 (by decide!)⟩

/-- C20 fails for `VIRTUAL_ADDRESS_WIDTH = 31`, by the `int` shift of line 268.  With 31
address bits, pages of 16 words, 7 levels and 8 frames (a physical memory of 128 words), in the
reachable memory left by the accepted `VMwrite(2^31, 1)` and `VMwrite(0, 9)`, the chain of
seven entries 0 ends in frame 9, which is not below `NUM_FRAMES`; `get_physical_address(0)`
returns the address 144 and `VMread(0)` passes it to `PMread`, past the end of the memory. -/
theorem access_out_of_bounds_at_width_31 :
    Reachable ⟨31, 4, 7, 8⟩ (VMwrite ⟨31, 4, 7, 8⟩ (VMwrite ⟨31, 4, 7, 8⟩ ( VMinitialize
        ⟨31, 4, 7, 8⟩ ⟨fun _ => 0, fun _ => none, []⟩) (2 ^ 31) 1).2 0 9).2 ∧
    (⟨31, 4, 7, 8⟩ : Config).TABLES_DEPTH < (⟨31, 4, 7, 8⟩ : Config).NUM_FRAMES ∧
    ADDRESS_PART_SIZE ⟨31, 4, 7, 8⟩ ≤ (⟨31, 4, 7, 8⟩ : Config).OFFSET_WIDTH ∧
    0 < 2 ^ (⟨31, 4, 7, 8⟩ : Config).VIRTUAL_ADDRESS_WIDTH ∧
    walk ⟨31, 4, 7, 8⟩ (VMwrite ⟨31, 4, 7, 8⟩ (VMwrite ⟨31, 4, 7, 8⟩ ( VMinitialize ⟨31, 4, 7, 8⟩
        ⟨fun _ => 0, fun _ => none, []⟩) (2 ^ 31) 1).2 0 9).2.ram [0, 0, 0, 0, 0, 0, 0] 0 = some 9 ∧
    ¬ 9 < (⟨31, 4, 7, 8⟩ : Config).NUM_FRAMES ∧
    (get_physical_address ⟨31, 4, 7, 8⟩ (VMwrite ⟨31, 4, 7, 8⟩ (VMwrite ⟨31, 4, 7, 8⟩
        ( VMinitialize ⟨31, 4, 7, 8⟩ ⟨fun _ => 0, fun _ => none, []⟩) (2 ^ 31) 1).2 0 9).2 0).1 =
        144 ∧
    144 ∈ VMread_reads ⟨31, 4, 7, 8⟩ (VMwrite ⟨31, 4, 7, 8⟩ (VMwrite ⟨31, 4, 7, 8⟩ ( VMinitialize
        ⟨31, 4, 7, 8⟩ ⟨fun _ => 0, fun _ => none, []⟩) (2 ^ 31) 1).2 0 9).2 0 ∧
    ¬ 144 < (⟨31, 4, 7, 8⟩ : Config).NUM_FRAMES * PAGE_SIZE ⟨31, 4, 7, 8⟩ :=
  ⟨Reachable.write _ _ _ (Reachable.write _ _ _ (Reachable.init _)), by decide!⟩

end VM
